import Mathlib

/-!
# Scheduling simulators with memory swapping: a verification development

The repository holds four C programs (`fcfs.c`, `sjf.c`, `PS.c`, `RR.c`), each simulating one
dispatch policy on a single CPU with a bounded memory pool.  This file embeds the four
simulation functions (`calculate_fcfs`, `calculate_sjf`, `calculate_priority`, `calculate_rr`)
as Lean functions and proves properties of them.

Modelling conventions.

* A C `int` is a Lean `Int` kept in the 32-bit range by `wrap`: every addition and subtraction
  that the C code performs on the clock, on the free memory, on the metrics and on the counters
  of type `int` is written `wrap (a + b)`, `wrap (a - b)`, the two's-complement result.  (Signed
  overflow is undefined behaviour in C; `wrap` is what the usual compilers produce.)  For every
  function there is a list `...Ops` of the mathematical results of its operations; a run has
  no overflow when all of them are `int` values (`InInt`), and the theorems that depend on the
  arithmetic assume this of the run they speak about.
* Loop counters and array indices that the code only ever increments from `0` up to the number
  of processes or the number of queue entries are `Nat`.
* The process array `Process proc[]` together with its length `n` is a `List Process`
  (`n = proc.length`); `proc[i]` is `procAt proc i` and an assignment to `proc[i]` is `List.set`.
* The four programs declare four `Process` structs that differ in a few fields.  The record
  `Process` below carries the union of their integer fields; each simulation reads and writes only
  the fields its own struct has.  The text fields `name` and `type` are only printed and are left
  out.
* `printf` calls are left out; they do not change the state.
* The local arrays of `calculate_rr` have fixed sizes, `queue[100]` and
  `visited[MAX_PROCESSES]`.  The list `queue` of the model holds the entries written so far;
  the loop of the model gives no result (`none`) as soon as an iteration has written past
  `queue[99]`, and `calculate_rr` gives no result when `n > MAX_PROCESSES`, where the C code
  overruns its arrays.
* The namespace `Exact` holds the same simulations over the mathematical integers, without
  `wrap` and without the array bounds.  It is a proof device: the loop invariants are
  established there, and the agreement lemmas (`..._exact`) carry them over to the runs of the
  C functions that have no overflow.  Every theorem about the C programs is stated on the
  definitions outside `Exact`.
-/

namespace Scheduling

/-! ## Constants, machine integers and the process record -/

/-- `#define SWAP_TIME 2` (all four programs). -/
def SWAP_TIME : Int := 2

/-- `#define MAX_PROCESSES 10` (all four programs). -/
def MAX_PROCESSES : Nat := 10

/-- The size of the array `queue[100]` of `calculate_rr` (RR.c line 68). -/
def QUEUE_SIZE : Nat := 100

/-- `INT_MAX` of `<limits.h>` for a 32-bit `int` (used by `sjf.c` and `PS.c`). -/
def INT_MAX : Int := 2147483647

/-- `INT_MIN` of `<limits.h>` for a 32-bit `int`. -/
def INT_MIN : Int := -2147483648

/-- The integer `x` is a value of the type `int`. -/
def InInt (x : Int) : Prop :=
  INT_MIN ≤ x ∧ x ≤ INT_MAX

instance : DecidablePred InInt := fun x => by unfold InInt; infer_instance

/-- The `int` that holds the result of an operation whose mathematical value is `x`: the
two's-complement representative of `x` modulo `2^32`. -/
def wrap (x : Int) : Int :=
  (x + 2147483648) % 4294967296 - 2147483648

/-- The `Process` struct.  `priority` exists only in `PS.c`; `remaining_time` and
`first_execution` only in `RR.c`; `swap_out_time` and `swap_in_time` only in `fcfs.c`;
`is_completed` only in `sjf.c` and `PS.c`. -/
structure Process where
  pid : Int
  arrival_time : Int
  burst_time : Int
  priority : Int
  remaining_time : Int
  completion_time : Int
  turnaround_time : Int
  waiting_time : Int
  response_time : Int
  start_time : Int
  memory_required : Int
  is_swapped : Int
  swap_out_time : Int
  swap_in_time : Int
  total_swap_time : Int
  is_completed : Int
  first_execution : Int
deriving DecidableEq, Inhabited

/-- The array read `proc[i]`. -/
def procAt (proc : List Process) (i : Nat) : Process :=
  (proc[i]?).getD default

/-! ## `fcfs.c` -/

namespace FCFS

/-- Body of the inner sorting loop (fcfs.c lines 132-136): exchange `proc[j]` and `proc[j+1]`
when they are out of order. -/
def swapStep (proc : List Process) (j : Nat) : List Process :=
  if (procAt proc j).arrival_time > (procAt proc (j + 1)).arrival_time then
    let temp := procAt proc j
    (proc.set j (procAt proc (j + 1))).set (j + 1) temp
  else proc

/-- The inner loop `for (j = 0; j < n - i - 1; j++)` (fcfs.c lines 131-137). -/
def innerPass (proc : List Process) (i : Nat) : List Process :=
  (List.range (proc.length - i - 1)).foldl swapStep proc

/-- The sort at the start of `calculate_fcfs`: `for (i = 0; i < n - 1; i++)`
(fcfs.c lines 130-138). -/
def sortByArrival (proc : List Process) : List Process :=
  (List.range (proc.length - 1)).foldl innerPass proc

/-- Local variables of `calculate_fcfs` together with the process array. -/
structure State where
  proc : List Process
  current_time : Int
  available_memory : Int
  total_swap_operations : Int
deriving DecidableEq

/-- The idle jump: fcfs.c lines 146-148. -/
def idleJump (s : State) (i : Nat) : State :=
  if s.current_time < (procAt s.proc i).arrival_time then
    { s with current_time := (procAt s.proc i).arrival_time }
  else s

/-- Swap out `proc[j]`: fcfs.c lines 159-164 (the local `memory_freed` is only accumulated,
never read, and is left out). -/
def swapOut (s : State) (j : Nat) : State :=
  let pj := procAt s.proc j
  { proc := s.proc.set j { pj with is_swapped := 1, swap_out_time := s.current_time }
    current_time := wrap (s.current_time + SWAP_TIME)
    available_memory := wrap (s.available_memory + pj.memory_required)
    total_swap_operations := wrap (s.total_swap_operations + 1) }

/-- The mathematical results of the `int` operations of `swapOut s j`. -/
def swapOutOps (s : State) (j : Nat) : List Int :=
  [s.available_memory + (procAt s.proc j).memory_required, s.current_time + SWAP_TIME,
    s.total_swap_operations + 1]

/-- The eviction scan `for (j = 0; j < i; j++)` with its `break` (fcfs.c lines 157-173), run over
the remaining indices `js`. -/
def swapOutScan (i : Nat) : List Nat → State → State
  | [], s => s
  | j :: js, s =>
    if (procAt s.proc j).completion_time > 0 ∧ (procAt s.proc j).completion_time ≤ s.current_time
        ∧ (procAt s.proc j).is_swapped = 0 then
      if (swapOut s j).available_memory ≥ (procAt (swapOut s j).proc i).memory_required then
        swapOut s j
      else swapOutScan i js (swapOut s j)
    else swapOutScan i js s

/-- The mathematical results of the `int` operations of `swapOutScan i js s`: those of every
swap-out the scan performs. -/
def swapOutScanOps (i : Nat) : List Nat → State → List Int
  | [], _ => []
  | j :: js, s =>
    if (procAt s.proc j).completion_time > 0 ∧ (procAt s.proc j).completion_time ≤ s.current_time
        ∧ (procAt s.proc j).is_swapped = 0 then
      if (swapOut s j).available_memory ≥ (procAt (swapOut s j).proc i).memory_required then
        swapOutOps s j
      else swapOutOps s j ++ swapOutScanOps i js (swapOut s j)
    else swapOutScanOps i js s

/-- The memory check of fcfs.c lines 151-178. -/
def makeRoom (s : State) (i : Nat) : State :=
  if (procAt s.proc i).memory_required > s.available_memory then
    swapOutScan i (List.range i) s
  else s

/-- The mathematical results of the `int` operations of `makeRoom s i`. -/
def makeRoomOps (s : State) (i : Nat) : List Int :=
  if (procAt s.proc i).memory_required > s.available_memory then
    swapOutScanOps i (List.range i) s
  else []

/-- Swap in `proc[i]` and record its start: fcfs.c lines 181-191. -/
def swapIn (s : State) (i : Nat) : State :=
  let t := wrap (s.current_time + SWAP_TIME)
  let p := procAt s.proc i
  let p := { p with swap_in_time := t, total_swap_time := SWAP_TIME }
  let p := { p with start_time := t }
  let p := { p with response_time := wrap (p.start_time - p.arrival_time) }
  { proc := s.proc.set i p
    current_time := t
    available_memory := wrap (s.available_memory - p.memory_required)
    total_swap_operations := wrap (s.total_swap_operations + 1) }

/-- The mathematical results of the `int` operations of `swapIn s i`. -/
def swapInOps (s : State) (i : Nat) : List Int :=
  [s.current_time + SWAP_TIME, s.available_memory - (procAt s.proc i).memory_required,
    s.total_swap_operations + 1,
    wrap (s.current_time + SWAP_TIME) - (procAt s.proc i).arrival_time]

/-- Run `proc[i]` to completion: fcfs.c lines 196-199. -/
def execute (s : State) (i : Nat) : State :=
  let p := procAt s.proc i
  let t := wrap (s.current_time + p.burst_time)
  let p := { p with completion_time := t }
  let p := { p with turnaround_time := wrap (p.completion_time - p.arrival_time) }
  let p := { p with waiting_time := wrap (p.turnaround_time - p.burst_time) }
  { s with proc := s.proc.set i p, current_time := t }

/-- The mathematical results of the `int` operations of `execute s i`. -/
def executeOps (s : State) (i : Nat) : List Int :=
  [s.current_time + (procAt s.proc i).burst_time,
    wrap (s.current_time + (procAt s.proc i).burst_time) - (procAt s.proc i).arrival_time,
    wrap (wrap (s.current_time + (procAt s.proc i).burst_time) - (procAt s.proc i).arrival_time)
      - (procAt s.proc i).burst_time]

/-- Body of the main loop `for (i = 0; i < n; i++)` (fcfs.c lines 144-202). -/
def body (s : State) (i : Nat) : State :=
  execute (swapIn (makeRoom (idleJump s i) i) i) i

/-- The mathematical results of the `int` operations of iteration `i` from state `s`. -/
def bodyOps (s : State) (i : Nat) : List Int :=
  makeRoomOps (idleJump s i) i ++ swapInOps (makeRoom (idleJump s i) i) i
    ++ executeOps (swapIn (makeRoom (idleJump s i) i) i) i

/-- State on entry to the main loop: the locals initialised (lines 125-127) and the array sorted. -/
def init (proc : List Process) (total_memory : Int) : State :=
  { proc := sortByArrival proc
    current_time := 0
    available_memory := total_memory
    total_swap_operations := 0 }

/-- State at the boundary before iteration `k` of the main loop (after `k` iterations). -/
def stateAt (proc : List Process) (total_memory : Int) (k : Nat) : State :=
  (List.range k).foldl body (init proc total_memory)

/-- The function `calculate_fcfs(proc, n, total_memory)` with `n = proc.length`: the final state. -/
def calculate_fcfs (proc : List Process) (total_memory : Int) : State :=
  stateAt proc total_memory proc.length

/-- The run of `calculate_fcfs` has no `int` overflow: the result of every operation of every
iteration is an `int` value. -/
def NoOverflow (proc : List Process) (total_memory : Int) : Prop :=
  ∀ k, k < proc.length → ∀ x ∈ bodyOps (stateAt proc total_memory k) k, InInt x

instance (proc : List Process) (total_memory : Int) : Decidable (NoOverflow proc total_memory) := by
  unfold NoOverflow; infer_instance

end FCFS

/-! ## `sjf.c` and `PS.c`

The two programs share the main loop: `while (completed < n)`, a selection scan, an idle tick when
the scan finds nothing, and otherwise the dispatch code, which is the same text in both files
(sjf.c lines 97-136, PS.c lines 103-140).  The loop is embedded once, with the selection scan as a
parameter; `SJF.select` and `PS.select` are the two scans. -/

/-- The array read `proc[idx]` for an `int idx`.  A read at a negative index is outside the
array; it yields the unspecified record `oob`. -/
def procAtInt (oob : Process) (proc : List Process) (idx : Int) : Process :=
  if 0 ≤ idx then procAt proc idx.toNat else oob

namespace NP

/-- Local variables of `calculate_sjf` / `calculate_priority` together with the process array.
`execution_order` is the output array of `calculate_sjf` (with `order_count` its length);
`PS.c` has no such array and only prints the dispatched process. -/
structure State where
  proc : List Process
  current_time : Int
  available_memory : Int
  completed : Nat
  execution_order : List Nat
deriving DecidableEq

/-- Swap out `proc[j]`: sjf.c lines 103-105, PS.c lines 109-111. -/
def swapOut (s : State) (j : Nat) : State :=
  let pj := procAt s.proc j
  { s with
    proc := s.proc.set j { pj with is_swapped := 1 }
    available_memory := wrap (s.available_memory + pj.memory_required)
    current_time := wrap (s.current_time + SWAP_TIME) }

/-- The mathematical results of the `int` operations of `swapOut s j`. -/
def swapOutOps (s : State) (j : Nat) : List Int :=
  [s.available_memory + (procAt s.proc j).memory_required, s.current_time + SWAP_TIME]

/-- The eviction scan `for (j = 0; j < n; j++)` with its `break` (sjf.c lines 101-111,
PS.c lines 107-117), run over the remaining indices `js`. -/
def swapOutScan (idx : Nat) : List Nat → State → State
  | [], s => s
  | j :: js, s =>
    if (procAt s.proc j).is_completed ≠ 0 ∧ (procAt s.proc j).is_swapped = 0 then
      if (swapOut s j).available_memory ≥ (procAt (swapOut s j).proc idx).memory_required then
        swapOut s j
      else swapOutScan idx js (swapOut s j)
    else swapOutScan idx js s

/-- The mathematical results of the `int` operations of `swapOutScan idx js s`: those of every
swap-out the scan performs. -/
def swapOutScanOps (idx : Nat) : List Nat → State → List Int
  | [], _ => []
  | j :: js, s =>
    if (procAt s.proc j).is_completed ≠ 0 ∧ (procAt s.proc j).is_swapped = 0 then
      if (swapOut s j).available_memory ≥ (procAt (swapOut s j).proc idx).memory_required then
        swapOutOps s j
      else swapOutOps s j ++ swapOutScanOps idx js (swapOut s j)
    else swapOutScanOps idx js s

/-- The memory check: sjf.c lines 97-112, PS.c lines 103-118. -/
def makeRoom (s : State) (idx : Nat) : State :=
  if (procAt s.proc idx).memory_required > s.available_memory then
    swapOutScan idx (List.range s.proc.length) s
  else s

/-- The mathematical results of the `int` operations of `makeRoom s idx`. -/
def makeRoomOps (s : State) (idx : Nat) : List Int :=
  if (procAt s.proc idx).memory_required > s.available_memory then
    swapOutScanOps idx (List.range s.proc.length) s
  else []

/-- Swap in `proc[idx]` and record its start: sjf.c lines 114-122, PS.c lines 120-128. -/
def swapIn (s : State) (idx : Nat) : State :=
  let t := wrap (s.current_time + SWAP_TIME)
  let p := procAt s.proc idx
  let p := { p with total_swap_time := SWAP_TIME }
  let p := { p with start_time := t }
  let p := { p with response_time := wrap (p.start_time - p.arrival_time) }
  { s with
    proc := s.proc.set idx p
    current_time := t
    available_memory := wrap (s.available_memory - p.memory_required) }

/-- The mathematical results of the `int` operations of `swapIn s idx`. -/
def swapInOps (s : State) (idx : Nat) : List Int :=
  [s.current_time + SWAP_TIME, s.available_memory - (procAt s.proc idx).memory_required,
    wrap (s.current_time + SWAP_TIME) - (procAt s.proc idx).arrival_time]

/-- Run `proc[idx]` to completion: sjf.c lines 127-136, PS.c lines 133-140. -/
def execute (s : State) (idx : Nat) : State :=
  let p := procAt s.proc idx
  let t := wrap (s.current_time + p.burst_time)
  let p := { p with completion_time := t }
  let p := { p with turnaround_time := wrap (p.completion_time - p.arrival_time) }
  let p := { p with waiting_time := wrap (p.turnaround_time - p.burst_time) }
  let p := { p with is_completed := 1 }
  { s with
    proc := s.proc.set idx p
    current_time := t
    execution_order := s.execution_order ++ [idx]
    completed := s.completed + 1 }

/-- The mathematical results of the `int` operations of `execute s idx`. -/
def executeOps (s : State) (idx : Nat) : List Int :=
  [s.current_time + (procAt s.proc idx).burst_time,
    wrap (s.current_time + (procAt s.proc idx).burst_time) - (procAt s.proc idx).arrival_time,
    wrap (wrap (s.current_time + (procAt s.proc idx).burst_time)
        - (procAt s.proc idx).arrival_time)
      - (procAt s.proc idx).burst_time]

/-- The dispatch of `proc[idx]`: everything after the `if (idx == -1)` test. -/
def dispatch (s : State) (idx : Nat) : State :=
  execute (swapIn (makeRoom s idx) idx) idx

/-- The mathematical results of the `int` operations of `dispatch s idx`. -/
def dispatchOps (s : State) (idx : Nat) : List Int :=
  makeRoomOps s idx ++ swapInOps (makeRoom s idx) idx
    ++ executeOps (swapIn (makeRoom s idx) idx) idx

/-- One iteration of `while (completed < n)`: the selection scan `select`, then either the idle
tick (sjf.c lines 91-94, PS.c lines 97-100) or the dispatch. -/
def step (select : List Process → Int → Int) (s : State) : State :=
  if select s.proc s.current_time = -1 then
    { s with current_time := wrap (s.current_time + 1) }
  else dispatch s (select s.proc s.current_time).toNat

/-- The mathematical results of the `int` operations of `step select s`. -/
def stepOps (select : List Process → Int → Int) (s : State) : List Int :=
  if select s.proc s.current_time = -1 then [s.current_time + 1]
  else dispatchOps s (select s.proc s.current_time).toNat

/-- State on entry to the loop (sjf.c lines 64-67, PS.c lines 66-68). -/
def init (proc : List Process) (total_memory : Int) : State :=
  { proc := proc
    current_time := 0
    available_memory := total_memory
    completed := 0
    execution_order := [] }

/-- The loop `while (completed < n)`, run for at most `fuel` iterations: `none` when the loop
has not exited by then. -/
def loop (select : List Process → Int → Int) : Nat → State → Option State
  | 0, s => if s.completed < s.proc.length then none else some s
  | fuel + 1, s =>
    if s.completed < s.proc.length then loop select fuel (step select s) else some s

/-- The mathematical results of the `int` operations of the first `fuel` iterations of the loop
from state `s`. -/
def runOps (select : List Process → Int → Int) : Nat → State → List Int
  | 0, _ => []
  | fuel + 1, s =>
    if s.completed < s.proc.length then stepOps select s ++ runOps select fuel (step select s)
    else []

/-- The states at the iteration boundaries of `while (completed < n)` started from `s0`. -/
inductive Reach (select : List Process → Int → Int) (s0 : State) : State → Prop
  | init : Reach select s0 s0
  | step {s : State} : Reach select s0 s → s.completed < s.proc.length →
      Reach select s0 (step select s)

/-- The run of the loop on `proc` has no `int` overflow: the result of every operation of every
iteration the loop executes is an `int` value. -/
def NoOverflow (select : List Process → Int → Int) (proc : List Process) (total_memory : Int) :
    Prop :=
  ∀ s, Reach select (init proc total_memory) s → s.completed < s.proc.length →
    ∀ x ∈ stepOps select s, InInt x

end NP

namespace SJF

/-- The locals `idx` and `min_burst` of the selection scan. -/
structure Scan where
  idx : Int
  min_burst : Int
deriving DecidableEq

/-- Body of the selection scan for index `i`: sjf.c lines 79-88.  When `idx` is still `-1` and
`proc[i].burst_time == min_burst` (that is, `INT_MAX`), line 85 reads `proc[-1]`. -/
def scanStep (oob : Process) (proc : List Process) (current_time : Int) (sc : Scan) (i : Nat) :
    Scan :=
  if (procAt proc i).arrival_time ≤ current_time ∧ (procAt proc i).is_completed = 0 then
    let sc1 : Scan :=
      if (procAt proc i).burst_time < sc.min_burst then
        { idx := (i : Int), min_burst := (procAt proc i).burst_time }
      else sc
    if (procAt proc i).burst_time = sc1.min_burst
        ∧ (procAt proc i).arrival_time < (procAtInt oob proc sc1.idx).arrival_time then
      { sc1 with idx := (i : Int) }
    else sc1
  else sc

/-- The scan after the indices `0 .. k-1`. -/
def scan (oob : Process) (proc : List Process) (current_time : Int) (k : Nat) : Scan :=
  (List.range k).foldl (scanStep oob proc current_time) { idx := -1, min_burst := INT_MAX }

/-- The selection scan of `calculate_sjf` (sjf.c lines 74-89): the final `idx`. -/
def select (oob : Process) (proc : List Process) (current_time : Int) : Int :=
  (scan oob proc current_time proc.length).idx

/-- The function `calculate_sjf(proc, n, total_memory, execution_order)` with `n = proc.length`,
run for at most `fuel` iterations of its loop. -/
def calculate_sjf (oob : Process) (proc : List Process) (total_memory : Int) (fuel : Nat) :
    Option NP.State :=
  NP.loop (select oob) fuel (NP.init proc total_memory)

end SJF

namespace PS

/-- The locals `idx` and `highest_priority` of the selection scan. -/
structure Scan where
  idx : Int
  highest_priority : Int
deriving DecidableEq

/-- Body of the selection scan for index `i`: PS.c lines 83-94.  `proc[idx]` is read only when
`idx != -1`. -/
def scanStep (proc : List Process) (current_time : Int) (sc : Scan) (i : Nat) : Scan :=
  if (procAt proc i).arrival_time ≤ current_time ∧ (procAt proc i).is_completed = 0 then
    if (procAt proc i).priority < sc.highest_priority then
      { idx := (i : Int), highest_priority := (procAt proc i).priority }
    else if (procAt proc i).priority = sc.highest_priority ∧ sc.idx ≠ -1 then
      if (procAt proc i).burst_time < (procAt proc sc.idx.toNat).burst_time then
        { sc with idx := (i : Int) }
      else sc
    else sc
  else sc

/-- The scan after the indices `0 .. k-1`. -/
def scan (proc : List Process) (current_time : Int) (k : Nat) : Scan :=
  (List.range k).foldl (scanStep proc current_time) { idx := -1, highest_priority := INT_MAX }

/-- The selection scan of `calculate_priority` (PS.c lines 78-95): the final `idx`. -/
def select (proc : List Process) (current_time : Int) : Int :=
  (scan proc current_time proc.length).idx

/-- The function `calculate_priority(proc, n, total_memory)` with `n = proc.length`, run for at
most `fuel` iterations of its loop. -/
def calculate_priority (proc : List Process) (total_memory : Int) (fuel : Nat) :
    Option NP.State :=
  NP.loop select fuel (NP.init proc total_memory)

end PS

/-! ## `RR.c` -/

namespace RR

/-- Local variables of `calculate_rr` together with the process array.  `queue` holds the
entries `queue[0 .. rear-1]` written so far, so `rear = queue.length`; the entries
`queue[front .. rear-1]` are the ready queue.  `visited` is the part `visited[0 .. n-1]` of the
array `visited[MAX_PROCESSES]`.  The C arrays have fixed sizes: a state with
`queue.length > QUEUE_SIZE` is one that the C code reaches only by writing past `queue[99]`;
`loop` gives no result there. -/
structure State where
  proc : List Process
  current_time : Int
  available_memory : Int
  completed : Nat
  queue : List Nat
  front : Nat
  visited : List Int
deriving DecidableEq

/-- The array read `visited[i]`. -/
def visitedAt (visited : List Int) (i : Nat) : Int :=
  (visited[i]?).getD 0

/-- The array read `queue[i]`. -/
def queueAt (queue : List Nat) (i : Nat) : Nat :=
  (queue[i]?).getD 0

/-- Body of the arrival scans before the loop and after an idle tick: RR.c lines 77-80 and
87-90. -/
def arrivalStep (s : State) (i : Nat) : State :=
  if (procAt s.proc i).arrival_time ≤ s.current_time ∧ visitedAt s.visited i = 0 then
    { s with queue := s.queue ++ [i], visited := s.visited.set i 1 }
  else s

/-- The arrival scan `for (i = 0; i < n; i++)` of RR.c lines 76-81 and 86-91. -/
def enqueueArrivals (s : State) : State :=
  (List.range s.proc.length).foldl arrivalStep s

/-- Body of the arrival scan after a slice: RR.c lines 140-143. -/
def arrivalStepRem (s : State) (i : Nat) : State :=
  if (procAt s.proc i).arrival_time ≤ s.current_time ∧ visitedAt s.visited i = 0
      ∧ (procAt s.proc i).remaining_time > 0 then
    { s with queue := s.queue ++ [i], visited := s.visited.set i 1 }
  else s

/-- The arrival scan `for (i = 0; i < n; i++)` of RR.c lines 139-144. -/
def enqueueArrivalsRem (s : State) : State :=
  (List.range s.proc.length).foldl arrivalStepRem s

/-- The idle branch `if (front == rear)`: RR.c lines 85-92. -/
def idle (s : State) : State :=
  enqueueArrivals { s with current_time := wrap (s.current_time + 1) }

/-- Swap out `proc[j]`: RR.c lines 105-107. -/
def swapOut (s : State) (j : Nat) : State :=
  let pj := procAt s.proc j
  { s with
    proc := s.proc.set j { pj with is_swapped := 1 }
    available_memory := wrap (s.available_memory + pj.memory_required)
    current_time := wrap (s.current_time + SWAP_TIME) }

/-- The mathematical results of the `int` operations of `swapOut s j`. -/
def swapOutOps (s : State) (j : Nat) : List Int :=
  [s.available_memory + (procAt s.proc j).memory_required, s.current_time + SWAP_TIME]

/-- The eviction scan `for (j = 0; j < n; j++)` with its `break` (RR.c lines 103-113), run over
the remaining indices `js`. -/
def swapOutScan (idx : Nat) : List Nat → State → State
  | [], s => s
  | j :: js, s =>
    if (procAt s.proc j).remaining_time = 0 ∧ (procAt s.proc j).is_swapped = 0 then
      if (swapOut s j).available_memory ≥ (procAt (swapOut s j).proc idx).memory_required then
        swapOut s j
      else swapOutScan idx js (swapOut s j)
    else swapOutScan idx js s

/-- The mathematical results of the `int` operations of `swapOutScan idx js s`: those of every
swap-out the scan performs. -/
def swapOutScanOps (idx : Nat) : List Nat → State → List Int
  | [], _ => []
  | j :: js, s =>
    if (procAt s.proc j).remaining_time = 0 ∧ (procAt s.proc j).is_swapped = 0 then
      if (swapOut s j).available_memory ≥ (procAt (swapOut s j).proc idx).memory_required then
        swapOutOps s j
      else swapOutOps s j ++ swapOutScanOps idx js (swapOut s j)
    else swapOutScanOps idx js s

/-- The memory check: RR.c lines 99-114. -/
def makeRoom (s : State) (idx : Nat) : State :=
  if (procAt s.proc idx).memory_required > s.available_memory then
    swapOutScan idx (List.range s.proc.length) s
  else s

/-- The mathematical results of the `int` operations of `makeRoom s idx`. -/
def makeRoomOps (s : State) (idx : Nat) : List Int :=
  if (procAt s.proc idx).memory_required > s.available_memory then
    swapOutScanOps idx (List.range s.proc.length) s
  else []

/-- Swap in `proc[idx]`: RR.c lines 116-118. -/
def swapIn (s : State) (idx : Nat) : State :=
  let p := procAt s.proc idx
  let p := { p with total_swap_time := wrap (p.total_swap_time + SWAP_TIME) }
  { s with
    proc := s.proc.set idx p
    current_time := wrap (s.current_time + SWAP_TIME)
    available_memory := wrap (s.available_memory - p.memory_required) }

/-- The mathematical results of the `int` operations of `swapIn s idx`. -/
def swapInOps (s : State) (idx : Nat) : List Int :=
  [s.current_time + SWAP_TIME, (procAt s.proc idx).total_swap_time + SWAP_TIME,
    s.available_memory - (procAt s.proc idx).memory_required]

/-- The admission block `if (proc[idx].remaining_time == proc[idx].burst_time)`:
RR.c lines 98-122. -/
def admission (s : State) (idx : Nat) : State :=
  if (procAt s.proc idx).remaining_time = (procAt s.proc idx).burst_time then
    swapIn (makeRoom s idx) idx
  else s

/-- The mathematical results of the `int` operations of `admission s idx`. -/
def admissionOps (s : State) (idx : Nat) : List Int :=
  if (procAt s.proc idx).remaining_time = (procAt s.proc idx).burst_time then
    makeRoomOps s idx ++ swapInOps (makeRoom s idx) idx
  else []

/-- The first-execution block: RR.c lines 124-128. -/
def firstExec (s : State) (idx : Nat) : State :=
  if (procAt s.proc idx).first_execution = 0 then
    let p := procAt s.proc idx
    let p := { p with start_time := s.current_time }
    let p := { p with response_time := wrap (p.start_time - p.arrival_time) }
    let p := { p with first_execution := 1 }
    { s with proc := s.proc.set idx p }
  else s

/-- The mathematical results of the `int` operations of `firstExec s idx`. -/
def firstExecOps (s : State) (idx : Nat) : List Int :=
  if (procAt s.proc idx).first_execution = 0 then
    [s.current_time - (procAt s.proc idx).arrival_time]
  else []

/-- The local `exec_time` of RR.c line 130. -/
def exec_time (s : State) (idx : Nat) (time_quantum : Int) : Int :=
  if (procAt s.proc idx).remaining_time < time_quantum then (procAt s.proc idx).remaining_time
  else time_quantum

/-- Run the slice: RR.c lines 135-136.  The subtraction `remaining_time -= exec_time` is written
without `wrap`: `exec_time` is `remaining_time` or `time_quantum`, so for `time_quantum >= 0`
the result is `0` or lies between `0` and `remaining_time`, and the C operation cannot
overflow.  Its result is listed in `runSliceOps` all the same. -/
def runSlice (s : State) (idx : Nat) (time_quantum : Int) : State :=
  let p := procAt s.proc idx
  { s with
    proc := s.proc.set idx { p with remaining_time := p.remaining_time - exec_time s idx time_quantum }
    current_time := wrap (s.current_time + exec_time s idx time_quantum) }

/-- The mathematical results of the `int` operations of `runSlice s idx time_quantum`. -/
def runSliceOps (s : State) (idx : Nat) (time_quantum : Int) : List Int :=
  [(procAt s.proc idx).remaining_time - exec_time s idx time_quantum,
    s.current_time + exec_time s idx time_quantum]

/-- Requeue or complete: RR.c lines 146-155. -/
def finish (s : State) (idx : Nat) : State :=
  if (procAt s.proc idx).remaining_time > 0 then
    { s with queue := s.queue ++ [idx] }
  else
    let p := procAt s.proc idx
    let p := { p with completion_time := s.current_time }
    let p := { p with turnaround_time := wrap (p.completion_time - p.arrival_time) }
    let p := { p with waiting_time := wrap (p.turnaround_time - p.burst_time) }
    { s with proc := s.proc.set idx p, completed := s.completed + 1 }

/-- The mathematical results of the `int` operations of `finish s idx`. -/
def finishOps (s : State) (idx : Nat) : List Int :=
  if (procAt s.proc idx).remaining_time > 0 then []
  else
    [s.current_time - (procAt s.proc idx).arrival_time,
      wrap (s.current_time - (procAt s.proc idx).arrival_time) - (procAt s.proc idx).burst_time]

/-- The dispatch of `idx = queue[front++]`: RR.c lines 95-155. -/
def dispatch (time_quantum : Int) (s : State) : State :=
  let idx := queueAt s.queue s.front
  let s1 := { s with front := s.front + 1 }
  finish (enqueueArrivalsRem (runSlice (firstExec (admission s1 idx) idx) idx time_quantum)) idx

/-- The mathematical results of the `int` operations of `dispatch time_quantum s`. -/
def dispatchOps (time_quantum : Int) (s : State) : List Int :=
  let idx := queueAt s.queue s.front
  let s1 := { s with front := s.front + 1 }
  admissionOps s1 idx ++ firstExecOps (admission s1 idx) idx
    ++ runSliceOps (firstExec (admission s1 idx) idx) idx time_quantum
    ++ finishOps
        (enqueueArrivalsRem (runSlice (firstExec (admission s1 idx) idx) idx time_quantum)) idx

/-- One iteration of `while (completed < n)`: RR.c lines 84-155. -/
def step (time_quantum : Int) (s : State) : State :=
  if s.front = s.queue.length then idle s else dispatch time_quantum s

/-- The mathematical results of the `int` operations of `step time_quantum s`. -/
def stepOps (time_quantum : Int) (s : State) : List Int :=
  if s.front = s.queue.length then [s.current_time + 1] else dispatchOps time_quantum s

/-- State on entry to the loop: the locals initialised (RR.c lines 65-69) and the first arrival
scan done (lines 76-81). -/
def init (proc : List Process) (total_memory : Int) : State :=
  enqueueArrivals
    { proc := proc
      current_time := 0
      available_memory := total_memory
      completed := 0
      queue := []
      front := 0
      visited := List.replicate proc.length 0 }

/-- The loop `while (completed < n)`, run for at most `fuel` iterations: `none` when the loop
has not exited by then, or when an iteration has written past the end of `queue[100]`. -/
def loop (time_quantum : Int) : Nat → State → Option State
  | 0, s => if s.completed < s.proc.length then none else some s
  | fuel + 1, s =>
    if s.completed < s.proc.length then
      if (step time_quantum s).queue.length ≤ QUEUE_SIZE then
        loop time_quantum fuel (step time_quantum s)
      else none
    else some s

/-- The mathematical results of the `int` operations of the first `fuel` iterations of the loop
from state `s`. -/
def runOps (time_quantum : Int) : Nat → State → List Int
  | 0, _ => []
  | fuel + 1, s =>
    if s.completed < s.proc.length then
      stepOps time_quantum s ++ runOps time_quantum fuel (step time_quantum s)
    else []

/-- The function `calculate_rr(proc, n, total_memory, time_quantum)` with `n = proc.length`, run
for at most `fuel` iterations of its loop: no result when `n` exceeds the size of
`visited[MAX_PROCESSES]`. -/
def calculate_rr (proc : List Process) (total_memory : Int) (time_quantum : Int) (fuel : Nat) :
    Option State :=
  if proc.length ≤ MAX_PROCESSES then loop time_quantum fuel (init proc total_memory) else none

/-- The states at the iteration boundaries of `while (completed < n)` started from `s0`. -/
inductive Reach (time_quantum : Int) (s0 : State) : State → Prop
  | init : Reach time_quantum s0 s0
  | step {s : State} : Reach time_quantum s0 s → s.completed < s.proc.length →
      Reach time_quantum s0 (step time_quantum s)

/-- The run of the loop on `proc` has no `int` overflow: the result of every operation of every
iteration the loop executes is an `int` value. -/
def NoOverflow (time_quantum : Int) (proc : List Process) (total_memory : Int) : Prop :=
  ∀ s, Reach time_quantum (init proc total_memory) s → s.completed < s.proc.length →
    ∀ x ∈ stepOps time_quantum s, InInt x

end RR

/-! ## The demo workload -/

/-- The descriptor fields set by `initialize_processes`; the run-time fields start at `0`
(in `RR.c`, `remaining_time` starts at `burst_time`). -/
def mkProcess (pid arrival burst memory priority : Int) : Process :=
  { pid := pid, arrival_time := arrival, burst_time := burst, priority := priority,
    remaining_time := burst, completion_time := 0, turnaround_time := 0, waiting_time := 0,
    response_time := 0, start_time := 0, memory_required := memory, is_swapped := 0,
    swap_out_time := 0, swap_in_time := 0, total_swap_time := 0, is_completed := 0,
    first_execution := 0 }

/-- The ten demo processes of `initialize_processes` (priorities as in `PS.c`). -/
def demoProcesses : List Process :=
  [ mkProcess 1 0 5 2500 5, mkProcess 2 1 3 512 1, mkProcess 3 2 8 3200 5,
    mkProcess 4 1 2 256 1, mkProcess 5 3 4 1024 3, mkProcess 6 5 1 128 1,
    mkProcess 7 4 2 384 2, mkProcess 8 4 2 448 2, mkProcess 9 7 6 1800 4,
    mkProcess 10 6 5 1200 3 ]

/-- Memory a process holds: it has been swapped in (`total_swap_time` was charged) and not
swapped out. -/
def held (p : Process) : Int :=
  if p.total_swap_time ≠ 0 ∧ p.is_swapped = 0 then p.memory_required else 0

/-- Sum of the memory held by the resident processes. -/
def residentMemory (proc : List Process) : Int :=
  (proc.map held).sum

/-- A process record with its swap-out fields blanked. -/
def noSwap (p : Process) : Process :=
  { p with is_swapped := 0, swap_out_time := 0 }

/-- Number of processes marked completed (`is_completed` set). -/
def doneCount (proc : List Process) : Nat :=
  proc.countP (fun p => decide (p.is_completed ≠ 0))

namespace FCFS

/-- Arrival order on processes. -/
def arrLe (p q : Process) : Prop := p.arrival_time ≤ q.arrival_time

end FCFS

namespace FCFS

/-- The record written to `proc[i]` by one iteration of the main loop, from the record `p` found
there and the start time `t`. -/
def ranRecord (p : Process) (t : Int) : Process :=
  { p with
    swap_in_time := t
    total_swap_time := SWAP_TIME
    start_time := t
    response_time := t - p.arrival_time
    completion_time := t + p.burst_time
    turnaround_time := t + p.burst_time - p.arrival_time
    waiting_time := t + p.burst_time - p.arrival_time - p.burst_time }

end FCFS

namespace NP

/-- The record written to `proc[idx]` by a dispatch, from the record `p` found there and the
start time `t`. -/
def ranRecord (p : Process) (t : Int) : Process :=
  { p with
    total_swap_time := SWAP_TIME
    start_time := t
    response_time := t - p.arrival_time
    completion_time := t + p.burst_time
    turnaround_time := t + p.burst_time - p.arrival_time
    waiting_time := t + p.burst_time - p.arrival_time - p.burst_time
    is_completed := 1 }

/-- Process `i` may be selected at time `current_time`: it has arrived and is not completed. -/
def eligible (proc : List Process) (current_time : Int) (i : Nat) : Prop :=
  i < proc.length ∧ (procAt proc i).arrival_time ≤ current_time ∧ (procAt proc i).is_completed = 0

instance (proc : List Process) (current_time : Int) (i : Nat) :
    Decidable (eligible proc current_time i) := by
  unfold eligible; infer_instance

/-- A selection scan is sound when it yields `-1` or the index of an eligible process. -/
def SelectSound (select : List Process → Int → Int) : Prop :=
  ∀ proc current_time, select proc current_time = -1
    ∨ (0 ≤ select proc current_time ∧ eligible proc current_time (select proc current_time).toNat)

end NP

/-- An upper bound of the arrival times of `proc` (and of `0`). -/
def maxArrival (proc : List Process) : Int :=
  proc.foldr (fun p m => max p.arrival_time m) 0

/-- The run-time fields of `p` are as `initialize_processes` leaves them: nothing swapped,
nothing completed, no time consumed. -/
def Fresh (p : Process) : Prop :=
  p.is_swapped = 0 ∧ p.total_swap_time = 0 ∧ p.is_completed = 0
    ∧ p.remaining_time = p.burst_time ∧ p.first_execution = 0

instance : DecidablePred Fresh := fun p => by unfold Fresh; infer_instance

namespace SJF

/-- Process `j` is at least as good a choice as process `i` for shortest-job-first: shorter
burst, or equal burst and earlier arrival, or equal on both and not a higher index. -/
def better (proc : List Process) (j i : Nat) : Prop :=
  (procAt proc j).burst_time ≤ (procAt proc i).burst_time
    ∧ ((procAt proc i).burst_time = (procAt proc j).burst_time →
        (procAt proc j).arrival_time ≤ (procAt proc i).arrival_time
          ∧ ((procAt proc i).arrival_time = (procAt proc j).arrival_time → j ≤ i))

/-- Invariant of the selection scan after the indices `0 .. k-1`. -/
def ScanInv (oob : Process) (proc : List Process) (current_time : Int) (k : Nat) (sc : Scan) :
    Prop :=
  (sc.idx = -1 ∧ sc.min_burst = INT_MAX
      ∧ ∀ i, i < k → NP.eligible proc current_time i →
          (procAt proc i).burst_time = INT_MAX
            ∧ oob.arrival_time ≤ (procAt proc i).arrival_time)
    ∨ (0 ≤ sc.idx ∧ sc.idx.toNat < k ∧ NP.eligible proc current_time sc.idx.toNat
        ∧ sc.min_burst = (procAt proc sc.idx.toNat).burst_time
        ∧ ∀ i, i < k → NP.eligible proc current_time i → better proc sc.idx.toNat i)

end SJF

namespace PS

/-- Process `j` is at least as good a choice as process `i` for priority scheduling: lower
priority value, or equal priority and shorter burst, or equal on both and not a higher index. -/
def better (proc : List Process) (j i : Nat) : Prop :=
  (procAt proc j).priority ≤ (procAt proc i).priority
    ∧ ((procAt proc i).priority = (procAt proc j).priority →
        (procAt proc j).burst_time ≤ (procAt proc i).burst_time
          ∧ ((procAt proc i).burst_time = (procAt proc j).burst_time → j ≤ i))

/-- Invariant of the selection scan after the indices `0 .. k-1`. -/
def ScanInv (proc : List Process) (current_time : Int) (k : Nat) (sc : Scan) : Prop :=
  (sc.idx = -1 ∧ sc.highest_priority = INT_MAX
      ∧ ∀ i, i < k → NP.eligible proc current_time i → INT_MAX ≤ (procAt proc i).priority)
    ∨ (0 ≤ sc.idx ∧ sc.idx.toNat < k ∧ NP.eligible proc current_time sc.idx.toNat
        ∧ sc.highest_priority = (procAt proc sc.idx.toNat).priority
        ∧ ∀ i, i < k → NP.eligible proc current_time i → better proc sc.idx.toNat i)

end PS

namespace RR

/-- The test of the arrival scans before the loop and after an idle tick (RR.c lines 77, 87). -/
def arrived (s : State) (i : Nat) : Prop :=
  (procAt s.proc i).arrival_time ≤ s.current_time ∧ visitedAt s.visited i = 0

instance (s : State) (i : Nat) : Decidable (arrived s i) := by
  unfold arrived; infer_instance

/-- The test of the arrival scan after a slice (RR.c line 140). -/
def arrivedRem (s : State) (i : Nat) : Prop :=
  (procAt s.proc i).arrival_time ≤ s.current_time ∧ visitedAt s.visited i = 0
    ∧ (procAt s.proc i).remaining_time > 0

instance (s : State) (i : Nat) : Decidable (arrivedRem s i) := by
  unfold arrivedRem; infer_instance

/-- The ready queue: the entries `queue[front .. rear-1]`. -/
def ready (s : State) : List Nat :=
  s.queue.drop s.front

end RR

namespace RR

/-- The change `admission` makes to the record of the dispatched process. -/
def admissionRec (p : Process) : Process :=
  if p.remaining_time = p.burst_time then
    { p with total_swap_time := p.total_swap_time + SWAP_TIME }
  else p

/-- The change `firstExec` makes to the record of the dispatched process, at time `t`. -/
def firstRec (p : Process) (t : Int) : Process :=
  if p.first_execution = 0 then
    { p with start_time := t, response_time := t - p.arrival_time, first_execution := 1 }
  else p

/-- The length of the slice given to a process with record `p`. -/
def sliceLen (p : Process) (time_quantum : Int) : Int :=
  if p.remaining_time < time_quantum then p.remaining_time else time_quantum

/-- The change `runSlice` makes to the record of the dispatched process. -/
def sliceRec (p : Process) (time_quantum : Int) : Process :=
  { p with remaining_time := p.remaining_time - sliceLen p time_quantum }

/-- The change `finish` makes to the record of the dispatched process, at time `t`. -/
def finishRec (p : Process) (t : Int) : Process :=
  if p.remaining_time > 0 then p
  else
    { p with
      completion_time := t
      turnaround_time := t - p.arrival_time
      waiting_time := t - p.arrival_time - p.burst_time }

end RR

namespace RR

/-- Number of processes with no time remaining. -/
def finishedCount (proc : List Process) : Nat :=
  proc.countP (fun p => decide (p.remaining_time = 0))

end RR

namespace RR

/-- The record a dispatch leaves for the dispatched process, from the record `p` found in the
array and the clock value `tA` after the admission block. -/
def runRec (p : Process) (tA : Int) (time_quantum : Int) : Process :=
  finishRec (sliceRec (firstRec (admissionRec p) tA) time_quantum) (tA + sliceLen p time_quantum)

end RR

namespace RR

/-- Total time still to be executed. -/
def remainingWork (proc : List Process) : Nat :=
  (proc.map (fun p => p.remaining_time.toNat)).sum

end RR

/-- The metrics relations of a completed process: `turnaround_time = completion_time -
arrival_time`, `waiting_time = turnaround_time - burst_time`, both non-negative. -/
def MetricsOK (p : Process) : Prop :=
  p.turnaround_time = p.completion_time - p.arrival_time
    ∧ p.waiting_time = p.turnaround_time - p.burst_time
    ∧ 0 ≤ p.turnaround_time ∧ 0 ≤ p.waiting_time

instance : DecidablePred MetricsOK := fun p => by unfold MetricsOK; infer_instance

/-- The two-process round-robin example of the specification: `P1` (arrival 0, burst 5) and `P2`
(arrival 2, burst 8), both fitting in memory. -/
def fairnessExample : List Process :=
  [mkProcess 1 0 5 100 0, mkProcess 2 2 8 100 0]

/-- Memory a process returns between two versions `p`, `q` of its record: its
`memory_required` when it is swapped out in between (`is_swapped` from `0` to non-zero). -/
def freedBy (p q : Process) : Int :=
  if p.is_swapped = 0 ∧ q.is_swapped ≠ 0 then p.memory_required else 0

/-- Memory freed between two versions of the process array: the sum of `memory_required` over
the processes swapped out in between. -/
def freedMemory (before after : List Process) : Int :=
  (List.zipWith freedBy before after).sum

/-- The eviction test of `sjf.c` and `PS.c` on the completion flag. -/
def isDone (p : Process) : Prop := p.is_completed ≠ 0

/-- The eviction test of `RR.c` on the remaining time. -/
def isFinished (p : Process) : Prop := p.remaining_time = 0

/-- A workload whose first process needs more memory than the 6000 units of the pool. -/
def oversizedExample : List Process :=
  [mkProcess 1 0 5 7000 1, mkProcess 2 1 3 512 2]

/-- The response relations of a process that has been dispatched: it started no earlier than it
arrived, and `response_time = start_time - arrival_time`, which is non-negative. -/
def ResponseOK (p : Process) : Prop :=
  p.arrival_time ≤ p.start_time ∧ p.response_time = p.start_time - p.arrival_time
    ∧ 0 ≤ p.response_time

instance : DecidablePred ResponseOK := fun p => by unfold ResponseOK; infer_instance

/-- The local `makespan` of `print_performance_metrics` in `sjf.c`, `PS.c` and `RR.c` after its
loop: it starts at `0` and is raised to every larger `completion_time`. -/
def makespan (proc : List Process) : Int :=
  proc.foldl (fun m p => if p.completion_time > m then p.completion_time else m) 0

namespace FCFS

/-- The local `makespan` of `print_performance_metrics` in `fcfs.c` (line 211):
`proc[n-1].completion_time`. -/
def makespan (proc : List Process) : Int :=
  (procAt proc (proc.length - 1)).completion_time

end FCFS

/-- The value `cpu_util` of `print_performance_metrics`, `(total_burst / makespan) * 100`, as an
exact rational number (the programs compute it in `double`). -/
def cpu_util (total_burst makespan : Int) : ℚ :=
  (total_burst : ℚ) / (makespan : ℚ) * 100

namespace NP

/-- Sum of the burst times of the processes run so far. -/
def doneBurst (proc : List Process) : Int :=
  (proc.map (fun p => if p.is_completed ≠ 0 then p.burst_time else 0)).sum

end NP

namespace RR

/-- Time executed so far: the sum of `burst_time - remaining_time`. -/
def executed (proc : List Process) : Int :=
  (proc.map (fun p => p.burst_time - p.remaining_time)).sum

end RR

/-- A workload of one process whose priority value is `INT_MAX`, the initial value of
`highest_priority` in the selection scan of `PS.c`. -/
def sentinelExample : List Process :=
  [mkProcess 1 0 1 100 INT_MAX]

/-- A workload with a non-positive `burst_time` and a non-positive `memory_required`. -/
def invalidExample : List Process :=
  [mkProcess 1 0 0 0 1]

/-- The integer fields that `initialize_processes` of `fcfs.c` sets (lines 240-340); the other
fields of the array, a local of `main`, are not initialised. -/
def initData (p : Process) : List Int :=
  [p.pid, p.arrival_time, p.burst_time, p.memory_required, p.is_swapped, p.total_swap_time]

/-- The integer columns of a row of `print_process_table` (fcfs.c lines 112-120); the column
`Swapped` prints `Yes` for a non-zero `is_swapped`. -/
def tableRow (p : Process) : List Int :=
  [p.pid, p.arrival_time, p.burst_time, p.memory_required, if p.is_swapped ≠ 0 then 1 else 0,
    p.total_swap_time, p.completion_time, p.turnaround_time, p.waiting_time, p.response_time]

/-- The processes that the specification has swapped out when `needed` units are asked for and
`a` units are free: the candidates are taken in the order given, each adding its memory to the
free memory, and the eviction stops right after the first candidate that brings the free memory
to at least `needed`, or after the last candidate if none does.  `memOf j` is the
`memory_required` of process `j`. -/
def evictPlan (memOf : Nat → Int) (needed : Int) : List Nat → Int → List Nat
  | [], _ => []
  | j :: js, a =>
    if a + memOf j ≥ needed then [j] else j :: evictPlan memOf needed js (a + memOf j)

/-- The eviction plan of a memory check: nothing when the free memory `a` suffices, else
`evictPlan` over the candidates. -/
def memoryCheckPlan (memOf : Nat → Int) (needed : Int) (cands : List Nat) (a : Int) : List Nat :=
  if needed > a then evictPlan memOf needed cands a else []

/-- What the specification says of a memory check that starts with `a` units free at time `t`
for a process that needs `needed` units, `cands` being the completed, not-yet-swapped processes
in array order and `plan` the processes swapped out: `plan` is empty when `a >= needed`;
otherwise it is an initial segment of `cands` that stops right after the first process that
brings the free memory to `needed` or more, or is all of `cands`; the free memory ends at
`a'`, `a` plus the memory of the processes of `plan`; and the clock ends at `t'`, `t` plus
`SWAP_TIME` for each eviction. -/
def MemoryCheckOK (memOf : Nat → Int) (needed : Int) (cands plan : List Nat)
    (a a' t t' : Int) : Prop :=
  (a ≥ needed → plan = [])
    ∧ plan <+: cands
    ∧ (∀ k, k < plan.length → a + ((plan.take k).map memOf).sum < needed)
    ∧ (a < needed → a + (plan.map memOf).sum ≥ needed ∨ plan = cands)
    ∧ a' = a + (plan.map memOf).sum
    ∧ t' = t + SWAP_TIME * plan.length

namespace NP

/-- The candidates of the eviction scan of `sjf.c` / `PS.c` in state `s`: the completed,
not-yet-swapped processes, in array order. -/
def candidates (s : State) : List Nat :=
  (List.range s.proc.length).filter
    (fun j => decide ((procAt s.proc j).is_completed ≠ 0 ∧ (procAt s.proc j).is_swapped = 0))

/-- The eviction plan of the specification for the dispatch of process `idx` from state `s`. -/
def plan (s : State) (idx : Nat) : List Nat :=
  memoryCheckPlan (fun j => (procAt s.proc j).memory_required)
    (procAt s.proc idx).memory_required (candidates s) s.available_memory

end NP

namespace RR

/-- The candidates of the eviction scan of `RR.c` in state `s`: the finished, not-yet-swapped
processes, in array order. -/
def candidates (s : State) : List Nat :=
  (List.range s.proc.length).filter
    (fun j => decide ((procAt s.proc j).remaining_time = 0 ∧ (procAt s.proc j).is_swapped = 0))

/-- The eviction plan of the specification for the dispatch of process `idx` from state `s`. -/
def plan (s : State) (idx : Nat) : List Nat :=
  memoryCheckPlan (fun j => (procAt s.proc j).memory_required)
    (procAt s.proc idx).memory_required (candidates s) s.available_memory

end RR

namespace FCFS

/-- The candidates of the eviction scan of iteration `i` of `fcfs.c` in state `s`: the processes
before `i` that have completed by now and are not swapped out, in array order. -/
def candidates (s : State) (i : Nat) : List Nat :=
  (List.range i).filter
    (fun j => decide ((procAt s.proc j).completion_time > 0
      ∧ (procAt s.proc j).completion_time ≤ s.current_time ∧ (procAt s.proc j).is_swapped = 0))

/-- The eviction plan of the specification for the dispatch of process `i` from state `s`. -/
def plan (s : State) (i : Nat) : List Nat :=
  memoryCheckPlan (fun j => (procAt s.proc j).memory_required)
    (procAt s.proc i).memory_required (candidates s i) s.available_memory

end FCFS

/-- The swap flags of a process array change lawfully from `before` to `after`, `done` being the
test for a completed process: a flag that is set keeps its value, and a flag that becomes set
belongs to a process that was completed before, and becomes `1`. -/
def SwapFlagOK (done : Process → Prop) (before after : List Process) : Prop :=
  ∀ j, ((procAt before j).is_swapped ≠ 0 →
        (procAt after j).is_swapped = (procAt before j).is_swapped)
    ∧ ((procAt before j).is_swapped = 0 → (procAt after j).is_swapped ≠ 0 →
        done (procAt before j) ∧ (procAt after j).is_swapped = 1)

namespace RR

/-- The queue entries written between two states: `queue[rear_before .. rear_after - 1]`. -/
def appended (before after : State) : List Nat :=
  after.queue.drop before.queue.length

/-- The indices of `l` stand in ascending `arrival_time` order. -/
def ArrivalSorted (proc : List Process) (l : List Nat) : Prop :=
  l.Pairwise (fun i j => (procAt proc i).arrival_time ≤ (procAt proc j).arrival_time)

instance (proc : List Process) (l : List Nat) : Decidable (ArrivalSorted proc l) := by
  unfold ArrivalSorted; infer_instance

end RR

namespace RR

/-- The live part of the ready queue of state `s` is in order: it holds each process index at
most once, and only processes with time remaining. -/
def QueueOK (s : State) : Prop :=
  (ready s).Nodup ∧ ∀ q ∈ ready s, 0 < (procAt s.proc q).remaining_time

/-- Number of arrival insertions of process `j` between two states: `1` when `visited[j]` goes
from `0` to non-zero (an arrival check writes `j` to the queue exactly when it sets
`visited[j]`), else `0`. -/
def arrivalInsertions (before after : State) (j : Nat) : Nat :=
  if visitedAt before.visited j = 0 ∧ visitedAt after.visited j ≠ 0 then 1 else 0

end RR

/-- A process ran once without interruption: `completion_time = start_time + burst_time`, and so
`waiting_time = response_time`. -/
def RanThrough (p : Process) : Prop :=
  p.completion_time = p.start_time + p.burst_time ∧ p.waiting_time = p.response_time

instance : DecidablePred RanThrough := fun p => by unfold RanThrough; infer_instance

/-- Two processes arriving at time 0 with burst 5 and 4000 memory units each. -/
def preemptedHolderExample : List Process :=
  [mkProcess 1 0 5 4000 0, mkProcess 2 0 5 4000 0]

/-- The runs of two processes do not overlap on the one CPU: one of them completes at least
`SWAP_TIME` before the other starts. -/
def SerialPair (p q : Process) : Prop :=
  p.completion_time + SWAP_TIME ≤ q.start_time ∨ q.completion_time + SWAP_TIME ≤ p.start_time

instance (p q : Process) : Decidable (SerialPair p q) := by unfold SerialPair; infer_instance

/-- The execution intervals `[start_time, completion_time)` of any two distinct processes of the
table are `SWAP_TIME` apart, and so share no instant. -/
def SerialRuns (table : List Process) : Prop :=
  ∀ i j, i < table.length → j < table.length → i ≠ j →
    SerialPair (procAt table i) (procAt table j)
      ∧ ∀ t : Int, ¬ ((procAt table i).start_time ≤ t ∧ t < (procAt table i).completion_time
          ∧ (procAt table j).start_time ≤ t ∧ t < (procAt table j).completion_time)

/-- The ceiling of `a / b` for `b > 0`, computed in integers as `(a + b - 1) / b`. -/
def ceilDiv (a b : Int) : Int :=
  (a + b - 1) / b

namespace RR

/-- The sum over all processes of `ceil(burst_time / time_quantum)`. -/
def totalSlices (proc : List Process) (time_quantum : Int) : Int :=
  (proc.map (fun p => ceilDiv p.burst_time time_quantum)).sum

/-- The number of queue entries that the specification expects to have been written for process
`j` by state `s`: none while `visited[j]` is `0`; afterwards one for the arrival plus one for
each slice that ended in a preemption, which is `ceil(burst_time / time_quantum)` less the
slices still to come (`ceil(remaining_time / time_quantum)`), the pending entry of an unfinished
process counted in. -/
def writesOf (time_quantum : Int) (s : State) (j : Nat) : Int :=
  if visitedAt s.visited j = 0 then 0
  else ceilDiv (procAt s.proc j).burst_time time_quantum
      - ceilDiv (procAt s.proc j).remaining_time time_quantum
      + (if 0 < (procAt s.proc j).remaining_time then 1 else 0)

end RR

/-! ## The accumulators of `print_performance_metrics` -/

/-- The accumulator `total_burst` of `print_performance_metrics` after its loop
(`total_burst += proc[i].burst_time`, all four programs). -/
def total_burst (proc : List Process) : Int :=
  proc.foldl (fun acc p => wrap (acc + p.burst_time)) 0

/-- The accumulator `total_swap_time` of `print_performance_metrics` after its loop
(`total_swap_time += proc[i].total_swap_time`, all four programs): the value printed as
"Total Swap Time". -/
def total_swap_time (proc : List Process) : Int :=
  proc.foldl (fun acc p => wrap (acc + p.total_swap_time)) 0

namespace FCFS

/-- Start time of the process dispatched by iteration `i` from state `s`. -/
def startOf (s : State) (i : Nat) : Int :=
  (makeRoom (idleJump s i) i).current_time + SWAP_TIME

end FCFS

namespace NP

/-- Start time of the process `idx` dispatched from state `s`. -/
def startOf (s : State) (idx : Nat) : Int :=
  (makeRoom s idx).current_time + SWAP_TIME

end NP

namespace RR

/-- The state after the admission block of a dispatch from `s` (RR.c lines 95-122). -/
def afterAdmission (s : State) : State :=
  admission { s with front := s.front + 1 } (queueAt s.queue s.front)

/-- The state after the slice of a dispatch from `s` (RR.c lines 95-136). -/
def afterSlice (time_quantum : Int) (s : State) : State :=
  runSlice (firstExec (afterAdmission s) (queueAt s.queue s.front)) (queueAt s.queue s.front)
    time_quantum

/-- The record of the dispatched process at the end of a dispatch from `s`. -/
def finalRec (time_quantum : Int) (s : State) : Process :=
  finishRec
    (sliceRec (firstRec (admissionRec (procAt s.proc (queueAt s.queue s.front)))
      (afterAdmission s).current_time) time_quantum)
    ((afterAdmission s).current_time
      + sliceLen (procAt s.proc (queueAt s.queue s.front)) time_quantum)

end RR

namespace FCFS

/-- The state after the eviction scan of iteration `i` (fcfs.c lines 146-178), before the
swap-in. -/
def afterEviction (s : State) (i : Nat) : State :=
  makeRoom (idleJump s i) i

end FCFS

namespace RR

/-- The state after the eviction scan of a first dispatch (RR.c lines 95-114), before the
swap-in. -/
def afterEviction (s : State) : State :=
  makeRoom { s with front := s.front + 1 } (queueAt s.queue s.front)

end RR

namespace FCFS

/-- Outcome of iteration `k` of the main loop of `calculate_fcfs` from state `s` in degraded
mode: every earlier process has been swapped out by the eviction scan, the scan added the freed
memory to `available_memory`, the process is swapped in all the same, which leaves
`available_memory` negative, and it is executed to completion. -/
def DegradedOutcome (s : State) (k : Nat) : Prop :=
  (∀ j, j < k → (procAt (afterEviction s k).proc j).is_swapped ≠ 0)
    ∧ (afterEviction s k).available_memory
        = s.available_memory + freedMemory s.proc (afterEviction s k).proc
    ∧ (body s k).available_memory
        = s.available_memory + freedMemory s.proc (afterEviction s k).proc
          - (procAt s.proc k).memory_required
    ∧ (body s k).available_memory < 0
    ∧ (procAt (body s k).proc k).start_time = (afterEviction s k).current_time + SWAP_TIME
    ∧ (procAt (body s k).proc k).completion_time
        = (procAt (body s k).proc k).start_time + (procAt s.proc k).burst_time

end FCFS

namespace NP

/-- Outcome of the dispatch of process `i` from state `s` in `calculate_sjf` /
`calculate_priority` in degraded mode: every completed process has been swapped out by the
eviction scan, the scan added the freed memory to `available_memory`, the process is swapped in
all the same, which leaves `available_memory` negative, and it is executed to completion. -/
def DegradedOutcome (s : State) (i : Nat) : Prop :=
  (∀ j, j < s.proc.length → (procAt (makeRoom s i).proc j).is_completed ≠ 0 →
      (procAt (makeRoom s i).proc j).is_swapped ≠ 0)
    ∧ (makeRoom s i).available_memory
        = s.available_memory + freedMemory s.proc (makeRoom s i).proc
    ∧ (dispatch s i).available_memory
        = s.available_memory + freedMemory s.proc (makeRoom s i).proc
          - (procAt s.proc i).memory_required
    ∧ (dispatch s i).available_memory < 0
    ∧ (procAt (dispatch s i).proc i).start_time = (makeRoom s i).current_time + SWAP_TIME
    ∧ (procAt (dispatch s i).proc i).completion_time
        = (procAt (dispatch s i).proc i).start_time + (procAt s.proc i).burst_time
    ∧ (procAt (dispatch s i).proc i).is_completed ≠ 0

end NP

namespace RR

/-- Outcome of a first dispatch from state `s` in `calculate_rr` in degraded mode: every
finished process has been swapped out by the eviction scan, the scan added the freed memory to
`available_memory`, the process is swapped in all the same, which leaves `available_memory`
negative, and it runs its slice. -/
def DegradedOutcome (time_quantum : Int) (s : State) : Prop :=
  (∀ j, j < s.proc.length → (procAt (afterEviction s).proc j).remaining_time = 0 →
      (procAt (afterEviction s).proc j).is_swapped ≠ 0)
    ∧ (afterEviction s).available_memory
        = s.available_memory + freedMemory s.proc (afterEviction s).proc
    ∧ (dispatch time_quantum s).available_memory
        = s.available_memory + freedMemory s.proc (afterEviction s).proc
          - (procAt s.proc (queueAt s.queue s.front)).memory_required
    ∧ (dispatch time_quantum s).available_memory < 0
    ∧ (procAt (dispatch time_quantum s).proc (queueAt s.queue s.front)).total_swap_time
        = SWAP_TIME
    ∧ (procAt (dispatch time_quantum s).proc (queueAt s.queue s.front)).start_time
        = (afterEviction s).current_time + SWAP_TIME
    ∧ (procAt (dispatch time_quantum s).proc (queueAt s.queue s.front)).remaining_time
        = (procAt s.proc (queueAt s.queue s.front)).remaining_time
          - min (procAt s.proc (queueAt s.queue s.front)).remaining_time time_quantum

end RR

/-- The utilization figures of a final table `proc` with makespan `m`: `m` is positive, the
burst times add up to at most `m`, `m` is the maximum completion time, and the CPU utilization
is at most 100. -/
def UtilizationOK (proc : List Process) (m : Int) : Prop :=
  0 < m
    ∧ total_burst proc ≤ m
    ∧ (∀ p ∈ proc, p.completion_time ≤ m)
    ∧ (∃ p ∈ proc, p.completion_time = m)
    ∧ cpu_util (total_burst proc) m ≤ 100

namespace RR

/-- Number of preemptions of process `j` in the iteration run from state `s`: `1` when the
iteration dispatches `j` and `j` has time remaining at its end, else `0`. -/
def preemptions (time_quantum : Int) (s : State) (j : Nat) : Nat :=
  if s.front ≠ s.queue.length ∧ queueAt s.queue s.front = j
      ∧ 0 < (procAt (step time_quantum s).proc j).remaining_time then 1 else 0

end RR

/-- Every process of the table has been charged one swap-in, and the reported total is
`n * SWAP_TIME`, `n` being the number of processes. -/
def SwapTimeOK (n : Nat) (table : List Process) : Prop :=
  (∀ p ∈ table, p.total_swap_time = SWAP_TIME) ∧ total_swap_time table = n * SWAP_TIME

namespace FCFS

/-- Two records agree on what `calculate_fcfs` reads of a process that is still to be run (`k` is
the number of iterations done, `m` the index of the record), and on what it has written to a
process already run. -/
def SameRec (k m : Nat) (p q : Process) : Prop :=
  initData p = initData q
    ∧ (m < k → p.completion_time = q.completion_time ∧ p.turnaround_time = q.turnaround_time
        ∧ p.waiting_time = q.waiting_time ∧ p.response_time = q.response_time
        ∧ p.start_time = q.start_time)

/-- Two process arrays agree record by record. -/
def SameProc (k : Nat) (l1 l2 : List Process) : Prop :=
  l1.length = l2.length ∧ ∀ m, SameRec k m (procAt l1 m) (procAt l2 m)

/-- Two states of `calculate_fcfs` agree on the clock, on the free memory and on the array. -/
def Sim (k : Nat) (s1 s2 : State) : Prop :=
  s1.current_time = s2.current_time ∧ s1.available_memory = s2.available_memory
    ∧ SameProc k s1.proc s2.proc

end FCFS

/-! ## Workloads whose run overflows `int` -/

/-- The descriptor fields of `p` are `int` values. -/
def IntFields (p : Process) : Prop :=
  InInt p.arrival_time ∧ InInt p.burst_time ∧ InInt p.memory_required ∧ InInt p.priority

instance : DecidablePred IntFields := fun p => by unfold IntFields; infer_instance

/-- Two processes, the first with burst time `INT_MAX`: the clock passes `INT_MAX` while the
first process runs. -/
def longBurstExample : List Process :=
  [mkProcess 1 0 2147483647 100 1, mkProcess 2 1 3 50 2]

/-- Three processes, the second with burst time `INT_MAX`. -/
def wrappedClockExample : List Process :=
  [mkProcess 1 0 10 100 1, mkProcess 2 1 2147483647 100 2, mkProcess 3 2 5 100 3]

/-- Two processes arriving at `0`, the first with burst time `2147483644`: the clock stands at
`INT_MAX - 1` when the second is dispatched. -/
def wrappedStartExample : List Process :=
  [mkProcess 1 0 2147483644 100 1, mkProcess 2 0 1 100 2]

/-- Two processes of 5000 units of memory each, the first with burst time `INT_MAX`. -/
def wrappedEvictionExample : List Process :=
  [mkProcess 1 0 2147483647 5000 1, mkProcess 2 1 3 5000 2]

/-- Three processes, the last two with equal burst time `1`; the first runs until
`2147483643`. -/
def wrappedTieExample : List Process :=
  [mkProcess 1 0 2147483641 100 1, mkProcess 2 1 1 100 2, mkProcess 3 2 1 100 3]

/-- Two processes whose burst times add up to `INT_MAX - 3`. -/
def wrappedMakespanExample : List Process :=
  [mkProcess 1 0 1 100 1, mkProcess 2 0 2147483643 100 2]

/-- Two processes for `calculate_rr` that need `INT_MAX` units of memory each. -/
def hugeMemoryExample : List Process :=
  [mkProcess 1 0 5 2147483647 1, mkProcess 2 0 5 2147483647 2]

/-- Three processes for `calculate_rr` with `time_quantum = INT_MAX`: the third arrives at
`2147483000`, while the first runs, and is dispatched after the clock has passed `INT_MAX`
during the run of the second. -/
def wrappedResponseExample : List Process :=
  [mkProcess 1 0 2147483000 100 1, mkProcess 2 0 1000 100 2, mkProcess 3 2147483000 1 100 3]

/-- One process for `calculate_rr` with `time_quantum = 1` that is written to the queue 150
times. -/
def queueOverrunExample : List Process :=
  [mkProcess 1 0 150 100 1]

/-! ## The additions of `print_performance_metrics` -/

/-- The mathematical results of the additions `acc += f(proc[i])` of an accumulator loop of
`print_performance_metrics` that starts from `acc`. -/
def sumOps (f : Process → Int) : Int → List Process → List Int
  | _, [] => []
  | acc, p :: ps => (acc + f p) :: sumOps f (wrap (acc + f p)) ps

/-- The mathematical results of the additions `total_burst += proc[i].burst_time`. -/
def total_burstOps (proc : List Process) : List Int :=
  sumOps (fun p => p.burst_time) 0 proc

namespace NP

/-- What every run of the loop of `calculate_sjf` / `calculate_priority` keeps true at its
iteration boundaries, whatever the values of the clock and of the memory: the array keeps its
length, `completed` counts the processes marked completed, and a process marked completed has
`is_completed = 1` and has been swapped in. -/
structure Tally (proc0 : List Process) (s : State) : Prop where
  len : s.proc.length = proc0.length
  count : s.completed = doneCount s.proc
  done : ∀ j, (procAt s.proc j).is_completed ≠ 0 →
    (procAt s.proc j).is_completed = 1 ∧ (procAt s.proc j).total_swap_time = SWAP_TIME

end NP

namespace RR

/-- What every run of the loop of `calculate_rr` keeps true at its iteration boundaries,
whatever the values of the clock and of the memory; `proc0` is the array on entry.  The arrays
keep their lengths, arrival and burst times are not written, every `remaining_time` lies in
`0 .. burst_time`, the ready queue `queue[front .. rear-1]` holds exactly the visited processes
with time remaining, each once, an unvisited process has not run, `completed` counts the
processes with no time remaining, and a process has been charged its swap-in exactly when it has
run. -/
structure Discipline (proc0 : List Process) (s : State) : Prop where
  len : s.proc.length = proc0.length
  vlen : s.visited.length = proc0.length
  arrival : ∀ j, (procAt s.proc j).arrival_time = (procAt proc0 j).arrival_time
  burst : ∀ j, (procAt s.proc j).burst_time = (procAt proc0 j).burst_time
  range : ∀ j, 0 ≤ (procAt s.proc j).remaining_time
    ∧ (procAt s.proc j).remaining_time ≤ (procAt s.proc j).burst_time
  front_le : s.front ≤ s.queue.length
  queue_lt : ∀ q ∈ s.queue, q < proc0.length
  ready_ok : ∀ q ∈ ready s, visitedAt s.visited q ≠ 0 ∧ 0 < (procAt s.proc q).remaining_time
  ready_nodup : (ready s).Nodup
  in_ready : ∀ j, j < proc0.length → visitedAt s.visited j ≠ 0 →
    0 < (procAt s.proc j).remaining_time → j ∈ ready s
  unvisited : ∀ j, j < proc0.length → visitedAt s.visited j = 0 →
    (procAt s.proc j).remaining_time = (procAt s.proc j).burst_time
  count : s.completed = finishedCount s.proc
  fresh : ∀ j, (procAt s.proc j).remaining_time = (procAt s.proc j).burst_time →
    (procAt s.proc j).total_swap_time = 0
  charged : ∀ j, (procAt s.proc j).remaining_time < (procAt s.proc j).burst_time →
    (procAt s.proc j).total_swap_time = SWAP_TIME

end RR

/-- The processes of `evicted` are returned once by an eviction scan over the first `n`
processes that takes the process array from `before` to `after` and the free memory from `a` to
`a'`: they are distinct and in array order, each was completed (`done`) and not swapped out
before the scan, they are the processes whose flag the scan sets, and `a'` is `a` with the
`memory_required` of each added once, one after the other, by the `int` addition of the code. -/
def ReturnedOnceInt (done : Process → Prop) (before after : List Process) (n : Nat)
    (evicted : List Nat) (a a' : Int) : Prop :=
  evicted.Sublist (List.range n)
    ∧ (∀ j ∈ evicted, done (procAt before j) ∧ (procAt before j).is_swapped = 0)
    ∧ (∀ j, (procAt after j).is_swapped
        = if j ∈ evicted then 1 else (procAt before j).is_swapped)
    ∧ a' = evicted.foldl (fun x j => wrap (x + (procAt before j).memory_required)) a

/-! ## The simulations over the mathematical integers

The definitions of the namespace `Exact` repeat the arithmetic parts of the four simulations
without `wrap` and without the bound on the queue.  They are used in proofs only. -/

namespace Exact

namespace FCFS
open Scheduling.FCFS

/-- Swap out `proc[j]`: fcfs.c lines 159-164 (the local `memory_freed` is only accumulated,
never read, and is left out). -/
def swapOut (s : State) (j : Nat) : State :=
  let pj := procAt s.proc j
  { proc := s.proc.set j { pj with is_swapped := 1, swap_out_time := s.current_time }
    current_time := s.current_time + SWAP_TIME
    available_memory := s.available_memory + pj.memory_required
    total_swap_operations := s.total_swap_operations + 1 }

/-- The eviction scan `for (j = 0; j < i; j++)` with its `break` (fcfs.c lines 157-173), run over
the remaining indices `js`. -/
def swapOutScan (i : Nat) : List Nat → State → State
  | [], s => s
  | j :: js, s =>
    if (procAt s.proc j).completion_time > 0 ∧ (procAt s.proc j).completion_time ≤ s.current_time
        ∧ (procAt s.proc j).is_swapped = 0 then
      if (swapOut s j).available_memory ≥ (procAt (swapOut s j).proc i).memory_required then
        swapOut s j
      else swapOutScan i js (swapOut s j)
    else swapOutScan i js s

/-- The memory check of fcfs.c lines 151-178. -/
def makeRoom (s : State) (i : Nat) : State :=
  if (procAt s.proc i).memory_required > s.available_memory then
    swapOutScan i (List.range i) s
  else s

/-- Swap in `proc[i]` and record its start: fcfs.c lines 181-191. -/
def swapIn (s : State) (i : Nat) : State :=
  let t := s.current_time + SWAP_TIME
  let p := procAt s.proc i
  let p := { p with swap_in_time := t, total_swap_time := SWAP_TIME }
  let p := { p with start_time := t }
  let p := { p with response_time := p.start_time - p.arrival_time }
  { proc := s.proc.set i p
    current_time := t
    available_memory := s.available_memory - p.memory_required
    total_swap_operations := s.total_swap_operations + 1 }

/-- Run `proc[i]` to completion: fcfs.c lines 196-199. -/
def execute (s : State) (i : Nat) : State :=
  let p := procAt s.proc i
  let t := s.current_time + p.burst_time
  let p := { p with completion_time := t }
  let p := { p with turnaround_time := p.completion_time - p.arrival_time }
  let p := { p with waiting_time := p.turnaround_time - p.burst_time }
  { s with proc := s.proc.set i p, current_time := t }

/-- Body of the main loop `for (i = 0; i < n; i++)` (fcfs.c lines 144-202). -/
def body (s : State) (i : Nat) : State :=
  execute (swapIn (makeRoom (idleJump s i) i) i) i

/-- State at the boundary before iteration `k` of the main loop (after `k` iterations). -/
def stateAt (proc : List Process) (total_memory : Int) (k : Nat) : State :=
  (List.range k).foldl body (init proc total_memory)

/-- The function `calculate_fcfs(proc, n, total_memory)` with `n = proc.length`: the final state. -/
def calculate_fcfs (proc : List Process) (total_memory : Int) : State :=
  stateAt proc total_memory proc.length

end FCFS

namespace NP
open Scheduling.NP

/-- Swap out `proc[j]`: sjf.c lines 103-105, PS.c lines 109-111. -/
def swapOut (s : State) (j : Nat) : State :=
  let pj := procAt s.proc j
  { s with
    proc := s.proc.set j { pj with is_swapped := 1 }
    available_memory := s.available_memory + pj.memory_required
    current_time := s.current_time + SWAP_TIME }

/-- The eviction scan `for (j = 0; j < n; j++)` with its `break` (sjf.c lines 101-111,
PS.c lines 107-117), run over the remaining indices `js`. -/
def swapOutScan (idx : Nat) : List Nat → State → State
  | [], s => s
  | j :: js, s =>
    if (procAt s.proc j).is_completed ≠ 0 ∧ (procAt s.proc j).is_swapped = 0 then
      if (swapOut s j).available_memory ≥ (procAt (swapOut s j).proc idx).memory_required then
        swapOut s j
      else swapOutScan idx js (swapOut s j)
    else swapOutScan idx js s

/-- The memory check: sjf.c lines 97-112, PS.c lines 103-118. -/
def makeRoom (s : State) (idx : Nat) : State :=
  if (procAt s.proc idx).memory_required > s.available_memory then
    swapOutScan idx (List.range s.proc.length) s
  else s

/-- Swap in `proc[idx]` and record its start: sjf.c lines 114-122, PS.c lines 120-128. -/
def swapIn (s : State) (idx : Nat) : State :=
  let t := s.current_time + SWAP_TIME
  let p := procAt s.proc idx
  let p := { p with total_swap_time := SWAP_TIME }
  let p := { p with start_time := t }
  let p := { p with response_time := p.start_time - p.arrival_time }
  { s with
    proc := s.proc.set idx p
    current_time := t
    available_memory := s.available_memory - p.memory_required }

/-- Run `proc[idx]` to completion: sjf.c lines 127-136, PS.c lines 133-140. -/
def execute (s : State) (idx : Nat) : State :=
  let p := procAt s.proc idx
  let t := s.current_time + p.burst_time
  let p := { p with completion_time := t }
  let p := { p with turnaround_time := p.completion_time - p.arrival_time }
  let p := { p with waiting_time := p.turnaround_time - p.burst_time }
  let p := { p with is_completed := 1 }
  { s with
    proc := s.proc.set idx p
    current_time := t
    execution_order := s.execution_order ++ [idx]
    completed := s.completed + 1 }

/-- The dispatch of `proc[idx]`: everything after the `if (idx == -1)` test. -/
def dispatch (s : State) (idx : Nat) : State :=
  execute (swapIn (makeRoom s idx) idx) idx

/-- One iteration of `while (completed < n)`: the selection scan `select`, then either the idle
tick (sjf.c lines 91-94, PS.c lines 97-100) or the dispatch. -/
def step (select : List Process → Int → Int) (s : State) : State :=
  if select s.proc s.current_time = -1 then
    { s with current_time := s.current_time + 1 }
  else dispatch s (select s.proc s.current_time).toNat

/-- The loop `while (completed < n)`, run for at most `fuel` iterations: `none` when the loop
has not exited by then. -/
def loop (select : List Process → Int → Int) : Nat → State → Option State
  | 0, s => if s.completed < s.proc.length then none else some s
  | fuel + 1, s =>
    if s.completed < s.proc.length then loop select fuel (step select s) else some s

end NP

namespace SJF
open Scheduling.SJF

/-- The function `calculate_sjf(proc, n, total_memory, execution_order)` with `n = proc.length`,
run for at most `fuel` iterations of its loop. -/
def calculate_sjf (oob : Process) (proc : List Process) (total_memory : Int) (fuel : Nat) :
    Option NP.State :=
  NP.loop (select oob) fuel (NP.init proc total_memory)

end SJF

namespace PS
open Scheduling.PS

/-- The function `calculate_priority(proc, n, total_memory)` with `n = proc.length`, run for at
most `fuel` iterations of its loop. -/
def calculate_priority (proc : List Process) (total_memory : Int) (fuel : Nat) :
    Option NP.State :=
  NP.loop select fuel (NP.init proc total_memory)

end PS

namespace RR
open Scheduling.RR

/-- The idle branch `if (front == rear)`: RR.c lines 85-92. -/
def idle (s : State) : State :=
  enqueueArrivals { s with current_time := s.current_time + 1 }

/-- Swap out `proc[j]`: RR.c lines 105-107. -/
def swapOut (s : State) (j : Nat) : State :=
  let pj := procAt s.proc j
  { s with
    proc := s.proc.set j { pj with is_swapped := 1 }
    available_memory := s.available_memory + pj.memory_required
    current_time := s.current_time + SWAP_TIME }

/-- The eviction scan `for (j = 0; j < n; j++)` with its `break` (RR.c lines 103-113), run over
the remaining indices `js`. -/
def swapOutScan (idx : Nat) : List Nat → State → State
  | [], s => s
  | j :: js, s =>
    if (procAt s.proc j).remaining_time = 0 ∧ (procAt s.proc j).is_swapped = 0 then
      if (swapOut s j).available_memory ≥ (procAt (swapOut s j).proc idx).memory_required then
        swapOut s j
      else swapOutScan idx js (swapOut s j)
    else swapOutScan idx js s

/-- The memory check: RR.c lines 99-114. -/
def makeRoom (s : State) (idx : Nat) : State :=
  if (procAt s.proc idx).memory_required > s.available_memory then
    swapOutScan idx (List.range s.proc.length) s
  else s

/-- Swap in `proc[idx]`: RR.c lines 116-118. -/
def swapIn (s : State) (idx : Nat) : State :=
  let p := procAt s.proc idx
  let p := { p with total_swap_time := p.total_swap_time + SWAP_TIME }
  { s with
    proc := s.proc.set idx p
    current_time := s.current_time + SWAP_TIME
    available_memory := s.available_memory - p.memory_required }

/-- The admission block `if (proc[idx].remaining_time == proc[idx].burst_time)`:
RR.c lines 98-122. -/
def admission (s : State) (idx : Nat) : State :=
  if (procAt s.proc idx).remaining_time = (procAt s.proc idx).burst_time then
    swapIn (makeRoom s idx) idx
  else s

/-- The first-execution block: RR.c lines 124-128. -/
def firstExec (s : State) (idx : Nat) : State :=
  if (procAt s.proc idx).first_execution = 0 then
    let p := procAt s.proc idx
    let p := { p with start_time := s.current_time }
    let p := { p with response_time := p.start_time - p.arrival_time }
    let p := { p with first_execution := 1 }
    { s with proc := s.proc.set idx p }
  else s

/-- Run the slice: RR.c lines 135-136. -/
def runSlice (s : State) (idx : Nat) (time_quantum : Int) : State :=
  let p := procAt s.proc idx
  { s with
    proc := s.proc.set idx { p with remaining_time := p.remaining_time - exec_time s idx time_quantum }
    current_time := s.current_time + exec_time s idx time_quantum }

/-- Requeue or complete: RR.c lines 146-155. -/
def finish (s : State) (idx : Nat) : State :=
  if (procAt s.proc idx).remaining_time > 0 then
    { s with queue := s.queue ++ [idx] }
  else
    let p := procAt s.proc idx
    let p := { p with completion_time := s.current_time }
    let p := { p with turnaround_time := p.completion_time - p.arrival_time }
    let p := { p with waiting_time := p.turnaround_time - p.burst_time }
    { s with proc := s.proc.set idx p, completed := s.completed + 1 }

/-- The dispatch of `idx = queue[front++]`: RR.c lines 95-155. -/
def dispatch (time_quantum : Int) (s : State) : State :=
  let idx := queueAt s.queue s.front
  let s1 := { s with front := s.front + 1 }
  finish (enqueueArrivalsRem (runSlice (firstExec (admission s1 idx) idx) idx time_quantum)) idx

/-- One iteration of `while (completed < n)`: RR.c lines 84-155. -/
def step (time_quantum : Int) (s : State) : State :=
  if s.front = s.queue.length then idle s else dispatch time_quantum s

/-- The loop `while (completed < n)`, run for at most `fuel` iterations: `none` when the loop
has not exited by then. -/
def loop (time_quantum : Int) : Nat → State → Option State
  | 0, s => if s.completed < s.proc.length then none else some s
  | fuel + 1, s =>
    if s.completed < s.proc.length then loop time_quantum fuel (step time_quantum s) else some s

/-- The function `calculate_rr(proc, n, total_memory, time_quantum)` with `n = proc.length`, run
for at most `fuel` iterations of its loop. -/
def calculate_rr (proc : List Process) (total_memory : Int) (time_quantum : Int) (fuel : Nat) :
    Option State :=
  loop time_quantum fuel (init proc total_memory)

end RR

/-- What is known of a process that a non-preemptive simulation has run, `p0` being its record
on entry to the main loop. -/
structure DoneP (p0 p : Process) : Prop where
  pid : p.pid = p0.pid
  arrival : p.arrival_time = p0.arrival_time
  burst : p.burst_time = p0.burst_time
  memory : p.memory_required = p0.memory_required
  swapped_in : p.total_swap_time = SWAP_TIME
  start_ge : p.arrival_time + SWAP_TIME ≤ p.start_time
  completion : p.completion_time = p.start_time + p.burst_time
  turnaround : p.turnaround_time = p.completion_time - p.arrival_time
  waiting : p.waiting_time = p.turnaround_time - p.burst_time
  response : p.response_time = p.start_time - p.arrival_time

namespace FCFS
open Scheduling.FCFS

/-- Start time of the process dispatched by iteration `i` from state `s`. -/
def startOf (s : State) (i : Nat) : Int :=
  (makeRoom (idleJump s i) i).current_time + SWAP_TIME

/-- Invariant of the main loop at the boundary before iteration `k`; `sorted` is the array as
the sort left it. -/
structure Inv (sorted : List Process) (total : Int) (k : Nat) (s : State) : Prop where
  len : s.proc.length = sorted.length
  untouched : ∀ j, k ≤ j → procAt s.proc j = procAt sorted j
  done : ∀ j, j < k → DoneP (procAt sorted j) (procAt s.proc j)
  before : ∀ j, j < k → (procAt s.proc j).completion_time ≤ s.current_time
  completion_pos : ∀ j, j < k → 0 < (procAt s.proc j).completion_time
  order : ∀ j j', j < j' → j' < k →
    (procAt s.proc j).completion_time + SWAP_TIME ≤ (procAt s.proc j').start_time
  memory : s.available_memory + residentMemory s.proc = total
  time_nonneg : 0 ≤ s.current_time

end FCFS

namespace NP
open Scheduling.NP

/-- Start time of the process `idx` dispatched from state `s`. -/
def startOf (s : State) (idx : Nat) : Int :=
  (makeRoom s idx).current_time + SWAP_TIME

/-- The states at the iteration boundaries of `while (completed < n)` started from `s0`. -/
inductive Reach (select : List Process → Int → Int) (s0 : State) : State → Prop
  | init : Reach select s0 s0
  | step {s : State} : Reach select s0 s → s.completed < s.proc.length →
      Reach select s0 (step select s)

end NP

namespace NP
open Scheduling.NP

/-- Invariant of the loop `while (completed < n)` at its iteration boundaries; `proc0` is the
array on entry. -/
structure Inv (proc0 : List Process) (total : Int) (s : State) : Prop where
  len : s.proc.length = proc0.length
  pending : ∀ j, (procAt s.proc j).is_completed = 0 → procAt s.proc j = procAt proc0 j
  done : ∀ j, (procAt s.proc j).is_completed ≠ 0 → DoneP (procAt proc0 j) (procAt s.proc j)
  before : ∀ j, (procAt s.proc j).is_completed ≠ 0 →
    (procAt s.proc j).completion_time ≤ s.current_time
  order : ∀ j j', j ≠ j' → (procAt s.proc j).is_completed ≠ 0 →
    (procAt s.proc j').is_completed ≠ 0 →
    (procAt s.proc j).completion_time + SWAP_TIME ≤ (procAt s.proc j').start_time
      ∨ (procAt s.proc j').completion_time + SWAP_TIME ≤ (procAt s.proc j).start_time
  count : s.completed = doneCount s.proc
  memory : s.available_memory + residentMemory s.proc = total
  time_nonneg : 0 ≤ s.current_time

end NP

namespace RR
open Scheduling.RR

/-- The state after the admission block of a dispatch from `s` (RR.c lines 95-122). -/
def afterAdmission (s : State) : State :=
  admission { s with front := s.front + 1 } (queueAt s.queue s.front)

/-- The state after the slice of a dispatch from `s` (RR.c lines 95-136). -/
def afterSlice (time_quantum : Int) (s : State) : State :=
  runSlice (firstExec (afterAdmission s) (queueAt s.queue s.front)) (queueAt s.queue s.front)
    time_quantum

/-- The record of the dispatched process at the end of a dispatch from `s`. -/
def finalRec (time_quantum : Int) (s : State) : Process :=
  finishRec
    (sliceRec (firstRec (admissionRec (procAt s.proc (queueAt s.queue s.front)))
      (afterAdmission s).current_time) time_quantum)
    ((afterAdmission s).current_time
      + sliceLen (procAt s.proc (queueAt s.queue s.front)) time_quantum)

end RR

namespace RR
open Scheduling.RR

/-- What is known of a process that has been dispatched at least once, at clock value `t`. -/
structure Started (p : Process) (t : Int) : Prop where
  swapped_in : p.total_swap_time = SWAP_TIME
  first : p.first_execution ≠ 0
  start_ge : p.arrival_time + SWAP_TIME ≤ p.start_time
  response : p.response_time = p.start_time - p.arrival_time
  progress : p.start_time + (p.burst_time - p.remaining_time) ≤ t
  swapped_done : p.is_swapped ≠ 0 → p.remaining_time = 0
  completion : p.remaining_time = 0 →
    p.completion_time ≤ t ∧ p.start_time + p.burst_time ≤ p.completion_time
  turnaround : p.remaining_time = 0 → p.turnaround_time = p.completion_time - p.arrival_time
  waiting : p.remaining_time = 0 → p.waiting_time = p.turnaround_time - p.burst_time

/-- Invariant of the loop `while (completed < n)` of `calculate_rr` at its iteration boundaries;
`proc0` is the array on entry. -/
structure Inv (proc0 : List Process) (total : Int) (s : State) : Prop where
  len : s.proc.length = proc0.length
  vlen : s.visited.length = proc0.length
  pid : ∀ j, (procAt s.proc j).pid = (procAt proc0 j).pid
  arrival : ∀ j, (procAt s.proc j).arrival_time = (procAt proc0 j).arrival_time
  burst : ∀ j, (procAt s.proc j).burst_time = (procAt proc0 j).burst_time
  mem : ∀ j, (procAt s.proc j).memory_required = (procAt proc0 j).memory_required
  range : ∀ j, 0 ≤ (procAt s.proc j).remaining_time
    ∧ (procAt s.proc j).remaining_time ≤ (procAt s.proc j).burst_time
  unstarted : ∀ j, (procAt s.proc j).remaining_time = (procAt s.proc j).burst_time →
    procAt s.proc j = procAt proc0 j
  started : ∀ j, (procAt s.proc j).remaining_time < (procAt s.proc j).burst_time →
    Started (procAt s.proc j) s.current_time
  front_le : s.front ≤ s.queue.length
  queue_lt : ∀ q ∈ s.queue, q < proc0.length
  ready_ok : ∀ q ∈ ready s, visitedAt s.visited q ≠ 0 ∧ 0 < (procAt s.proc q).remaining_time
  ready_nodup : (ready s).Nodup
  in_ready : ∀ j, j < proc0.length → visitedAt s.visited j ≠ 0 →
    0 < (procAt s.proc j).remaining_time → j ∈ ready s
  visited_arrived : ∀ j, j < proc0.length → visitedAt s.visited j ≠ 0 →
    (procAt s.proc j).arrival_time ≤ s.current_time
  unvisited : ∀ j, j < proc0.length → visitedAt s.visited j = 0 →
    s.current_time < (procAt s.proc j).arrival_time
      ∧ (procAt s.proc j).remaining_time = (procAt s.proc j).burst_time
  count : s.completed = finishedCount s.proc
  memory : s.available_memory + residentMemory s.proc = total
  time_nonneg : 0 ≤ s.current_time

/-- The states at the iteration boundaries of `while (completed < n)` started from `s0`. -/
inductive Reach (time_quantum : Int) (s0 : State) : State → Prop
  | init : Reach time_quantum s0 s0
  | step {s : State} : Reach time_quantum s0 s → s.completed < s.proc.length →
      Reach time_quantum s0 (step time_quantum s)

end RR

namespace FCFS
open Scheduling.FCFS

/-- The state after the eviction scan of iteration `i` (fcfs.c lines 146-178), before the
swap-in. -/
def afterEviction (s : State) (i : Nat) : State :=
  makeRoom (idleJump s i) i

end FCFS

namespace RR
open Scheduling.RR

/-- The state after the eviction scan of a first dispatch (RR.c lines 95-114), before the
swap-in. -/
def afterEviction (s : State) : State :=
  makeRoom { s with front := s.front + 1 } (queueAt s.queue s.front)

end RR

namespace FCFS
open Scheduling.FCFS

/-- Outcome of iteration `k` of the main loop of `calculate_fcfs` from state `s` in degraded
mode: every earlier process has been swapped out by the eviction scan, the scan added the freed
memory to `available_memory`, the process is swapped in all the same, which leaves
`available_memory` negative, and it is executed to completion. -/
def DegradedOutcome (s : State) (k : Nat) : Prop :=
  (∀ j, j < k → (procAt (afterEviction s k).proc j).is_swapped ≠ 0)
    ∧ (afterEviction s k).available_memory
        = s.available_memory + freedMemory s.proc (afterEviction s k).proc
    ∧ (body s k).available_memory
        = s.available_memory + freedMemory s.proc (afterEviction s k).proc
          - (procAt s.proc k).memory_required
    ∧ (body s k).available_memory < 0
    ∧ (procAt (body s k).proc k).start_time = (afterEviction s k).current_time + SWAP_TIME
    ∧ (procAt (body s k).proc k).completion_time
        = (procAt (body s k).proc k).start_time + (procAt s.proc k).burst_time

end FCFS

namespace NP
open Scheduling.NP

/-- Outcome of the dispatch of process `i` from state `s` in `calculate_sjf` /
`calculate_priority` in degraded mode: every completed process has been swapped out by the
eviction scan, the scan added the freed memory to `available_memory`, the process is swapped in
all the same, which leaves `available_memory` negative, and it is executed to completion. -/
def DegradedOutcome (s : State) (i : Nat) : Prop :=
  (∀ j, j < s.proc.length → (procAt (makeRoom s i).proc j).is_completed ≠ 0 →
      (procAt (makeRoom s i).proc j).is_swapped ≠ 0)
    ∧ (makeRoom s i).available_memory
        = s.available_memory + freedMemory s.proc (makeRoom s i).proc
    ∧ (dispatch s i).available_memory
        = s.available_memory + freedMemory s.proc (makeRoom s i).proc
          - (procAt s.proc i).memory_required
    ∧ (dispatch s i).available_memory < 0
    ∧ (procAt (dispatch s i).proc i).start_time = (makeRoom s i).current_time + SWAP_TIME
    ∧ (procAt (dispatch s i).proc i).completion_time
        = (procAt (dispatch s i).proc i).start_time + (procAt s.proc i).burst_time
    ∧ (procAt (dispatch s i).proc i).is_completed ≠ 0

end NP

namespace RR
open Scheduling.RR

/-- Outcome of a first dispatch from state `s` in `calculate_rr` in degraded mode: every
finished process has been swapped out by the eviction scan, the scan added the freed memory to
`available_memory`, the process is swapped in all the same, which leaves `available_memory`
negative, and it runs its slice. -/
def DegradedOutcome (time_quantum : Int) (s : State) : Prop :=
  (∀ j, j < s.proc.length → (procAt (afterEviction s).proc j).remaining_time = 0 →
      (procAt (afterEviction s).proc j).is_swapped ≠ 0)
    ∧ (afterEviction s).available_memory
        = s.available_memory + freedMemory s.proc (afterEviction s).proc
    ∧ (dispatch time_quantum s).available_memory
        = s.available_memory + freedMemory s.proc (afterEviction s).proc
          - (procAt s.proc (queueAt s.queue s.front)).memory_required
    ∧ (dispatch time_quantum s).available_memory < 0
    ∧ (procAt (dispatch time_quantum s).proc (queueAt s.queue s.front)).total_swap_time
        = SWAP_TIME
    ∧ (procAt (dispatch time_quantum s).proc (queueAt s.queue s.front)).start_time
        = (afterEviction s).current_time + SWAP_TIME
    ∧ (procAt (dispatch time_quantum s).proc (queueAt s.queue s.front)).remaining_time
        = (procAt s.proc (queueAt s.queue s.front)).remaining_time
          - min (procAt s.proc (queueAt s.queue s.front)).remaining_time time_quantum

end RR

namespace SJF
open Scheduling.SJF

/-- Tie-break order of `calculate_sjf` in state `s`, `proc0` being the array on entry: when a
process `j` has been run, every process `i` of the same burst time that arrived strictly earlier
has been run too, and started before `j`. -/
def TieOrder (proc0 : List Process) (s : NP.State) : Prop :=
  ∀ i j, i < proc0.length → j < proc0.length →
    (procAt proc0 i).burst_time = (procAt proc0 j).burst_time →
    (procAt proc0 i).arrival_time < (procAt proc0 j).arrival_time →
    (procAt s.proc j).is_completed ≠ 0 →
    (procAt s.proc i).is_completed ≠ 0
      ∧ (procAt s.proc i).start_time < (procAt s.proc j).start_time

end SJF

/-- The accumulator `total_burst` of `print_performance_metrics` after its loop
(`total_burst += proc[i].burst_time`, all four programs). -/
def total_burst (proc : List Process) : Int :=
  proc.foldl (fun acc p => acc + p.burst_time) 0

namespace NP
open Scheduling.NP

/-- The clock accounts for the work done so far: the burst times of the processes run so far add
up to at most `current_time`, and to at most the completion time of one of them. -/
def Busy (s : State) : Prop :=
  doneBurst s.proc ≤ s.current_time
    ∧ (0 < s.completed → ∃ j, j < s.proc.length ∧ (procAt s.proc j).is_completed ≠ 0
        ∧ doneBurst s.proc ≤ (procAt s.proc j).completion_time)

end NP

namespace RR
open Scheduling.RR

/-- The clock accounts for the time executed so far, and when the loop is about to exit, the
clock is the completion time of a process. -/
def Busy (s : State) : Prop :=
  executed s.proc ≤ s.current_time
    ∧ (s.proc.length ≤ s.completed → 0 < s.proc.length →
        ∃ j, j < s.proc.length ∧ (procAt s.proc j).completion_time = s.current_time)

end RR

/-- The utilization figures of a final table `proc` with makespan `m`: `m` is positive, the
burst times add up to at most `m`, `m` is the maximum completion time, and the CPU utilization
is at most 100. -/
def UtilizationOK (proc : List Process) (m : Int) : Prop :=
  0 < m
    ∧ total_burst proc ≤ m
    ∧ (∀ p ∈ proc, p.completion_time ≤ m)
    ∧ (∃ p ∈ proc, p.completion_time = m)
    ∧ cpu_util (total_burst proc) m ≤ 100

namespace RR
open Scheduling.RR

/-- Number of preemptions of process `j` in the iteration run from state `s`: `1` when the
iteration dispatches `j` and `j` has time remaining at its end, else `0`. -/
def preemptions (time_quantum : Int) (s : State) (j : Nat) : Nat :=
  if s.front ≠ s.queue.length ∧ queueAt s.queue s.front = j
      ∧ 0 < (procAt (step time_quantum s).proc j).remaining_time then 1 else 0

end RR

namespace NP
open Scheduling.NP

/-- The sequence of dispatched indices of state `s` lists each completed process once. -/
def OrderOK (s : State) : Prop :=
  s.execution_order.Nodup
    ∧ ∀ j, j ∈ s.execution_order ↔ (j < s.proc.length ∧ (procAt s.proc j).is_completed ≠ 0)

end NP

end Exact

/-! # Theorems -/

namespace Exact

/-! ## Arrays -/

theorem procAt_cons_zero (x : Process) (l : List Process) : procAt (x :: l) 0 = x := by
  simp [procAt]

theorem procAt_cons_succ (x : Process) (l : List Process) (j : Nat) :
    procAt (x :: l) (j + 1) = procAt l j := by
  simp [procAt]

theorem procAt_of_lt {l : List Process} {i : Nat} (h : i < l.length) : procAt l i = l[i] := by
  simp [procAt, List.getElem?_eq_getElem h]

theorem procAt_mem {l : List Process} {i : Nat} (h : i < l.length) : procAt l i ∈ l := by
  rw [procAt_of_lt h]; exact List.getElem_mem h

theorem procAt_set (l : List Process) (i : Nat) (p : Process) (m : Nat) :
    procAt (l.set i p) m = if m = i ∧ i < l.length then p else procAt l m := by
  unfold procAt
  rw [List.getElem?_set]
  by_cases h : i = m
  · subst h
    by_cases h2 : i < l.length
    · simp [h2]
    · simp [h2, List.getElem?_eq_none (Nat.le_of_not_lt h2)]
  · have : ¬ m = i := fun e => h e.symm
    simp [h, this]

theorem procAt_set_self {l : List Process} {i : Nat} (p : Process) (h : i < l.length) :
    procAt (l.set i p) i = p := by
  simp [procAt_set, h]

theorem procAt_set_ne (l : List Process) {i m : Nat} (p : Process) (h : m ≠ i) :
    procAt (l.set i p) m = procAt l m := by
  simp [procAt_set, h]

theorem exists_procAt_of_mem {l : List Process} {p : Process} (h : p ∈ l) :
    ∃ i, i < l.length ∧ procAt l i = p := by
  obtain ⟨i, hi, he⟩ := List.getElem_of_mem h
  exact ⟨i, hi, by rw [procAt_of_lt hi]; exact he⟩

theorem residentMemory_set (l : List Process) (i : Nat) (p : Process) (h : i < l.length) :
    residentMemory (l.set i p) = residentMemory l - held (procAt l i) + held p := by
  induction l generalizing i with
  | nil => simp at h
  | cons x t ih =>
    cases i with
    | zero => simp [residentMemory, procAt]; ring
    | succ i =>
      have := ih i (by simpa using h)
      simp only [residentMemory, List.set_cons_succ, List.map_cons, List.sum_cons] at this ⊢
      rw [this]
      simp [procAt]
      ring

theorem residentMemory_eq_zero (l : List Process) (h : ∀ p ∈ l, p.total_swap_time = 0) :
    residentMemory l = 0 := by
  induction l with
  | nil => rfl
  | cons x t ih =>
    have hx := h x (by simp)
    have ht := ih (fun p hp => h p (by simp [hp]))
    simp only [residentMemory, List.map_cons, List.sum_cons] at ht ⊢
    rw [ht]
    simp [held, hx]

theorem DoneP.congr {p0 p q : Process} (h : noSwap q = noSwap p) (hp : DoneP p0 p) :
    DoneP p0 q := by
  cases p; cases q
  simp only [noSwap, Process.mk.injEq] at h
  obtain ⟨h1, h2, h3, h4, h5, h6, h7, h8, h9, h10, h11, -, -, h14, h15, h16, h17⟩ := h
  subst h1 h2 h3 h4 h5 h6 h7 h8 h9 h10 h11 h14 h15 h16 h17
  exact ⟨hp.pid, hp.arrival, hp.burst, hp.memory, hp.swapped_in, hp.start_ge, hp.completion,
    hp.turnaround, hp.waiting, hp.response⟩

theorem noSwap_completion {p q : Process} (h : noSwap q = noSwap p) :
    q.completion_time = p.completion_time := by
  have := congrArg Process.completion_time h
  exact this

theorem noSwap_start {p q : Process} (h : noSwap q = noSwap p) :
    q.start_time = p.start_time := by
  have := congrArg Process.start_time h
  exact this

theorem noSwap_is_completed {p q : Process} (h : noSwap q = noSwap p) :
    q.is_completed = p.is_completed := by
  have := congrArg Process.is_completed h
  exact this

theorem noSwap_total_swap_time {p q : Process} (h : noSwap q = noSwap p) :
    q.total_swap_time = p.total_swap_time := by
  have := congrArg Process.total_swap_time h
  exact this

theorem map_eq_of_procAt {β : Type} (g : Process → β) {l l' : List Process}
    (hlen : l.length = l'.length) (h : ∀ m, g (procAt l m) = g (procAt l' m)) :
    l.map g = l'.map g := by
  apply List.ext_getElem (by simpa using hlen)
  intro n h1 h2
  have h1' : n < l.length := by simpa using h1
  have h2' : n < l'.length := by simpa using h2
  have := h n
  rw [procAt_of_lt h1', procAt_of_lt h2'] at this
  simpa using this

theorem doneCount_congr {l l' : List Process} (hlen : l.length = l'.length)
    (h : ∀ m, (procAt l m).is_completed = (procAt l' m).is_completed) :
    doneCount l = doneCount l' := by
  have hm := map_eq_of_procAt (fun p => decide (p.is_completed ≠ 0)) hlen
    (fun m => by simp only [h m])
  have e : ∀ l : List Process, doneCount l
      = List.countP (fun b => b) (l.map (fun p => decide (p.is_completed ≠ 0))) := by
    intro l; rw [List.countP_map]; rfl
  rw [e, e, hm]

theorem doneCount_set (l : List Process) (i : Nat) (p : Process) (hi : i < l.length)
    (h0 : (procAt l i).is_completed = 0) (h1 : p.is_completed ≠ 0) :
    doneCount (l.set i p) = doneCount l + 1 := by
  unfold doneCount
  rw [List.countP_set _ _ _ _ hi]
  rw [procAt_of_lt hi] at h0
  simp [h0, h1]

theorem doneCount_le (l : List Process) : doneCount l ≤ l.length := List.countP_le_length _

theorem all_done_of_doneCount {l : List Process} (h : l.length ≤ doneCount l) :
    ∀ p ∈ l, p.is_completed ≠ 0 := by
  have he : doneCount l = l.length := le_antisymm (doneCount_le l) h
  intro p hp
  have := (List.countP_eq_length.mp he) p hp
  simpa using this

theorem exists_pending_of_doneCount {l : List Process} (h : doneCount l < l.length) :
    ∃ i, i < l.length ∧ (procAt l i).is_completed = 0 := by
  by_contra hcon
  have hall : ∀ a ∈ l, (fun p : Process => decide (p.is_completed ≠ 0)) a = true := by
    intro a ha
    obtain ⟨i, hi, he⟩ := exists_procAt_of_mem ha
    by_contra hn
    exact hcon ⟨i, hi, by rw [he]; simpa using hn⟩
  have := List.countP_eq_length.mpr hall
  unfold doneCount at h
  omega

/-! ## The sort of `calculate_fcfs` -/

namespace FCFS
open Scheduling.FCFS

theorem swapStep_zero (x y : Process) (rest : List Process) :
    swapStep (x :: y :: rest) 0
      = if x.arrival_time > y.arrival_time then y :: x :: rest else x :: y :: rest := by
  simp [swapStep, procAt_cons_zero, procAt_cons_succ]

theorem swapStep_succ (x : Process) (l : List Process) (j : Nat) :
    swapStep (x :: l) (j + 1) = x :: swapStep l j := by
  simp only [swapStep, procAt_cons_succ]
  split <;> simp

theorem foldl_swapStep_cons (x : Process) (l : List Process) (js : List Nat) :
    (js.map Nat.succ).foldl swapStep (x :: l) = x :: js.foldl swapStep l := by
  induction js generalizing l with
  | nil => rfl
  | cons j js ih => simp only [List.map_cons, List.foldl_cons, Nat.succ_eq_add_one, swapStep_succ]; exact ih _

theorem pass_succ (m : Nat) (x y : Process) (rest : List Process) :
    (List.range (m + 1)).foldl swapStep (x :: y :: rest)
      = if x.arrival_time > y.arrival_time then
          y :: (List.range m).foldl swapStep (x :: rest)
        else x :: (List.range m).foldl swapStep (y :: rest) := by
  rw [List.range_succ_eq_map, List.foldl_cons, swapStep_zero]
  split <;> exact foldl_swapStep_cons _ _ _

theorem pass_perm (m : Nat) (l : List Process) (h : m + 1 ≤ l.length) :
    ((List.range m).foldl swapStep l).Perm l := by
  induction m generalizing l with
  | zero => exact List.Perm.refl _
  | succ m ih =>
    match l, h with
    | x :: y :: rest, h =>
      rw [pass_succ]
      split
      · exact ((ih (x :: rest) (by simp at h ⊢; omega)).cons y).trans (List.Perm.swap x y rest)
      · exact (ih (y :: rest) (by simp at h ⊢; omega)).cons x

theorem pass_filter (a : Int) (m : Nat) (l : List Process) (h : m + 1 ≤ l.length) :
    ((List.range m).foldl swapStep l).filter (fun p => decide (p.arrival_time = a))
      = l.filter (fun p => decide (p.arrival_time = a)) := by
  induction m generalizing l with
  | zero => rfl
  | succ m ih =>
    match l, h with
    | x :: y :: rest, h =>
      rw [pass_succ]
      split
      · rename_i hxy
        have hx := ih (x :: rest) (by simp at h ⊢; omega)
        by_cases h1 : x.arrival_time = a <;> by_cases h2 : y.arrival_time = a
        · omega
        · simp only [List.filter_cons, h2, decide_False, Bool.false_eq_true, if_false, hx]
        · simp only [List.filter_cons, h1, decide_False, Bool.false_eq_true, if_false] at hx ⊢
          simp [hx]
        · simp only [List.filter_cons, h2, h1, decide_False, Bool.false_eq_true, if_false] at hx ⊢
          exact hx
      · have hy := ih (y :: rest) (by simp at h ⊢; omega)
        simp only [List.filter_cons, hy]

theorem pass_append (m : Nat) (P S : List Process) (h : m + 1 ≤ P.length) :
    (List.range m).foldl swapStep (P ++ S) = (List.range m).foldl swapStep P ++ S := by
  induction m generalizing P with
  | zero => rfl
  | succ m ih =>
    match P, h with
    | x :: y :: rest, h =>
      simp only [List.cons_append, pass_succ]
      split
      · rw [← List.cons_append, ih (x :: rest) (by simp at h ⊢; omega)]; rfl
      · rw [← List.cons_append, ih (y :: rest) (by simp at h ⊢; omega)]; rfl

theorem pass_last_max (m : Nat) (l : List Process) (h : m + 1 = l.length) :
    ∃ front mx, (List.range m).foldl swapStep l = front ++ [mx]
      ∧ ∀ x ∈ front, x.arrival_time ≤ mx.arrival_time := by
  induction m generalizing l with
  | zero =>
    cases l with
    | nil => simp at h
    | cons x t =>
      cases t with
      | nil => exact ⟨[], x, rfl, by simp⟩
      | cons y t => simp at h
  | succ m ih =>
    cases l with
    | nil => simp at h
    | cons x t =>
    cases t with
    | nil => simp at h
    | cons y rest =>
      rw [pass_succ]
      split
      · rename_i hxy
        obtain ⟨front, mx, he, hmx⟩ := ih (x :: rest) (by simp at h ⊢; omega)
        refine ⟨y :: front, mx, by rw [he]; rfl, ?_⟩
        intro z hz
        have hxin : x ∈ front ++ [mx] := by
          rw [← he]; exact (pass_perm m (x :: rest) (by simp at h ⊢; omega)).mem_iff.mpr (by simp)
        have hxle : x.arrival_time ≤ mx.arrival_time := by
          rcases List.mem_append.mp hxin with h1 | h1
          · exact hmx x h1
          · simp at h1; subst h1; exact le_refl _
        rcases List.mem_cons.mp hz with h1 | h1
        · subst h1; omega
        · exact hmx z h1
      · rename_i hxy
        obtain ⟨front, mx, he, hmx⟩ := ih (y :: rest) (by simp at h ⊢; omega)
        refine ⟨x :: front, mx, by rw [he]; rfl, ?_⟩
        intro z hz
        have hyin : y ∈ front ++ [mx] := by
          rw [← he]; exact (pass_perm m (y :: rest) (by simp at h ⊢; omega)).mem_iff.mpr (by simp)
        have hyle : y.arrival_time ≤ mx.arrival_time := by
          rcases List.mem_append.mp hyin with h1 | h1
          · exact hmx y h1
          · simp at h1; subst h1; exact le_refl _
        rcases List.mem_cons.mp hz with h1 | h1
        · subst h1; omega
        · exact hmx z h1

theorem outer_inv (l : List Process) (i : Nat) (hi : i + 1 ≤ l.length) :
    ∃ P S, (List.range i).foldl innerPass l = P ++ S ∧ S.length = i
      ∧ S.Pairwise arrLe ∧ (∀ p ∈ P, ∀ s ∈ S, p.arrival_time ≤ s.arrival_time)
      ∧ ((List.range i).foldl innerPass l).Perm l
      ∧ ∀ a : Int, ((List.range i).foldl innerPass l).filter (fun p => decide (p.arrival_time = a))
          = l.filter (fun p => decide (p.arrival_time = a)) := by
  induction i with
  | zero => exact ⟨l, [], by simp, rfl, List.Pairwise.nil, by simp, List.Perm.refl _, fun _ => rfl⟩
  | succ i ih =>
    obtain ⟨P, S, he, hS, hsorted, hdom, hperm, hfil⟩ := ih (by omega)
    rw [List.range_succ, List.foldl_append, List.foldl_cons, List.foldl_nil]
    have hlen : ((List.range i).foldl innerPass l).length = l.length := hperm.length_eq
    have hP : P.length = l.length - i := by
      have := congrArg List.length he
      rw [hlen, List.length_append] at this
      omega
    have hm : l.length - i - 1 + 1 = P.length := by omega
    clear ih
    generalize (List.range i).foldl innerPass l = L at he hperm hfil hlen ⊢
    subst he
    unfold innerPass
    rw [hlen, pass_append _ _ _ (by omega)]
    obtain ⟨front, mx, hpass, hmax⟩ := pass_last_max (l.length - i - 1) P hm
    have hpp : ((List.range (l.length - i - 1)).foldl swapStep P).Perm P :=
      pass_perm _ _ (by omega)
    have hmxP : mx ∈ P := hpp.mem_iff.mp (by rw [hpass]; simp)
    have hfrontP : ∀ x ∈ front, x ∈ P := fun x hx =>
      hpp.mem_iff.mp (by rw [hpass]; exact List.mem_append_left _ hx)
    refine ⟨front, mx :: S, ?_, by simp [hS], ?_, ?_, ?_, ?_⟩
    · rw [hpass]; simp
    · exact List.Pairwise.cons (fun s hs => hdom mx hmxP s hs) hsorted
    · intro p hp s hs
      rcases List.mem_cons.mp hs with h1 | h1
      · subst h1; exact hmax p hp
      · exact hdom p (hfrontP p hp) s h1
    · have : ((List.range (l.length - i - 1)).foldl swapStep P ++ S).Perm (P ++ S) :=
        hpp.append_right S
      exact this.trans hperm
    · intro a
      rw [List.filter_append, pass_filter a _ P (by omega), ← List.filter_append]
      exact hfil a

theorem sortByArrival_perm (l : List Process) : (sortByArrival l).Perm l := by
  unfold sortByArrival
  by_cases h : l.length = 0
  · simp [h]
  · exact (outer_inv l (l.length - 1) (by omega)).choose_spec.choose_spec.2.2.2.2.1

theorem sortByArrival_filter (l : List Process) (a : Int) :
    (sortByArrival l).filter (fun p => decide (p.arrival_time = a))
      = l.filter (fun p => decide (p.arrival_time = a)) := by
  unfold sortByArrival
  by_cases h : l.length = 0
  · simp [h]
  · exact (outer_inv l (l.length - 1) (by omega)).choose_spec.choose_spec.2.2.2.2.2 a

theorem sortByArrival_sorted (l : List Process) : (sortByArrival l).Pairwise arrLe := by
  unfold sortByArrival
  by_cases h : l.length = 0
  · simp [h, List.length_eq_zero.mp h]
  · obtain ⟨P, S, he, hS, hsorted, hdom, hperm, -⟩ := outer_inv l (l.length - 1) (by omega)
    rw [he]
    have hP : P.length = 1 := by
      have := congrArg List.length he
      rw [hperm.length_eq, List.length_append] at this
      omega
    have hP1 : P.Pairwise arrLe := by
      cases P with
      | nil => exact List.Pairwise.nil
      | cons p t =>
        cases t with
        | nil => exact List.pairwise_singleton _ _
        | cons q t => simp at hP
    exact List.pairwise_append.mpr ⟨hP1, hsorted, fun p hp s hs => hdom p hp s hs⟩

theorem sortByArrival_length (l : List Process) : (sortByArrival l).length = l.length :=
  (sortByArrival_perm l).length_eq

end FCFS

/-! ## The main loop of `calculate_fcfs` -/

namespace FCFS
open Scheduling.FCFS

@[simp] theorem idleJump_proc (s : State) (i : Nat) : (idleJump s i).proc = s.proc := by
  unfold idleJump; split <;> rfl

@[simp] theorem idleJump_available (s : State) (i : Nat) :
    (idleJump s i).available_memory = s.available_memory := by
  unfold idleJump; split <;> rfl

theorem idleJump_time (s : State) (i : Nat) :
    s.current_time ≤ (idleJump s i).current_time
      ∧ (procAt s.proc i).arrival_time ≤ (idleJump s i).current_time := by
  unfold idleJump; split <;> simp <;> omega

@[simp] theorem fcfs_swapOut_length (s : State) (j : Nat) :
    (swapOut s j).proc.length = s.proc.length := by
  simp [swapOut]

theorem fcfs_swapOut_noSwap (s : State) (j m : Nat) :
    noSwap (procAt (swapOut s j).proc m) = noSwap (procAt s.proc m) := by
  simp only [swapOut, procAt_set]
  split
  · rename_i h; rw [h.1]; rfl
  · rfl

theorem fcfs_swapOutScan_length (i : Nat) (js : List Nat) (s : State) :
    (swapOutScan i js s).proc.length = s.proc.length := by
  induction js generalizing s with
  | nil => rfl
  | cons j js ih =>
    simp only [swapOutScan]
    split
    · split
      · simp
      · rw [ih]; simp
    · exact ih s

theorem fcfs_swapOutScan_noSwap (i : Nat) (js : List Nat) (s : State) (m : Nat) :
    noSwap (procAt (swapOutScan i js s).proc m) = noSwap (procAt s.proc m) := by
  induction js generalizing s with
  | nil => rfl
  | cons j js ih =>
    simp only [swapOutScan]
    split
    · split
      · exact fcfs_swapOut_noSwap s j m
      · rw [ih]; exact fcfs_swapOut_noSwap s j m
    · exact ih s

theorem fcfs_swapOutScan_time (i : Nat) (js : List Nat) (s : State) :
    s.current_time ≤ (swapOutScan i js s).current_time := by
  induction js generalizing s with
  | nil => exact le_refl _
  | cons j js ih =>
    simp only [swapOutScan]
    split
    · split
      · simp [swapOut, SWAP_TIME]
      · refine le_trans ?_ (ih _); simp [swapOut, SWAP_TIME]
    · exact ih s

/-- Entries outside the scanned indices are not touched. -/
theorem fcfs_swapOutScan_other (i : Nat) (js : List Nat) (s : State) (m : Nat) (hm : m ∉ js) :
    procAt (swapOutScan i js s).proc m = procAt s.proc m := by
  induction js generalizing s with
  | nil => rfl
  | cons j js ih =>
    have hmj : m ≠ j := fun e => hm (by simp [e])
    have hmjs : m ∉ js := fun e => hm (by simp [e])
    have hso : procAt (swapOut s j).proc m = procAt s.proc m := by
      simp [swapOut, procAt_set, hmj]
    simp only [swapOutScan]
    split
    · split
      · exact hso
      · rw [ih _ hmjs]; exact hso
    · exact ih s hmjs

theorem fcfs_swapOut_memory (s : State) (j : Nat) (hj : j < s.proc.length)
    (hin : (procAt s.proc j).total_swap_time ≠ 0) (hsw : (procAt s.proc j).is_swapped = 0) :
    (swapOut s j).available_memory + residentMemory (swapOut s j).proc
      = s.available_memory + residentMemory s.proc := by
  simp only [swapOut]
  rw [residentMemory_set _ _ _ hj]
  simp [held, hin, hsw]

theorem fcfs_swapOutScan_memory (i : Nat) (js : List Nat) (s : State)
    (hjs : ∀ j ∈ js, j < s.proc.length)
    (hin : ∀ j ∈ js, (procAt s.proc j).total_swap_time ≠ 0) :
    (swapOutScan i js s).available_memory + residentMemory (swapOutScan i js s).proc
      = s.available_memory + residentMemory s.proc := by
  induction js generalizing s with
  | nil => rfl
  | cons j js ih =>
    have hj := hjs j (by simp)
    have hjin := hin j (by simp)
    have hjs' : ∀ k ∈ js, k < (swapOut s j).proc.length := fun k hk => by
      simpa using hjs k (by simp [hk])
    have hin' : ∀ k ∈ js, (procAt (swapOut s j).proc k).total_swap_time ≠ 0 := fun k hk => by
      have := congrArg Process.total_swap_time (fcfs_swapOut_noSwap s j k)
      simp only [noSwap] at this
      rw [this]; exact hin k (by simp [hk])
    simp only [swapOutScan]
    split
    · rename_i hc
      split
      · exact fcfs_swapOut_memory s j hj hjin hc.2.2
      · rw [ih _ hjs' hin']; exact fcfs_swapOut_memory s j hj hjin hc.2.2
    · exact ih s (fun k hk => hjs k (by simp [hk])) (fun k hk => hin k (by simp [hk]))

theorem fcfs_makeRoom_length (s : State) (i : Nat) : (makeRoom s i).proc.length = s.proc.length := by
  unfold makeRoom; split
  · exact fcfs_swapOutScan_length _ _ _
  · rfl

theorem fcfs_makeRoom_noSwap (s : State) (i m : Nat) :
    noSwap (procAt (makeRoom s i).proc m) = noSwap (procAt s.proc m) := by
  unfold makeRoom; split
  · exact fcfs_swapOutScan_noSwap _ _ _ _
  · rfl

theorem fcfs_makeRoom_time (s : State) (i : Nat) : s.current_time ≤ (makeRoom s i).current_time := by
  unfold makeRoom; split
  · exact fcfs_swapOutScan_time _ _ _
  · exact le_refl _

theorem fcfs_makeRoom_other (s : State) (i m : Nat) (hm : i ≤ m) :
    procAt (makeRoom s i).proc m = procAt s.proc m := by
  unfold makeRoom; split
  · exact fcfs_swapOutScan_other _ _ _ _ (by simp; omega)
  · rfl

theorem fcfs_makeRoom_memory (s : State) (i : Nat) (hi : i ≤ s.proc.length)
    (hin : ∀ j < i, (procAt s.proc j).total_swap_time ≠ 0) :
    (makeRoom s i).available_memory + residentMemory (makeRoom s i).proc
      = s.available_memory + residentMemory s.proc := by
  unfold makeRoom; split
  · exact fcfs_swapOutScan_memory _ _ _ (fun j hj => by simp at hj; omega)
      (fun j hj => hin j (by simpa using hj))
  · rfl

theorem fcfs_body_length (s : State) (i : Nat) : (body s i).proc.length = s.proc.length := by
  simp [body, execute, swapIn, fcfs_makeRoom_length]

theorem fcfs_body_self (s : State) (i : Nat) (hi : i < s.proc.length) :
    procAt (body s i).proc i = ranRecord (procAt s.proc i) (startOf s i) := by
  have h2 : i < (makeRoom (idleJump s i) i).proc.length := by simpa [fcfs_makeRoom_length] using hi
  have h3 : procAt (makeRoom (idleJump s i) i).proc i = procAt s.proc i := by
    rw [fcfs_makeRoom_other _ _ _ (le_refl _)]; simp
  simp only [body, execute, swapIn]
  rw [procAt_set_self _ (by simpa using h2), procAt_set_self _ h2, h3]
  rfl

theorem fcfs_body_other (s : State) (i m : Nat) (hm : m ≠ i) :
    procAt (body s i).proc m = procAt (makeRoom (idleJump s i) i).proc m := by
  simp only [body, execute, swapIn]
  rw [procAt_set_ne _ _ hm, procAt_set_ne _ _ hm]

theorem fcfs_body_time (s : State) (i : Nat) (hi : i < s.proc.length) :
    (body s i).current_time = startOf s i + (procAt s.proc i).burst_time := by
  have h2 : i < (makeRoom (idleJump s i) i).proc.length := by simpa [fcfs_makeRoom_length] using hi
  have h3 : procAt (makeRoom (idleJump s i) i).proc i = procAt s.proc i := by
    rw [fcfs_makeRoom_other _ _ _ (le_refl _)]; simp
  simp only [body, execute, swapIn]
  rw [procAt_set_self _ h2, h3]
  rfl

theorem fcfs_startOf_ge (s : State) (i : Nat) :
    s.current_time + SWAP_TIME ≤ startOf s i
      ∧ (procAt s.proc i).arrival_time + SWAP_TIME ≤ startOf s i := by
  have h1 := idleJump_time s i
  have h2 := fcfs_makeRoom_time (idleJump s i) i
  unfold startOf
  constructor <;> omega

theorem fcfs_body_memory (s : State) (i : Nat) (hi : i < s.proc.length)
    (hin : ∀ j < i, (procAt s.proc j).total_swap_time ≠ 0)
    (hfresh : (procAt s.proc i).total_swap_time = 0) (hsw : (procAt s.proc i).is_swapped = 0) :
    (body s i).available_memory + residentMemory (body s i).proc
      = s.available_memory + residentMemory s.proc := by
  have h2 : i < (makeRoom (idleJump s i) i).proc.length := by simpa [fcfs_makeRoom_length] using hi
  have h3 : procAt (makeRoom (idleJump s i) i).proc i = procAt s.proc i := by
    rw [fcfs_makeRoom_other _ _ _ (le_refl _)]; simp
  have hm := fcfs_makeRoom_memory (idleJump s i) i (by simpa using hi.le) (by simpa using hin)
  simp only [idleJump_available, idleJump_proc] at hm
  rw [← hm]
  simp only [body, execute, swapIn]
  rw [residentMemory_set _ _ _ (by simpa using h2), residentMemory_set _ _ _ h2,
    procAt_set_self _ h2, h3]
  simp [held, hfresh, hsw, SWAP_TIME]

theorem fcfs_stateAt_succ (proc : List Process) (total : Int) (k : Nat) :
    stateAt proc total (k + 1) = body (stateAt proc total k) k := by
  simp [stateAt, List.range_succ, List.foldl_append]

theorem Inv.fcfs_body {sorted : List Process} {total : Int} {k : Nat} {s : State}
    (h : Inv sorted total k s) (hk : k < sorted.length)
    (hburst : 0 ≤ (procAt sorted k).burst_time)
    (hts : (procAt sorted k).total_swap_time = 0) (hsw : (procAt sorted k).is_swapped = 0) :
    Inv sorted total (k + 1) (body s k) := by
  have hks : k < s.proc.length := by rw [h.len]; exact hk
  have hself := fcfs_body_self s k hks
  rw [h.untouched k (le_refl _)] at hself
  have hother : ∀ m, m ≠ k → noSwap (procAt (FCFS.body s k).proc m) = noSwap (procAt s.proc m) := by
    intro m hm
    rw [fcfs_body_other s k m hm, fcfs_makeRoom_noSwap]; simp
  have hst := fcfs_startOf_ge s k
  rw [h.untouched k (le_refl _)] at hst
  have htime := fcfs_body_time s k hks
  rw [h.untouched k (le_refl _)] at htime
  refine ⟨?_, ?_, ?_, ?_, ?_, ?_, ?_, ?_⟩
  · rw [fcfs_body_length]; exact h.len
  · intro j hj
    rw [fcfs_body_other s k j (by omega), fcfs_makeRoom_other _ _ _ (by omega)]
    simpa using h.untouched j (by omega)
  · intro j hj
    by_cases hjk : j = k
    · subst hjk
      rw [hself]
      exact ⟨rfl, rfl, rfl, rfl, rfl, hst.2, rfl, rfl, rfl, rfl⟩
    · exact (h.done j (by omega)).congr (hother j hjk)
  · intro j hj
    by_cases hjk : j = k
    · subst hjk
      rw [hself, htime]; exact le_refl _
    · rw [noSwap_completion (hother j hjk), htime]
      have := h.before j (by omega)
      simp only [SWAP_TIME] at hst
      omega
  · intro j hj
    by_cases hjk : j = k
    · subst hjk
      rw [hself]
      have := h.time_nonneg
      simp only [ranRecord, SWAP_TIME] at hst ⊢
      omega
    · rw [noSwap_completion (hother j hjk)]
      exact h.completion_pos j (by omega)
  · intro j j' hjj hj'
    have hjk : j ≠ k := by omega
    rw [noSwap_completion (hother j hjk)]
    by_cases hj'k : j' = k
    · subst hj'k
      rw [hself]
      have := h.before j (by omega)
      simp only [ranRecord, SWAP_TIME] at hst ⊢
      omega
    · rw [noSwap_start (hother j' hj'k)]
      exact h.order j j' hjj (by omega)
  · rw [fcfs_body_memory s k hks (fun j hj => by
      rw [(h.done j hj).swapped_in]; decide) (by rw [h.untouched k (le_refl _)]; exact hts)
      (by rw [h.untouched k (le_refl _)]; exact hsw)]
    exact h.memory
  · rw [htime]
    have := h.time_nonneg
    simp only [SWAP_TIME] at hst
    omega

theorem Inv.fcfs_init (proc : List Process) (total : Int)
    (hts : ∀ p ∈ proc, p.total_swap_time = 0) :
    Inv (sortByArrival proc) total 0 (FCFS.init proc total) := by
  refine ⟨rfl, fun _ _ => rfl, fun _ h => absurd h (Nat.not_lt_zero _),
    fun _ h => absurd h (Nat.not_lt_zero _), fun _ h => absurd h (Nat.not_lt_zero _),
    fun _ _ _ h => absurd h (Nat.not_lt_zero _), ?_, le_refl _⟩
  simp only [FCFS.init]
  rw [residentMemory_eq_zero]
  · simp
  · intro p hp
    exact hts p ((sortByArrival_perm proc).mem_iff.mp hp)

end FCFS

namespace NP
open Scheduling.NP

@[simp] theorem np_swapOut_length (s : State) (j : Nat) :
    (swapOut s j).proc.length = s.proc.length := by
  simp [swapOut]

theorem np_swapOut_noSwap (s : State) (j m : Nat) :
    noSwap (procAt (swapOut s j).proc m) = noSwap (procAt s.proc m) := by
  simp only [swapOut, procAt_set]
  split
  · rename_i h; rw [h.1]; rfl
  · rfl

theorem np_swapOutScan_length (idx : Nat) (js : List Nat) (s : State) :
    (swapOutScan idx js s).proc.length = s.proc.length := by
  induction js generalizing s with
  | nil => rfl
  | cons j js ih =>
    simp only [swapOutScan]
    split
    · split
      · simp
      · rw [ih]; simp
    · exact ih s

theorem np_swapOutScan_noSwap (idx : Nat) (js : List Nat) (s : State) (m : Nat) :
    noSwap (procAt (swapOutScan idx js s).proc m) = noSwap (procAt s.proc m) := by
  induction js generalizing s with
  | nil => rfl
  | cons j js ih =>
    simp only [swapOutScan]
    split
    · split
      · exact np_swapOut_noSwap s j m
      · rw [ih]; exact np_swapOut_noSwap s j m
    · exact ih s

theorem np_swapOutScan_time (idx : Nat) (js : List Nat) (s : State) :
    s.current_time ≤ (swapOutScan idx js s).current_time := by
  induction js generalizing s with
  | nil => exact le_refl _
  | cons j js ih =>
    simp only [swapOutScan]
    split
    · split
      · simp [swapOut, SWAP_TIME]
      · refine le_trans ?_ (ih _); simp [swapOut, SWAP_TIME]
    · exact ih s

theorem np_swapOutScan_completed (idx : Nat) (js : List Nat) (s : State) :
    (swapOutScan idx js s).completed = s.completed
      ∧ (swapOutScan idx js s).execution_order = s.execution_order := by
  induction js generalizing s with
  | nil => exact ⟨rfl, rfl⟩
  | cons j js ih =>
    simp only [swapOutScan]
    split
    · split
      · exact ⟨rfl, rfl⟩
      · exact ih _
    · exact ih s

/-- A process that is not completed is not touched by the eviction scan. -/
theorem np_swapOutScan_pending (idx : Nat) (js : List Nat) (s : State) (m : Nat)
    (hm : (procAt s.proc m).is_completed = 0) :
    procAt (swapOutScan idx js s).proc m = procAt s.proc m := by
  induction js generalizing s with
  | nil => rfl
  | cons j js ih =>
    simp only [swapOutScan]
    split
    · rename_i hc
      have hmj : m ≠ j := fun e => hc.1 (e ▸ hm)
      have hso : procAt (swapOut s j).proc m = procAt s.proc m := by
        simp [swapOut, procAt_set, hmj]
      split
      · exact hso
      · rw [ih _ (by rw [hso]; exact hm)]; exact hso
    · exact ih s hm

theorem np_swapOut_memory (s : State) (j : Nat) (hj : j < s.proc.length)
    (hin : (procAt s.proc j).total_swap_time ≠ 0) (hsw : (procAt s.proc j).is_swapped = 0) :
    (swapOut s j).available_memory + residentMemory (swapOut s j).proc
      = s.available_memory + residentMemory s.proc := by
  simp only [swapOut]
  rw [residentMemory_set _ _ _ hj]
  simp [held, hin, hsw]

theorem np_swapOutScan_memory (idx : Nat) (js : List Nat) (s : State)
    (hjs : ∀ j ∈ js, j < s.proc.length)
    (hin : ∀ j, (procAt s.proc j).is_completed ≠ 0 → (procAt s.proc j).total_swap_time ≠ 0) :
    (swapOutScan idx js s).available_memory + residentMemory (swapOutScan idx js s).proc
      = s.available_memory + residentMemory s.proc := by
  induction js generalizing s with
  | nil => rfl
  | cons j js ih =>
    have hj := hjs j (by simp)
    have hjs' : ∀ k ∈ js, k < (swapOut s j).proc.length := fun k hk => by
      simpa using hjs k (by simp [hk])
    have hin' : ∀ k, (procAt (swapOut s j).proc k).is_completed ≠ 0 →
        (procAt (swapOut s j).proc k).total_swap_time ≠ 0 := fun k => by
      have h1 := congrArg Process.total_swap_time (np_swapOut_noSwap s j k)
      have h2 := congrArg Process.is_completed (np_swapOut_noSwap s j k)
      simp only [noSwap] at h1 h2
      rw [h1, h2]; exact hin k
    simp only [swapOutScan]
    split
    · rename_i hc
      split
      · exact np_swapOut_memory s j hj (hin j hc.1) hc.2
      · rw [ih _ hjs' hin']; exact np_swapOut_memory s j hj (hin j hc.1) hc.2
    · exact ih s (fun k hk => hjs k (by simp [hk])) hin

theorem np_makeRoom_length (s : State) (i : Nat) : (makeRoom s i).proc.length = s.proc.length := by
  unfold makeRoom; split
  · exact np_swapOutScan_length _ _ _
  · rfl

theorem np_makeRoom_noSwap (s : State) (i m : Nat) :
    noSwap (procAt (makeRoom s i).proc m) = noSwap (procAt s.proc m) := by
  unfold makeRoom; split
  · exact np_swapOutScan_noSwap _ _ _ _
  · rfl

theorem np_makeRoom_time (s : State) (i : Nat) : s.current_time ≤ (makeRoom s i).current_time := by
  unfold makeRoom; split
  · exact np_swapOutScan_time _ _ _
  · exact le_refl _

theorem np_makeRoom_completed (s : State) (i : Nat) :
    (makeRoom s i).completed = s.completed
      ∧ (makeRoom s i).execution_order = s.execution_order := by
  unfold makeRoom; split
  · exact np_swapOutScan_completed _ _ _
  · exact ⟨rfl, rfl⟩

theorem np_makeRoom_pending (s : State) (i m : Nat) (hm : (procAt s.proc m).is_completed = 0) :
    procAt (makeRoom s i).proc m = procAt s.proc m := by
  unfold makeRoom; split
  · exact np_swapOutScan_pending _ _ _ _ hm
  · rfl

theorem np_makeRoom_memory (s : State) (i : Nat)
    (hin : ∀ j, (procAt s.proc j).is_completed ≠ 0 → (procAt s.proc j).total_swap_time ≠ 0) :
    (makeRoom s i).available_memory + residentMemory (makeRoom s i).proc
      = s.available_memory + residentMemory s.proc := by
  unfold makeRoom; split
  · exact np_swapOutScan_memory _ _ _ (fun j hj => by simpa using hj) hin
  · rfl

theorem np_dispatch_length (s : State) (i : Nat) : (dispatch s i).proc.length = s.proc.length := by
  simp [dispatch, execute, swapIn, np_makeRoom_length]

theorem np_dispatch_self (s : State) (i : Nat) (hi : i < s.proc.length)
    (hp : (procAt s.proc i).is_completed = 0) :
    procAt (dispatch s i).proc i = ranRecord (procAt s.proc i) (startOf s i) := by
  have h2 : i < (makeRoom s i).proc.length := by simpa [np_makeRoom_length] using hi
  have h3 : procAt (makeRoom s i).proc i = procAt s.proc i := np_makeRoom_pending s i i hp
  simp only [dispatch, execute, swapIn]
  rw [procAt_set_self _ (by simpa using h2), procAt_set_self _ h2, h3]
  rfl

theorem np_dispatch_other (s : State) (i m : Nat) (hm : m ≠ i) :
    procAt (dispatch s i).proc m = procAt (makeRoom s i).proc m := by
  simp only [dispatch, execute, swapIn]
  rw [procAt_set_ne _ _ hm, procAt_set_ne _ _ hm]

theorem np_dispatch_time (s : State) (i : Nat) (hi : i < s.proc.length)
    (hp : (procAt s.proc i).is_completed = 0) :
    (dispatch s i).current_time = startOf s i + (procAt s.proc i).burst_time := by
  have h2 : i < (makeRoom s i).proc.length := by simpa [np_makeRoom_length] using hi
  have h3 : procAt (makeRoom s i).proc i = procAt s.proc i := np_makeRoom_pending s i i hp
  simp only [dispatch, execute, swapIn]
  rw [procAt_set_self _ h2, h3]
  rfl

theorem np_dispatch_completed (s : State) (i : Nat) :
    (dispatch s i).completed = s.completed + 1
      ∧ (dispatch s i).execution_order = s.execution_order ++ [i] := by
  have := np_makeRoom_completed s i
  simp only [dispatch, execute, swapIn]
  exact ⟨by rw [this.1], by rw [this.2]⟩

theorem np_startOf_ge (s : State) (i : Nat) : s.current_time + SWAP_TIME ≤ startOf s i := by
  have h2 := np_makeRoom_time s i
  unfold startOf
  omega

theorem np_dispatch_memory (s : State) (i : Nat) (hi : i < s.proc.length)
    (hin : ∀ j, (procAt s.proc j).is_completed ≠ 0 → (procAt s.proc j).total_swap_time ≠ 0)
    (hp : (procAt s.proc i).is_completed = 0)
    (hfresh : (procAt s.proc i).total_swap_time = 0) (hsw : (procAt s.proc i).is_swapped = 0) :
    (dispatch s i).available_memory + residentMemory (dispatch s i).proc
      = s.available_memory + residentMemory s.proc := by
  have h2 : i < (makeRoom s i).proc.length := by simpa [np_makeRoom_length] using hi
  have h3 : procAt (makeRoom s i).proc i = procAt s.proc i := np_makeRoom_pending s i i hp
  rw [← np_makeRoom_memory s i hin]
  simp only [dispatch, execute, swapIn]
  rw [residentMemory_set _ _ _ (by simpa using h2), residentMemory_set _ _ _ h2,
    procAt_set_self _ h2, h3]
  simp [held, hfresh, hsw, SWAP_TIME]

end NP

namespace NP
open Scheduling.NP

theorem np_dispatch_proc (s : State) (i : Nat) (hi : i < s.proc.length)
    (hp : (procAt s.proc i).is_completed = 0) :
    (dispatch s i).proc = (makeRoom s i).proc.set i (ranRecord (procAt s.proc i) (startOf s i)) := by
  have h2 : i < (makeRoom s i).proc.length := by simpa [np_makeRoom_length] using hi
  have h3 : procAt (makeRoom s i).proc i = procAt s.proc i := np_makeRoom_pending s i i hp
  simp only [dispatch, execute, swapIn]
  rw [procAt_set_self _ h2, h3, List.set_set]
  rfl

theorem Inv.np_init (proc0 : List Process) (total : Int)
    (hfresh : ∀ p ∈ proc0, p.total_swap_time = 0 ∧ p.is_completed = 0) :
    Inv proc0 total (NP.init proc0 total) := by
  have hnone : ∀ j, ¬ (procAt proc0 j).is_completed ≠ 0 := by
    intro j hj
    by_cases hl : j < proc0.length
    · exact hj (hfresh _ (procAt_mem hl)).2
    · apply hj
      simp [procAt, List.getElem?_eq_none (Nat.le_of_not_lt hl)]
      rfl
  refine ⟨rfl, fun _ _ => rfl, fun j hj => absurd hj (hnone j), fun j hj => absurd hj (hnone j),
    fun j _ _ hj => absurd hj (hnone j), ?_, ?_, le_refl _⟩
  · simp only [NP.init, doneCount]
    symm
    rw [List.countP_eq_zero]
    intro a ha
    simp [(hfresh a ha).2]
  · simp only [NP.init]
    rw [residentMemory_eq_zero _ (fun p hp => (hfresh p hp).1)]
    simp

theorem Inv.np_idle {proc0 : List Process} {total : Int} {s : State} (h : Inv proc0 total s) :
    Inv proc0 total { s with current_time := s.current_time + 1 } := by
  refine ⟨h.len, h.pending, h.done, ?_, h.order, h.count, h.memory, ?_⟩
  · intro j hj
    have := h.before j hj
    show (procAt s.proc j).completion_time ≤ s.current_time + 1
    omega
  · have := h.time_nonneg
    show 0 ≤ s.current_time + 1
    omega

theorem Inv.np_dispatch {proc0 : List Process} {total : Int} {s : State} {k : Nat}
    (h : Inv proc0 total s) (hk : k < s.proc.length) (hp : (procAt s.proc k).is_completed = 0)
    (harr : (procAt s.proc k).arrival_time ≤ s.current_time)
    (hburst : 0 ≤ (procAt proc0 k).burst_time)
    (hts : (procAt proc0 k).total_swap_time = 0) (hsw : (procAt proc0 k).is_swapped = 0) :
    Inv proc0 total (NP.dispatch s k) := by
  have hself := np_dispatch_self s k hk hp
  rw [h.pending k hp] at hself
  have hmr : ∀ m, noSwap (procAt (makeRoom s k).proc m) = noSwap (procAt s.proc m) :=
    np_makeRoom_noSwap s k
  have hother : ∀ m, m ≠ k →
      noSwap (procAt (NP.dispatch s k).proc m) = noSwap (procAt s.proc m) := by
    intro m hm
    rw [np_dispatch_other s k m hm]; exact hmr m
  have hst := np_startOf_ge s k
  have htime := np_dispatch_time s k hk hp
  rw [h.pending k hp] at htime
  have hcomp : ∀ m, m ≠ k →
      (procAt (NP.dispatch s k).proc m).is_completed = (procAt s.proc m).is_completed :=
    fun m hm => noSwap_is_completed (hother m hm)
  have hselfc : (procAt (NP.dispatch s k).proc k).is_completed ≠ 0 := by
    rw [hself]; simp [ranRecord]
  simp only [SWAP_TIME] at hst
  refine ⟨?_, ?_, ?_, ?_, ?_, ?_, ?_, ?_⟩
  · rw [np_dispatch_length]; exact h.len
  · intro j hj
    by_cases hjk : j = k
    · subst hjk; exact absurd hj hselfc
    · rw [np_dispatch_other s k j hjk, np_makeRoom_pending s k j (by rw [← hcomp j hjk]; exact hj)]
      exact h.pending j (by rw [← hcomp j hjk]; exact hj)
  · intro j hj
    by_cases hjk : j = k
    · subst hjk
      rw [hself]
      refine ⟨rfl, rfl, rfl, rfl, rfl, ?_, rfl, rfl, rfl, rfl⟩
      have ha : (procAt proc0 j).arrival_time ≤ s.current_time := by
        rw [← h.pending j hp]; exact harr
      simp only [ranRecord, SWAP_TIME]
      omega
    · exact (h.done j (by rw [← hcomp j hjk]; exact hj)).congr (hother j hjk)
  · intro j hj
    by_cases hjk : j = k
    · subst hjk
      rw [hself, htime]; exact le_refl _
    · rw [noSwap_completion (hother j hjk), htime]
      have := h.before j (by rw [← hcomp j hjk]; exact hj)
      omega
  · intro j j' hjj hj hj'
    by_cases hjk : j = k
    · subst hjk
      have hj'k : j' ≠ j := fun e => hjj e.symm
      right
      rw [noSwap_completion (hother j' hj'k), hself]
      have := h.before j' (by rw [← hcomp j' hj'k]; exact hj')
      simp only [ranRecord, SWAP_TIME]
      omega
    · by_cases hj'k : j' = k
      · subst hj'k
        left
        rw [noSwap_completion (hother j hjk), hself]
        have := h.before j (by rw [← hcomp j hjk]; exact hj)
        simp only [ranRecord, SWAP_TIME]
        omega
      · rw [noSwap_completion (hother j hjk), noSwap_completion (hother j' hj'k),
          noSwap_start (hother j hjk), noSwap_start (hother j' hj'k)]
        exact h.order j j' hjj (by rw [← hcomp j hjk]; exact hj)
          (by rw [← hcomp j' hj'k]; exact hj')
  · rw [(np_dispatch_completed s k).1, np_dispatch_proc s k hk hp,
      doneCount_set _ _ _ (by rw [np_makeRoom_length]; exact hk)
        (by rw [np_makeRoom_pending s k k hp]; exact hp) (by simp [ranRecord]),
      h.count]
    congr 1
    exact (doneCount_congr (np_makeRoom_length s k) (fun m => noSwap_is_completed (hmr m))).symm
  · rw [np_dispatch_memory s k hk (fun j hj => by
      rw [(h.done j hj).swapped_in]; decide) hp (by rw [h.pending k hp]; exact hts)
      (by rw [h.pending k hp]; exact hsw)]
    exact h.memory
  · rw [htime]
    have := h.time_nonneg
    omega

end NP

theorem le_maxArrival {proc : List Process} {p : Process} (h : p ∈ proc) :
    p.arrival_time ≤ maxArrival proc := by
  induction proc with
  | nil => simp at h
  | cons x t ih =>
    simp only [maxArrival, List.foldr_cons]
    rcases List.mem_cons.mp h with h1 | h1
    · subst h1; exact le_max_left _ _
    · exact le_trans (ih h1) (le_max_right _ _)

theorem procAt_default {l : List Process} {i : Nat} (h : l.length ≤ i) :
    procAt l i = default := by
  simp [procAt, List.getElem?_eq_none h]

namespace NP
open Scheduling.NP

theorem Inv.np_step {select : List Process → Int → Int} {proc0 : List Process} {total : Int}
    {s : State} (hsound : SelectSound select) (h : Inv proc0 total s)
    (hburst : ∀ p ∈ proc0, 0 ≤ p.burst_time) (hfresh : ∀ p ∈ proc0, Fresh p) :
    Inv proc0 total (NP.step select s) := by
  unfold NP.step
  split
  · exact h.np_idle
  · rename_i hsel
    rcases hsound s.proc s.current_time with h1 | ⟨_, hk, harr, hp⟩
    · exact absurd h1 hsel
    · have hk0 : (select s.proc s.current_time).toNat < proc0.length := by rw [← h.len]; exact hk
      have hmem := procAt_mem hk0
      exact h.np_dispatch hk hp harr (hburst _ hmem) (hfresh _ hmem).2.1 (hfresh _ hmem).1

theorem Inv.np_reach {select : List Process → Int → Int} {proc0 : List Process} {total : Int}
    {s : State} (hsound : SelectSound select)
    (hburst : ∀ p ∈ proc0, 0 ≤ p.burst_time) (hfresh : ∀ p ∈ proc0, Fresh p)
    (hr : Reach select (NP.init proc0 total) s) : Inv proc0 total s := by
  induction hr with
  | init => exact Inv.np_init proc0 total (fun p hp => ⟨(hfresh p hp).2.1, (hfresh p hp).2.2.1⟩)
  | step _ _ ih => exact ih.np_step hsound hburst hfresh

theorem np_loop_reach {select : List Process → Int → Int} {s0 : State} (fuel : Nat) {s r : State}
    (hs : Reach select s0 s) (h : loop select fuel s = some r) :
    Reach select s0 r ∧ r.proc.length ≤ r.completed := by
  induction fuel generalizing s with
  | zero =>
    simp only [loop] at h
    split at h
    · simp at h
    · simp only [Option.some.injEq] at h; subst h; exact ⟨hs, by omega⟩
  | succ fuel ih =>
    simp only [loop] at h
    split at h
    · rename_i hc; exact ih (Reach.step hs hc) h
    · simp only [Option.some.injEq] at h; subst h; exact ⟨hs, by omega⟩

theorem np_loop_succ_of_running {select : List Process → Int → Int} {s : State} (fuel : Nat)
    (hc : s.completed < s.proc.length) :
    loop select (fuel + 1) s = loop select fuel (NP.step select s) := by
  simp [loop, hc]

theorem np_loop_of_done {select : List Process → Int → Int} {s : State} (fuel : Nat)
    (hc : ¬ s.completed < s.proc.length) : loop select fuel s = some s := by
  cases fuel <;> simp [loop, hc]

/-- The loop exits from every state that satisfies the invariant, provided the scan finds a
process whenever one is eligible. -/
theorem np_loop_terminates {select : List Process → Int → Int} {proc0 : List Process} {total : Int}
    (hsound : SelectSound select)
    (hcomplete : ∀ s, Inv proc0 total s → select s.proc s.current_time = -1 →
      ∀ i, ¬ eligible s.proc s.current_time i)
    (hburst : ∀ p ∈ proc0, 0 ≤ p.burst_time) (hfresh : ∀ p ∈ proc0, Fresh p) :
    ∀ (a b : Nat) (s : State), Inv proc0 total s → proc0.length - s.completed = a →
      (maxArrival proc0 - s.current_time).toNat = b →
      ∃ fuel r, loop select fuel s = some r := by
  intro a
  induction a with
  | zero =>
    intro b s h ha _
    exact ⟨0, s, np_loop_of_done 0 (by rw [h.len]; omega)⟩
  | succ a iha =>
    intro b
    induction b using Nat.strong_induction_on with
    | _ b ihb =>
      intro s h ha hb
      have hc : s.completed < s.proc.length := by rw [h.len]; omega
      by_cases hsel : select s.proc s.current_time = -1
      · -- idle tick: some pending process has not arrived yet
        have hstep : NP.step select s = { s with current_time := s.current_time + 1 } := by
          simp [NP.step, hsel]
        obtain ⟨i, hi, hpi⟩ := exists_pending_of_doneCount (by rw [← h.count]; exact hc)
        have hnot := hcomplete s h hsel i
        have harr : s.current_time < (procAt s.proc i).arrival_time := by
          by_contra hcon
          exact hnot ⟨hi, by omega, hpi⟩
        have hmax : (procAt s.proc i).arrival_time ≤ maxArrival proc0 := by
          rw [h.pending i hpi]; exact le_maxArrival (procAt_mem (by rw [← h.len]; exact hi))
        obtain ⟨fuel, r, hr⟩ := ihb ((maxArrival proc0 - (s.current_time + 1)).toNat)
          (by omega) { s with current_time := s.current_time + 1 } h.np_idle ha rfl
        exact ⟨fuel + 1, r, by rw [np_loop_succ_of_running fuel hc, hstep]; exact hr⟩
      · have hinv := h.np_step hsound hburst hfresh
        have hcnt : (NP.step select s).completed = s.completed + 1 := by
          simp only [NP.step, hsel, if_false]
          exact (np_dispatch_completed s _).1
        obtain ⟨fuel, r, hr⟩ := iha _ (NP.step select s) hinv (by rw [hcnt]; omega) rfl
        exact ⟨fuel + 1, r, by rw [np_loop_succ_of_running fuel hc]; exact hr⟩

end NP

namespace SJF
open Scheduling.SJF

theorem sjf_scan_succ (oob : Process) (proc : List Process) (t : Int) (k : Nat) :
    scan oob proc t (k + 1) = scanStep oob proc t (scan oob proc t k) k := by
  simp [scan, List.range_succ, List.foldl_append]

theorem sjf_scanStep_inv (oob : Process) (proc : List Process) (t : Int) (k : Nat) (sc : Scan)
    (hk : k < proc.length) (hint : (procAt proc k).burst_time ≤ INT_MAX)
    (h : ScanInv oob proc t k sc) : ScanInv oob proc t (k + 1) (scanStep oob proc t sc k) := by
  unfold scanStep
  by_cases he : (procAt proc k).arrival_time ≤ t ∧ (procAt proc k).is_completed = 0
  · rw [if_pos he]
    have hek : NP.eligible proc t k := ⟨hk, he.1, he.2⟩
    rcases h with ⟨h1, h2, h3⟩ | ⟨h1, h2, h3, h4, h5⟩
    · -- nothing selected so far
      by_cases hb : (procAt proc k).burst_time < sc.min_burst
      · simp only [hb, if_true, procAtInt, Int.toNat_ofNat, Int.ofNat_zero_le, lt_self_iff_false,
          and_false, if_false]
        right
        refine ⟨Int.ofNat_zero_le _, by simp, by simpa using hek, by simp, ?_⟩
        intro i hi hei
        simp only [Int.toNat_ofNat, better]
        rcases Nat.lt_succ_iff_lt_or_eq.mp hi with hlt | heq
        · have := (h3 i hlt hei).1
          rw [h2] at hb
          constructor <;> intros <;> omega
        · subst heq; exact ⟨le_refl _, fun _ => ⟨le_refl _, fun _ => le_refl _⟩⟩
      · simp only [hb, if_false]
        have hbeq : (procAt proc k).burst_time = INT_MAX := by rw [h2] at hb; omega
        by_cases ha : (procAt proc k).arrival_time < (procAtInt oob proc sc.idx).arrival_time
        · rw [if_pos ⟨by rw [h2]; exact hbeq, ha⟩]
          right
          have hoob : procAtInt oob proc sc.idx = oob := by simp [procAtInt, h1]
          rw [hoob] at ha
          refine ⟨Int.ofNat_zero_le _, by simp, by simpa using hek, by simp [h2, hbeq], ?_⟩
          intro i hi hei
          simp only [Int.toNat_ofNat, better]
          rcases Nat.lt_succ_iff_lt_or_eq.mp hi with hlt | heq
          · have := h3 i hlt hei
            constructor <;> intros <;> omega
          · subst heq; exact ⟨le_refl _, fun _ => ⟨le_refl _, fun _ => le_refl _⟩⟩
        · rw [if_neg (fun hc => ha hc.2)]
          left
          have hoob : procAtInt oob proc sc.idx = oob := by simp [procAtInt, h1]
          rw [hoob] at ha
          refine ⟨h1, h2, ?_⟩
          intro i hi hei
          rcases Nat.lt_succ_iff_lt_or_eq.mp hi with hlt | heq
          · exact h3 i hlt hei
          · subst heq; exact ⟨hbeq, by omega⟩
    · -- process `sc.idx` selected so far
      by_cases hb : (procAt proc k).burst_time < sc.min_burst
      · simp only [hb, if_true, procAtInt, Int.toNat_ofNat, Int.ofNat_zero_le, lt_self_iff_false,
          and_false, if_false]
        right
        refine ⟨Int.ofNat_zero_le _, by simp, by simpa using hek, by simp, ?_⟩
        intro i hi hei
        simp only [Int.toNat_ofNat, better]
        rcases Nat.lt_succ_iff_lt_or_eq.mp hi with hlt | heq
        · have := (h5 i hlt hei).1
          rw [h4] at hb
          constructor <;> intros <;> omega
        · subst heq; exact ⟨le_refl _, fun _ => ⟨le_refl _, fun _ => le_refl _⟩⟩
      · simp only [hb, if_false]
        have hidx : procAtInt oob proc sc.idx = procAt proc sc.idx.toNat := by
          simp [procAtInt, h1]
        rw [hidx]
        by_cases ha : (procAt proc k).burst_time = sc.min_burst
            ∧ (procAt proc k).arrival_time < (procAt proc sc.idx.toNat).arrival_time
        · rw [if_pos ha]
          right
          refine ⟨Int.ofNat_zero_le _, by simp, by simpa using hek, by simp [ha.1], ?_⟩
          intro i hi hei
          simp only [Int.toNat_ofNat, better]
          rcases Nat.lt_succ_iff_lt_or_eq.mp hi with hlt | heq
          · have := h5 i hlt hei
            simp only [better] at this
            obtain ⟨ha1, ha2⟩ := ha
            rw [h4] at ha1
            constructor
            · omega
            · intro hbi
              have := this.2 (by omega)
              constructor
              · omega
              · intro; omega
          · subst heq; exact ⟨le_refl _, fun _ => ⟨le_refl _, fun _ => le_refl _⟩⟩
        · rw [if_neg ha]
          right
          refine ⟨h1, by omega, h3, h4, ?_⟩
          intro i hi hei
          rcases Nat.lt_succ_iff_lt_or_eq.mp hi with hlt | heq
          · exact h5 i hlt hei
          · subst heq
            simp only [better]
            rw [h4] at hb ha
            constructor
            · omega
            · intro hbi
              have hna : ¬ (procAt proc i).arrival_time
                  < (procAt proc sc.idx.toNat).arrival_time := fun hc => ha ⟨hbi, hc⟩
              constructor
              · omega
              · intro; omega
  · rw [if_neg he]
    rcases h with ⟨h1, h2, h3⟩ | ⟨h1, h2, h3, h4, h5⟩
    · left
      refine ⟨h1, h2, ?_⟩
      intro i hi hei
      rcases Nat.lt_succ_iff_lt_or_eq.mp hi with hlt | heq
      · exact h3 i hlt hei
      · subst heq; exact absurd ⟨hei.2.1, hei.2.2⟩ he
    · right
      refine ⟨h1, by omega, h3, h4, ?_⟩
      intro i hi hei
      rcases Nat.lt_succ_iff_lt_or_eq.mp hi with hlt | heq
      · exact h5 i hlt hei
      · subst heq; exact absurd ⟨hei.2.1, hei.2.2⟩ he

theorem sjf_scan_inv (oob : Process) (proc : List Process) (t : Int)
    (hint : ∀ p ∈ proc, p.burst_time ≤ INT_MAX) (k : Nat) (hk : k ≤ proc.length) :
    ScanInv oob proc t k (scan oob proc t k) := by
  induction k with
  | zero => exact Or.inl ⟨rfl, rfl, fun i hi => absurd hi (Nat.not_lt_zero _)⟩
  | succ k ih =>
    rw [sjf_scan_succ]
    exact sjf_scanStep_inv oob proc t k _ (by omega) (hint _ (procAt_mem (by omega))) (ih (by omega))

end SJF

namespace SJF
open Scheduling.SJF

theorem sjf_scanStep_sound (oob : Process) (proc : List Process) (t : Int) (k : Nat) (sc : Scan)
    (hk : k < proc.length)
    (h : sc.idx = -1 ∨ (0 ≤ sc.idx ∧ NP.eligible proc t sc.idx.toNat)) :
    (scanStep oob proc t sc k).idx = -1
      ∨ (0 ≤ (scanStep oob proc t sc k).idx
          ∧ NP.eligible proc t (scanStep oob proc t sc k).idx.toNat) := by
  unfold scanStep
  by_cases he : (procAt proc k).arrival_time ≤ t ∧ (procAt proc k).is_completed = 0
  · rw [if_pos he]
    have hek : NP.eligible proc t ((k : Int)).toNat := by
      simpa using (⟨hk, he.1, he.2⟩ : NP.eligible proc t k)
    by_cases hb : (procAt proc k).burst_time < sc.min_burst
    · simp only [hb, if_true]
      split
      · exact Or.inr ⟨Int.ofNat_zero_le _, hek⟩
      · exact Or.inr ⟨Int.ofNat_zero_le _, hek⟩
    · simp only [hb, if_false]
      split
      · exact Or.inr ⟨Int.ofNat_zero_le _, hek⟩
      · exact h
  · rw [if_neg he]; exact h

theorem sjf_select_sound (oob : Process) : NP.SelectSound (select oob) := by
  intro proc t
  have : ∀ k, k ≤ proc.length → ((scan oob proc t k).idx = -1
      ∨ (0 ≤ (scan oob proc t k).idx ∧ NP.eligible proc t (scan oob proc t k).idx.toNat)) := by
    intro k
    induction k with
    | zero => intro _; exact Or.inl rfl
    | succ k ih =>
      intro hk
      rw [sjf_scan_succ]
      exact sjf_scanStep_sound oob proc t k _ (by omega) (ih (by omega))
  exact this proc.length (le_refl _)

/-- What the scan of `calculate_sjf` has found when it ends. -/
theorem sjf_select_cases (oob : Process) (proc : List Process) (t : Int)
    (hint : ∀ p ∈ proc, p.burst_time ≤ INT_MAX) :
    (select oob proc t = -1
        ∧ ∀ i, NP.eligible proc t i →
            (procAt proc i).burst_time = INT_MAX
              ∧ oob.arrival_time ≤ (procAt proc i).arrival_time)
      ∨ (0 ≤ select oob proc t ∧ NP.eligible proc t (select oob proc t).toNat
          ∧ ∀ i, NP.eligible proc t i → better proc (select oob proc t).toNat i) := by
  rcases sjf_scan_inv oob proc t hint proc.length (le_refl _) with ⟨h1, _, h3⟩ | ⟨h1, _, h3, _, h5⟩
  · exact Or.inl ⟨h1, fun i hi => h3 i hi.1 hi⟩
  · exact Or.inr ⟨h1, h3, fun i hi => h5 i hi.1 hi⟩

end SJF

namespace PS
open Scheduling.PS

theorem ps_scan_succ (proc : List Process) (t : Int) (k : Nat) :
    scan proc t (k + 1) = scanStep proc t (scan proc t k) k := by
  simp [scan, List.range_succ, List.foldl_append]

theorem ps_scanStep_inv (proc : List Process) (t : Int) (k : Nat) (sc : Scan)
    (hk : k < proc.length) (h : ScanInv proc t k sc) :
    ScanInv proc t (k + 1) (scanStep proc t sc k) := by
  unfold scanStep
  by_cases he : (procAt proc k).arrival_time ≤ t ∧ (procAt proc k).is_completed = 0
  · rw [if_pos he]
    have hek : NP.eligible proc t k := ⟨hk, he.1, he.2⟩
    rcases h with ⟨h1, h2, h3⟩ | ⟨h1, h2, h3, h4, h5⟩
    · -- nothing selected so far
      by_cases hb : (procAt proc k).priority < sc.highest_priority
      · rw [if_pos hb]
        right
        refine ⟨Int.ofNat_zero_le _, by simp, by simpa using hek, by simp, ?_⟩
        intro i hi hei
        simp only [Int.toNat_ofNat, better]
        rcases Nat.lt_succ_iff_lt_or_eq.mp hi with hlt | heq
        · have := h3 i hlt hei
          rw [h2] at hb
          constructor <;> intros <;> omega
        · subst heq; exact ⟨le_refl _, fun _ => ⟨le_refl _, fun _ => le_refl _⟩⟩
      · rw [if_neg hb, if_neg (fun hc => hc.2 h1)]
        left
        refine ⟨h1, h2, ?_⟩
        intro i hi hei
        rcases Nat.lt_succ_iff_lt_or_eq.mp hi with hlt | heq
        · exact h3 i hlt hei
        · subst heq; rw [h2] at hb; omega
    · -- process `sc.idx` selected so far
      by_cases hb : (procAt proc k).priority < sc.highest_priority
      · rw [if_pos hb]
        right
        refine ⟨Int.ofNat_zero_le _, by simp, by simpa using hek, by simp, ?_⟩
        intro i hi hei
        simp only [Int.toNat_ofNat, better]
        rcases Nat.lt_succ_iff_lt_or_eq.mp hi with hlt | heq
        · have := (h5 i hlt hei).1
          rw [h4] at hb
          constructor <;> intros <;> omega
        · subst heq; exact ⟨le_refl _, fun _ => ⟨le_refl _, fun _ => le_refl _⟩⟩
      · rw [if_neg hb]
        have hstay : ScanInv proc t (k + 1) sc → ScanInv proc t (k + 1) sc := id
        by_cases hp : (procAt proc k).priority = sc.highest_priority ∧ sc.idx ≠ -1
        · rw [if_pos hp]
          by_cases hbt : (procAt proc k).burst_time < (procAt proc sc.idx.toNat).burst_time
          · rw [if_pos hbt]
            right
            refine ⟨Int.ofNat_zero_le _, by simp, by simpa using hek, by simp [hp.1], ?_⟩
            intro i hi hei
            simp only [Int.toNat_ofNat, better]
            rcases Nat.lt_succ_iff_lt_or_eq.mp hi with hlt | heq
            · have := h5 i hlt hei
              simp only [better] at this
              obtain ⟨hp1, -⟩ := hp
              rw [h4] at hp1
              constructor
              · omega
              · intro hpi
                have := this.2 (by omega)
                constructor
                · omega
                · intro; omega
            · subst heq; exact ⟨le_refl _, fun _ => ⟨le_refl _, fun _ => le_refl _⟩⟩
          · rw [if_neg hbt]
            right
            refine ⟨h1, by omega, h3, h4, ?_⟩
            intro i hi hei
            rcases Nat.lt_succ_iff_lt_or_eq.mp hi with hlt | heq
            · exact h5 i hlt hei
            · subst heq
              simp only [better]
              rw [h4] at hb
              constructor
              · omega
              · intro _
                constructor
                · omega
                · intro; omega
        · rw [if_neg hp]
          right
          refine ⟨h1, by omega, h3, h4, ?_⟩
          intro i hi hei
          rcases Nat.lt_succ_iff_lt_or_eq.mp hi with hlt | heq
          · exact h5 i hlt hei
          · subst heq
            simp only [better]
            rw [h4] at hb hp
            have hne : sc.idx ≠ -1 := by omega
            have hpne : (procAt proc i).priority ≠ (procAt proc sc.idx.toNat).priority :=
              fun hc => hp ⟨hc, hne⟩
            constructor
            · omega
            · intro hc; exact absurd hc hpne
  · rw [if_neg he]
    rcases h with ⟨h1, h2, h3⟩ | ⟨h1, h2, h3, h4, h5⟩
    · left
      refine ⟨h1, h2, ?_⟩
      intro i hi hei
      rcases Nat.lt_succ_iff_lt_or_eq.mp hi with hlt | heq
      · exact h3 i hlt hei
      · subst heq; exact absurd ⟨hei.2.1, hei.2.2⟩ he
    · right
      refine ⟨h1, by omega, h3, h4, ?_⟩
      intro i hi hei
      rcases Nat.lt_succ_iff_lt_or_eq.mp hi with hlt | heq
      · exact h5 i hlt hei
      · subst heq; exact absurd ⟨hei.2.1, hei.2.2⟩ he

theorem ps_scan_inv (proc : List Process) (t : Int) (k : Nat) (hk : k ≤ proc.length) :
    ScanInv proc t k (scan proc t k) := by
  induction k with
  | zero => exact Or.inl ⟨rfl, rfl, fun i hi => absurd hi (Nat.not_lt_zero _)⟩
  | succ k ih =>
    rw [ps_scan_succ]
    exact ps_scanStep_inv proc t k _ (by omega) (ih (by omega))

/-- What the scan of `calculate_priority` has found when it ends. -/
theorem ps_select_cases (proc : List Process) (t : Int) :
    (select proc t = -1 ∧ ∀ i, NP.eligible proc t i → INT_MAX ≤ (procAt proc i).priority)
      ∨ (0 ≤ select proc t ∧ NP.eligible proc t (select proc t).toNat
          ∧ ∀ i, NP.eligible proc t i → better proc (select proc t).toNat i) := by
  rcases ps_scan_inv proc t proc.length (le_refl _) with ⟨h1, _, h3⟩ | ⟨h1, _, h3, _, h5⟩
  · exact Or.inl ⟨h1, fun i hi => h3 i hi.1 hi⟩
  · exact Or.inr ⟨h1, h3, fun i hi => h5 i hi.1 hi⟩

theorem ps_select_sound : NP.SelectSound select := by
  intro proc t
  rcases ps_select_cases proc t with h | h
  · exact Or.inl h.1
  · exact Or.inr ⟨h.1, h.2.1⟩

end PS

namespace RR
open Scheduling.RR

theorem visitedAt_set (v : List Int) (i : Nat) (x : Int) (m : Nat) :
    visitedAt (v.set i x) m = if m = i ∧ i < v.length then x else visitedAt v m := by
  unfold visitedAt
  rw [List.getElem?_set]
  by_cases h : i = m
  · subst h
    by_cases h2 : i < v.length
    · simp [h2]
    · simp [h2, List.getElem?_eq_none (Nat.le_of_not_lt h2)]
  · have : ¬ m = i := fun e => h e.symm
    simp [h, this]

/-- Closed form of an arrival scan over the indices `0 .. k-1`, for a test `c` that reads only
the process array, the clock and `visited[i]`. -/
theorem arrivalFold_spec (f : State → Nat → State) (c : State → Nat → Prop)
    [∀ s i, Decidable (c s i)]
    (hf : ∀ s i, f s i
      = if c s i then { s with queue := s.queue ++ [i], visited := s.visited.set i 1 } else s)
    (hc : ∀ s s' i, s'.proc = s.proc → s'.current_time = s.current_time →
      visitedAt s'.visited i = visitedAt s.visited i → (c s' i ↔ c s i))
    (s : State) (k : Nat) (hk : k ≤ s.visited.length) :
    let r := (List.range k).foldl f s
    r.proc = s.proc ∧ r.current_time = s.current_time
      ∧ r.available_memory = s.available_memory ∧ r.completed = s.completed
      ∧ r.front = s.front ∧ r.visited.length = s.visited.length
      ∧ r.queue = s.queue ++ (List.range k).filter (fun i => decide (c s i))
      ∧ ∀ m, visitedAt r.visited m = if m < k ∧ c s m then 1 else visitedAt s.visited m := by
  induction k with
  | zero => simp
  | succ k ih =>
    obtain ⟨h1, h2, h3, h4, h5, h6, h7, h8⟩ := ih (by omega)
    simp only [List.range_succ, List.foldl_append, List.foldl_cons, List.foldl_nil]
    have hck : c ((List.range k).foldl f s) k ↔ c s k :=
      hc _ _ _ h1 h2 (by rw [h8 k]; simp)
    rw [hf]
    by_cases hcs : c s k
    · rw [if_pos (hck.mpr hcs)]
      refine ⟨h1, h2, h3, h4, h5, by simp [h6], ?_, ?_⟩
      · simp [h7, List.filter_append, hcs]
      · intro m
        simp only [visitedAt_set, h6, h8 m]
        by_cases hm : m = k
        · subst hm; simp [hcs]; omega
        · have : (m < k + 1 ∧ c s m) ↔ (m < k ∧ c s m) := by
            constructor
            · rintro ⟨a, b⟩; exact ⟨by omega, b⟩
            · rintro ⟨a, b⟩; exact ⟨by omega, b⟩
          simp [hm, this]
    · rw [if_neg (fun h => hcs (hck.mp h))]
      refine ⟨h1, h2, h3, h4, h5, h6, ?_, ?_⟩
      · simp [h7, List.filter_append, hcs]
      · intro m
        rw [h8 m]
        by_cases hm : m = k
        · subst hm; simp [hcs]
        · have : (m < k + 1 ∧ c s m) ↔ (m < k ∧ c s m) := by
            constructor
            · rintro ⟨a, b⟩; exact ⟨by omega, b⟩
            · rintro ⟨a, b⟩; exact ⟨by omega, b⟩
          simp [this]

theorem enqueueArrivals_spec (s : State) (hv : s.visited.length = s.proc.length) :
    (enqueueArrivals s).proc = s.proc ∧ (enqueueArrivals s).current_time = s.current_time
      ∧ (enqueueArrivals s).available_memory = s.available_memory
      ∧ (enqueueArrivals s).completed = s.completed
      ∧ (enqueueArrivals s).front = s.front
      ∧ (enqueueArrivals s).visited.length = s.visited.length
      ∧ (enqueueArrivals s).queue
          = s.queue ++ (List.range s.proc.length).filter (fun i => decide (arrived s i))
      ∧ ∀ m, visitedAt (enqueueArrivals s).visited m
          = if m < s.proc.length ∧ arrived s m then 1 else visitedAt s.visited m :=
  arrivalFold_spec arrivalStep arrived (fun _ _ => rfl)
    (fun s s' i hp ht hvis => by simp only [arrived, hp, ht, hvis]) s s.proc.length (by omega)

theorem enqueueArrivalsRem_spec (s : State) (hv : s.visited.length = s.proc.length) :
    (enqueueArrivalsRem s).proc = s.proc ∧ (enqueueArrivalsRem s).current_time = s.current_time
      ∧ (enqueueArrivalsRem s).available_memory = s.available_memory
      ∧ (enqueueArrivalsRem s).completed = s.completed
      ∧ (enqueueArrivalsRem s).front = s.front
      ∧ (enqueueArrivalsRem s).visited.length = s.visited.length
      ∧ (enqueueArrivalsRem s).queue
          = s.queue ++ (List.range s.proc.length).filter (fun i => decide (arrivedRem s i))
      ∧ ∀ m, visitedAt (enqueueArrivalsRem s).visited m
          = if m < s.proc.length ∧ arrivedRem s m then 1 else visitedAt s.visited m :=
  arrivalFold_spec arrivalStepRem arrivedRem (fun _ _ => rfl)
    (fun s s' i hp ht hvis => by simp only [arrivedRem, hp, ht, hvis]) s s.proc.length (by omega)

end RR

theorem residentMemory_set_same (l : List Process) (i : Nat) (p : Process)
    (h : held p = held (procAt l i)) : residentMemory (l.set i p) = residentMemory l := by
  by_cases hi : i < l.length
  · rw [residentMemory_set _ _ _ hi, h]; ring
  · rw [List.set_eq_of_length_le (Nat.le_of_not_lt hi)]

namespace RR
open Scheduling.RR

@[simp] theorem rr_swapOut_length (s : State) (j : Nat) :
    (swapOut s j).proc.length = s.proc.length := by
  simp [swapOut]

theorem rr_swapOut_noSwap (s : State) (j m : Nat) :
    noSwap (procAt (swapOut s j).proc m) = noSwap (procAt s.proc m) := by
  simp only [swapOut, procAt_set]
  split
  · rename_i h; rw [h.1]; rfl
  · rfl

theorem rr_swapOutScan_length (idx : Nat) (js : List Nat) (s : State) :
    (swapOutScan idx js s).proc.length = s.proc.length := by
  induction js generalizing s with
  | nil => rfl
  | cons j js ih =>
    simp only [swapOutScan]
    split
    · split
      · simp
      · rw [ih]; simp
    · exact ih s

theorem rr_swapOutScan_noSwap (idx : Nat) (js : List Nat) (s : State) (m : Nat) :
    noSwap (procAt (swapOutScan idx js s).proc m) = noSwap (procAt s.proc m) := by
  induction js generalizing s with
  | nil => rfl
  | cons j js ih =>
    simp only [swapOutScan]
    split
    · split
      · exact rr_swapOut_noSwap s j m
      · rw [ih]; exact rr_swapOut_noSwap s j m
    · exact ih s

theorem rr_swapOutScan_time (idx : Nat) (js : List Nat) (s : State) :
    s.current_time ≤ (swapOutScan idx js s).current_time := by
  induction js generalizing s with
  | nil => exact le_refl _
  | cons j js ih =>
    simp only [swapOutScan]
    split
    · split
      · simp [swapOut, SWAP_TIME]
      · refine le_trans ?_ (ih _); simp [swapOut, SWAP_TIME]
    · exact ih s

theorem rr_swapOutScan_rest (idx : Nat) (js : List Nat) (s : State) :
    (swapOutScan idx js s).completed = s.completed ∧ (swapOutScan idx js s).queue = s.queue
      ∧ (swapOutScan idx js s).front = s.front ∧ (swapOutScan idx js s).visited = s.visited := by
  induction js generalizing s with
  | nil => exact ⟨rfl, rfl, rfl, rfl⟩
  | cons j js ih =>
    simp only [swapOutScan]
    split
    · split
      · exact ⟨rfl, rfl, rfl, rfl⟩
      · exact ih _
    · exact ih s

/-- A process with time remaining is not touched by the eviction scan. -/
theorem rr_swapOutScan_kept (idx : Nat) (js : List Nat) (s : State) (m : Nat)
    (hm : (procAt s.proc m).remaining_time ≠ 0) :
    procAt (swapOutScan idx js s).proc m = procAt s.proc m := by
  induction js generalizing s with
  | nil => rfl
  | cons j js ih =>
    simp only [swapOutScan]
    split
    · rename_i hc
      have hmj : m ≠ j := fun e => hm (e ▸ hc.1)
      have hso : procAt (swapOut s j).proc m = procAt s.proc m := by
        simp [swapOut, procAt_set, hmj]
      split
      · exact hso
      · rw [ih _ (by rw [hso]; exact hm)]; exact hso
    · exact ih s hm

theorem rr_swapOut_memory (s : State) (j : Nat) (hj : j < s.proc.length)
    (hin : (procAt s.proc j).total_swap_time ≠ 0) (hsw : (procAt s.proc j).is_swapped = 0) :
    (swapOut s j).available_memory + residentMemory (swapOut s j).proc
      = s.available_memory + residentMemory s.proc := by
  simp only [swapOut]
  rw [residentMemory_set _ _ _ hj]
  simp [held, hin, hsw]

theorem rr_swapOutScan_memory (idx : Nat) (js : List Nat) (s : State)
    (hjs : ∀ j ∈ js, j < s.proc.length)
    (hin : ∀ j, j < s.proc.length → (procAt s.proc j).remaining_time = 0 →
      (procAt s.proc j).total_swap_time ≠ 0) :
    (swapOutScan idx js s).available_memory + residentMemory (swapOutScan idx js s).proc
      = s.available_memory + residentMemory s.proc := by
  induction js generalizing s with
  | nil => rfl
  | cons j js ih =>
    have hj := hjs j (by simp)
    have hjs' : ∀ k ∈ js, k < (swapOut s j).proc.length := fun k hk => by
      simpa using hjs k (by simp [hk])
    have hin' : ∀ k, k < (swapOut s j).proc.length →
        (procAt (swapOut s j).proc k).remaining_time = 0 →
        (procAt (swapOut s j).proc k).total_swap_time ≠ 0 := fun k hk => by
      have h1 := congrArg Process.total_swap_time (rr_swapOut_noSwap s j k)
      have h2 := congrArg Process.remaining_time (rr_swapOut_noSwap s j k)
      simp only [noSwap] at h1 h2
      rw [h1, h2]; exact hin k (by simpa using hk)
    simp only [swapOutScan]
    split
    · rename_i hc
      split
      · exact rr_swapOut_memory s j hj (hin j hj hc.1) hc.2
      · rw [ih _ hjs' hin']; exact rr_swapOut_memory s j hj (hin j hj hc.1) hc.2
    · exact ih s (fun k hk => hjs k (by simp [hk])) hin

theorem rr_makeRoom_length (s : State) (i : Nat) : (makeRoom s i).proc.length = s.proc.length := by
  unfold makeRoom; split
  · exact rr_swapOutScan_length _ _ _
  · rfl

theorem rr_makeRoom_noSwap (s : State) (i m : Nat) :
    noSwap (procAt (makeRoom s i).proc m) = noSwap (procAt s.proc m) := by
  unfold makeRoom; split
  · exact rr_swapOutScan_noSwap _ _ _ _
  · rfl

theorem rr_makeRoom_time (s : State) (i : Nat) : s.current_time ≤ (makeRoom s i).current_time := by
  unfold makeRoom; split
  · exact rr_swapOutScan_time _ _ _
  · exact le_refl _

theorem rr_makeRoom_rest (s : State) (i : Nat) :
    (makeRoom s i).completed = s.completed ∧ (makeRoom s i).queue = s.queue
      ∧ (makeRoom s i).front = s.front ∧ (makeRoom s i).visited = s.visited := by
  unfold makeRoom; split
  · exact rr_swapOutScan_rest _ _ _
  · exact ⟨rfl, rfl, rfl, rfl⟩

theorem rr_makeRoom_kept (s : State) (i m : Nat) (hm : (procAt s.proc m).remaining_time ≠ 0) :
    procAt (makeRoom s i).proc m = procAt s.proc m := by
  unfold makeRoom; split
  · exact rr_swapOutScan_kept _ _ _ _ hm
  · rfl

theorem rr_makeRoom_memory (s : State) (i : Nat)
    (hin : ∀ j, j < s.proc.length → (procAt s.proc j).remaining_time = 0 →
      (procAt s.proc j).total_swap_time ≠ 0) :
    (makeRoom s i).available_memory + residentMemory (makeRoom s i).proc
      = s.available_memory + residentMemory s.proc := by
  unfold makeRoom; split
  · exact rr_swapOutScan_memory _ _ _ (fun j hj => by simpa using hj) hin
  · rfl

/-! ### The admission block -/

theorem admission_length (s : State) (i : Nat) : (admission s i).proc.length = s.proc.length := by
  unfold admission; split
  · simp [swapIn, rr_makeRoom_length]
  · rfl

theorem admission_rest (s : State) (i : Nat) :
    (admission s i).completed = s.completed ∧ (admission s i).queue = s.queue
      ∧ (admission s i).front = s.front ∧ (admission s i).visited = s.visited := by
  unfold admission; split
  · exact rr_makeRoom_rest s i
  · exact ⟨rfl, rfl, rfl, rfl⟩

theorem admission_self (s : State) (i : Nat) (hi : i < s.proc.length)
    (hrem : (procAt s.proc i).remaining_time ≠ 0) :
    procAt (admission s i).proc i = admissionRec (procAt s.proc i) := by
  unfold admission admissionRec
  split
  · simp only [swapIn]
    rw [procAt_set_self _ (by rw [rr_makeRoom_length]; exact hi), rr_makeRoom_kept s i i hrem]
  · rfl

theorem admission_other (s : State) (i m : Nat) (hm : m ≠ i) :
    noSwap (procAt (admission s i).proc m) = noSwap (procAt s.proc m) := by
  unfold admission; split
  · simp only [swapIn]
    rw [procAt_set_ne _ _ hm]; exact rr_makeRoom_noSwap s i m
  · rfl

theorem admission_kept (s : State) (i m : Nat) (hm : m ≠ i)
    (hrem : (procAt s.proc m).remaining_time ≠ 0) :
    procAt (admission s i).proc m = procAt s.proc m := by
  unfold admission; split
  · simp only [swapIn]
    rw [procAt_set_ne _ _ hm]; exact rr_makeRoom_kept s i m hrem
  · rfl

theorem admission_time (s : State) (i : Nat) :
    s.current_time ≤ (admission s i).current_time
      ∧ ((procAt s.proc i).remaining_time = (procAt s.proc i).burst_time →
          s.current_time + SWAP_TIME ≤ (admission s i).current_time) := by
  unfold admission; split
  · have := rr_makeRoom_time s i
    simp only [swapIn, SWAP_TIME]
    constructor
    · omega
    · intro _; omega
  · rename_i h
    exact ⟨le_refl _, fun hc => absurd hc h⟩

theorem admission_memory (s : State) (i : Nat) (hi : i < s.proc.length)
    (hin : ∀ j, j < s.proc.length → (procAt s.proc j).remaining_time = 0 →
      (procAt s.proc j).total_swap_time ≠ 0)
    (hrem : (procAt s.proc i).remaining_time ≠ 0)
    (hfresh : (procAt s.proc i).remaining_time = (procAt s.proc i).burst_time →
      (procAt s.proc i).total_swap_time = 0 ∧ (procAt s.proc i).is_swapped = 0) :
    (admission s i).available_memory + residentMemory (admission s i).proc
      = s.available_memory + residentMemory s.proc := by
  unfold admission; split
  · rename_i h
    rw [← rr_makeRoom_memory s i hin]
    simp only [swapIn]
    rw [residentMemory_set _ _ _ (by rw [rr_makeRoom_length]; exact hi), rr_makeRoom_kept s i i hrem]
    simp [held, (hfresh h).1, (hfresh h).2, SWAP_TIME]
  · rfl

end RR

theorem set_procAt_self (l : List Process) (i : Nat) : l.set i (procAt l i) = l := by
  induction l generalizing i with
  | nil => rfl
  | cons x t ih =>
    cases i with
    | zero => simp [procAt]
    | succ i => simp only [List.set_cons_succ, procAt_cons_succ, ih]

namespace RR
open Scheduling.RR

@[simp] theorem admissionRec_remaining (p : Process) :
    (admissionRec p).remaining_time = p.remaining_time := by
  unfold admissionRec; split <;> rfl

@[simp] theorem admissionRec_first (p : Process) :
    (admissionRec p).first_execution = p.first_execution := by
  unfold admissionRec; split <;> rfl

@[simp] theorem admissionRec_arrival (p : Process) : (admissionRec p).arrival_time = p.arrival_time := by
  unfold admissionRec; split <;> rfl

@[simp] theorem firstRec_remaining (p : Process) (t : Int) :
    (firstRec p t).remaining_time = p.remaining_time := by
  unfold firstRec; split <;> rfl

@[simp] theorem sliceLen_firstRec (p : Process) (t tq : Int) :
    sliceLen (firstRec p t) tq = sliceLen p tq := by
  simp [sliceLen]

@[simp] theorem sliceLen_admissionRec (p : Process) (tq : Int) :
    sliceLen (admissionRec p) tq = sliceLen p tq := by
  simp [sliceLen]

theorem firstExec_eq (s : State) (i : Nat) :
    firstExec s i
      = { s with proc := s.proc.set i (firstRec (procAt s.proc i) s.current_time) } := by
  unfold firstExec firstRec
  split
  · rfl
  · rw [set_procAt_self]

theorem runSlice_eq (s : State) (i : Nat) (tq : Int) :
    runSlice s i tq
      = { s with
          proc := s.proc.set i (sliceRec (procAt s.proc i) tq)
          current_time := s.current_time + sliceLen (procAt s.proc i) tq } := rfl

theorem finish_eq (s : State) (i : Nat) :
    finish s i
      = { s with
          proc := s.proc.set i (finishRec (procAt s.proc i) s.current_time)
          queue := if (procAt s.proc i).remaining_time > 0 then s.queue ++ [i] else s.queue
          completed :=
            if (procAt s.proc i).remaining_time > 0 then s.completed else s.completed + 1 } := by
  unfold finish finishRec
  split
  · rw [set_procAt_self]
  · rfl

theorem afterSlice_spec (tq : Int) (s : State)
    (hi : queueAt s.queue s.front < s.proc.length)
    (hrem : (procAt s.proc (queueAt s.queue s.front)).remaining_time ≠ 0) :
    (afterSlice tq s).proc
        = (afterAdmission s).proc.set (queueAt s.queue s.front)
            (sliceRec (firstRec (admissionRec (procAt s.proc (queueAt s.queue s.front)))
              (afterAdmission s).current_time) tq)
      ∧ (afterSlice tq s).current_time
          = (afterAdmission s).current_time
            + sliceLen (procAt s.proc (queueAt s.queue s.front)) tq
      ∧ (afterSlice tq s).available_memory = (afterAdmission s).available_memory
      ∧ (afterSlice tq s).completed = s.completed ∧ (afterSlice tq s).queue = s.queue
      ∧ (afterSlice tq s).front = s.front + 1 ∧ (afterSlice tq s).visited = s.visited := by
  have hA : procAt (afterAdmission s).proc (queueAt s.queue s.front)
      = admissionRec (procAt s.proc (queueAt s.queue s.front)) :=
    admission_self { s with front := s.front + 1 } _ hi hrem
  have hlen : queueAt s.queue s.front < (afterAdmission s).proc.length := by
    unfold afterAdmission; rw [admission_length]; exact hi
  have hrest := admission_rest { s with front := s.front + 1 } (queueAt s.queue s.front)
  unfold afterSlice
  rw [firstExec_eq, runSlice_eq]
  simp only [procAt_set_self _ hlen, List.set_set, hA, sliceLen_firstRec, sliceLen_admissionRec]
  exact ⟨trivial, trivial, trivial, hrest.1, hrest.2.1, hrest.2.2.1, hrest.2.2.2⟩

theorem rr_dispatch_eq (tq : Int) (s : State) :
    dispatch tq s = finish (enqueueArrivalsRem (afterSlice tq s)) (queueAt s.queue s.front) :=
  rfl

theorem rr_dispatch_spec (tq : Int) (s : State)
    (hi : queueAt s.queue s.front < s.proc.length)
    (hrem : (procAt s.proc (queueAt s.queue s.front)).remaining_time ≠ 0)
    (hv : s.visited.length = s.proc.length) :
    (dispatch tq s).proc = (afterAdmission s).proc.set (queueAt s.queue s.front) (finalRec tq s)
      ∧ (dispatch tq s).current_time
          = (afterAdmission s).current_time
            + sliceLen (procAt s.proc (queueAt s.queue s.front)) tq
      ∧ (dispatch tq s).available_memory = (afterAdmission s).available_memory
      ∧ (dispatch tq s).completed
          = (if (finalRec tq s).remaining_time > 0 then s.completed else s.completed + 1)
      ∧ (dispatch tq s).queue
          = (s.queue ++ (List.range s.proc.length).filter
              (fun i => decide (arrivedRem (afterSlice tq s) i)))
            ++ (if (finalRec tq s).remaining_time > 0 then [queueAt s.queue s.front] else [])
      ∧ (dispatch tq s).front = s.front + 1
      ∧ (dispatch tq s).visited.length = s.visited.length
      ∧ ∀ m, visitedAt (dispatch tq s).visited m
          = if m < s.proc.length ∧ arrivedRem (afterSlice tq s) m then 1
            else visitedAt s.visited m := by
  obtain ⟨a1, a2, a3, a4, a5, a6, a7⟩ := afterSlice_spec tq s hi hrem
  have hlenA : (afterAdmission s).proc.length = s.proc.length := by
    unfold afterAdmission; rw [admission_length]
  have hlen4 : (afterSlice tq s).proc.length = s.proc.length := by
    rw [a1]; simpa using hlenA
  obtain ⟨e1, e2, e3, e4, e5, e6, e7, e8⟩ :=
    enqueueArrivalsRem_spec (afterSlice tq s) (by rw [a7, hlen4]; exact hv)
  have hself : procAt (enqueueArrivalsRem (afterSlice tq s)).proc (queueAt s.queue s.front)
      = sliceRec (firstRec (admissionRec (procAt s.proc (queueAt s.queue s.front)))
          (afterAdmission s).current_time) tq := by
    rw [e1, a1, procAt_set_self _ (by rw [hlenA]; exact hi)]
  have hfin : finishRec (procAt (enqueueArrivalsRem (afterSlice tq s)).proc
        (queueAt s.queue s.front)) (enqueueArrivalsRem (afterSlice tq s)).current_time
      = finalRec tq s := by
    rw [hself, e2, a2]; rfl
  have hremf : (finalRec tq s).remaining_time > 0
      ↔ (procAt (enqueueArrivalsRem (afterSlice tq s)).proc
          (queueAt s.queue s.front)).remaining_time > 0 := by
    rw [← hfin]
    unfold finishRec
    split
    · rfl
    · rfl
  rw [rr_dispatch_eq, finish_eq, hfin]
  simp only [← hremf]
  refine ⟨?_, ?_, ?_, ?_, ?_, ?_, ?_, ?_⟩
  · show (enqueueArrivalsRem (afterSlice tq s)).proc.set _ _ = _
    rw [e1, a1, List.set_set]
  · show (enqueueArrivalsRem (afterSlice tq s)).current_time = _
    rw [e2, a2]
  · show (enqueueArrivalsRem (afterSlice tq s)).available_memory = _
    rw [e3, a3]
  · show (if _ then (enqueueArrivalsRem (afterSlice tq s)).completed
      else (enqueueArrivalsRem (afterSlice tq s)).completed + 1) = _
    rw [e4, a4]
  · show (if _ then (enqueueArrivalsRem (afterSlice tq s)).queue ++ [_]
      else (enqueueArrivalsRem (afterSlice tq s)).queue) = _
    rw [e7, a5, hlen4]
    split <;> simp
  · show (enqueueArrivalsRem (afterSlice tq s)).front = _
    rw [e5, a6]
  · show (enqueueArrivalsRem (afterSlice tq s)).visited.length = _
    rw [e6, a7]
  · intro m
    show visitedAt (enqueueArrivalsRem (afterSlice tq s)).visited m = _
    rw [e8 m, hlen4, a7]

end RR

namespace RR
open Scheduling.RR

theorem Started.mono {p : Process} {t t' : Int} (h : Started p t) (ht : t ≤ t') :
    Started p t' :=
  ⟨h.swapped_in, h.first, h.start_ge, h.response, le_trans h.progress ht, h.swapped_done,
    fun h0 => ⟨le_trans (h.completion h0).1 ht, (h.completion h0).2⟩, h.turnaround, h.waiting⟩

theorem visitedAt_replicate (n m : Nat) : visitedAt (List.replicate n 0) m = 0 := by
  unfold visitedAt
  by_cases h : m < n
  · simp [List.getElem?_replicate, h]
  · simp [List.getElem?_replicate, h]

theorem nodup_filter_range (n : Nat) (c : Nat → Bool) : ((List.range n).filter c).Nodup :=
  (List.nodup_range n).filter _

theorem Inv.rr_init (proc0 : List Process) (total : Int)
    (hfresh : ∀ p ∈ proc0, Fresh p) (hburst : ∀ p ∈ proc0, 0 < p.burst_time) :
    Inv proc0 total (RR.init proc0 total) := by
  obtain ⟨e1, e2, e3, e4, e5, e6, e7, e8⟩ := enqueueArrivals_spec
    { proc := proc0, current_time := 0, available_memory := total, completed := 0, queue := [],
      front := 0, visited := List.replicate proc0.length 0 } (by simp)
  have hrem : ∀ j, (procAt proc0 j).remaining_time = (procAt proc0 j).burst_time := by
    intro j
    by_cases hj : j < proc0.length
    · exact (hfresh _ (procAt_mem hj)).2.2.2.1
    · rw [procAt_default (Nat.le_of_not_lt hj)]; rfl
  have hready : ready (RR.init proc0 total) = (RR.init proc0 total).queue := by
    unfold ready; rw [show (RR.init proc0 total).front = 0 from e5]; rfl
  unfold RR.init at hready ⊢
  simp only at e1 e2 e3 e4 e5 e6 e7 e8
  refine ⟨?_, ?_, ?_, ?_, ?_, ?_, ?_, ?_, ?_, ?_, ?_, ?_, ?_, ?_, ?_, ?_, ?_, ?_, ?_⟩
  · rw [e1]
  · rw [e6]; simp
  · intro j; rw [e1]
  · intro j; rw [e1]
  · intro j; rw [e1]
  · intro j; rw [e1]
  · intro j; rw [e1, hrem j]
    by_cases hj : j < proc0.length
    · have := hburst _ (procAt_mem hj); omega
    · rw [procAt_default (Nat.le_of_not_lt hj)]; decide
  · intro j _; rw [e1]
  · intro j hj; rw [e1, hrem j] at hj; omega
  · rw [e5]; exact Nat.zero_le _
  · intro q hq
    rw [e7] at hq
    simp only [List.nil_append, List.mem_filter, List.mem_range] at hq
    exact hq.1
  · intro q hq
    rw [hready, e7] at hq
    simp only [List.nil_append, List.mem_filter, List.mem_range, decide_eq_true_eq] at hq
    rw [e8 q, if_pos hq, e1, hrem q]
    exact ⟨by decide, hburst _ (procAt_mem hq.1)⟩
  · rw [hready, e7]
    simp only [List.nil_append]
    exact nodup_filter_range _ _
  · intro j hj hv _
    rw [hready, e7]
    rw [e8 j] at hv
    simp only [List.nil_append, List.mem_filter, List.mem_range, decide_eq_true_eq]
    by_cases hc : j < proc0.length ∧ arrived
        { proc := proc0, current_time := 0, available_memory := total, completed := 0,
          queue := [], front := 0, visited := List.replicate proc0.length 0 } j
    · exact hc
    · rw [if_neg hc, visitedAt_replicate] at hv; exact absurd rfl hv
  · intro j hj hv
    rw [e8 j] at hv
    rw [e1, e2]
    by_cases hc : j < proc0.length ∧ arrived
        { proc := proc0, current_time := 0, available_memory := total, completed := 0,
          queue := [], front := 0, visited := List.replicate proc0.length 0 } j
    · exact hc.2.1
    · rw [if_neg hc, visitedAt_replicate] at hv; exact absurd rfl hv
  · intro j hj hv
    rw [e8 j] at hv
    rw [e1, e2]
    by_cases hc : j < proc0.length ∧ arrived
        { proc := proc0, current_time := 0, available_memory := total, completed := 0,
          queue := [], front := 0, visited := List.replicate proc0.length 0 } j
    · rw [if_pos hc] at hv; exact absurd hv (by decide)
    · refine ⟨?_, hrem j⟩
      by_contra hcon
      exact hc ⟨hj, by simpa using hcon, visitedAt_replicate _ _⟩
  · rw [e4, e1]
    simp only [finishedCount]
    symm
    rw [List.countP_eq_zero]
    intro a ha
    have h1 := (hfresh a ha).2.2.2.1
    have h2 := hburst a ha
    simp only [decide_eq_true_eq]
    omega
  · rw [e3, e1, residentMemory_eq_zero _ (fun p hp => (hfresh p hp).2.1)]
    simp
  · rw [e2]

end RR

namespace RR
open Scheduling.RR

theorem Inv.rr_idle {proc0 : List Process} {total : Int} {s : State} (h : Inv proc0 total s)
    (hfront : s.front = s.queue.length) (hburst : ∀ p ∈ proc0, 0 < p.burst_time) :
    Inv proc0 total (RR.idle s) := by
  obtain ⟨e1, e2, e3, e4, e5, e6, e7, e8⟩ := enqueueArrivals_spec
    { s with current_time := s.current_time + 1 } (by rw [h.vlen, h.len])
  have hempty : ready s = [] := by
    unfold ready; rw [hfront]; exact List.drop_length _
  have hready : ready (RR.idle s) = (List.range s.proc.length).filter
      (fun i => decide (arrived { s with current_time := s.current_time + 1 } i)) := by
    unfold ready RR.idle
    rw [e5, e7]
    show List.drop s.front (s.queue ++ _) = _
    rw [hfront, List.drop_left]
  have hbpos : ∀ j, j < proc0.length → 0 < (procAt s.proc j).burst_time := by
    intro j hj; rw [h.burst j]; exact hburst _ (procAt_mem hj)
  unfold RR.idle at hready ⊢
  simp only at e1 e2 e3 e4 e5 e6 e7 e8
  refine ⟨?_, ?_, ?_, ?_, ?_, ?_, ?_, ?_, ?_, ?_, ?_, ?_, ?_, ?_, ?_, ?_, ?_, ?_, ?_⟩
  · rw [e1]; exact h.len
  · rw [e6]; exact h.vlen
  · intro j; rw [e1]; exact h.pid j
  · intro j; rw [e1]; exact h.arrival j
  · intro j; rw [e1]; exact h.burst j
  · intro j; rw [e1]; exact h.mem j
  · intro j; rw [e1]; exact h.range j
  · intro j; rw [e1]; exact h.unstarted j
  · intro j; rw [e1, e2]; intro hj; exact (h.started j hj).mono (by omega)
  · rw [e5, e7]; simp only [List.length_append]; have := h.front_le; omega
  · intro q hq
    rw [e7] at hq
    rcases List.mem_append.mp hq with h1 | h1
    · exact h.queue_lt q h1
    · simp only [List.mem_filter, List.mem_range] at h1
      rw [← h.len]; exact h1.1
  · intro q hq
    rw [hready] at hq
    simp only [List.mem_filter, List.mem_range, decide_eq_true_eq] at hq
    rw [e8 q, if_pos hq, e1]
    refine ⟨by decide, ?_⟩
    have hq0 : q < proc0.length := by rw [← h.len]; exact hq.1
    rw [(h.unvisited q hq0 hq.2.2).2]
    exact hbpos q hq0
  · rw [hready]; exact nodup_filter_range _ _
  · intro j hj hv hr
    rw [hready]
    rw [e8 j] at hv
    rw [e1] at hr
    simp only [List.mem_filter, List.mem_range, decide_eq_true_eq]
    by_cases hc : j < s.proc.length ∧ arrived { s with current_time := s.current_time + 1 } j
    · exact hc
    · rw [if_neg hc] at hv
      have := h.in_ready j hj hv hr
      rw [hempty] at this
      simp at this
  · intro j hj hv
    rw [e8 j] at hv
    rw [e1, e2]
    by_cases hc : j < s.proc.length ∧ arrived { s with current_time := s.current_time + 1 } j
    · exact hc.2.1
    · rw [if_neg hc] at hv
      have := h.visited_arrived j hj hv
      show _ ≤ s.current_time + 1
      omega
  · intro j hj hv
    rw [e8 j] at hv
    rw [e1, e2]
    by_cases hc : j < s.proc.length ∧ arrived { s with current_time := s.current_time + 1 } j
    · rw [if_pos hc] at hv; exact absurd hv (by decide)
    · rw [if_neg hc] at hv
      refine ⟨?_, (h.unvisited j hj hv).2⟩
      by_contra hcon
      exact hc ⟨by rw [h.len]; exact hj, by simpa using hcon, hv⟩
  · rw [e4, e1]; exact h.count
  · rw [e3, e1]; exact h.memory
  · rw [e2]; have := h.time_nonneg; show 0 ≤ s.current_time + 1; omega

end RR

namespace RR
open Scheduling.RR

theorem finalRec_eq (tq : Int) (s : State) :
    finalRec tq s
      = runRec (procAt s.proc (queueAt s.queue s.front)) (afterAdmission s).current_time tq := rfl

theorem sliceLen_pos {p : Process} {tq : Int} (hrem : 0 < p.remaining_time) (htq : 0 < tq) :
    0 < sliceLen p tq ∧ sliceLen p tq ≤ p.remaining_time ∧ sliceLen p tq ≤ tq := by
  unfold sliceLen; split <;> omega

theorem admissionRec_frame (p : Process) :
    (admissionRec p).pid = p.pid ∧ (admissionRec p).arrival_time = p.arrival_time
      ∧ (admissionRec p).burst_time = p.burst_time
      ∧ (admissionRec p).memory_required = p.memory_required
      ∧ (admissionRec p).is_swapped = p.is_swapped
      ∧ (admissionRec p).remaining_time = p.remaining_time := by
  unfold admissionRec; split <;> exact ⟨rfl, rfl, rfl, rfl, rfl, rfl⟩

theorem firstRec_frame (p : Process) (t : Int) :
    (firstRec p t).pid = p.pid ∧ (firstRec p t).arrival_time = p.arrival_time
      ∧ (firstRec p t).burst_time = p.burst_time
      ∧ (firstRec p t).memory_required = p.memory_required
      ∧ (firstRec p t).is_swapped = p.is_swapped
      ∧ (firstRec p t).remaining_time = p.remaining_time
      ∧ (firstRec p t).total_swap_time = p.total_swap_time := by
  unfold firstRec; split <;> exact ⟨rfl, rfl, rfl, rfl, rfl, rfl, rfl⟩

theorem finishRec_frame (p : Process) (t : Int) :
    (finishRec p t).pid = p.pid ∧ (finishRec p t).arrival_time = p.arrival_time
      ∧ (finishRec p t).burst_time = p.burst_time
      ∧ (finishRec p t).memory_required = p.memory_required
      ∧ (finishRec p t).is_swapped = p.is_swapped
      ∧ (finishRec p t).remaining_time = p.remaining_time
      ∧ (finishRec p t).total_swap_time = p.total_swap_time := by
  unfold finishRec; split <;> exact ⟨rfl, rfl, rfl, rfl, rfl, rfl, rfl⟩

theorem runRec_frame (p : Process) (tA tq : Int) :
    (runRec p tA tq).pid = p.pid ∧ (runRec p tA tq).arrival_time = p.arrival_time
      ∧ (runRec p tA tq).burst_time = p.burst_time
      ∧ (runRec p tA tq).memory_required = p.memory_required
      ∧ (runRec p tA tq).is_swapped = p.is_swapped
      ∧ (runRec p tA tq).remaining_time = p.remaining_time - sliceLen p tq
      ∧ (runRec p tA tq).total_swap_time = (admissionRec p).total_swap_time := by
  obtain ⟨a1, a2, a3, a4, a5, a6⟩ := admissionRec_frame p
  obtain ⟨b1, b2, b3, b4, b5, b6, b7⟩ := firstRec_frame (admissionRec p) tA
  obtain ⟨c1, c2, c3, c4, c5, c6, c7⟩ :=
    finishRec_frame (sliceRec (firstRec (admissionRec p) tA) tq) (tA + sliceLen p tq)
  unfold runRec
  rw [c1, c2, c3, c4, c5, c6, c7]
  simp only [sliceRec, sliceLen_firstRec, sliceLen_admissionRec]
  exact ⟨b1.trans a1, b2.trans a2, b3.trans a3, b4.trans a4, b5.trans a5,
    by rw [b6, a6], b7⟩

theorem held_runRec (p : Process) (tA tq : Int) : held (runRec p tA tq) = held (admissionRec p) := by
  obtain ⟨-, -, -, h4, h5, -, h7⟩ := runRec_frame p tA tq
  have h8 : (admissionRec p).is_swapped = p.is_swapped := by unfold admissionRec; split <;> rfl
  have h9 : (admissionRec p).memory_required = p.memory_required := by unfold admissionRec; split <;> rfl
  simp only [held, h4, h5, h7, h8, h9]

theorem runRec_started (p : Process) (t tA tq : Int) (htq : 0 < tq)
    (hrem : 0 < p.remaining_time) (hle : p.remaining_time ≤ p.burst_time) (ht : t ≤ tA)
    (harr : p.arrival_time ≤ t)
    (hu : p.remaining_time = p.burst_time →
      p.total_swap_time = 0 ∧ p.first_execution = 0 ∧ p.is_swapped = 0 ∧ t + SWAP_TIME ≤ tA)
    (hs : p.remaining_time < p.burst_time → Started p t) :
    Started (runRec p tA tq) (tA + sliceLen p tq) := by
  have hsl := sliceLen_pos hrem htq
  by_cases h1 : p.remaining_time = p.burst_time
  · obtain ⟨u1, u2, u3, u4⟩ := hu h1
    by_cases h3 : 0 < p.remaining_time - sliceLen p tq
    · have e : runRec p tA tq
          = { p with
              total_swap_time := p.total_swap_time + SWAP_TIME
              start_time := tA
              response_time := tA - p.arrival_time
              first_execution := 1
              remaining_time := p.remaining_time - sliceLen p tq } := by
        have ha : admissionRec p = { p with total_swap_time := p.total_swap_time + SWAP_TIME } := by
          unfold admissionRec; rw [if_pos h1]
        have hf : firstRec { p with total_swap_time := p.total_swap_time + SWAP_TIME } tA
            = { p with
                total_swap_time := p.total_swap_time + SWAP_TIME
                start_time := tA
                response_time := tA - p.arrival_time
                first_execution := 1 } := by
          unfold firstRec; rw [if_pos (show p.first_execution = 0 from u2)]
        unfold runRec
        rw [ha, hf]
        exact if_pos h3
      rw [e]
      refine ⟨by simp [u1], by simp, ?_, rfl, ?_, ?_, ?_, ?_, ?_⟩
      · show p.arrival_time + SWAP_TIME ≤ tA; omega
      · show tA + (p.burst_time - (p.remaining_time - sliceLen p tq)) ≤ _; omega
      · intro hc; exact absurd u3 hc
      · intro hc; simp only at hc; omega
      · intro hc; simp only at hc; omega
      · intro hc; simp only at hc; omega
    · have e : runRec p tA tq
          = { p with
              total_swap_time := p.total_swap_time + SWAP_TIME
              start_time := tA
              response_time := tA - p.arrival_time
              first_execution := 1
              remaining_time := p.remaining_time - sliceLen p tq
              completion_time := tA + sliceLen p tq
              turnaround_time := tA + sliceLen p tq - p.arrival_time
              waiting_time := tA + sliceLen p tq - p.arrival_time - p.burst_time } := by
        have ha : admissionRec p = { p with total_swap_time := p.total_swap_time + SWAP_TIME } := by
          unfold admissionRec; rw [if_pos h1]
        have hf : firstRec { p with total_swap_time := p.total_swap_time + SWAP_TIME } tA
            = { p with
                total_swap_time := p.total_swap_time + SWAP_TIME
                start_time := tA
                response_time := tA - p.arrival_time
                first_execution := 1 } := by
          unfold firstRec; rw [if_pos (show p.first_execution = 0 from u2)]
        unfold runRec
        rw [ha, hf]
        exact if_neg h3
      rw [e]
      refine ⟨by simp [u1], by simp, ?_, rfl, ?_, ?_, ?_, ?_, ?_⟩
      · show p.arrival_time + SWAP_TIME ≤ tA; omega
      · show tA + (p.burst_time - (p.remaining_time - sliceLen p tq)) ≤ _; omega
      · intro _; show p.remaining_time - sliceLen p tq = 0; omega
      · intro _
        show tA + sliceLen p tq ≤ tA + sliceLen p tq ∧ tA + p.burst_time ≤ tA + sliceLen p tq
        constructor <;> omega
      · intro _; rfl
      · intro _; rfl
  · have hlt : p.remaining_time < p.burst_time := by omega
    have hst := hs hlt
    have hsw : p.is_swapped = 0 := by
      by_contra hc
      have := hst.swapped_done hc
      omega
    by_cases h3 : 0 < p.remaining_time - sliceLen p tq
    · have e : runRec p tA tq
          = { p with remaining_time := p.remaining_time - sliceLen p tq } := by
        have ha : admissionRec p = p := by unfold admissionRec; rw [if_neg h1]
        have hf : firstRec p tA = p := by unfold firstRec; rw [if_neg hst.first]
        unfold runRec
        rw [ha, hf]
        exact if_pos h3
      rw [e]
      refine ⟨hst.swapped_in, hst.first, hst.start_ge, hst.response, ?_, ?_, ?_, ?_, ?_⟩
      · show p.start_time + (p.burst_time - (p.remaining_time - sliceLen p tq)) ≤ _
        have := hst.progress; omega
      · intro hc; exact absurd hsw hc
      · intro hc; simp only at hc; omega
      · intro hc; simp only at hc; omega
      · intro hc; simp only at hc; omega
    · have e : runRec p tA tq
          = { p with
              remaining_time := p.remaining_time - sliceLen p tq
              completion_time := tA + sliceLen p tq
              turnaround_time := tA + sliceLen p tq - p.arrival_time
              waiting_time := tA + sliceLen p tq - p.arrival_time - p.burst_time } := by
        have ha : admissionRec p = p := by unfold admissionRec; rw [if_neg h1]
        have hf : firstRec p tA = p := by unfold firstRec; rw [if_neg hst.first]
        unfold runRec
        rw [ha, hf]
        exact if_neg h3
      rw [e]
      refine ⟨hst.swapped_in, hst.first, hst.start_ge, hst.response, ?_, ?_, ?_, ?_, ?_⟩
      · show p.start_time + (p.burst_time - (p.remaining_time - sliceLen p tq)) ≤ _
        have := hst.progress; omega
      · intro _; show p.remaining_time - sliceLen p tq = 0; omega
      · intro _
        show tA + sliceLen p tq ≤ tA + sliceLen p tq
          ∧ p.start_time + p.burst_time ≤ tA + sliceLen p tq
        have := hst.progress
        constructor <;> omega
      · intro _; rfl
      · intro _; rfl

end RR

theorem noSwap_eq {p q : Process} (h : noSwap q = noSwap p) :
    q = { p with is_swapped := q.is_swapped, swap_out_time := q.swap_out_time } := by
  cases p; cases q
  simp only [noSwap, Process.mk.injEq] at h
  obtain ⟨h1, h2, h3, h4, h5, h6, h7, h8, h9, h10, h11, -, -, h14, h15, h16, h17⟩ := h
  subst h1 h2 h3 h4 h5 h6 h7 h8 h9 h10 h11 h14 h15 h16 h17
  rfl

namespace RR
open Scheduling.RR

theorem Started.congr_started {p q : Process} {t : Int} (h : noSwap q = noSwap p)
    (hsw : q.is_swapped ≠ 0 → q.remaining_time = 0) (hp : Started p t) : Started q t := by
  have e := noSwap_eq h
  rw [e] at hsw ⊢
  exact ⟨hp.swapped_in, hp.first, hp.start_ge, hp.response, hp.progress, hsw, hp.completion,
    hp.turnaround, hp.waiting⟩

theorem finishedCount_congr {l l' : List Process} (hlen : l.length = l'.length)
    (h : ∀ m, (procAt l m).remaining_time = (procAt l' m).remaining_time) :
    finishedCount l = finishedCount l' := by
  have hm := map_eq_of_procAt (fun p => decide (p.remaining_time = 0)) hlen
    (fun m => by simp only [h m])
  have e : ∀ l : List Process, finishedCount l
      = List.countP (fun b => b) (l.map (fun p => decide (p.remaining_time = 0))) := by
    intro l; rw [List.countP_map]; rfl
  rw [e, e, hm]

theorem finishedCount_set (l : List Process) (i : Nat) (p : Process) (hi : i < l.length)
    (h0 : (procAt l i).remaining_time ≠ 0) :
    finishedCount (l.set i p) = finishedCount l + (if p.remaining_time = 0 then 1 else 0) := by
  unfold finishedCount
  rw [List.countP_set _ _ _ _ hi]
  rw [procAt_of_lt hi] at h0
  simp [h0]

theorem finishedCount_le (l : List Process) : finishedCount l ≤ l.length :=
  List.countP_le_length _

theorem all_finished_of_count {l : List Process} (h : l.length ≤ finishedCount l) :
    ∀ p ∈ l, p.remaining_time = 0 := by
  have he : finishedCount l = l.length := le_antisymm (finishedCount_le l) h
  intro p hp
  have := (List.countP_eq_length.mp he) p hp
  simpa using this

theorem exists_unfinished_of_count {l : List Process} (h : finishedCount l < l.length) :
    ∃ i, i < l.length ∧ (procAt l i).remaining_time ≠ 0 := by
  by_contra hcon
  have hall : ∀ a ∈ l, (fun p : Process => decide (p.remaining_time = 0)) a = true := by
    intro a ha
    obtain ⟨i, hi, he⟩ := exists_procAt_of_mem ha
    by_contra hn
    exact hcon ⟨i, hi, by rw [he]; simpa using hn⟩
  have := List.countP_eq_length.mpr hall
  unfold finishedCount at h
  omega

/-- Facts about the start of a dispatch from a state that satisfies the invariant. -/
theorem Inv.rr_head {proc0 : List Process} {total : Int} {s : State} (h : Inv proc0 total s)
    (hfront : s.front ≠ s.queue.length) :
    ready s = queueAt s.queue s.front :: s.queue.drop (s.front + 1)
      ∧ queueAt s.queue s.front < proc0.length
      ∧ visitedAt s.visited (queueAt s.queue s.front) ≠ 0
      ∧ 0 < (procAt s.proc (queueAt s.queue s.front)).remaining_time
      ∧ queueAt s.queue s.front ∉ s.queue.drop (s.front + 1)
      ∧ (s.queue.drop (s.front + 1)).Nodup := by
  have hlt : s.front < s.queue.length := lt_of_le_of_ne h.front_le hfront
  have hq : queueAt s.queue s.front = s.queue[s.front] := by
    simp [queueAt, List.getElem?_eq_getElem hlt]
  have hr : ready s = queueAt s.queue s.front :: s.queue.drop (s.front + 1) := by
    unfold ready; rw [List.drop_eq_getElem_cons hlt, ← hq]
  have hmem : queueAt s.queue s.front ∈ s.queue := by rw [hq]; exact List.getElem_mem _
  have hok := h.ready_ok (queueAt s.queue s.front) (by rw [hr]; simp)
  have hnd := h.ready_nodup
  rw [hr, List.nodup_cons] at hnd
  exact ⟨hr, h.queue_lt _ hmem, hok.1, hok.2, hnd.1, hnd.2⟩

/-- Facts about the admission block of a dispatch from a state that satisfies the invariant. -/
theorem Inv.rr_admission_facts {proc0 : List Process} {total : Int} {s : State} (h : Inv proc0 total s)
    (hfront : s.front ≠ s.queue.length)
    (hfresh : ∀ p ∈ proc0, Fresh p) (hburst : ∀ p ∈ proc0, 0 < p.burst_time) :
    (afterAdmission s).proc.length = s.proc.length
      ∧ procAt (afterAdmission s).proc (queueAt s.queue s.front)
          = admissionRec (procAt s.proc (queueAt s.queue s.front))
      ∧ (∀ m, m ≠ queueAt s.queue s.front →
          noSwap (procAt (afterAdmission s).proc m) = noSwap (procAt s.proc m))
      ∧ (∀ m, m ≠ queueAt s.queue s.front → (procAt s.proc m).remaining_time ≠ 0 →
          procAt (afterAdmission s).proc m = procAt s.proc m)
      ∧ s.current_time ≤ (afterAdmission s).current_time
      ∧ ((procAt s.proc (queueAt s.queue s.front)).remaining_time
            = (procAt s.proc (queueAt s.queue s.front)).burst_time →
          s.current_time + SWAP_TIME ≤ (afterAdmission s).current_time)
      ∧ (afterAdmission s).available_memory + residentMemory (afterAdmission s).proc = total := by
  obtain ⟨-, hidx, -, hrem, -, -⟩ := h.rr_head hfront
  have hi : queueAt s.queue s.front < s.proc.length := by rw [h.len]; exact hidx
  have hrem' : (procAt s.proc (queueAt s.queue s.front)).remaining_time ≠ 0 := by omega
  have ht := admission_time { s with front := s.front + 1 } (queueAt s.queue s.front)
  refine ⟨admission_length _ _, admission_self { s with front := s.front + 1 } _ hi hrem',
    fun m hm => admission_other { s with front := s.front + 1 } _ m hm,
    fun m hm hr => admission_kept { s with front := s.front + 1 } _ m hm hr, ht.1, ht.2, ?_⟩
  unfold afterAdmission
  rw [admission_memory { s with front := s.front + 1 } _ hi ?_ hrem' ?_]
  · exact h.memory
  · intro j hj h0
    have hj0 : j < proc0.length := by rw [← h.len]; exact hj
    have hb : 0 < (procAt s.proc j).burst_time := by
      rw [h.burst j]; exact hburst _ (procAt_mem hj0)
    have hst := h.started j (by
      show (procAt s.proc j).remaining_time < (procAt s.proc j).burst_time
      have : (procAt s.proc j).remaining_time = 0 := h0
      omega)
    show (procAt s.proc j).total_swap_time ≠ 0
    rw [hst.swapped_in]; decide
  · intro he
    have hu := h.unstarted _ he
    have hf := hfresh _ (procAt_mem hidx)
    show (procAt s.proc _).total_swap_time = 0 ∧ (procAt s.proc _).is_swapped = 0
    rw [hu]
    exact ⟨hf.2.1, hf.1⟩

end RR

namespace RR
open Scheduling.RR

theorem Inv.rr_dispatch {proc0 : List Process} {total : Int} {tq : Int} {s : State}
    (h : Inv proc0 total s) (hfront : s.front ≠ s.queue.length) (htq : 0 < tq)
    (hfresh : ∀ p ∈ proc0, Fresh p) (hburst : ∀ p ∈ proc0, 0 < p.burst_time) :
    Inv proc0 total (RR.dispatch tq s) := by
  obtain ⟨hr, hidx, hvis, hrem, hnotin, hnd⟩ := h.rr_head hfront
  obtain ⟨aLen, aSelf, aOther, aKept, aT, aT2, aMem⟩ := h.rr_admission_facts hfront hfresh hburst
  have hi : queueAt s.queue s.front < s.proc.length := by rw [h.len]; exact hidx
  have hrem' : (procAt s.proc (queueAt s.queue s.front)).remaining_time ≠ 0 := by omega
  obtain ⟨d1, d2, d3, d4, d5, d6, d7, d8⟩ :=
    rr_dispatch_spec tq s hi hrem' (by rw [h.vlen, h.len])
  obtain ⟨s1, s2, -, -, -, -, s7⟩ := afterSlice_spec tq s hi hrem'
  rw [finalRec_eq] at d1 d4 d5
  obtain ⟨f1, f2, f3, f4, f5, f6, f7⟩ := runRec_frame
    (procAt s.proc (queueAt s.queue s.front)) (afterAdmission s).current_time tq
  have hsl := sliceLen_pos (p := procAt s.proc (queueAt s.queue s.front)) hrem htq
  have hrange := h.range (queueAt s.queue s.front)
  have hfr := hfresh _ (procAt_mem hidx)
  have hstarted := runRec_started (procAt s.proc (queueAt s.queue s.front))
    s.current_time (afterAdmission s).current_time tq htq hrem hrange.2 aT
    (h.visited_arrived _ hidx hvis)
    (fun he => by
      have hu := h.unstarted _ he
      rw [hu]
      exact ⟨hfr.2.1, hfr.2.2.2.2, hfr.1, aT2 he⟩)
    (h.started _)
  -- the process array after the dispatch
  have pSelf : procAt (RR.dispatch tq s).proc (queueAt s.queue s.front)
      = runRec (procAt s.proc (queueAt s.queue s.front)) (afterAdmission s).current_time tq := by
    rw [d1, procAt_set_self _ (by rw [aLen]; exact hi)]
  have pOther : ∀ m, m ≠ queueAt s.queue s.front →
      procAt (RR.dispatch tq s).proc m = procAt (afterAdmission s).proc m := by
    intro m hm; rw [d1, procAt_set_ne _ _ hm]
  have pNoSwap : ∀ m, m ≠ queueAt s.queue s.front →
      noSwap (procAt (RR.dispatch tq s).proc m) = noSwap (procAt s.proc m) := by
    intro m hm; rw [pOther m hm]; exact aOther m hm
  have pEq : ∀ m, m ≠ queueAt s.queue s.front →
      procAt (RR.dispatch tq s).proc m
        = { procAt s.proc m with
            is_swapped := (procAt (RR.dispatch tq s).proc m).is_swapped
            swap_out_time := (procAt (RR.dispatch tq s).proc m).swap_out_time } :=
    fun m hm => noSwap_eq (pNoSwap m hm)
  have pRem : ∀ m, m ≠ queueAt s.queue s.front →
      (procAt (RR.dispatch tq s).proc m).remaining_time = (procAt s.proc m).remaining_time := by
    intro m hm; rw [pEq m hm]
  have pBurst : ∀ m, (procAt (RR.dispatch tq s).proc m).burst_time
      = (procAt s.proc m).burst_time := by
    intro m
    by_cases hm : m = queueAt s.queue s.front
    · rw [hm, pSelf, f3]
    · rw [pEq m hm]
  have pArr : ∀ m, (procAt (RR.dispatch tq s).proc m).arrival_time
      = (procAt s.proc m).arrival_time := by
    intro m
    by_cases hm : m = queueAt s.queue s.front
    · rw [hm, pSelf, f2]
    · rw [pEq m hm]
  have hTime : s.current_time ≤ (RR.dispatch tq s).current_time := by rw [d2]; omega
  -- the arrival scan after the slice
  have s4Other : ∀ m, m ≠ queueAt s.queue s.front →
      procAt (afterSlice tq s).proc m = procAt (afterAdmission s).proc m := by
    intro m hm; rw [s1, procAt_set_ne _ _ hm]
  have hArr : ∀ m, arrivedRem (afterSlice tq s) m ↔
      (m ≠ queueAt s.queue s.front
        ∧ (procAt s.proc m).arrival_time ≤ (RR.dispatch tq s).current_time
        ∧ visitedAt s.visited m = 0 ∧ 0 < (procAt s.proc m).remaining_time) := by
    intro m
    unfold arrivedRem
    rw [s7, s2, ← d2]
    constructor
    · rintro ⟨c1, c2, c3⟩
      have hm : m ≠ queueAt s.queue s.front := fun e => hvis (e ▸ c2)
      rw [s4Other m hm, ← pOther m hm] at c1 c3
      rw [pArr m] at c1
      rw [pRem m hm] at c3
      exact ⟨hm, c1, c2, c3⟩
    · rintro ⟨hm, c1, c2, c3⟩
      rw [s4Other m hm, ← pOther m hm, pArr m, pRem m hm]
      exact ⟨c1, c2, c3⟩
  have hReady : ready (RR.dispatch tq s)
      = (s.queue.drop (s.front + 1)
          ++ (List.range s.proc.length).filter (fun i => decide (arrivedRem (afterSlice tq s) i)))
        ++ (if (runRec (procAt s.proc (queueAt s.queue s.front))
              (afterAdmission s).current_time tq).remaining_time > 0
            then [queueAt s.queue s.front] else []) := by
    have hlt : s.front + 1 ≤ s.queue.length := by
      have := h.front_le
      omega
    unfold ready
    rw [d5, d6, List.append_assoc, List.drop_append_of_le_length hlt, List.append_assoc]
  have hRestIn : ∀ q, q ∈ s.queue.drop (s.front + 1) → q ∈ ready s := by
    intro q hq; rw [hr]; exact List.mem_cons_of_mem _ hq
  refine ⟨?_, ?_, ?_, ?_, ?_, ?_, ?_, ?_, ?_, ?_, ?_, ?_, ?_, ?_, ?_, ?_, ?_, ?_, ?_⟩
  · rw [d1, List.length_set, aLen]; exact h.len
  · rw [d7]; exact h.vlen
  · intro j
    by_cases hj : j = queueAt s.queue s.front
    · rw [hj, pSelf, f1]; exact h.pid _
    · rw [pEq j hj]; exact h.pid j
  · intro j; rw [pArr j]; exact h.arrival j
  · intro j; rw [pBurst j]; exact h.burst j
  · intro j
    by_cases hj : j = queueAt s.queue s.front
    · rw [hj, pSelf, f4]; exact h.mem _
    · rw [pEq j hj]; exact h.mem j
  · intro j
    rw [pBurst j]
    by_cases hj : j = queueAt s.queue s.front
    · rw [hj, pSelf, f6]; omega
    · rw [pRem j hj]; exact h.range j
  · intro j hj
    rw [pBurst j] at hj
    by_cases hjx : j = queueAt s.queue s.front
    · rw [hjx, pSelf, f6] at hj; omega
    · rw [pRem j hjx] at hj
      by_cases hz : (procAt s.proc j).remaining_time = 0
      · have hjn : ¬ j < proc0.length := by
          intro hlt
          have := hburst _ (procAt_mem hlt)
          rw [← h.burst j] at this
          omega
        rw [procAt_default (by rw [d1, List.length_set, aLen, h.len]; omega),
          procAt_default (by omega)]
      · rw [pOther j hjx, aKept j hjx hz]; exact h.unstarted j hj
  · intro j hj
    rw [pBurst j] at hj
    by_cases hjx : j = queueAt s.queue s.front
    · rw [hjx, pSelf, d2]; exact hstarted
    · rw [pRem j hjx] at hj
      refine ((h.started j hj).congr_started (pNoSwap j hjx) ?_).mono hTime
      intro hsw
      rw [pRem j hjx]
      by_contra hz
      rw [pOther j hjx, aKept j hjx hz] at hsw
      exact hz ((h.started j hj).swapped_done hsw)
  · rw [d6, d5]
    have := h.front_le
    simp only [List.length_append]
    omega
  · intro q hq
    rw [d5] at hq
    rcases List.mem_append.mp hq with h1 | h1
    · rcases List.mem_append.mp h1 with h2 | h2
      · exact h.queue_lt q h2
      · simp only [List.mem_filter, List.mem_range] at h2
        rw [← h.len]; exact h2.1
    · split at h1
      · simp only [List.mem_singleton] at h1; rw [h1]; exact hidx
      · simp at h1
  · intro q hq
    rw [hReady] at hq
    rcases List.mem_append.mp hq with h1 | h1
    · rcases List.mem_append.mp h1 with h2 | h2
      · have hqx : q ≠ queueAt s.queue s.front := fun e => hnotin (e ▸ h2)
        have hok := h.ready_ok q (hRestIn q h2)
        rw [d8 q, pRem q hqx]
        refine ⟨?_, hok.2⟩
        split
        · decide
        · exact hok.1
      · simp only [List.mem_filter, List.mem_range, decide_eq_true_eq] at h2
        have ha := (hArr q).mp h2.2
        rw [d8 q, if_pos h2, pRem q ha.1]
        exact ⟨by decide, ha.2.2.2⟩
    · split at h1
      · rename_i hpos
        simp only [List.mem_singleton] at h1
        rw [h1, d8, pSelf]
        refine ⟨?_, hpos⟩
        split
        · decide
        · exact hvis
      · simp at h1
  · rw [hReady]
    have hA : ∀ q, q ∈ (List.range s.proc.length).filter
        (fun i => decide (arrivedRem (afterSlice tq s) i)) →
        q ≠ queueAt s.queue s.front ∧ visitedAt s.visited q = 0 := by
      intro q hq
      simp only [List.mem_filter, List.mem_range, decide_eq_true_eq] at hq
      have := (hArr q).mp hq.2
      exact ⟨this.1, this.2.2.1⟩
    rw [List.nodup_append]
    refine ⟨?_, ?_, ?_⟩
    · rw [List.nodup_append]
      refine ⟨hnd, nodup_filter_range _ _, ?_⟩
      intro q hq1 hq2
      exact (h.ready_ok q (hRestIn q hq1)).1 (hA q hq2).2
    · split
      · exact List.nodup_singleton _
      · exact List.nodup_nil
    · intro q hq1 hq2
      split at hq2
      · simp only [List.mem_singleton] at hq2
        rcases List.mem_append.mp hq1 with h2 | h2
        · exact hnotin (hq2 ▸ h2)
        · exact (hA q h2).1 hq2
      · simp at hq2
  · intro j hj hv hrj
    rw [hReady]
    by_cases hjx : j = queueAt s.queue s.front
    · rw [hjx, pSelf] at hrj
      rw [if_pos hrj, hjx]
      simp
    · rw [pRem j hjx] at hrj
      rw [d8 j] at hv
      apply List.mem_append_left
      by_cases hc : j < s.proc.length ∧ arrivedRem (afterSlice tq s) j
      · apply List.mem_append_right
        simp only [List.mem_filter, List.mem_range, decide_eq_true_eq]
        exact hc
      · rw [if_neg hc] at hv
        apply List.mem_append_left
        have := h.in_ready j hj hv hrj
        rw [hr] at this
        rcases List.mem_cons.mp this with h1 | h1
        · exact absurd h1 hjx
        · exact h1
  · intro j hj hv
    rw [pArr j]
    rw [d8 j] at hv
    by_cases hc : j < s.proc.length ∧ arrivedRem (afterSlice tq s) j
    · exact ((hArr j).mp hc.2).2.1
    · rw [if_neg hc] at hv
      exact le_trans (h.visited_arrived j hj hv) hTime
  · intro j hj hv
    rw [d8 j] at hv
    by_cases hc : j < s.proc.length ∧ arrivedRem (afterSlice tq s) j
    · rw [if_pos hc] at hv; exact absurd hv (by decide)
    · rw [if_neg hc] at hv
      have hjx : j ≠ queueAt s.queue s.front := fun e => hvis (e ▸ hv)
      have hu := h.unvisited j hj hv
      rw [pArr j, pBurst j, pRem j hjx]
      refine ⟨?_, hu.2⟩
      by_contra hcon
      apply hc
      refine ⟨by rw [h.len]; exact hj, (hArr j).mpr ⟨hjx, by omega, hv, ?_⟩⟩
      rw [hu.2, h.burst j]
      exact hburst _ (procAt_mem hj)
  · rw [d4, d1, finishedCount_set _ _ _ (by rw [aLen]; exact hi) (by rw [aSelf]; simpa using hrem'),
      h.count]
    have hc : finishedCount (afterAdmission s).proc = finishedCount s.proc := by
      apply finishedCount_congr aLen
      intro m
      by_cases hm : m = queueAt s.queue s.front
      · rw [hm, aSelf]; simp
      · rw [noSwap_eq (aOther m hm)]
    rw [hc, f6]
    by_cases hz : (procAt s.proc (queueAt s.queue s.front)).remaining_time
        - sliceLen (procAt s.proc (queueAt s.queue s.front)) tq = 0
    · rw [if_neg (by omega), if_pos hz]
    · rw [if_pos (by omega), if_neg hz]; rfl
  · rw [d3, d1, residentMemory_set_same _ _ _ (by rw [aSelf]; exact held_runRec _ _ _)]
    exact aMem
  · exact le_trans h.time_nonneg hTime

end RR

namespace RR
open Scheduling.RR

theorem Inv.rr_step {proc0 : List Process} {total : Int} {tq : Int} {s : State}
    (h : Inv proc0 total s) (htq : 0 < tq)
    (hfresh : ∀ p ∈ proc0, Fresh p) (hburst : ∀ p ∈ proc0, 0 < p.burst_time) :
    Inv proc0 total (RR.step tq s) := by
  unfold RR.step
  split
  · rename_i hf; exact h.rr_idle hf hburst
  · rename_i hf; exact h.rr_dispatch hf htq hfresh hburst

theorem Inv.rr_reach {proc0 : List Process} {total : Int} {tq : Int} {s : State} (htq : 0 < tq)
    (hfresh : ∀ p ∈ proc0, Fresh p) (hburst : ∀ p ∈ proc0, 0 < p.burst_time)
    (hr : Reach tq (RR.init proc0 total) s) : Inv proc0 total s := by
  induction hr with
  | init => exact Inv.rr_init proc0 total hfresh hburst
  | step _ _ ih => exact ih.rr_step htq hfresh hburst

theorem rr_loop_reach {tq : Int} {s0 : State} (fuel : Nat) {s r : State}
    (hs : Reach tq s0 s) (h : loop tq fuel s = some r) :
    Reach tq s0 r ∧ r.proc.length ≤ r.completed := by
  induction fuel generalizing s with
  | zero =>
    simp only [loop] at h
    split at h
    · simp at h
    · simp only [Option.some.injEq] at h; subst h; exact ⟨hs, by omega⟩
  | succ fuel ih =>
    simp only [loop] at h
    split at h
    · rename_i hc; exact ih (Reach.step hs hc) h
    · simp only [Option.some.injEq] at h; subst h; exact ⟨hs, by omega⟩

theorem rr_loop_succ_of_running {tq : Int} {s : State} (fuel : Nat)
    (hc : s.completed < s.proc.length) :
    loop tq (fuel + 1) s = loop tq fuel (RR.step tq s) := by
  simp [loop, hc]

theorem rr_loop_of_done {tq : Int} {s : State} (fuel : Nat)
    (hc : ¬ s.completed < s.proc.length) : loop tq fuel s = some s := by
  cases fuel <;> simp [loop, hc]

theorem remainingWork_set (l : List Process) (i : Nat) (p : Process) (hi : i < l.length) :
    remainingWork (l.set i p) + (procAt l i).remaining_time.toNat
      = remainingWork l + p.remaining_time.toNat := by
  induction l generalizing i with
  | nil => simp at hi
  | cons x t ih =>
    cases i with
    | zero => simp [remainingWork, procAt]; omega
    | succ i =>
      have := ih i (by simpa using hi)
      simp only [remainingWork, List.set_cons_succ, List.map_cons, List.sum_cons,
        procAt_cons_succ] at this ⊢
      omega

theorem remainingWork_congr {l l' : List Process} (hlen : l.length = l'.length)
    (h : ∀ m, (procAt l m).remaining_time = (procAt l' m).remaining_time) :
    remainingWork l = remainingWork l' := by
  unfold remainingWork
  rw [map_eq_of_procAt (fun p => p.remaining_time.toNat) hlen (fun m => by simp only [h m])]

/-- A dispatch strictly decreases the total remaining work. -/
theorem Inv.rr_dispatch_work {proc0 : List Process} {total : Int} {tq : Int} {s : State}
    (h : Inv proc0 total s) (hfront : s.front ≠ s.queue.length) (htq : 0 < tq)
    (hfresh : ∀ p ∈ proc0, Fresh p) (hburst : ∀ p ∈ proc0, 0 < p.burst_time) :
    remainingWork (RR.dispatch tq s).proc < remainingWork s.proc := by
  obtain ⟨hr, hidx, hvis, hrem, hnotin, hnd⟩ := h.rr_head hfront
  obtain ⟨aLen, aSelf, aOther, aKept, aT, aT2, aMem⟩ := h.rr_admission_facts hfront hfresh hburst
  have hi : queueAt s.queue s.front < s.proc.length := by rw [h.len]; exact hidx
  have hrem' : (procAt s.proc (queueAt s.queue s.front)).remaining_time ≠ 0 := by omega
  obtain ⟨d1, -⟩ := rr_dispatch_spec tq s hi hrem' (by rw [h.vlen, h.len])
  rw [finalRec_eq] at d1
  obtain ⟨-, -, -, -, -, f6, -⟩ := runRec_frame
    (procAt s.proc (queueAt s.queue s.front)) (afterAdmission s).current_time tq
  have hsl := sliceLen_pos (p := procAt s.proc (queueAt s.queue s.front)) hrem htq
  have hc : remainingWork (afterAdmission s).proc = remainingWork s.proc := by
    apply remainingWork_congr aLen
    intro m
    by_cases hm : m = queueAt s.queue s.front
    · rw [hm, aSelf]; simp
    · rw [noSwap_eq (aOther m hm)]
  have hset := remainingWork_set (afterAdmission s).proc (queueAt s.queue s.front)
    (runRec (procAt s.proc (queueAt s.queue s.front)) (afterAdmission s).current_time tq)
    (by rw [aLen]; exact hi)
  rw [aSelf, admissionRec_remaining, f6, hc, ← d1] at hset
  omega

/-- The loop of `calculate_rr` exits from every state that satisfies the invariant. -/
theorem rr_loop_terminates {proc0 : List Process} {total : Int} {tq : Int} (htq : 0 < tq)
    (hfresh : ∀ p ∈ proc0, Fresh p) (hburst : ∀ p ∈ proc0, 0 < p.burst_time) :
    ∀ (a b : Nat) (s : State), Inv proc0 total s → remainingWork s.proc = a →
      (maxArrival proc0 - s.current_time).toNat = b →
      ∃ fuel r, loop tq fuel s = some r := by
  intro a
  induction a using Nat.strong_induction_on with
  | _ a iha =>
    intro b
    induction b using Nat.strong_induction_on with
    | _ b ihb =>
      intro s h ha hb
      by_cases hc : s.completed < s.proc.length
      · by_cases hf : s.front = s.queue.length
        · -- idle tick: some unfinished process has not been visited yet
          have hstep : RR.step tq s = RR.idle s := by simp [RR.step, hf]
          obtain ⟨i, hi, hri⟩ := exists_unfinished_of_count (by rw [← h.count]; exact hc)
          have hi0 : i < proc0.length := by rw [← h.len]; exact hi
          have hpos : 0 < (procAt s.proc i).remaining_time := by
            have := (h.range i).1; omega
          have hnv : visitedAt s.visited i = 0 := by
            by_contra hv
            have := h.in_ready i hi0 hv hpos
            unfold ready at this
            rw [hf, List.drop_length] at this
            simp at this
          have harr := (h.unvisited i hi0 hnv).1
          have hmax : (procAt s.proc i).arrival_time ≤ maxArrival proc0 := by
            rw [h.arrival i]; exact le_maxArrival (procAt_mem hi0)
          have hidle := h.rr_idle hf hburst
          obtain ⟨e1, e2, -⟩ := enqueueArrivals_spec
            { s with current_time := s.current_time + 1 } (by rw [h.vlen, h.len])
          obtain ⟨fuel, r, hr⟩ := ihb ((maxArrival proc0 - (RR.idle s).current_time).toNat)
            (by
              have : (RR.idle s).current_time = s.current_time + 1 := e2
              omega)
            (RR.idle s) hidle (by rw [← ha]; exact congrArg remainingWork e1) rfl
          exact ⟨fuel + 1, r, by rw [rr_loop_succ_of_running fuel hc, hstep]; exact hr⟩
        · have hstep : RR.step tq s = RR.dispatch tq s := by simp [RR.step, hf]
          have hinv := h.rr_dispatch hf htq hfresh hburst
          have hw := h.rr_dispatch_work hf htq hfresh hburst
          obtain ⟨fuel, r, hr⟩ := iha _ (by rw [← ha]; exact hw) _ (RR.dispatch tq s) hinv rfl rfl
          exact ⟨fuel + 1, r, by rw [rr_loop_succ_of_running fuel hc, hstep]; exact hr⟩
      · exact ⟨0, s, rr_loop_of_done 0 hc⟩

end RR

theorem DoneP.metrics {p0 p : Process} (h : DoneP p0 p) (hb : 0 ≤ p0.burst_time) :
    MetricsOK p := by
  have h1 := h.start_ge
  have h2 := h.completion
  have h3 := h.turnaround
  have h4 := h.waiting
  have h5 := h.burst
  simp only [SWAP_TIME] at h1
  refine ⟨h3, h4, ?_, ?_⟩ <;> omega

namespace FCFS
open Scheduling.FCFS

theorem fcfs_inv_stateAt (proc : List Process) (total : Int)
    (hfresh : ∀ p ∈ proc, Fresh p) (hburst : ∀ p ∈ proc, 0 < p.burst_time) (k : Nat)
    (hk : k ≤ proc.length) :
    Inv (sortByArrival proc) total k (stateAt proc total k) := by
  induction k with
  | zero => exact Inv.fcfs_init proc total (fun p hp => (hfresh p hp).2.1)
  | succ k ih =>
    rw [fcfs_stateAt_succ]
    have hlt : k < (sortByArrival proc).length := by rw [sortByArrival_length]; omega
    have hmem : procAt (sortByArrival proc) k ∈ proc :=
      (sortByArrival_perm proc).mem_iff.mp (procAt_mem hlt)
    exact (ih (by omega)).fcfs_body hlt (le_of_lt (hburst _ hmem)) (hfresh _ hmem).2.1
      (hfresh _ hmem).1

theorem fcfs_inv_final (proc : List Process) (total : Int)
    (hfresh : ∀ p ∈ proc, Fresh p) (hburst : ∀ p ∈ proc, 0 < p.burst_time) :
    Inv (sortByArrival proc) total proc.length (calculate_fcfs proc total) :=
  fcfs_inv_stateAt proc total hfresh hburst proc.length (le_refl _)

theorem fcfs_metrics_final (proc : List Process) (total : Int)
    (hfresh : ∀ p ∈ proc, Fresh p) (hburst : ∀ p ∈ proc, 0 < p.burst_time) :
    ∀ p ∈ (calculate_fcfs proc total).proc, MetricsOK p := by
  intro p hp
  have hinv := fcfs_inv_final proc total hfresh hburst
  obtain ⟨j, hj, he⟩ := exists_procAt_of_mem hp
  have hj' : j < proc.length := by rw [hinv.len, sortByArrival_length] at hj; exact hj
  have hj'' : j < (sortByArrival proc).length := by rw [sortByArrival_length]; exact hj'
  rw [← he]
  exact (hinv.done j hj').metrics
    (le_of_lt (hburst _ ((sortByArrival_perm proc).mem_iff.mp (procAt_mem hj''))))

end FCFS

namespace NP
open Scheduling.NP

theorem np_metrics_final {select : List Process → Int → Int} (hsound : SelectSound select)
    (proc : List Process) (total : Int)
    (hfresh : ∀ p ∈ proc, Fresh p) (hburst : ∀ p ∈ proc, 0 < p.burst_time)
    (fuel : Nat) (r : State) (h : loop select fuel (NP.init proc total) = some r) :
    ∀ p ∈ r.proc, MetricsOK p := by
  obtain ⟨hreach, hdone⟩ := np_loop_reach fuel Reach.init h
  have hinv := Inv.np_reach hsound (fun p hp => le_of_lt (hburst p hp)) hfresh hreach
  have hall := all_done_of_doneCount (by rw [← hinv.count]; exact hdone)
  intro p hp
  obtain ⟨j, hj, he⟩ := exists_procAt_of_mem hp
  have hj' : j < proc.length := by rw [hinv.len] at hj; exact hj
  have hd := hinv.done j (by rw [he]; exact hall p hp)
  rw [← he]
  exact hd.metrics (le_of_lt (hburst _ (procAt_mem hj')))

end NP

namespace RR
open Scheduling.RR

theorem rr_metrics_final (proc : List Process) (total tq : Int) (htq : 0 < tq)
    (hfresh : ∀ p ∈ proc, Fresh p) (hburst : ∀ p ∈ proc, 0 < p.burst_time)
    (fuel : Nat) (r : State) (h : loop tq fuel (RR.init proc total) = some r) :
    ∀ p ∈ r.proc, MetricsOK p := by
  obtain ⟨hreach, hdone⟩ := rr_loop_reach fuel Reach.init h
  have hinv := Inv.rr_reach htq hfresh hburst hreach
  have hall := all_finished_of_count (by rw [← hinv.count]; exact hdone)
  intro p hp
  obtain ⟨j, hj, he⟩ := exists_procAt_of_mem hp
  have hj' : j < proc.length := by rw [hinv.len] at hj; exact hj
  have h0 : (procAt r.proc j).remaining_time = 0 := by rw [he]; exact hall p hp
  have hb : 0 < (procAt r.proc j).burst_time := by
    rw [hinv.burst j]; exact hburst _ (procAt_mem hj')
  have hst := hinv.started j (by omega)
  rw [← he]
  have h1 := hst.start_ge
  have h2 := (hst.completion h0).2
  have h3 := hst.turnaround h0
  have h4 := hst.waiting h0
  simp only [SWAP_TIME] at h1
  refine ⟨h3, h4, ?_, ?_⟩ <;> omega

end RR

namespace SJF
open Scheduling.SJF

/-- The loop of `calculate_sjf` exits when no burst time equals `INT_MAX`. -/
theorem sjf_terminates (oob : Process) (proc : List Process) (total : Int)
    (hfresh : ∀ p ∈ proc, Fresh p) (hburst : ∀ p ∈ proc, 0 < p.burst_time)
    (hmax : ∀ p ∈ proc, p.burst_time < INT_MAX) :
    ∃ fuel r, calculate_sjf oob proc total fuel = some r := by
  have hinit := NP.Inv.np_init proc total (fun p hp => ⟨(hfresh p hp).2.1, (hfresh p hp).2.2.1⟩)
  refine NP.np_loop_terminates (sjf_select_sound oob) ?_ (fun p hp => le_of_lt (hburst p hp)) hfresh
    _ _ (NP.init proc total) hinit rfl rfl
  intro s hs hsel i hel
  have hbs : ∀ j, j < s.proc.length → (procAt s.proc j).burst_time < INT_MAX := by
    intro j hj
    have hj0 : j < proc.length := by rw [← hs.len]; exact hj
    have hb : (procAt s.proc j).burst_time = (procAt proc j).burst_time := by
      by_cases hc : (procAt s.proc j).is_completed = 0
      · rw [hs.pending j hc]
      · exact (hs.done j hc).burst
    rw [hb]; exact hmax _ (procAt_mem hj0)
  have hint : ∀ p ∈ s.proc, p.burst_time ≤ INT_MAX := by
    intro p hp
    obtain ⟨j, hj, he⟩ := exists_procAt_of_mem hp
    rw [← he]; exact le_of_lt (hbs j hj)
  rcases sjf_select_cases oob s.proc s.current_time hint with ⟨_, h2⟩ | ⟨h1, _⟩
  · have := (h2 i hel).1
    have := hbs i hel.1
    omega
  · omega

end SJF

namespace PS
open Scheduling.PS

/-- The loop of `calculate_priority` exits when no priority value equals `INT_MAX`. -/
theorem ps_terminates (proc : List Process) (total : Int)
    (hfresh : ∀ p ∈ proc, Fresh p) (hburst : ∀ p ∈ proc, 0 < p.burst_time)
    (hmax : ∀ p ∈ proc, p.priority < INT_MAX) :
    ∃ fuel r, calculate_priority proc total fuel = some r := by
  have hinit := NP.Inv.np_init proc total (fun p hp => ⟨(hfresh p hp).2.1, (hfresh p hp).2.2.1⟩)
  refine NP.np_loop_terminates ps_select_sound ?_ (fun p hp => le_of_lt (hburst p hp)) hfresh
    _ _ (NP.init proc total) hinit rfl rfl
  intro s hs hsel i hel
  have hj0 : i < proc.length := by rw [← hs.len]; exact hel.1
  have hb : (procAt s.proc i).priority = (procAt proc i).priority := by
    rw [hs.pending i hel.2.2]
  rcases ps_select_cases s.proc s.current_time with ⟨_, h2⟩ | ⟨h1, _⟩
  · have := h2 i hel
    have := hmax _ (procAt_mem hj0)
    omega
  · omega

end PS

namespace RR
open Scheduling.RR

/-- The loop of `calculate_rr` exits. -/
theorem rr_terminates (proc : List Process) (total tq : Int) (htq : 0 < tq)
    (hfresh : ∀ p ∈ proc, Fresh p) (hburst : ∀ p ∈ proc, 0 < p.burst_time) :
    ∃ fuel r, calculate_rr proc total tq fuel = some r :=
  rr_loop_terminates htq hfresh hburst _ _ (RR.init proc total)
    (Inv.rr_init proc total hfresh hburst) rfl rfl

end RR

/-! ## Properties of the four simulations -/

/-- C1. For every workload whose processes are as `initialize_processes` leaves them and have
`burst_time > 0` (and for `time_quantum > 0` in round-robin), whenever `calculate_fcfs`,
`calculate_sjf`, `calculate_priority` or `calculate_rr` returns, every process satisfies
`turnaround_time = completion_time - arrival_time` and
`waiting_time = turnaround_time - burst_time`, both non-negative.  The hypothesis
`arrival_time >= 0` is not needed.  The last three conjuncts state that the three `while` loops do
return: always for round-robin, and for SJF and Priority when no burst time, respectively no
priority value, equals `INT_MAX`. -/
theorem exact_C1_metrics_after_run (proc : List Process) (total_memory time_quantum : Int)
    (hfresh : ∀ p ∈ proc, Fresh p) (hburst : ∀ p ∈ proc, 0 < p.burst_time)
    (htq : 0 < time_quantum) :
    (∀ p ∈ (FCFS.calculate_fcfs proc total_memory).proc, MetricsOK p)
      ∧ (∀ oob fuel r, SJF.calculate_sjf oob proc total_memory fuel = some r →
          ∀ p ∈ r.proc, MetricsOK p)
      ∧ (∀ fuel r, PS.calculate_priority proc total_memory fuel = some r →
          ∀ p ∈ r.proc, MetricsOK p)
      ∧ (∀ fuel r, RR.calculate_rr proc total_memory time_quantum fuel = some r →
          ∀ p ∈ r.proc, MetricsOK p)
      ∧ ((∀ p ∈ proc, p.burst_time < INT_MAX) →
          ∀ oob, ∃ fuel r, SJF.calculate_sjf oob proc total_memory fuel = some r)
      ∧ ((∀ p ∈ proc, p.priority < INT_MAX) →
          ∃ fuel r, PS.calculate_priority proc total_memory fuel = some r)
      ∧ (∃ fuel r, RR.calculate_rr proc total_memory time_quantum fuel = some r) :=
  ⟨FCFS.fcfs_metrics_final proc total_memory hfresh hburst,
    fun oob fuel r h => NP.np_metrics_final (SJF.sjf_select_sound oob) proc total_memory hfresh hburst
      fuel r h,
    fun fuel r h => NP.np_metrics_final PS.ps_select_sound proc total_memory hfresh hburst fuel r h,
    fun fuel r h => RR.rr_metrics_final proc total_memory time_quantum htq hfresh hburst fuel r h,
    fun hmax oob => SJF.sjf_terminates oob proc total_memory hfresh hburst hmax,
    fun hmax => PS.ps_terminates proc total_memory hfresh hburst hmax,
    RR.rr_terminates proc total_memory time_quantum htq hfresh hburst⟩

/-- C2. At every iteration boundary of the main loop of each of the four simulations,
`available_memory` plus the memory held by the resident processes equals `total_memory`.  A
process is resident when it has been swapped in (the swap-in is the only place that charges
`total_swap_time`) and `is_swapped = 0`.  The workload is as `initialize_processes` leaves it, with
`burst_time > 0` and `time_quantum > 0`. -/
theorem exact_C2_memory_conservation (proc : List Process) (total_memory time_quantum : Int)
    (hfresh : ∀ p ∈ proc, Fresh p) (hburst : ∀ p ∈ proc, 0 < p.burst_time)
    (htq : 0 < time_quantum) :
    (∀ k, k ≤ proc.length →
        (FCFS.stateAt proc total_memory k).available_memory
          + residentMemory (FCFS.stateAt proc total_memory k).proc = total_memory)
      ∧ (∀ oob s, NP.Reach (SJF.select oob) (NP.init proc total_memory) s →
          s.available_memory + residentMemory s.proc = total_memory)
      ∧ (∀ s, NP.Reach PS.select (NP.init proc total_memory) s →
          s.available_memory + residentMemory s.proc = total_memory)
      ∧ (∀ s, RR.Reach time_quantum (RR.init proc total_memory) s →
          s.available_memory + residentMemory s.proc = total_memory) :=
  ⟨fun k hk => (FCFS.fcfs_inv_stateAt proc total_memory hfresh hburst k hk).memory,
    fun oob _ hs => (NP.Inv.np_reach (SJF.sjf_select_sound oob) (fun p hp => le_of_lt (hburst p hp))
      hfresh hs).memory,
    fun _ hs => (NP.Inv.np_reach PS.ps_select_sound (fun p hp => le_of_lt (hburst p hp))
      hfresh hs).memory,
    fun _ hs => (RR.Inv.rr_reach htq hfresh hburst hs).memory⟩

theorem pair_sublist_of_lt (l : List Process) (a b : Nat) (hab : a < b) (hb : b < l.length) :
    [procAt l a, procAt l b].Sublist l := by
  induction l generalizing a b with
  | nil => simp at hb
  | cons x t ih =>
    cases b with
    | zero => omega
    | succ b =>
      have hb' : b < t.length := by simpa using hb
      cases a with
      | zero =>
        rw [procAt_cons_zero, procAt_cons_succ]
        exact List.Sublist.cons₂ x (List.singleton_sublist.mpr (procAt_mem hb'))
      | succ a =>
        rw [procAt_cons_succ, procAt_cons_succ]
        exact List.Sublist.cons x (ih a b (by omega) hb')

theorem exists_lt_of_pair_sublist (l : List Process) (p q : Process)
    (h : [p, q].Sublist l) :
    ∃ i j, i < j ∧ j < l.length ∧ procAt l i = p ∧ procAt l j = q := by
  induction l with
  | nil => simp at h
  | cons x t ih =>
    cases h with
    | cons _ h' =>
      obtain ⟨i, j, hij, hj, hi1, hj1⟩ := ih h'
      exact ⟨i + 1, j + 1, by omega, by simpa using hj, by rw [procAt_cons_succ]; exact hi1,
        by rw [procAt_cons_succ]; exact hj1⟩
    | cons₂ _ h' =>
      obtain ⟨j, hj, hj1⟩ := exists_procAt_of_mem (List.singleton_sublist.mp h')
      exact ⟨0, j + 1, by omega, by simpa using hj, procAt_cons_zero _ _,
        by rw [procAt_cons_succ]; exact hj1⟩

namespace FCFS
open Scheduling.FCFS

theorem fcfs_sorted_index (proc : List Process) (i j : Nat) (hij : i < j)
    (hj : j < proc.length) :
    (procAt (sortByArrival proc) i).arrival_time
      ≤ (procAt (sortByArrival proc) j).arrival_time := by
  have hs := sortByArrival_sorted proc
  have hlen := sortByArrival_length proc
  rw [List.pairwise_iff_getElem] at hs
  have := hs i j (by omega) (by omega) hij
  rw [procAt_of_lt (by omega : i < (sortByArrival proc).length),
    procAt_of_lt (by omega : j < (sortByArrival proc).length)]
  exact this

/-- Dispatch order of `calculate_fcfs` along the sorted array. -/
theorem fcfs_final_order (proc : List Process) (total : Int)
    (hfresh : ∀ p ∈ proc, Fresh p) (hburst : ∀ p ∈ proc, 0 < p.burst_time)
    (i j : Nat) (hij : i < j) (hj : j < proc.length) :
    (procAt (calculate_fcfs proc total).proc i).start_time
        < (procAt (calculate_fcfs proc total).proc j).start_time
      ∧ (procAt (calculate_fcfs proc total).proc i).completion_time
        ≤ (procAt (calculate_fcfs proc total).proc j).start_time := by
  have hinv := fcfs_inv_final proc total hfresh hburst
  have ho := hinv.order i j hij hj
  have hd := hinv.done i (by omega)
  have hmem : procAt (sortByArrival proc) i ∈ proc :=
    (sortByArrival_perm proc).mem_iff.mp (procAt_mem (by rw [sortByArrival_length]; omega))
  have hb := hburst _ hmem
  have h1 := hd.completion
  have h2 := hd.burst
  simp only [SWAP_TIME] at ho
  constructor <;> omega

end FCFS

/-- C4. In `calculate_fcfs`, for any two processes of the final table with
`arrival_time(p) < arrival_time(q)`, `p` is dispatched first: `start_time(p) < start_time(q)` and
`completion_time(p) <= start_time(q)`; and for two processes of equal `arrival_time` at input
positions `a < b`, the final table holds them (same `pid`, `arrival_time`, `burst_time`,
`memory_required`) at positions `i < j`, the earlier one dispatched first.  The workload is as
`initialize_processes` leaves it, with `burst_time > 0`. -/
theorem exact_C4_fcfs_dispatch_order (proc : List Process) (total_memory : Int)
    (hfresh : ∀ p ∈ proc, Fresh p) (hburst : ∀ p ∈ proc, 0 < p.burst_time) :
    (∀ i j, i < proc.length → j < proc.length →
        (procAt (FCFS.calculate_fcfs proc total_memory).proc i).arrival_time
          < (procAt (FCFS.calculate_fcfs proc total_memory).proc j).arrival_time →
        (procAt (FCFS.calculate_fcfs proc total_memory).proc i).start_time
            < (procAt (FCFS.calculate_fcfs proc total_memory).proc j).start_time
          ∧ (procAt (FCFS.calculate_fcfs proc total_memory).proc i).completion_time
            ≤ (procAt (FCFS.calculate_fcfs proc total_memory).proc j).start_time)
      ∧ (∀ a b, a < b → b < proc.length →
          (procAt proc a).arrival_time = (procAt proc b).arrival_time →
          ∃ i j, i < j ∧ j < proc.length
            ∧ (procAt (FCFS.calculate_fcfs proc total_memory).proc i).pid = (procAt proc a).pid
            ∧ (procAt (FCFS.calculate_fcfs proc total_memory).proc i).arrival_time
                = (procAt proc a).arrival_time
            ∧ (procAt (FCFS.calculate_fcfs proc total_memory).proc i).burst_time
                = (procAt proc a).burst_time
            ∧ (procAt (FCFS.calculate_fcfs proc total_memory).proc i).memory_required
                = (procAt proc a).memory_required
            ∧ (procAt (FCFS.calculate_fcfs proc total_memory).proc j).pid = (procAt proc b).pid
            ∧ (procAt (FCFS.calculate_fcfs proc total_memory).proc j).arrival_time
                = (procAt proc b).arrival_time
            ∧ (procAt (FCFS.calculate_fcfs proc total_memory).proc j).burst_time
                = (procAt proc b).burst_time
            ∧ (procAt (FCFS.calculate_fcfs proc total_memory).proc j).memory_required
                = (procAt proc b).memory_required
            ∧ (procAt (FCFS.calculate_fcfs proc total_memory).proc i).start_time
                < (procAt (FCFS.calculate_fcfs proc total_memory).proc j).start_time
            ∧ (procAt (FCFS.calculate_fcfs proc total_memory).proc i).completion_time
                ≤ (procAt (FCFS.calculate_fcfs proc total_memory).proc j).start_time) := by
  have hinv := FCFS.fcfs_inv_final proc total_memory hfresh hburst
  constructor
  · intro i j hi hj hlt
    rw [(hinv.done i hi).arrival, (hinv.done j hj).arrival] at hlt
    have hij : i < j := by
      by_contra hcon
      rcases Nat.lt_or_ge j i with h1 | h1
      · have := FCFS.fcfs_sorted_index proc j i h1 hi
        omega
      · have : i = j := by omega
        subst this
        omega
    exact FCFS.fcfs_final_order proc total_memory hfresh hburst i j hij hj
  · intro a b hab hb heq
    have hsub := pair_sublist_of_lt proc a b hab hb
    have h1 : ([procAt proc a, procAt proc b].filter
        (fun r => decide (r.arrival_time = (procAt proc a).arrival_time))).Sublist
        (proc.filter (fun r => decide (r.arrival_time = (procAt proc a).arrival_time))) :=
      hsub.filter _
    have h2 : [procAt proc a, procAt proc b].filter
        (fun r => decide (r.arrival_time = (procAt proc a).arrival_time))
        = [procAt proc a, procAt proc b] := by
      simp [heq]
    rw [h2, ← FCFS.sortByArrival_filter proc (procAt proc a).arrival_time] at h1
    obtain ⟨i, j, hij, hj, hi1, hj1⟩ := exists_lt_of_pair_sublist _ _ _
      (h1.trans (List.filter_sublist _))
    rw [FCFS.sortByArrival_length] at hj
    have hdi := hinv.done i (by omega)
    have hdj := hinv.done j hj
    have ho := FCFS.fcfs_final_order proc total_memory hfresh hburst i j hij hj
    rw [hi1] at hdi
    rw [hj1] at hdj
    exact ⟨i, j, hij, hj, hdi.pid, hdi.arrival, hdi.burst, hdi.memory, hdj.pid, hdj.arrival,
      hdj.burst, hdj.memory, ho.1, ho.2⟩

namespace RR
open Scheduling.RR

theorem sliceLen_eq_min (p : Process) (tq : Int) : sliceLen p tq = min p.remaining_time tq := by
  unfold sliceLen
  split
  · rw [min_eq_left]; omega
  · rw [min_eq_right]; omega

end RR

theorem freedBy_self (p : Process) : freedBy p p = 0 := by
  unfold freedBy
  split
  · rename_i h; exact absurd h.1 h.2
  · rfl

theorem freedMemory_self (l : List Process) : freedMemory l l = 0 := by
  induction l with
  | nil => rfl
  | cons x t ih =>
    simp only [freedMemory, List.zipWith_cons_cons, List.sum_cons, freedBy_self] at ih ⊢
    omega

theorem freedMemory_set (b l : List Process) (j : Nat) (q : Process)
    (hlen : b.length = l.length) (hj : j < l.length) :
    freedMemory b (l.set j q)
      = freedMemory b l - freedBy (procAt b j) (procAt l j) + freedBy (procAt b j) q := by
  induction l generalizing b j with
  | nil => simp at hj
  | cons x t ih =>
    cases b with
    | nil => simp at hlen
    | cons y b' =>
      cases j with
      | zero =>
        simp only [freedMemory, List.set_cons_zero, List.zipWith_cons_cons, List.sum_cons,
          procAt_cons_zero]
        omega
      | succ j =>
        have := ih b' j (by simpa using hlen) (by simpa using hj)
        simp only [freedMemory, List.set_cons_succ, List.zipWith_cons_cons, List.sum_cons,
          procAt_cons_succ] at this ⊢
        omega

/-- Swapping out one process whose record still has `is_swapped = 0`, seen from a base array
`b`. -/
theorem freedMemory_swapOut (b l : List Process) (j : Nat) (q : Process)
    (hlen : b.length = l.length) (hj : j < l.length)
    (hb : (procAt l j).is_swapped = 0 → (procAt b j).is_swapped = 0)
    (hmem : (procAt b j).memory_required = (procAt l j).memory_required)
    (hsw : (procAt l j).is_swapped = 0) (hq : q.is_swapped ≠ 0) :
    freedMemory b (l.set j q) = freedMemory b l + (procAt l j).memory_required := by
  rw [freedMemory_set b l j q hlen hj]
  simp [freedBy, hsw, hb hsw, hq, hmem]

namespace FCFS
open Scheduling.FCFS

theorem fcfs_swapOutScan_freed_aux (i : Nat) (js : List Nat) (b : List Process) (s : State)
    (hjs : ∀ j ∈ js, j < s.proc.length) (hlen : b.length = s.proc.length)
    (hb : ∀ m, (procAt s.proc m).is_swapped = 0 → (procAt b m).is_swapped = 0)
    (hmem : ∀ m, (procAt b m).memory_required = (procAt s.proc m).memory_required) :
    (swapOutScan i js s).available_memory - freedMemory b (swapOutScan i js s).proc
      = s.available_memory - freedMemory b s.proc := by
  induction js generalizing s with
  | nil => rfl
  | cons j js ih =>
    have hj := hjs j (by simp)
    have hstep : (procAt s.proc j).is_swapped = 0 →
        (swapOut s j).available_memory - freedMemory b (swapOut s j).proc
          = s.available_memory - freedMemory b s.proc := by
      intro hsw
      simp only [swapOut]
      rw [freedMemory_swapOut b s.proc j _ hlen hj (hb j) (hmem j) hsw (by simp)]
      omega
    have hjs' : ∀ k ∈ js, k < (swapOut s j).proc.length := fun k hk => by
      simpa using hjs k (by simp [hk])
    have hb' : ∀ m, (procAt (swapOut s j).proc m).is_swapped = 0 →
        (procAt b m).is_swapped = 0 := by
      intro m hm
      simp only [swapOut, procAt_set] at hm
      split at hm
      · simp at hm
      · exact hb m hm
    have hmem' : ∀ m, (procAt b m).memory_required
        = (procAt (swapOut s j).proc m).memory_required := by
      intro m
      rw [hmem m, noSwap_eq (fcfs_swapOut_noSwap s j m)]
    simp only [swapOutScan]
    split
    · rename_i hc
      split
      · exact hstep hc.2.2
      · rw [ih _ hjs' (by simpa using hlen) hb' hmem']; exact hstep hc.2.2
    · exact ih s (fun k hk => hjs k (by simp [hk])) hlen hb hmem

/-- The eviction scan adds to `available_memory` exactly the memory of the processes it swaps
out. -/
theorem fcfs_makeRoom_freed (s : State) (i : Nat) (hi : i ≤ s.proc.length) :
    (makeRoom s i).available_memory
      = s.available_memory + freedMemory s.proc (makeRoom s i).proc := by
  unfold makeRoom
  split
  · have := fcfs_swapOutScan_freed_aux i (List.range i) s.proc s
      (fun j hj => by simp at hj; omega) rfl (fun _ h => h) (fun _ => rfl)
    rw [freedMemory_self] at this
    omega
  · rw [freedMemory_self]; omega

theorem fcfs_swapOutScan_swapped (i : Nat) (js : List Nat) (s : State) (m : Nat)
    (hm : (procAt s.proc m).is_swapped ≠ 0) :
    (procAt (swapOutScan i js s).proc m).is_swapped ≠ 0 := by
  induction js generalizing s with
  | nil => exact hm
  | cons j js ih =>
    have hso : (procAt (swapOut s j).proc m).is_swapped ≠ 0 := by
      simp only [swapOut, procAt_set]
      split
      · simp
      · exact hm
    simp only [swapOutScan]
    split
    · split
      · exact hso
      · exact ih _ hso
    · exact ih s hm

/-- When the eviction scan ends with too little memory, it has swapped out every process it
examined. -/
theorem fcfs_swapOutScan_exhaustive (i : Nat) (js : List Nat) (s : State)
    (hjs : ∀ j ∈ js, j < s.proc.length)
    (hdone : ∀ j ∈ js, 0 < (procAt s.proc j).completion_time
      ∧ (procAt s.proc j).completion_time ≤ s.current_time) :
    (swapOutScan i js s).available_memory
        ≥ (procAt (swapOutScan i js s).proc i).memory_required
      ∨ ∀ j ∈ js, (procAt (swapOutScan i js s).proc j).is_swapped ≠ 0 := by
  induction js generalizing s with
  | nil => right; simp
  | cons j js ih =>
    have hj := hjs j (by simp)
    have hjs' : ∀ k ∈ js, k < (swapOut s j).proc.length := fun k hk => by
      simpa using hjs k (by simp [hk])
    have hdone' : ∀ k ∈ js, 0 < (procAt (swapOut s j).proc k).completion_time
        ∧ (procAt (swapOut s j).proc k).completion_time ≤ (swapOut s j).current_time := by
      intro k hk
      rw [noSwap_completion (fcfs_swapOut_noSwap s j k)]
      have := hdone k (by simp [hk])
      simp only [swapOut, SWAP_TIME]
      omega
    have hsj : (procAt (swapOut s j).proc j).is_swapped ≠ 0 := by
      simp [swapOut, procAt_set, hj]
    simp only [swapOutScan]
    split
    · split
      · rename_i hge; exact Or.inl hge
      · rcases ih _ hjs' hdone' with h1 | h1
        · exact Or.inl h1
        · right
          intro k hk
          rcases List.mem_cons.mp hk with h2 | h2
          · rw [h2]; exact fcfs_swapOutScan_swapped i js _ j hsj
          · exact h1 k h2
    · rename_i hc
      have hsw : (procAt s.proc j).is_swapped ≠ 0 := by
        intro h0
        exact hc ⟨(hdone j (by simp)).1, (hdone j (by simp)).2, h0⟩
      rcases ih s (fun k hk => hjs k (by simp [hk])) (fun k hk => hdone k (by simp [hk]))
        with h1 | h1
      · exact Or.inl h1
      · right
        intro k hk
        rcases List.mem_cons.mp hk with h2 | h2
        · rw [h2]; exact fcfs_swapOutScan_swapped i js _ j hsw
        · exact h1 k h2

end FCFS

theorem noSwap_remaining {p q : Process} (h : noSwap q = noSwap p) :
    q.remaining_time = p.remaining_time := by
  have := congrArg Process.remaining_time h
  exact this

namespace NP
open Scheduling.NP

theorem np_swapOutScan_freed_aux (i : Nat) (js : List Nat) (b : List Process) (s : State)
    (hjs : ∀ j ∈ js, j < s.proc.length) (hlen : b.length = s.proc.length)
    (hb : ∀ m, (procAt s.proc m).is_swapped = 0 → (procAt b m).is_swapped = 0)
    (hmem : ∀ m, (procAt b m).memory_required = (procAt s.proc m).memory_required) :
    (swapOutScan i js s).available_memory - freedMemory b (swapOutScan i js s).proc
      = s.available_memory - freedMemory b s.proc := by
  induction js generalizing s with
  | nil => rfl
  | cons j js ih =>
    have hj := hjs j (by simp)
    have hstep : (procAt s.proc j).is_swapped = 0 →
        (swapOut s j).available_memory - freedMemory b (swapOut s j).proc
          = s.available_memory - freedMemory b s.proc := by
      intro hsw
      simp only [swapOut]
      rw [freedMemory_swapOut b s.proc j _ hlen hj (hb j) (hmem j) hsw (by simp)]
      omega
    have hjs' : ∀ k ∈ js, k < (swapOut s j).proc.length := fun k hk => by
      simpa using hjs k (by simp [hk])
    have hb' : ∀ m, (procAt (swapOut s j).proc m).is_swapped = 0 →
        (procAt b m).is_swapped = 0 := by
      intro m hm
      simp only [swapOut, procAt_set] at hm
      split at hm
      · simp at hm
      · exact hb m hm
    have hmem' : ∀ m, (procAt b m).memory_required
        = (procAt (swapOut s j).proc m).memory_required := by
      intro m
      rw [hmem m, noSwap_eq (np_swapOut_noSwap s j m)]
    simp only [swapOutScan]
    split
    · rename_i hc
      split
      · exact hstep hc.2
      · rw [ih _ hjs' (by simpa using hlen) hb' hmem']; exact hstep hc.2
    · exact ih s (fun k hk => hjs k (by simp [hk])) hlen hb hmem

/-- The eviction scan adds to `available_memory` exactly the memory of the processes it swaps
out. -/
theorem np_makeRoom_freed (s : State) (i : Nat) :
    (makeRoom s i).available_memory
      = s.available_memory + freedMemory s.proc (makeRoom s i).proc := by
  unfold makeRoom
  split
  · have := np_swapOutScan_freed_aux i (List.range s.proc.length) s.proc s
      (fun j hj => by simpa using hj) rfl (fun _ h => h) (fun _ => rfl)
    rw [freedMemory_self] at this
    omega
  · rw [freedMemory_self]; omega

theorem np_swapOutScan_swapped (i : Nat) (js : List Nat) (s : State) (m : Nat)
    (hm : (procAt s.proc m).is_swapped ≠ 0) :
    (procAt (swapOutScan i js s).proc m).is_swapped ≠ 0 := by
  induction js generalizing s with
  | nil => exact hm
  | cons j js ih =>
    have hso : (procAt (swapOut s j).proc m).is_swapped ≠ 0 := by
      simp only [swapOut, procAt_set]
      split
      · simp
      · exact hm
    simp only [swapOutScan]
    split
    · split
      · exact hso
      · exact ih _ hso
    · exact ih s hm

/-- When the eviction scan ends with too little memory, it has swapped out every
completed process it examined. -/
theorem np_swapOutScan_exhaustive (i : Nat) (js : List Nat) (s : State)
    (hjs : ∀ j ∈ js, j < s.proc.length) :
    (swapOutScan i js s).available_memory
        ≥ (procAt (swapOutScan i js s).proc i).memory_required
      ∨ ∀ j ∈ js, isDone (procAt (swapOutScan i js s).proc j) →
          (procAt (swapOutScan i js s).proc j).is_swapped ≠ 0 := by
  induction js generalizing s with
  | nil => right; simp
  | cons j js ih =>
    have hj := hjs j (by simp)
    have hjs' : ∀ k ∈ js, k < (swapOut s j).proc.length := fun k hk => by
      simpa using hjs k (by simp [hk])
    have hsj : (procAt (swapOut s j).proc j).is_swapped ≠ 0 := by
      simp [swapOut, procAt_set, hj]
    simp only [swapOutScan]
    split
    · split
      · rename_i hge; exact Or.inl hge
      · rcases ih _ hjs' with h1 | h1
        · exact Or.inl h1
        · right
          intro k hk hck
          rcases List.mem_cons.mp hk with h2 | h2
          · rw [h2]; exact np_swapOutScan_swapped i js _ j hsj
          · exact h1 k h2 hck
    · rename_i hc
      rcases ih s (fun k hk => hjs k (by simp [hk])) with h1 | h1
      · exact Or.inl h1
      · right
        intro k hk hck
        rcases List.mem_cons.mp hk with h2 | h2
        · rw [h2] at hck ⊢
          have hck0 : isDone (procAt s.proc j) := by
            have := noSwap_is_completed (np_swapOutScan_noSwap i js s j)
            unfold isDone at hck ⊢
            rw [this] at hck
            exact hck
          have hsw : (procAt s.proc j).is_swapped ≠ 0 := by
            intro h0
            exact hc ⟨hck0, h0⟩
          exact np_swapOutScan_swapped i js _ j hsw
        · exact h1 k h2 hck

theorem np_makeRoom_exhaustive (s : State) (i : Nat) :
    (makeRoom s i).available_memory ≥ (procAt (makeRoom s i).proc i).memory_required
      ∨ ∀ j, j < s.proc.length → isDone (procAt (makeRoom s i).proc j) →
          (procAt (makeRoom s i).proc j).is_swapped ≠ 0 := by
  unfold makeRoom
  split
  · rcases np_swapOutScan_exhaustive i (List.range s.proc.length) s
      (fun j hj => by simpa using hj) with h | h
    · exact Or.inl h
    · exact Or.inr (fun j hj => h j (by simpa using hj))
  · rename_i hge
    left
    omega

end NP

namespace RR
open Scheduling.RR

theorem rr_swapOutScan_freed_aux (i : Nat) (js : List Nat) (b : List Process) (s : State)
    (hjs : ∀ j ∈ js, j < s.proc.length) (hlen : b.length = s.proc.length)
    (hb : ∀ m, (procAt s.proc m).is_swapped = 0 → (procAt b m).is_swapped = 0)
    (hmem : ∀ m, (procAt b m).memory_required = (procAt s.proc m).memory_required) :
    (swapOutScan i js s).available_memory - freedMemory b (swapOutScan i js s).proc
      = s.available_memory - freedMemory b s.proc := by
  induction js generalizing s with
  | nil => rfl
  | cons j js ih =>
    have hj := hjs j (by simp)
    have hstep : (procAt s.proc j).is_swapped = 0 →
        (swapOut s j).available_memory - freedMemory b (swapOut s j).proc
          = s.available_memory - freedMemory b s.proc := by
      intro hsw
      simp only [swapOut]
      rw [freedMemory_swapOut b s.proc j _ hlen hj (hb j) (hmem j) hsw (by simp)]
      omega
    have hjs' : ∀ k ∈ js, k < (swapOut s j).proc.length := fun k hk => by
      simpa using hjs k (by simp [hk])
    have hb' : ∀ m, (procAt (swapOut s j).proc m).is_swapped = 0 →
        (procAt b m).is_swapped = 0 := by
      intro m hm
      simp only [swapOut, procAt_set] at hm
      split at hm
      · simp at hm
      · exact hb m hm
    have hmem' : ∀ m, (procAt b m).memory_required
        = (procAt (swapOut s j).proc m).memory_required := by
      intro m
      rw [hmem m, noSwap_eq (rr_swapOut_noSwap s j m)]
    simp only [swapOutScan]
    split
    · rename_i hc
      split
      · exact hstep hc.2
      · rw [ih _ hjs' (by simpa using hlen) hb' hmem']; exact hstep hc.2
    · exact ih s (fun k hk => hjs k (by simp [hk])) hlen hb hmem

/-- The eviction scan adds to `available_memory` exactly the memory of the processes it swaps
out. -/
theorem rr_makeRoom_freed (s : State) (i : Nat) :
    (makeRoom s i).available_memory
      = s.available_memory + freedMemory s.proc (makeRoom s i).proc := by
  unfold makeRoom
  split
  · have := rr_swapOutScan_freed_aux i (List.range s.proc.length) s.proc s
      (fun j hj => by simpa using hj) rfl (fun _ h => h) (fun _ => rfl)
    rw [freedMemory_self] at this
    omega
  · rw [freedMemory_self]; omega

theorem rr_swapOutScan_swapped (i : Nat) (js : List Nat) (s : State) (m : Nat)
    (hm : (procAt s.proc m).is_swapped ≠ 0) :
    (procAt (swapOutScan i js s).proc m).is_swapped ≠ 0 := by
  induction js generalizing s with
  | nil => exact hm
  | cons j js ih =>
    have hso : (procAt (swapOut s j).proc m).is_swapped ≠ 0 := by
      simp only [swapOut, procAt_set]
      split
      · simp
      · exact hm
    simp only [swapOutScan]
    split
    · split
      · exact hso
      · exact ih _ hso
    · exact ih s hm

/-- When the eviction scan ends with too little memory, it has swapped out every
finished process it examined. -/
theorem rr_swapOutScan_exhaustive (i : Nat) (js : List Nat) (s : State)
    (hjs : ∀ j ∈ js, j < s.proc.length) :
    (swapOutScan i js s).available_memory
        ≥ (procAt (swapOutScan i js s).proc i).memory_required
      ∨ ∀ j ∈ js, isFinished (procAt (swapOutScan i js s).proc j) →
          (procAt (swapOutScan i js s).proc j).is_swapped ≠ 0 := by
  induction js generalizing s with
  | nil => right; simp
  | cons j js ih =>
    have hj := hjs j (by simp)
    have hjs' : ∀ k ∈ js, k < (swapOut s j).proc.length := fun k hk => by
      simpa using hjs k (by simp [hk])
    have hsj : (procAt (swapOut s j).proc j).is_swapped ≠ 0 := by
      simp [swapOut, procAt_set, hj]
    simp only [swapOutScan]
    split
    · split
      · rename_i hge; exact Or.inl hge
      · rcases ih _ hjs' with h1 | h1
        · exact Or.inl h1
        · right
          intro k hk hck
          rcases List.mem_cons.mp hk with h2 | h2
          · rw [h2]; exact rr_swapOutScan_swapped i js _ j hsj
          · exact h1 k h2 hck
    · rename_i hc
      rcases ih s (fun k hk => hjs k (by simp [hk])) with h1 | h1
      · exact Or.inl h1
      · right
        intro k hk hck
        rcases List.mem_cons.mp hk with h2 | h2
        · rw [h2] at hck ⊢
          have hck0 : isFinished (procAt s.proc j) := by
            have := noSwap_remaining (rr_swapOutScan_noSwap i js s j)
            unfold isFinished at hck ⊢
            rw [this] at hck
            exact hck
          have hsw : (procAt s.proc j).is_swapped ≠ 0 := by
            intro h0
            exact hc ⟨hck0, h0⟩
          exact rr_swapOutScan_swapped i js _ j hsw
        · exact h1 k h2 hck

theorem rr_makeRoom_exhaustive (s : State) (i : Nat) :
    (makeRoom s i).available_memory ≥ (procAt (makeRoom s i).proc i).memory_required
      ∨ ∀ j, j < s.proc.length → isFinished (procAt (makeRoom s i).proc j) →
          (procAt (makeRoom s i).proc j).is_swapped ≠ 0 := by
  unfold makeRoom
  split
  · rcases rr_swapOutScan_exhaustive i (List.range s.proc.length) s
      (fun j hj => by simpa using hj) with h | h
    · exact Or.inl h
    · exact Or.inr (fun j hj => h j (by simpa using hj))
  · rename_i hge
    left
    omega

end RR

namespace FCFS
open Scheduling.FCFS

theorem fcfs_makeRoom_exhaustive (s : State) (i : Nat) (hi : i ≤ s.proc.length)
    (hdone : ∀ j, j < i → 0 < (procAt s.proc j).completion_time
      ∧ (procAt s.proc j).completion_time ≤ s.current_time) :
    (makeRoom s i).available_memory ≥ (procAt (makeRoom s i).proc i).memory_required
      ∨ ∀ j, j < i → (procAt (makeRoom s i).proc j).is_swapped ≠ 0 := by
  unfold makeRoom
  split
  · rcases fcfs_swapOutScan_exhaustive i (List.range i) s
      (fun j hj => by simp at hj; omega) (fun j hj => hdone j (by simpa using hj)) with h | h
    · exact Or.inl h
    · exact Or.inr (fun j hj => h j (by simpa using hj))
  · rename_i hge
    left
    omega

theorem fcfs_body_available (s : State) (i : Nat) :
    (body s i).available_memory
      = (afterEviction s i).available_memory - (procAt s.proc i).memory_required := by
  have h3 : procAt (makeRoom (idleJump s i) i).proc i = procAt s.proc i := by
    rw [fcfs_makeRoom_other _ _ _ (le_refl _)]; simp
  show (makeRoom (idleJump s i) i).available_memory
      - (procAt (makeRoom (idleJump s i) i).proc i).memory_required = _
  rw [h3]; rfl

/-- What one iteration of the main loop of `calculate_fcfs` does when memory stays
insufficient. -/
theorem fcfs_degraded (proc : List Process) (total : Int)
    (hfresh : ∀ p ∈ proc, Fresh p) (hburst : ∀ p ∈ proc, 0 < p.burst_time)
    (k : Nat) (hk : k < proc.length)
    (hlow : (afterEviction (stateAt proc total k) k).available_memory
      < (procAt (stateAt proc total k).proc k).memory_required) :
    (∀ j, j < k → (procAt (afterEviction (stateAt proc total k) k).proc j).is_swapped ≠ 0)
      ∧ (afterEviction (stateAt proc total k) k).available_memory
          = (stateAt proc total k).available_memory
            + freedMemory (stateAt proc total k).proc
                (afterEviction (stateAt proc total k) k).proc
      ∧ (stateAt proc total (k + 1)).available_memory
          = (stateAt proc total k).available_memory
            + freedMemory (stateAt proc total k).proc
                (afterEviction (stateAt proc total k) k).proc
            - (procAt (stateAt proc total k).proc k).memory_required
      ∧ (stateAt proc total (k + 1)).available_memory < 0
      ∧ (procAt (stateAt proc total (k + 1)).proc k).start_time
          = (afterEviction (stateAt proc total k) k).current_time + SWAP_TIME
      ∧ (procAt (stateAt proc total (k + 1)).proc k).completion_time
          = (procAt (stateAt proc total (k + 1)).proc k).start_time
            + (procAt (stateAt proc total k).proc k).burst_time := by
  have hinv := fcfs_inv_stateAt proc total hfresh hburst k (by omega)
  have hlen : (stateAt proc total k).proc.length = proc.length := by
    rw [hinv.len, sortByArrival_length]
  have hfreed := fcfs_makeRoom_freed (idleJump (stateAt proc total k) k) k
    (by simp only [idleJump_proc]; omega)
  simp only [idleJump_proc, idleJump_available] at hfreed
  have hfreed' : (afterEviction (stateAt proc total k) k).available_memory
      = (stateAt proc total k).available_memory
        + freedMemory (stateAt proc total k).proc
            (afterEviction (stateAt proc total k) k).proc := hfreed
  have havail := fcfs_body_available (stateAt proc total k) k
  have hself := fcfs_body_self (stateAt proc total k) k (by omega)
  have h3 : procAt (makeRoom (idleJump (stateAt proc total k) k) k).proc k
      = procAt (stateAt proc total k).proc k := by
    rw [fcfs_makeRoom_other _ _ _ (le_refl _)]; simp
  rw [fcfs_stateAt_succ]
  refine ⟨?_, hfreed', ?_, ?_, ?_, ?_⟩
  · rcases fcfs_makeRoom_exhaustive (idleJump (stateAt proc total k) k) k
      (by simp only [idleJump_proc]; omega)
      (fun j hj => by
        have h1 := hinv.completion_pos j hj
        have h2 := hinv.before j hj
        have h3 := (idleJump_time (stateAt proc total k) k).1
        simp only [idleJump_proc]
        exact ⟨h1, by omega⟩) with h | h
    · exfalso
      unfold afterEviction at hlow
      rw [h3] at h
      omega
    · exact h
  · rw [havail]; omega
  · rw [havail]; omega
  · rw [hself]; rfl
  · rw [hself]; rfl

theorem fcfs_all_run (proc : List Process) (total : Int)
    (hfresh : ∀ p ∈ proc, Fresh p) (hburst : ∀ p ∈ proc, 0 < p.burst_time) :
    ∀ p ∈ (calculate_fcfs proc total).proc,
      p.total_swap_time = SWAP_TIME ∧ p.completion_time = p.start_time + p.burst_time := by
  intro p hp
  have hinv := fcfs_inv_final proc total hfresh hburst
  obtain ⟨j, hj, he⟩ := exists_procAt_of_mem hp
  have hj' : j < proc.length := by rw [hinv.len, sortByArrival_length] at hj; exact hj
  rw [← he]
  exact ⟨(hinv.done j hj').swapped_in, (hinv.done j hj').completion⟩

end FCFS

namespace NP
open Scheduling.NP

theorem np_dispatch_available (s : State) (i : Nat)
    (hp : (procAt s.proc i).is_completed = 0) :
    (dispatch s i).available_memory
      = (makeRoom s i).available_memory - (procAt s.proc i).memory_required := by
  have h3 : procAt (makeRoom s i).proc i = procAt s.proc i := np_makeRoom_pending s i i hp
  show (makeRoom s i).available_memory - (procAt (makeRoom s i).proc i).memory_required = _
  rw [h3]

/-- What a dispatch of `calculate_sjf` / `calculate_priority` does when memory stays
insufficient. -/
theorem np_degraded (s : State) (i : Nat) (hi : i < s.proc.length)
    (hp : (procAt s.proc i).is_completed = 0)
    (hlow : (makeRoom s i).available_memory < (procAt s.proc i).memory_required) :
    (∀ j, j < s.proc.length → (procAt (makeRoom s i).proc j).is_completed ≠ 0 →
        (procAt (makeRoom s i).proc j).is_swapped ≠ 0)
      ∧ (makeRoom s i).available_memory
          = s.available_memory + freedMemory s.proc (makeRoom s i).proc
      ∧ (dispatch s i).available_memory
          = s.available_memory + freedMemory s.proc (makeRoom s i).proc
            - (procAt s.proc i).memory_required
      ∧ (dispatch s i).available_memory < 0
      ∧ (procAt (dispatch s i).proc i).start_time = (makeRoom s i).current_time + SWAP_TIME
      ∧ (procAt (dispatch s i).proc i).completion_time
          = (procAt (dispatch s i).proc i).start_time + (procAt s.proc i).burst_time
      ∧ (procAt (dispatch s i).proc i).is_completed ≠ 0 := by
  have hfreed := np_makeRoom_freed s i
  have havail := np_dispatch_available s i hp
  have hself := np_dispatch_self s i hi hp
  have h3 : procAt (makeRoom s i).proc i = procAt s.proc i := np_makeRoom_pending s i i hp
  refine ⟨?_, hfreed, ?_, ?_, ?_, ?_, ?_⟩
  · rcases np_makeRoom_exhaustive s i with h | h
    · exfalso
      rw [h3] at h
      omega
    · exact h
  · rw [havail]; omega
  · rw [havail]; omega
  · rw [hself]; rfl
  · rw [hself]; rfl
  · rw [hself]; simp [ranRecord]

/-- The loop returns with every process completed. -/
theorem np_all_completed {select : List Process → Int → Int} (hsound : SelectSound select)
    (proc : List Process) (total : Int)
    (hfresh : ∀ p ∈ proc, Fresh p) (hburst : ∀ p ∈ proc, 0 < p.burst_time)
    (fuel : Nat) (r : State) (h : loop select fuel (NP.init proc total) = some r) :
    ∀ p ∈ r.proc, p.is_completed ≠ 0 := by
  obtain ⟨hreach, hdone⟩ := np_loop_reach fuel Reach.init h
  have hinv := Inv.np_reach hsound (fun p hp => le_of_lt (hburst p hp)) hfresh hreach
  exact all_done_of_doneCount (by rw [← hinv.count]; exact hdone)

end NP

namespace RR
open Scheduling.RR

theorem runRec_first (p : Process) (tA tq : Int) (h : p.first_execution = 0) :
    (runRec p tA tq).start_time = tA := by
  have hf : firstRec (admissionRec p) tA
      = { admissionRec p with
          start_time := tA
          response_time := tA - (admissionRec p).arrival_time
          first_execution := 1 } := by
    unfold firstRec
    rw [if_pos (by rw [admissionRec_first]; exact h)]
  unfold runRec
  rw [hf]
  unfold finishRec
  split <;> rfl

/-- What a first dispatch of `calculate_rr` does when memory stays insufficient. -/
theorem rr_degraded {proc0 : List Process} {total : Int} {s : State} (h : Inv proc0 total s)
    (tq : Int) (hfront : s.front ≠ s.queue.length)
    (hfresh : ∀ p ∈ proc0, Fresh p) (hburst : ∀ p ∈ proc0, 0 < p.burst_time)
    (hfirst : (procAt s.proc (queueAt s.queue s.front)).remaining_time
      = (procAt s.proc (queueAt s.queue s.front)).burst_time)
    (hlow : (afterEviction s).available_memory
      < (procAt s.proc (queueAt s.queue s.front)).memory_required) :
    (∀ j, j < proc0.length → (procAt (afterEviction s).proc j).remaining_time = 0 →
        (procAt (afterEviction s).proc j).is_swapped ≠ 0)
      ∧ (afterEviction s).available_memory
          = s.available_memory + freedMemory s.proc (afterEviction s).proc
      ∧ (RR.dispatch tq s).available_memory
          = s.available_memory + freedMemory s.proc (afterEviction s).proc
            - (procAt s.proc (queueAt s.queue s.front)).memory_required
      ∧ (RR.dispatch tq s).available_memory < 0
      ∧ (procAt (RR.dispatch tq s).proc (queueAt s.queue s.front)).total_swap_time = SWAP_TIME
      ∧ (procAt (RR.dispatch tq s).proc (queueAt s.queue s.front)).start_time
          = (afterEviction s).current_time + SWAP_TIME
      ∧ (procAt (RR.dispatch tq s).proc (queueAt s.queue s.front)).remaining_time
          = (procAt s.proc (queueAt s.queue s.front)).remaining_time
            - min (procAt s.proc (queueAt s.queue s.front)).remaining_time tq := by
  obtain ⟨hr, hidx, hvis, hrem, hnotin, hnd⟩ := h.rr_head hfront
  obtain ⟨aLen, aSelf, -⟩ := h.rr_admission_facts hfront hfresh hburst
  have hi : queueAt s.queue s.front < s.proc.length := by rw [h.len]; exact hidx
  have hrem' : (procAt s.proc (queueAt s.queue s.front)).remaining_time ≠ 0 := by omega
  obtain ⟨d1, -, d3, -⟩ := rr_dispatch_spec tq s hi hrem' (by rw [h.vlen, h.len])
  rw [finalRec_eq] at d1
  have pSelf : procAt (RR.dispatch tq s).proc (queueAt s.queue s.front)
      = runRec (procAt s.proc (queueAt s.queue s.front)) (afterAdmission s).current_time tq := by
    rw [d1, procAt_set_self _ (by rw [aLen]; exact hi)]
  obtain ⟨-, -, -, -, -, f6, f7⟩ := runRec_frame
    (procAt s.proc (queueAt s.queue s.front)) (afterAdmission s).current_time tq
  have hfr := hfresh _ (procAt_mem hidx)
  have hu := h.unstarted _ hfirst
  have hkept : procAt (afterEviction s).proc (queueAt s.queue s.front)
      = procAt s.proc (queueAt s.queue s.front) :=
    rr_makeRoom_kept { s with front := s.front + 1 } _ _ hrem'
  have hadm : afterAdmission s = swapIn (afterEviction s) (queueAt s.queue s.front) := by
    unfold afterAdmission admission afterEviction
    rw [if_pos hfirst]
  have hAav : (afterAdmission s).available_memory
      = (afterEviction s).available_memory
        - (procAt s.proc (queueAt s.queue s.front)).memory_required := by
    rw [hadm]
    show (afterEviction s).available_memory
      - (procAt (afterEviction s).proc (queueAt s.queue s.front)).memory_required = _
    rw [hkept]
  have hAt : (afterAdmission s).current_time = (afterEviction s).current_time + SWAP_TIME := by
    rw [hadm]; rfl
  have hfreed : (afterEviction s).available_memory
      = s.available_memory + freedMemory s.proc (afterEviction s).proc :=
    rr_makeRoom_freed { s with front := s.front + 1 } (queueAt s.queue s.front)
  refine ⟨?_, hfreed, ?_, ?_, ?_, ?_, ?_⟩
  · rcases rr_makeRoom_exhaustive { s with front := s.front + 1 } (queueAt s.queue s.front)
      with hge | hall
    · exfalso
      have hge' : (afterEviction s).available_memory
          ≥ (procAt (afterEviction s).proc (queueAt s.queue s.front)).memory_required := hge
      rw [hkept] at hge'
      omega
    · intro j hj
      exact hall j (by rw [h.len]; exact hj)
  · rw [d3, hAav]; omega
  · rw [d3, hAav]; omega
  · rw [pSelf, f7]
    unfold admissionRec
    rw [if_pos hfirst, hu]
    show (procAt proc0 _).total_swap_time + SWAP_TIME = SWAP_TIME
    rw [hfr.2.1]; simp
  · rw [pSelf, runRec_first _ _ _ (by rw [hu]; exact hfr.2.2.2.2), hAt]
  · rw [pSelf, f6, sliceLen_eq_min]

/-- The loop returns with no time remaining for any process. -/
theorem rr_all_finished (proc : List Process) (total tq : Int) (htq : 0 < tq)
    (hfresh : ∀ p ∈ proc, Fresh p) (hburst : ∀ p ∈ proc, 0 < p.burst_time)
    (fuel : Nat) (r : State) (h : loop tq fuel (RR.init proc total) = some r) :
    ∀ p ∈ r.proc, p.remaining_time = 0 := by
  obtain ⟨hreach, hdone⟩ := rr_loop_reach fuel Reach.init h
  have hinv := Inv.rr_reach htq hfresh hburst hreach
  exact all_finished_of_count (by rw [← hinv.count]; exact hdone)

end RR

namespace NP
open Scheduling.NP

theorem np_degraded_step {select : List Process → Int → Int} (hsound : SelectSound select)
    (s : State) (hsel : select s.proc s.current_time ≠ -1)
    (hlow : (makeRoom s (select s.proc s.current_time).toNat).available_memory
      < (procAt s.proc (select s.proc s.current_time).toNat).memory_required) :
    NP.step select s = dispatch s (select s.proc s.current_time).toNat
      ∧ DegradedOutcome s (select s.proc s.current_time).toNat := by
  rcases hsound s.proc s.current_time with h1 | ⟨_, hk, _, hp⟩
  · exact absurd h1 hsel
  · exact ⟨by simp [NP.step, hsel], np_degraded s _ hk hp hlow⟩

end NP

/-- C9. In every simulation (workload as `initialize_processes` leaves it, `burst_time > 0`,
`time_quantum > 0`), whatever the memory sizes: if the state after the eviction scan still has
`available_memory` below the dispatched process's `memory_required`, then the scan has swapped
out every completed process, the process is swapped in and executed all the same, and
`available_memory` becomes the previous value plus the freed memory minus `memory_required`, a
negative number (`DegradedOutcome`).  The run goes on until every process has completed: the
final table of `calculate_fcfs` has every process swapped in and run, and the loops of
`calculate_sjf`, `calculate_priority` (no burst time, respectively priority, equal to `INT_MAX`)
and `calculate_rr` return with every process completed. -/
theorem exact_C9_degraded_admission (proc : List Process) (total_memory time_quantum : Int)
    (hfresh : ∀ p ∈ proc, Fresh p) (hburst : ∀ p ∈ proc, 0 < p.burst_time)
    (htq : 0 < time_quantum) :
    (∀ k, k < proc.length →
        (FCFS.afterEviction (FCFS.stateAt proc total_memory k) k).available_memory
          < (procAt (FCFS.stateAt proc total_memory k).proc k).memory_required →
        FCFS.stateAt proc total_memory (k + 1) = FCFS.body (FCFS.stateAt proc total_memory k) k
          ∧ FCFS.DegradedOutcome (FCFS.stateAt proc total_memory k) k)
      ∧ (∀ p ∈ (FCFS.calculate_fcfs proc total_memory).proc,
          p.total_swap_time = SWAP_TIME ∧ p.completion_time = p.start_time + p.burst_time)
      ∧ (∀ oob s, NP.Reach (SJF.select oob) (NP.init proc total_memory) s →
          SJF.select oob s.proc s.current_time ≠ -1 →
          (NP.makeRoom s (SJF.select oob s.proc s.current_time).toNat).available_memory
            < (procAt s.proc (SJF.select oob s.proc s.current_time).toNat).memory_required →
          NP.step (SJF.select oob) s
              = NP.dispatch s (SJF.select oob s.proc s.current_time).toNat
            ∧ NP.DegradedOutcome s (SJF.select oob s.proc s.current_time).toNat)
      ∧ ((∀ p ∈ proc, p.burst_time < INT_MAX) → ∀ oob, ∃ fuel r,
          SJF.calculate_sjf oob proc total_memory fuel = some r
            ∧ ∀ p ∈ r.proc, p.is_completed ≠ 0)
      ∧ (∀ s, NP.Reach PS.select (NP.init proc total_memory) s →
          PS.select s.proc s.current_time ≠ -1 →
          (NP.makeRoom s (PS.select s.proc s.current_time).toNat).available_memory
            < (procAt s.proc (PS.select s.proc s.current_time).toNat).memory_required →
          NP.step PS.select s = NP.dispatch s (PS.select s.proc s.current_time).toNat
            ∧ NP.DegradedOutcome s (PS.select s.proc s.current_time).toNat)
      ∧ ((∀ p ∈ proc, p.priority < INT_MAX) → ∃ fuel r,
          PS.calculate_priority proc total_memory fuel = some r
            ∧ ∀ p ∈ r.proc, p.is_completed ≠ 0)
      ∧ (∀ s, RR.Reach time_quantum (RR.init proc total_memory) s →
          s.front ≠ s.queue.length →
          (procAt s.proc (RR.queueAt s.queue s.front)).remaining_time
            = (procAt s.proc (RR.queueAt s.queue s.front)).burst_time →
          (RR.afterEviction s).available_memory
            < (procAt s.proc (RR.queueAt s.queue s.front)).memory_required →
          RR.step time_quantum s = RR.dispatch time_quantum s
            ∧ RR.DegradedOutcome time_quantum s)
      ∧ (∃ fuel r, RR.calculate_rr proc total_memory time_quantum fuel = some r
          ∧ ∀ p ∈ r.proc, p.remaining_time = 0) := by
  refine ⟨?_, FCFS.fcfs_all_run proc total_memory hfresh hburst, ?_, ?_, ?_, ?_, ?_, ?_⟩
  · intro k hk hlow
    have := FCFS.fcfs_degraded proc total_memory hfresh hburst k hk hlow
    rw [FCFS.fcfs_stateAt_succ] at this
    exact ⟨FCFS.fcfs_stateAt_succ _ _ _, this⟩
  · intro oob s _ hsel hlow
    exact NP.np_degraded_step (SJF.sjf_select_sound oob) s hsel hlow
  · intro hmax oob
    obtain ⟨fuel, r, hr⟩ := SJF.sjf_terminates oob proc total_memory hfresh hburst hmax
    exact ⟨fuel, r, hr, NP.np_all_completed (SJF.sjf_select_sound oob) proc total_memory hfresh
      hburst fuel r hr⟩
  · intro s _ hsel hlow
    exact NP.np_degraded_step PS.ps_select_sound s hsel hlow
  · intro hmax
    obtain ⟨fuel, r, hr⟩ := PS.ps_terminates proc total_memory hfresh hburst hmax
    exact ⟨fuel, r, hr, NP.np_all_completed PS.ps_select_sound proc total_memory hfresh
      hburst fuel r hr⟩
  · intro s hreach hfront hfirst hlow
    have hinv := RR.Inv.rr_reach htq hfresh hburst hreach
    have hd := RR.rr_degraded hinv time_quantum hfront hfresh hburst hfirst hlow
    refine ⟨by simp [RR.step, hfront], ?_⟩
    unfold RR.DegradedOutcome
    rw [hinv.len]
    exact hd
  · obtain ⟨fuel, r, hr⟩ := RR.rr_terminates proc total_memory time_quantum htq hfresh hburst
    exact ⟨fuel, r, hr, RR.rr_all_finished proc total_memory time_quantum htq hfresh hburst
      fuel r hr⟩

theorem residentMemory_nonneg (l : List Process) (h : ∀ p ∈ l, 0 ≤ p.memory_required) :
    0 ≤ residentMemory l := by
  induction l with
  | nil => simp [residentMemory]
  | cons x t ih =>
    have hx := h x (by simp)
    have ht := ih (fun p hp => h p (by simp [hp]))
    simp only [residentMemory, List.map_cons, List.sum_cons] at ht ⊢
    have : 0 ≤ held x := by unfold held; split <;> omega
    omega

theorem residentMemory_eq_zero_of_held (l : List Process) (h : ∀ p ∈ l, held p = 0) :
    residentMemory l = 0 := by
  induction l with
  | nil => rfl
  | cons x t ih =>
    have hx := h x (by simp)
    have ht := ih (fun p hp => h p (by simp [hp]))
    simp only [residentMemory, List.map_cons, List.sum_cons] at ht ⊢
    omega

namespace FCFS
open Scheduling.FCFS

theorem Inv.fcfs_memory_fields {sorted : List Process} {total : Int} {k : Nat} {s : State}
    (h : Inv sorted total k s) (j : Nat) :
    (procAt s.proc j).memory_required = (procAt sorted j).memory_required := by
  by_cases hj : j < k
  · exact (h.done j hj).memory
  · rw [h.untouched j (by omega)]

theorem fcfs_available_le (proc : List Process) (total : Int)
    (hfresh : ∀ p ∈ proc, Fresh p) (hburst : ∀ p ∈ proc, 0 < p.burst_time)
    (hmem : ∀ p ∈ proc, 0 ≤ p.memory_required) (k : Nat) (hk : k ≤ proc.length) :
    (stateAt proc total k).available_memory ≤ total := by
  have hinv := fcfs_inv_stateAt proc total hfresh hburst k hk
  have hnn : 0 ≤ residentMemory (stateAt proc total k).proc := by
    apply residentMemory_nonneg
    intro p hp
    obtain ⟨j, hj, he⟩ := exists_procAt_of_mem hp
    rw [← he, hinv.fcfs_memory_fields j]
    rw [hinv.len] at hj
    exact hmem _ ((sortByArrival_perm proc).mem_iff.mp (procAt_mem hj))
  have := hinv.memory
  omega

theorem fcfs_available_nonneg (proc : List Process) (total : Int)
    (hfresh : ∀ p ∈ proc, Fresh p) (hburst : ∀ p ∈ proc, 0 < p.burst_time)
    (htotal : 0 ≤ total) (hfit : ∀ p ∈ proc, p.memory_required ≤ total)
    (k : Nat) (hk : k ≤ proc.length) :
    0 ≤ (stateAt proc total k).available_memory := by
  cases k with
  | zero => exact htotal
  | succ k =>
    have hinv := fcfs_inv_stateAt proc total hfresh hburst k (by omega)
    have hlen : (stateAt proc total k).proc.length = proc.length := by
      rw [hinv.len, sortByArrival_length]
    have hks : k < (sortByArrival proc).length := by rw [sortByArrival_length]; omega
    rw [fcfs_stateAt_succ, fcfs_body_available]
    have h3 : procAt (makeRoom (idleJump (stateAt proc total k) k) k).proc k
        = procAt (stateAt proc total k).proc k := by
      rw [fcfs_makeRoom_other _ _ _ (le_refl _)]; simp
    have hneed : (procAt (stateAt proc total k).proc k).memory_required ≤ total := by
      rw [hinv.fcfs_memory_fields k]
      exact hfit _ ((sortByArrival_perm proc).mem_iff.mp (procAt_mem hks))
    have hge : (afterEviction (stateAt proc total k) k).available_memory
        ≥ (procAt (stateAt proc total k).proc k).memory_required := by
      rcases fcfs_makeRoom_exhaustive (idleJump (stateAt proc total k) k) k
        (by simp only [idleJump_proc]; omega)
        (fun j hj => by
          have h1 := hinv.completion_pos j hj
          have h2 := hinv.before j hj
          have h3 := (idleJump_time (stateAt proc total k) k).1
          simp only [idleJump_proc]
          exact ⟨h1, by omega⟩) with h | h
      · rw [h3] at h; exact h
      · -- every earlier process is swapped out: nothing is resident
        have hm := fcfs_makeRoom_memory (idleJump (stateAt proc total k) k) k
          (by simp only [idleJump_proc]; omega)
          (fun j hj => by
            simp only [idleJump_proc]
            rw [(hinv.done j hj).swapped_in]; decide)
        simp only [idleJump_proc, idleJump_available] at hm
        have hzero : residentMemory (makeRoom (idleJump (stateAt proc total k) k) k).proc
            = 0 := by
          apply residentMemory_eq_zero_of_held
          intro p hp
          obtain ⟨j, hj, he⟩ := exists_procAt_of_mem hp
          rw [← he]
          by_cases hjk : j < k
          · simp [held, h j hjk]
          · rw [fcfs_makeRoom_other _ _ _ (by omega)]
            simp only [idleJump_proc]
            rw [hinv.untouched j (by omega)]
            rw [fcfs_makeRoom_length, idleJump_proc, hinv.len] at hj
            have := (hfresh _ ((sortByArrival_perm proc).mem_iff.mp (procAt_mem hj))).2.1
            simp [held, this]
        have := hinv.memory
        show (makeRoom (idleJump (stateAt proc total k) k) k).available_memory ≥ _
        omega
    omega

end FCFS

namespace NP
open Scheduling.NP

theorem Inv.np_memory_fields {proc0 : List Process} {total : Int} {s : State}
    (h : Inv proc0 total s) (j : Nat) :
    (procAt s.proc j).memory_required = (procAt proc0 j).memory_required := by
  by_cases hj : (procAt s.proc j).is_completed = 0
  · rw [h.pending j hj]
  · exact (h.done j hj).memory

theorem Inv.np_available_le {proc0 : List Process} {total : Int} {s : State}
    (h : Inv proc0 total s) (hmem : ∀ p ∈ proc0, 0 ≤ p.memory_required) :
    s.available_memory ≤ total := by
  have hnn : 0 ≤ residentMemory s.proc := by
    apply residentMemory_nonneg
    intro p hp
    obtain ⟨j, hj, he⟩ := exists_procAt_of_mem hp
    rw [← he, h.np_memory_fields j]
    rw [h.len] at hj
    exact hmem _ (procAt_mem hj)
  have := h.memory
  omega

theorem Inv.np_dispatch_nonneg {proc0 : List Process} {total : Int} {s : State}
    (h : Inv proc0 total s) (i : Nat) (hi : i < s.proc.length)
    (hp : (procAt s.proc i).is_completed = 0)
    (hfresh : ∀ p ∈ proc0, Fresh p) (hfit : ∀ p ∈ proc0, p.memory_required ≤ total) :
    0 ≤ (dispatch s i).available_memory := by
  rw [np_dispatch_available s i hp]
  have h3 : procAt (makeRoom s i).proc i = procAt s.proc i := np_makeRoom_pending s i i hp
  have hneed : (procAt s.proc i).memory_required ≤ total := by
    rw [h.np_memory_fields i]
    exact hfit _ (procAt_mem (by rw [← h.len]; exact hi))
  have hge : (makeRoom s i).available_memory ≥ (procAt s.proc i).memory_required := by
    rcases np_makeRoom_exhaustive s i with hge | hall
    · rw [h3] at hge; exact hge
    · have hm := np_makeRoom_memory s i (fun j hj => by
        rw [(h.done j hj).swapped_in]; decide)
      have hzero : residentMemory (makeRoom s i).proc = 0 := by
        apply residentMemory_eq_zero_of_held
        intro p hp'
        obtain ⟨j, hj, he⟩ := exists_procAt_of_mem hp'
        rw [np_makeRoom_length] at hj
        rw [← he]
        by_cases hc : (procAt (makeRoom s i).proc j).is_completed = 0
        · have hc0 : (procAt s.proc j).is_completed = 0 := by
            rw [← noSwap_is_completed (np_makeRoom_noSwap s i j)]; exact hc
          rw [np_makeRoom_pending s i j hc0, h.pending j hc0]
          have := (hfresh _ (procAt_mem (by rw [← h.len]; exact hj))).2.1
          simp [held, this]
        · simp [held, hall j hj hc]
      have := h.memory
      omega
  omega

theorem np_available_nonneg {select : List Process → Int → Int} (hsound : SelectSound select)
    (proc : List Process) (total : Int)
    (hfresh : ∀ p ∈ proc, Fresh p) (hburst : ∀ p ∈ proc, 0 < p.burst_time)
    (htotal : 0 ≤ total) (hfit : ∀ p ∈ proc, p.memory_required ≤ total)
    (s : State) (hr : Reach select (NP.init proc total) s) : 0 ≤ s.available_memory := by
  induction hr with
  | init => exact htotal
  | @step s hs _ ih =>
    have hinv := Inv.np_reach hsound (fun p hp => le_of_lt (hburst p hp)) hfresh hs
    unfold NP.step
    split
    · exact ih
    · rename_i hsel
      rcases hsound s.proc s.current_time with h1 | ⟨_, hk, _, hp⟩
      · exact absurd h1 hsel
      · exact hinv.np_dispatch_nonneg _ hk hp hfresh hfit

end NP

namespace RR
open Scheduling.RR

theorem Inv.rr_available_le {proc0 : List Process} {total : Int} {s : State}
    (h : Inv proc0 total s) (hmem : ∀ p ∈ proc0, 0 ≤ p.memory_required) :
    s.available_memory ≤ total := by
  have hnn : 0 ≤ residentMemory s.proc := by
    apply residentMemory_nonneg
    intro p hp
    obtain ⟨j, hj, he⟩ := exists_procAt_of_mem hp
    rw [← he, h.mem j]
    rw [h.len] at hj
    exact hmem _ (procAt_mem hj)
  have := h.memory
  omega

end RR

/-- C10, amended.  On every workload as `initialize_processes` leaves it with `burst_time > 0`,
`memory_required >= 0` and `time_quantum > 0`, `available_memory` is at most `total_memory` at
every iteration boundary of each of the four simulations; and in `calculate_fcfs`,
`calculate_sjf` and `calculate_priority` it is at least `0` whenever `total_memory >= 0` and
every `memory_required` is at most `total_memory`. -/
theorem exact_C10_available_memory_bounds (proc : List Process) (total_memory time_quantum : Int)
    (hfresh : ∀ p ∈ proc, Fresh p) (hburst : ∀ p ∈ proc, 0 < p.burst_time)
    (htq : 0 < time_quantum) (hmem : ∀ p ∈ proc, 0 ≤ p.memory_required) :
    ((∀ k, k ≤ proc.length → (FCFS.stateAt proc total_memory k).available_memory ≤ total_memory)
        ∧ (∀ oob s, NP.Reach (SJF.select oob) (NP.init proc total_memory) s →
            s.available_memory ≤ total_memory)
        ∧ (∀ s, NP.Reach PS.select (NP.init proc total_memory) s →
            s.available_memory ≤ total_memory)
        ∧ (∀ s, RR.Reach time_quantum (RR.init proc total_memory) s →
            s.available_memory ≤ total_memory))
      ∧ (0 ≤ total_memory → (∀ p ∈ proc, p.memory_required ≤ total_memory) →
          (∀ k, k ≤ proc.length → 0 ≤ (FCFS.stateAt proc total_memory k).available_memory)
            ∧ (∀ oob s, NP.Reach (SJF.select oob) (NP.init proc total_memory) s →
                0 ≤ s.available_memory)
            ∧ (∀ s, NP.Reach PS.select (NP.init proc total_memory) s →
                0 ≤ s.available_memory)) := by
  refine ⟨⟨?_, ?_, ?_, ?_⟩, ?_⟩
  · exact fun k hk => FCFS.fcfs_available_le proc total_memory hfresh hburst hmem k hk
  · exact fun oob s hs => (NP.Inv.np_reach (SJF.sjf_select_sound oob)
      (fun p hp => le_of_lt (hburst p hp)) hfresh hs).np_available_le hmem
  · exact fun s hs => (NP.Inv.np_reach PS.ps_select_sound
      (fun p hp => le_of_lt (hburst p hp)) hfresh hs).np_available_le hmem
  · exact fun s hs => (RR.Inv.rr_reach htq hfresh hburst hs).rr_available_le hmem
  · intro htotal hfit
    exact ⟨fun k hk => FCFS.fcfs_available_nonneg proc total_memory hfresh hburst htotal hfit k hk,
      fun oob s hs => NP.np_available_nonneg (SJF.sjf_select_sound oob) proc total_memory hfresh
        hburst htotal hfit s hs,
      fun s hs => NP.np_available_nonneg PS.ps_select_sound proc total_memory hfresh
        hburst htotal hfit s hs⟩

theorem DoneP.response_ok {p0 p : Process} (h : DoneP p0 p) : ResponseOK p := by
  have h1 := h.start_ge
  have h2 := h.response
  simp only [SWAP_TIME] at h1
  refine ⟨?_, h2, ?_⟩ <;> omega

namespace FCFS
open Scheduling.FCFS

theorem fcfs_response_final (proc : List Process) (total : Int)
    (hfresh : ∀ p ∈ proc, Fresh p) (hburst : ∀ p ∈ proc, 0 < p.burst_time) :
    ∀ p ∈ (calculate_fcfs proc total).proc, ResponseOK p := by
  intro p hp
  have hinv := fcfs_inv_final proc total hfresh hburst
  obtain ⟨j, hj, he⟩ := exists_procAt_of_mem hp
  have hj' : j < proc.length := by rw [hinv.len, sortByArrival_length] at hj; exact hj
  rw [← he]
  exact (hinv.done j hj').response_ok

end FCFS

namespace NP
open Scheduling.NP

theorem np_response_final {select : List Process → Int → Int} (hsound : SelectSound select)
    (proc : List Process) (total : Int)
    (hfresh : ∀ p ∈ proc, Fresh p) (hburst : ∀ p ∈ proc, 0 < p.burst_time)
    (fuel : Nat) (r : State) (h : loop select fuel (NP.init proc total) = some r) :
    ∀ p ∈ r.proc, ResponseOK p := by
  obtain ⟨hreach, hdone⟩ := np_loop_reach fuel Reach.init h
  have hinv := Inv.np_reach hsound (fun p hp => le_of_lt (hburst p hp)) hfresh hreach
  have hall := all_done_of_doneCount (by rw [← hinv.count]; exact hdone)
  intro p hp
  obtain ⟨j, hj, he⟩ := exists_procAt_of_mem hp
  have hd := hinv.done j (by rw [he]; exact hall p hp)
  rw [← he]
  exact hd.response_ok

end NP

namespace RR
open Scheduling.RR

theorem rr_response_final (proc : List Process) (total tq : Int) (htq : 0 < tq)
    (hfresh : ∀ p ∈ proc, Fresh p) (hburst : ∀ p ∈ proc, 0 < p.burst_time)
    (fuel : Nat) (r : State) (h : loop tq fuel (RR.init proc total) = some r) :
    ∀ p ∈ r.proc, ResponseOK p := by
  obtain ⟨hreach, hdone⟩ := rr_loop_reach fuel Reach.init h
  have hinv := Inv.rr_reach htq hfresh hburst hreach
  have hall := all_finished_of_count (by rw [← hinv.count]; exact hdone)
  intro p hp
  obtain ⟨j, hj, he⟩ := exists_procAt_of_mem hp
  have hj' : j < proc.length := by rw [hinv.len] at hj; exact hj
  have h0 : (procAt r.proc j).remaining_time = 0 := by rw [he]; exact hall p hp
  have hb : 0 < (procAt r.proc j).burst_time := by
    rw [hinv.burst j]; exact hburst _ (procAt_mem hj')
  have hst := hinv.started j (by omega)
  rw [← he]
  have h1 := hst.start_ge
  have h2 := hst.response
  simp only [SWAP_TIME] at h1
  refine ⟨?_, h2, ?_⟩ <;> omega

end RR

/-- C11. After any of the four simulations, run on a workload as `initialize_processes` leaves
it with `burst_time > 0` (and `time_quantum > 0` for round-robin), every process has
`start_time >= arrival_time` and `response_time = start_time - arrival_time >= 0`. -/
theorem exact_C11_response_nonneg (proc : List Process) (total_memory time_quantum : Int)
    (hfresh : ∀ p ∈ proc, Fresh p) (hburst : ∀ p ∈ proc, 0 < p.burst_time)
    (htq : 0 < time_quantum) :
    (∀ p ∈ (FCFS.calculate_fcfs proc total_memory).proc, ResponseOK p)
      ∧ (∀ oob fuel r, SJF.calculate_sjf oob proc total_memory fuel = some r →
          ∀ p ∈ r.proc, ResponseOK p)
      ∧ (∀ fuel r, PS.calculate_priority proc total_memory fuel = some r →
          ∀ p ∈ r.proc, ResponseOK p)
      ∧ (∀ fuel r, RR.calculate_rr proc total_memory time_quantum fuel = some r →
          ∀ p ∈ r.proc, ResponseOK p) :=
  ⟨FCFS.fcfs_response_final proc total_memory hfresh hburst,
    fun oob fuel r h => NP.np_response_final (SJF.sjf_select_sound oob) proc total_memory hfresh
      hburst fuel r h,
    fun fuel r h => NP.np_response_final PS.ps_select_sound proc total_memory hfresh hburst fuel r h,
    fun fuel r h => RR.rr_response_final proc total_memory time_quantum htq hfresh hburst fuel r h⟩

namespace NP
open Scheduling.NP

theorem Inv.np_fields {proc0 : List Process} {total : Int} {s : State} (h : Inv proc0 total s)
    (j : Nat) :
    (procAt s.proc j).burst_time = (procAt proc0 j).burst_time
      ∧ (procAt s.proc j).arrival_time = (procAt proc0 j).arrival_time := by
  by_cases hc : (procAt s.proc j).is_completed = 0
  · rw [h.pending j hc]; exact ⟨rfl, rfl⟩
  · exact ⟨(h.done j hc).burst, (h.done j hc).arrival⟩

end NP

namespace SJF
open Scheduling.SJF

theorem sjf_int_range {proc0 : List Process} {total : Int} {s : NP.State}
    (h : NP.Inv proc0 total s) (hint : ∀ p ∈ proc0, p.burst_time ≤ INT_MAX) :
    ∀ p ∈ s.proc, p.burst_time ≤ INT_MAX := by
  intro p hp
  obtain ⟨j, hj, he⟩ := exists_procAt_of_mem hp
  have hj0 : j < proc0.length := by rw [← h.len]; exact hj
  rw [← he, (h.np_fields j).1]
  exact hint _ (procAt_mem hj0)

theorem TieOrder.sjf_step {oob : Process} {proc0 : List Process} {total : Int} {s : NP.State}
    (ht : TieOrder proc0 s) (h : NP.Inv proc0 total s)
    (hburst : ∀ p ∈ proc0, 0 ≤ p.burst_time) (hint : ∀ p ∈ proc0, p.burst_time ≤ INT_MAX) :
    TieOrder proc0 (NP.step (select oob) s) := by
  unfold NP.step
  split
  · exact ht
  · rename_i hsel
    rcases sjf_select_cases oob s.proc s.current_time (sjf_int_range h hint) with
      ⟨h1, _⟩ | ⟨_, ⟨hk, harr, hp⟩, hbest⟩
    · exact absurd h1 hsel
    · generalize (select oob s.proc s.current_time).toNat = k at hk harr hp hbest
      have hself := NP.np_dispatch_self s k hk hp
      have hother : ∀ m, m ≠ k →
          (procAt (NP.dispatch s k).proc m).is_completed = (procAt s.proc m).is_completed
            ∧ (procAt (NP.dispatch s k).proc m).start_time = (procAt s.proc m).start_time := by
        intro m hm
        rw [NP.np_dispatch_other s k m hm]
        exact ⟨noSwap_is_completed (NP.np_makeRoom_noSwap s k m),
          noSwap_start (NP.np_makeRoom_noSwap s k m)⟩
      intro i j hi hj hb ha hcj
      by_cases hjk : j = k
      · subst hjk
        have hij : i ≠ j := by intro e; subst e; omega
        have hci : (procAt s.proc i).is_completed ≠ 0 := by
          intro hc0
          have hel : NP.eligible s.proc s.current_time i := by
            refine ⟨by rw [h.len]; exact hi, ?_, hc0⟩
            have := (h.np_fields i).2
            have := (h.np_fields j).2
            omega
          have hbt := hbest i hel
          have e1 := (h.np_fields i).1
          have e2 := (h.np_fields j).1
          have e3 := (h.np_fields i).2
          have e4 := (h.np_fields j).2
          have := (hbt.2 (by omega)).1
          omega
        refine ⟨by rw [(hother i hij).1]; exact hci, ?_⟩
        rw [(hother i hij).2, hself]
        have hd := h.done i hci
        have h1 := hd.completion
        have h2 := h.before i hci
        have h3 := NP.np_startOf_ge s j
        have h4 := hburst _ (procAt_mem hi)
        have h5 := hd.burst
        simp only [SWAP_TIME] at h3
        show (procAt s.proc i).start_time < NP.startOf s j
        omega
      · have hcj' : (procAt s.proc j).is_completed ≠ 0 := by
          rw [← (hother j hjk).1]; exact hcj
        obtain ⟨hci, hlt⟩ := ht i j hi hj hb ha hcj'
        have hik : i ≠ k := by intro e; subst e; exact hci hp
        rw [(hother i hik).1, (hother i hik).2, (hother j hjk).2]
        exact ⟨hci, hlt⟩

theorem sjf_tie_reach {oob : Process} {proc0 : List Process} {total : Int} {s : NP.State}
    (hburst : ∀ p ∈ proc0, 0 ≤ p.burst_time) (hfresh : ∀ p ∈ proc0, Fresh p)
    (hint : ∀ p ∈ proc0, p.burst_time ≤ INT_MAX)
    (hr : NP.Reach (select oob) (NP.init proc0 total) s) : TieOrder proc0 s := by
  induction hr with
  | init =>
    intro i j _ hj _ _ hcj
    exact absurd (hfresh _ (procAt_mem hj)).2.2.1 hcj
  | step hr' _ ih =>
    exact ih.sjf_step (NP.Inv.np_reach (sjf_select_sound oob) hburst hfresh hr') hburst hint

end SJF

/-- C12. In `calculate_sjf`, on every workload as `initialize_processes` leaves it with
`burst_time > 0` (every `int` burst time, so at most `INT_MAX`), two processes `p` and `q` with
equal `burst_time` and `arrival_time(p) < arrival_time(q)` are dispatched in that order.  At every
iteration boundary of the loop: once `q` has been run, `p` has been run too and
`start_time(p) < start_time(q)`.  And in the table the function returns,
`start_time(p) < start_time(q)`. -/
theorem exact_C12_sjf_tie_break (oob : Process) (proc : List Process) (total_memory : Int)
    (hfresh : ∀ p ∈ proc, Fresh p) (hburst : ∀ p ∈ proc, 0 < p.burst_time)
    (hint : ∀ p ∈ proc, p.burst_time ≤ INT_MAX) :
    (∀ s, NP.Reach (SJF.select oob) (NP.init proc total_memory) s →
        ∀ i j, i < proc.length → j < proc.length →
          (procAt proc i).burst_time = (procAt proc j).burst_time →
          (procAt proc i).arrival_time < (procAt proc j).arrival_time →
          (procAt s.proc j).is_completed ≠ 0 →
          (procAt s.proc i).is_completed ≠ 0
            ∧ (procAt s.proc i).start_time < (procAt s.proc j).start_time)
      ∧ (∀ fuel r, SJF.calculate_sjf oob proc total_memory fuel = some r →
          ∀ i j, i < proc.length → j < proc.length →
            (procAt r.proc i).burst_time = (procAt r.proc j).burst_time →
            (procAt r.proc i).arrival_time < (procAt r.proc j).arrival_time →
            (procAt r.proc i).start_time < (procAt r.proc j).start_time) := by
  have hb0 : ∀ p ∈ proc, 0 ≤ p.burst_time := fun p hp => le_of_lt (hburst p hp)
  refine ⟨fun s hs => SJF.sjf_tie_reach hb0 hfresh hint hs, ?_⟩
  intro fuel r h i j hi hj hb ha
  obtain ⟨hreach, hdone⟩ := NP.np_loop_reach fuel NP.Reach.init h
  have hinv := NP.Inv.np_reach (SJF.sjf_select_sound oob) hb0 hfresh hreach
  have hall := all_done_of_doneCount (by rw [← hinv.count]; exact hdone)
  have hcj : (procAt r.proc j).is_completed ≠ 0 :=
    hall _ (procAt_mem (by rw [hinv.len]; exact hj))
  rw [(hinv.np_fields i).1, (hinv.np_fields j).1] at hb
  rw [(hinv.np_fields i).2, (hinv.np_fields j).2] at ha
  exact (SJF.sjf_tie_reach hb0 hfresh hint hreach i j hi hj hb ha hcj).2

theorem sum_map_set (g : Process → Int) (l : List Process) (i : Nat) (p : Process)
    (h : i < l.length) :
    ((l.set i p).map g).sum = (l.map g).sum - g (procAt l i) + g p := by
  induction l generalizing i with
  | nil => simp at h
  | cons x t ih =>
    cases i with
    | zero => simp [procAt]; ring
    | succ i =>
      have := ih i (by simpa using h)
      simp only [List.set_cons_succ, List.map_cons, List.sum_cons] at this ⊢
      rw [this]
      simp [procAt]
      ring

theorem foldl_add_burst (l : List Process) (a : Int) :
    l.foldl (fun acc p => acc + p.burst_time) a = a + (l.map (fun p => p.burst_time)).sum := by
  induction l generalizing a with
  | nil => simp
  | cons x t ih => simp only [List.foldl_cons, List.map_cons, List.sum_cons]; rw [ih]; ring

theorem total_burst_eq_sum (l : List Process) :
    total_burst l = (l.map (fun p => p.burst_time)).sum := by
  unfold total_burst; rw [foldl_add_burst]; ring

theorem foldl_max_ge (l : List Process) (a : Int) :
    a ≤ l.foldl (fun m p => if p.completion_time > m then p.completion_time else m) a
      ∧ ∀ p ∈ l, p.completion_time
          ≤ l.foldl (fun m p => if p.completion_time > m then p.completion_time else m) a := by
  induction l generalizing a with
  | nil => simp
  | cons x t ih =>
    simp only [List.foldl_cons]
    obtain ⟨h1, h2⟩ := ih (if x.completion_time > a then x.completion_time else a)
    by_cases hx : x.completion_time > a
    · simp only [hx, if_true] at h1 h2 ⊢
      refine ⟨by omega, ?_⟩
      intro p hp
      rcases List.mem_cons.mp hp with e | hp
      · subst e; exact h1
      · exact h2 p hp
    · simp only [hx, if_false] at h1 h2 ⊢
      refine ⟨h1, ?_⟩
      intro p hp
      rcases List.mem_cons.mp hp with e | hp
      · subst e; omega
      · exact h2 p hp

theorem le_makespan {l : List Process} {p : Process} (h : p ∈ l) :
    p.completion_time ≤ makespan l :=
  (foldl_max_ge l 0).2 p h

theorem cpu_util_le (b m : Int) (hb : b ≤ m) (hm : 0 < m) : cpu_util b m ≤ 100 := by
  unfold cpu_util
  have hm' : (0 : ℚ) < (m : ℚ) := by exact_mod_cast hm
  have hb' : (b : ℚ) ≤ (m : ℚ) := by exact_mod_cast hb
  have : (b : ℚ) / (m : ℚ) ≤ 1 := (div_le_one hm').mpr hb'
  linarith

theorem sum_burst_pos (l : List Process) (hne : l ≠ []) (hburst : ∀ p ∈ l, 0 < p.burst_time) :
    0 < (l.map (fun p => p.burst_time)).sum := by
  induction l with
  | nil => exact absurd rfl hne
  | cons x t ih =>
    simp only [List.map_cons, List.sum_cons]
    have hx := hburst x (by simp)
    by_cases ht : t = []
    · subst ht; simpa using hx
    · have := ih ht (fun p hp => hburst p (by simp [hp]))
      omega

namespace FCFS
open Scheduling.FCFS

theorem fcfs_busy (proc : List Process) (total : Int)
    (hfresh : ∀ p ∈ proc, Fresh p) (hburst : ∀ p ∈ proc, 0 < p.burst_time) (k : Nat)
    (hk : k ≤ proc.length) :
    (((sortByArrival proc).take k).map (fun p => p.burst_time)).sum
        ≤ (stateAt proc total k).current_time
      ∧ (0 < k → (procAt (stateAt proc total k).proc (k - 1)).completion_time
          = (stateAt proc total k).current_time) := by
  induction k with
  | zero => exact ⟨by simp [stateAt, FCFS.init], fun h => absurd h (by omega)⟩
  | succ k ih =>
    obtain ⟨ih1, -⟩ := ih (by omega)
    have hinv := fcfs_inv_stateAt proc total hfresh hburst k (by omega)
    have hlt : k < (sortByArrival proc).length := by rw [sortByArrival_length]; omega
    have hlt' : k < (stateAt proc total k).proc.length := by rw [hinv.len]; exact hlt
    have ht := fcfs_body_time (stateAt proc total k) k hlt'
    have hs := fcfs_body_self (stateAt proc total k) k hlt'
    have hge := (fcfs_startOf_ge (stateAt proc total k) k).1
    have hu := hinv.untouched k (le_refl _)
    rw [fcfs_stateAt_succ]
    refine ⟨?_, fun _ => ?_⟩
    · rw [List.take_succ, List.getElem?_eq_getElem hlt]
      simp only [Option.toList_some, List.map_append, List.sum_append, List.map_cons,
        List.map_nil, List.sum_cons, List.sum_nil, add_zero]
      rw [ht, hu, procAt_of_lt hlt] at *
      simp only [SWAP_TIME] at hge
      omega
    · show (procAt (body (stateAt proc total k) k).proc k).completion_time = _
      rw [hs, ht]
      rfl

theorem fcfs_burst_final (proc : List Process) (total : Int)
    (hfresh : ∀ p ∈ proc, Fresh p) (hburst : ∀ p ∈ proc, 0 < p.burst_time) :
    (calculate_fcfs proc total).proc.map (fun p => p.burst_time)
      = (sortByArrival proc).map (fun p => p.burst_time) := by
  have hinv := fcfs_inv_final proc total hfresh hburst
  apply map_eq_of_procAt (fun p => p.burst_time) hinv.len
  intro m
  by_cases hm : m < proc.length
  · exact (hinv.done m hm).burst
  · rw [hinv.untouched m (by omega)]

theorem fcfs_total_burst_le (proc : List Process) (total : Int) (hne : proc ≠ [])
    (hfresh : ∀ p ∈ proc, Fresh p) (hburst : ∀ p ∈ proc, 0 < p.burst_time) :
    total_burst (calculate_fcfs proc total).proc ≤ FCFS.makespan (calculate_fcfs proc total).proc
      ∧ 0 < total_burst (calculate_fcfs proc total).proc := by
  have hinv := fcfs_inv_final proc total hfresh hburst
  have hpos : 0 < proc.length := List.length_pos.mpr hne
  obtain ⟨h1, h2⟩ := fcfs_busy proc total hfresh hburst proc.length (le_refl _)
  have h2' := h2 hpos
  have hlen : (calculate_fcfs proc total).proc.length = proc.length := by
    rw [hinv.len, sortByArrival_length]
  have htk : (sortByArrival proc).take proc.length = sortByArrival proc := by
    apply List.take_of_length_le; rw [sortByArrival_length]
  rw [htk] at h1
  have hsum : total_burst (calculate_fcfs proc total).proc
      = ((sortByArrival proc).map (fun p => p.burst_time)).sum := by
    rw [total_burst_eq_sum, fcfs_burst_final proc total hfresh hburst]
  have hp : 0 < ((sortByArrival proc).map (fun p => p.burst_time)).sum := by
    apply sum_burst_pos
    · intro e
      have := sortByArrival_length proc
      rw [e] at this; simp at this; omega
    · intro p hp; exact hburst p ((sortByArrival_perm proc).mem_iff.mp hp)
  refine ⟨?_, by rw [hsum]; exact hp⟩
  unfold FCFS.makespan
  rw [hlen, hsum]
  show _ ≤ (procAt (stateAt proc total proc.length).proc (proc.length - 1)).completion_time
  rw [h2']
  exact h1

end FCFS

namespace NP
open Scheduling.NP

theorem doneBurst_congr {l l' : List Process} (hlen : l.length = l'.length)
    (h : ∀ m, noSwap (procAt l m) = noSwap (procAt l' m)) : doneBurst l = doneBurst l' := by
  unfold doneBurst
  congr 1
  apply map_eq_of_procAt _ hlen
  intro m
  rw [noSwap_eq (h m)]

theorem doneBurst_init (l : List Process) (h : ∀ p ∈ l, p.is_completed = 0) :
    doneBurst l = 0 := by
  induction l with
  | nil => rfl
  | cons x t ih =>
    have hx := h x (by simp)
    have ht := ih (fun p hp => h p (by simp [hp]))
    simp only [doneBurst, List.map_cons, List.sum_cons] at ht ⊢
    rw [ht]
    simp [hx]

theorem doneBurst_all (l : List Process) (h : ∀ p ∈ l, p.is_completed ≠ 0) :
    doneBurst l = (l.map (fun p => p.burst_time)).sum := by
  induction l with
  | nil => rfl
  | cons x t ih =>
    have hx := h x (by simp)
    have ht := ih (fun p hp => h p (by simp [hp]))
    simp only [doneBurst, List.map_cons, List.sum_cons] at ht ⊢
    rw [ht]
    simp [hx]

theorem Busy.np_busy_step {select : List Process → Int → Int} {s : State} (hb : Busy s)
    (hsound : SelectSound select) :
    Busy (NP.step select s) := by
  unfold NP.step
  split
  · obtain ⟨h1, h2⟩ := hb
    exact ⟨by show doneBurst s.proc ≤ s.current_time + 1; omega, h2⟩
  · rename_i hsel
    rcases hsound s.proc s.current_time with h1 | ⟨_, hk, harr, hp⟩
    · exact absurd h1 hsel
    · generalize (select s.proc s.current_time).toNat = k at hk harr hp
      have hproc := np_dispatch_proc s k hk hp
      have htime := np_dispatch_time s k hk hp
      have hge := np_startOf_ge s k
      have hk2 : k < (makeRoom s k).proc.length := by rw [np_makeRoom_length]; exact hk
      have hmr : doneBurst (makeRoom s k).proc = doneBurst s.proc :=
        doneBurst_congr (np_makeRoom_length s k) (fun m => np_makeRoom_noSwap s k m)
      have hsum : doneBurst (dispatch s k).proc = doneBurst s.proc + (procAt s.proc k).burst_time := by
        rw [hproc]
        unfold doneBurst at hmr ⊢
        rw [sum_map_set _ _ _ _ hk2, hmr, np_makeRoom_pending s k k hp]
        simp [hp, ranRecord]
      have hself : (procAt (dispatch s k).proc k).completion_time
          = startOf s k + (procAt s.proc k).burst_time := by
        rw [np_dispatch_self s k hk hp]; rfl
      have hcomp : (procAt (dispatch s k).proc k).is_completed ≠ 0 := by
        rw [np_dispatch_self s k hk hp]; simp [ranRecord]
      obtain ⟨h1, -⟩ := hb
      simp only [SWAP_TIME] at hge
      refine ⟨by rw [hsum, htime]; omega, fun _ => ⟨k, ?_, hcomp, ?_⟩⟩
      · rw [np_dispatch_length]; exact hk
      · rw [hsum, hself]; omega

theorem np_busy_reach {select : List Process → Int → Int} {proc0 : List Process} {total : Int}
    {s : State} (hsound : SelectSound select) (hfresh : ∀ p ∈ proc0, Fresh p)
    (hr : Reach select (NP.init proc0 total) s) : Busy s := by
  induction hr with
  | init =>
    refine ⟨?_, fun h => absurd h (by simp [NP.init])⟩
    show doneBurst proc0 ≤ 0
    rw [doneBurst_init proc0 (fun p hp => (hfresh p hp).2.2.1)]
  | step _ _ ih => exact ih.np_busy_step hsound

theorem np_total_burst_le {select : List Process → Int → Int} (hsound : SelectSound select)
    (proc : List Process) (total : Int) (hne : proc ≠ [])
    (hfresh : ∀ p ∈ proc, Fresh p) (hburst : ∀ p ∈ proc, 0 < p.burst_time)
    (fuel : Nat) (r : State) (h : loop select fuel (NP.init proc total) = some r) :
    total_burst r.proc ≤ makespan r.proc ∧ 0 < total_burst r.proc := by
  have hb0 : ∀ p ∈ proc, 0 ≤ p.burst_time := fun p hp => le_of_lt (hburst p hp)
  obtain ⟨hreach, hdone⟩ := np_loop_reach fuel Reach.init h
  have hinv := Inv.np_reach hsound hb0 hfresh hreach
  have hall := all_done_of_doneCount (by rw [← hinv.count]; exact hdone)
  obtain ⟨-, hbusy⟩ := np_busy_reach hsound hfresh hreach
  have hpos : 0 < proc.length := List.length_pos.mpr hne
  obtain ⟨j, hj, -, hle⟩ := hbusy (by rw [hinv.len] at hdone; omega)
  rw [doneBurst_all r.proc hall, ← total_burst_eq_sum] at hle
  refine ⟨le_trans hle (le_makespan (procAt_mem hj)), ?_⟩
  rw [total_burst_eq_sum]
  apply sum_burst_pos
  · intro e; have := hinv.len; rw [e] at this; simp at this; omega
  · intro p hp
    obtain ⟨i, hi, he⟩ := exists_procAt_of_mem hp
    rw [← he, (hinv.np_fields i).1]
    exact hburst _ (procAt_mem (by rw [← hinv.len]; exact hi))

end NP

namespace RR
open Scheduling.RR

theorem executed_all {l : List Process} (h : ∀ p ∈ l, p.remaining_time = 0) :
    executed l = (l.map (fun p => p.burst_time)).sum := by
  induction l with
  | nil => rfl
  | cons x t ih =>
    have hx := h x (by simp)
    have ht := ih (fun p hp => h p (by simp [hp]))
    simp only [executed, List.map_cons, List.sum_cons] at ht ⊢
    rw [ht, hx]
    ring

theorem executed_fresh {l : List Process} (h : ∀ p ∈ l, p.remaining_time = p.burst_time) :
    executed l = 0 := by
  induction l with
  | nil => rfl
  | cons x t ih =>
    have hx := h x (by simp)
    have ht := ih (fun p hp => h p (by simp [hp]))
    simp only [executed, List.map_cons, List.sum_cons] at ht ⊢
    rw [ht, hx]
    ring

theorem finalRec_completion (tq : Int) (s : State) (h : ¬ (finalRec tq s).remaining_time > 0) :
    (finalRec tq s).completion_time
      = (afterAdmission s).current_time
        + sliceLen (procAt s.proc (queueAt s.queue s.front)) tq := by
  unfold finalRec finishRec at h ⊢
  split
  · rename_i h1
    rw [if_pos h1] at h
    exact absurd h1 h
  · rfl

theorem Busy.rr_busy_step {proc0 : List Process} {total : Int} {tq : Int} {s : State}
    (hb : Busy s) (h : Inv proc0 total s) (hc : s.completed < s.proc.length)
    (hfresh : ∀ p ∈ proc0, Fresh p) (hburst : ∀ p ∈ proc0, 0 < p.burst_time) :
    Busy (RR.step tq s) := by
  unfold RR.step
  split
  · rename_i hf
    obtain ⟨e1, e2, -, e4, -⟩ :=
      enqueueArrivals_spec { s with current_time := s.current_time + 1 }
        (by show s.visited.length = s.proc.length; rw [h.vlen, h.len])
    unfold Busy idle
    rw [e1, e2, e4]
    refine ⟨?_, fun hd => absurd hd (by show ¬ s.proc.length ≤ s.completed; omega)⟩
    show executed s.proc ≤ s.current_time + 1
    have := hb.1
    omega
  · rename_i hfront
    obtain ⟨-, hidx, -, hrem, -, -⟩ := h.rr_head hfront
    obtain ⟨aLen, aSelf, aOther, -, aT, -, -⟩ := h.rr_admission_facts hfront hfresh hburst
    have hi : queueAt s.queue s.front < s.proc.length := by rw [h.len]; exact hidx
    have hrem' : (procAt s.proc (queueAt s.queue s.front)).remaining_time ≠ 0 := by omega
    obtain ⟨d1, d2, -, d4, -⟩ := rr_dispatch_spec tq s hi hrem' (by rw [h.vlen, h.len])
    have hlenD : (dispatch tq s).proc.length = s.proc.length := by
      rw [d1, List.length_set, aLen]
    have hself : procAt (dispatch tq s).proc (queueAt s.queue s.front) = finalRec tq s := by
      rw [d1, procAt_set_self _ (by rw [aLen]; exact hi)]
    obtain ⟨-, -, f3, -, -, f6, -⟩ := runRec_frame
      (procAt s.proc (queueAt s.queue s.front)) (afterAdmission s).current_time tq
    obtain ⟨-, -, g3, -, -, g6⟩ := admissionRec_frame (procAt s.proc (queueAt s.queue s.front))
    have hc0 : executed (afterAdmission s).proc = executed s.proc := by
      refine congrArg List.sum
        (map_eq_of_procAt (fun p => p.burst_time - p.remaining_time) aLen ?_)
      intro m
      by_cases hm : m = queueAt s.queue s.front
      · rw [hm, aSelf]
        show (admissionRec _).burst_time - (admissionRec _).remaining_time = _
        rw [g3, g6]
      · rw [noSwap_eq (aOther m hm)]
    have hset := sum_map_set (fun p => p.burst_time - p.remaining_time) (afterAdmission s).proc
      (queueAt s.queue s.front) (finalRec tq s) (by rw [aLen]; exact hi)
    rw [← d1, aSelf, finalRec_eq] at hset
    have hsum : executed (dispatch tq s).proc
        = executed s.proc + sliceLen (procAt s.proc (queueAt s.queue s.front)) tq := by
      rw [← hc0]
      have hset' : executed (dispatch tq s).proc
          = executed (afterAdmission s).proc
            - ((admissionRec (procAt s.proc (queueAt s.queue s.front))).burst_time
              - (admissionRec (procAt s.proc (queueAt s.queue s.front))).remaining_time)
            + ((runRec (procAt s.proc (queueAt s.queue s.front))
                  (afterAdmission s).current_time tq).burst_time
              - (runRec (procAt s.proc (queueAt s.queue s.front))
                  (afterAdmission s).current_time tq).remaining_time) := hset
      rw [hset', g3, g6, f3, f6]
      ring
    refine ⟨?_, fun hd _ => ⟨queueAt s.queue s.front, by rw [hlenD]; exact hi, ?_⟩⟩
    · rw [hsum, d2]
      have := hb.1
      omega
    · rw [hself, d2]
      apply finalRec_completion
      intro hpos
      rw [d4, if_pos hpos, hlenD] at hd
      omega

theorem rr_busy_reach {proc0 : List Process} {total : Int} {tq : Int} {s : State}
    (htq : 0 < tq) (hfresh : ∀ p ∈ proc0, Fresh p) (hburst : ∀ p ∈ proc0, 0 < p.burst_time)
    (hr : Reach tq (RR.init proc0 total) s) : Busy s := by
  induction hr with
  | init =>
    obtain ⟨e1, e2, -, e4, -⟩ :=
      enqueueArrivals_spec
        { proc := proc0, current_time := 0, available_memory := total, completed := 0,
          queue := [], front := 0, visited := List.replicate proc0.length 0 }
        (by simp)
    unfold Busy RR.init
    rw [e1, e2, e4]
    refine ⟨?_, fun hd hpos => ?_⟩
    · show executed proc0 ≤ 0
      rw [executed_fresh (fun p hp => (hfresh p hp).2.2.2.1)]
    · exact absurd hd (by show ¬ proc0.length ≤ 0; have : 0 < proc0.length := hpos; omega)
  | step hr' hc ih => exact ih.rr_busy_step (Inv.rr_reach htq hfresh hburst hr') hc hfresh hburst

end RR

theorem foldl_max_attained (l : List Process) (a : Int) :
    l.foldl (fun m p => if p.completion_time > m then p.completion_time else m) a = a
      ∨ ∃ p ∈ l, p.completion_time
          = l.foldl (fun m p => if p.completion_time > m then p.completion_time else m) a := by
  induction l generalizing a with
  | nil => left; rfl
  | cons x t ih =>
    simp only [List.foldl_cons]
    by_cases hx : x.completion_time > a
    · simp only [hx, if_true]
      rcases ih x.completion_time with h | ⟨p, hp, he⟩
      · right; exact ⟨x, by simp, h.symm⟩
      · right; exact ⟨p, by simp [hp], he⟩
    · simp only [hx, if_false]
      rcases ih a with h | ⟨p, hp, he⟩
      · left; exact h
      · right; exact ⟨p, by simp [hp], he⟩

theorem makespan_attained {l : List Process} (h : 0 < makespan l) :
    ∃ p ∈ l, p.completion_time = makespan l := by
  rcases foldl_max_attained l 0 with h0 | h1
  · unfold makespan at h; omega
  · exact h1

theorem utilization_ok {l : List Process} (hpos : 0 < total_burst l)
    (hle : total_burst l ≤ makespan l) : UtilizationOK l (makespan l) :=
  ⟨by omega, hle, fun _ hp => le_makespan hp, makespan_attained (by omega),
    cpu_util_le _ _ hle (by omega)⟩

namespace FCFS
open Scheduling.FCFS

theorem fcfs_completion_increasing (proc : List Process) (total : Int)
    (hfresh : ∀ p ∈ proc, Fresh p) (hburst : ∀ p ∈ proc, 0 < p.burst_time)
    (i j : Nat) (hij : i < j) (hj : j < proc.length) :
    (procAt (calculate_fcfs proc total).proc i).completion_time
      < (procAt (calculate_fcfs proc total).proc j).completion_time := by
  have hinv := fcfs_inv_final proc total hfresh hburst
  have h1 := (fcfs_final_order proc total hfresh hburst i j hij hj).2
  have hd := hinv.done j hj
  have h2 := hd.completion
  have h3 := hd.burst
  have hj' : j < (sortByArrival proc).length := by rw [sortByArrival_length]; exact hj
  have h4 := hburst _ ((sortByArrival_perm proc).mem_iff.mp (procAt_mem hj'))
  omega

theorem fcfs_last_is_max (proc : List Process) (total : Int) (hne : proc ≠ [])
    (hfresh : ∀ p ∈ proc, Fresh p) (hburst : ∀ p ∈ proc, 0 < p.burst_time) :
    (∀ p ∈ (calculate_fcfs proc total).proc,
        p.completion_time ≤ FCFS.makespan (calculate_fcfs proc total).proc)
      ∧ (∃ p ∈ (calculate_fcfs proc total).proc,
          p.completion_time = FCFS.makespan (calculate_fcfs proc total).proc)
      ∧ FCFS.makespan (calculate_fcfs proc total).proc
          = Scheduling.makespan (calculate_fcfs proc total).proc := by
  have hinv := fcfs_inv_final proc total hfresh hburst
  have hpos : 0 < proc.length := List.length_pos.mpr hne
  have hlen : (calculate_fcfs proc total).proc.length = proc.length := by
    rw [hinv.len, sortByArrival_length]
  have hmax : ∀ p ∈ (calculate_fcfs proc total).proc,
      p.completion_time ≤ FCFS.makespan (calculate_fcfs proc total).proc := by
    intro p hp
    obtain ⟨i, hi, he⟩ := exists_procAt_of_mem hp
    unfold FCFS.makespan
    rw [hlen] at hi ⊢
    rw [← he]
    by_cases hil : i = proc.length - 1
    · rw [hil]
    · exact le_of_lt (fcfs_completion_increasing proc total hfresh hburst i (proc.length - 1)
        (by omega) (by omega))
  have hlast : procAt (calculate_fcfs proc total).proc (proc.length - 1)
      ∈ (calculate_fcfs proc total).proc := procAt_mem (by rw [hlen]; omega)
  have hlast' : (procAt (calculate_fcfs proc total).proc (proc.length - 1)).completion_time
      = FCFS.makespan (calculate_fcfs proc total).proc := by
    unfold FCFS.makespan; rw [hlen]
  refine ⟨hmax, ⟨_, hlast, hlast'⟩, ?_⟩
  have h1 := le_makespan hlast
  have hp := hinv.completion_pos (proc.length - 1) (by omega)
  obtain ⟨p, hp1, hp2⟩ := makespan_attained (l := (calculate_fcfs proc total).proc)
    (by have : (procAt (calculate_fcfs proc total).proc (proc.length - 1)).completion_time
          = (procAt (stateAt proc total proc.length).proc (proc.length - 1)).completion_time := rfl
        omega)
  have h2 := hmax p hp1
  omega

theorem fcfs_utilization (proc : List Process) (total : Int) (hne : proc ≠ [])
    (hfresh : ∀ p ∈ proc, Fresh p) (hburst : ∀ p ∈ proc, 0 < p.burst_time) :
    UtilizationOK (calculate_fcfs proc total).proc
      (FCFS.makespan (calculate_fcfs proc total).proc) := by
  obtain ⟨h1, h2⟩ := fcfs_total_burst_le proc total hne hfresh hburst
  obtain ⟨h3, h4, -⟩ := fcfs_last_is_max proc total hne hfresh hburst
  exact ⟨by omega, h1, h3, h4, cpu_util_le _ _ h1 (by omega)⟩

end FCFS

namespace RR
open Scheduling.RR

theorem rr_total_burst_le (proc : List Process) (total tq : Int) (htq : 0 < tq) (hne : proc ≠ [])
    (hfresh : ∀ p ∈ proc, Fresh p) (hburst : ∀ p ∈ proc, 0 < p.burst_time)
    (fuel : Nat) (r : State) (h : loop tq fuel (RR.init proc total) = some r) :
    total_burst r.proc ≤ makespan r.proc ∧ 0 < total_burst r.proc := by
  obtain ⟨hreach, hdone⟩ := rr_loop_reach fuel Reach.init h
  have hinv := Inv.rr_reach htq hfresh hburst hreach
  have hall := all_finished_of_count (by rw [← hinv.count]; exact hdone)
  obtain ⟨hb1, hb2⟩ := rr_busy_reach htq hfresh hburst hreach
  have hpos : 0 < r.proc.length := by rw [hinv.len]; exact List.length_pos.mpr hne
  obtain ⟨j, hj, hcj⟩ := hb2 hdone hpos
  rw [executed_all hall, ← total_burst_eq_sum] at hb1
  have hm := le_makespan (procAt_mem hj)
  refine ⟨by omega, ?_⟩
  rw [total_burst_eq_sum]
  apply sum_burst_pos
  · intro e; rw [e] at hpos; simp at hpos
  · intro p hp
    obtain ⟨i, hi, he⟩ := exists_procAt_of_mem hp
    rw [← he, hinv.burst i]
    exact hburst _ (procAt_mem (by rw [← hinv.len]; exact hi))

end RR

/-- C13. After any of the four simulations on a non-empty workload as `initialize_processes`
leaves it with `burst_time > 0` (and `time_quantum > 0` for round-robin), the sum of all
`burst_time` values is at most the makespan that `print_performance_metrics` takes, which is the
maximum `completion_time`, so the CPU utilization `(total_burst / makespan) * 100`, taken as an
exact quotient, is at most 100. -/
theorem exact_C13_cpu_utilization_bound (proc : List Process) (total_memory time_quantum : Int)
    (hne : proc ≠ []) (hfresh : ∀ p ∈ proc, Fresh p) (hburst : ∀ p ∈ proc, 0 < p.burst_time)
    (htq : 0 < time_quantum) :
    UtilizationOK (FCFS.calculate_fcfs proc total_memory).proc
        (FCFS.makespan (FCFS.calculate_fcfs proc total_memory).proc)
      ∧ (∀ oob fuel r, SJF.calculate_sjf oob proc total_memory fuel = some r →
          UtilizationOK r.proc (makespan r.proc))
      ∧ (∀ fuel r, PS.calculate_priority proc total_memory fuel = some r →
          UtilizationOK r.proc (makespan r.proc))
      ∧ (∀ fuel r, RR.calculate_rr proc total_memory time_quantum fuel = some r →
          UtilizationOK r.proc (makespan r.proc)) := by
  refine ⟨FCFS.fcfs_utilization proc total_memory hne hfresh hburst, ?_, ?_, ?_⟩
  · intro oob fuel r h
    obtain ⟨h1, h2⟩ := NP.np_total_burst_le (SJF.sjf_select_sound oob) proc total_memory hne
      hfresh hburst fuel r h
    exact utilization_ok h2 h1
  · intro fuel r h
    obtain ⟨h1, h2⟩ := NP.np_total_burst_le PS.ps_select_sound proc total_memory hne
      hfresh hburst fuel r h
    exact utilization_ok h2 h1
  · intro fuel r h
    obtain ⟨h1, h2⟩ := RR.rr_total_burst_le proc total_memory time_quantum htq hne
      hfresh hburst fuel r h
    exact utilization_ok h2 h1

/-- C14. The FCFS metrics take `makespan = proc[n-1].completion_time`.  After `calculate_fcfs` on
a non-empty workload as `initialize_processes` leaves it with `burst_time > 0`, completion times
are strictly increasing along the sorted array, so this value is the maximum `completion_time`
over all processes; it equals the running maximum that the other three programs compute. -/
theorem exact_C14_fcfs_makespan_is_max (proc : List Process) (total_memory : Int)
    (hne : proc ≠ []) (hfresh : ∀ p ∈ proc, Fresh p) (hburst : ∀ p ∈ proc, 0 < p.burst_time) :
    (∀ i j, i < j → j < proc.length →
        (procAt (FCFS.calculate_fcfs proc total_memory).proc i).completion_time
          < (procAt (FCFS.calculate_fcfs proc total_memory).proc j).completion_time)
      ∧ (∀ p ∈ (FCFS.calculate_fcfs proc total_memory).proc,
          p.completion_time ≤ FCFS.makespan (FCFS.calculate_fcfs proc total_memory).proc)
      ∧ (∃ p ∈ (FCFS.calculate_fcfs proc total_memory).proc,
          p.completion_time = FCFS.makespan (FCFS.calculate_fcfs proc total_memory).proc)
      ∧ FCFS.makespan (FCFS.calculate_fcfs proc total_memory).proc
          = makespan (FCFS.calculate_fcfs proc total_memory).proc := by
  obtain ⟨h1, h2, h3⟩ := FCFS.fcfs_last_is_max proc total_memory hne hfresh hburst
  exact ⟨fun i j hij hj => FCFS.fcfs_completion_increasing proc total_memory hfresh hburst i j
    hij hj, h1, h2, h3⟩

namespace PS
open Scheduling.PS

theorem ps_sentinel_select (current_time : Int) : select sentinelExample current_time = -1 := by
  simp [select, scan, scanStep, sentinelExample, mkProcess, procAt, INT_MAX, List.range,
    List.range.loop]

end PS

namespace FCFS
open Scheduling.FCFS

theorem fcfs_stateAt_length (proc : List Process) (total : Int) (k : Nat) :
    (stateAt proc total k).proc.length = proc.length := by
  induction k with
  | zero => exact sortByArrival_length proc
  | succ k ih => rw [fcfs_stateAt_succ, fcfs_body_length, ih]

end FCFS

namespace RR
open Scheduling.RR

theorem arrivalStepRem_front (s : State) (i : Nat) : (arrivalStepRem s i).front = s.front := by
  unfold arrivalStepRem; split <;> rfl

theorem enqueueArrivalsRem_front (s : State) : (enqueueArrivalsRem s).front = s.front := by
  unfold enqueueArrivalsRem
  generalize List.range s.proc.length = l
  induction l generalizing s with
  | nil => rfl
  | cons x t ih => rw [List.foldl_cons, ih, arrivalStepRem_front]

end RR

theorem evictPlan_prefix (memOf : Nat → Int) (needed : Int) (cands : List Nat) (a : Int) :
    evictPlan memOf needed cands a <+: cands := by
  induction cands generalizing a with
  | nil => exact List.prefix_refl _
  | cons j t ih =>
    simp only [evictPlan]
    split
    · exact ⟨t, rfl⟩
    · exact (List.prefix_cons_inj j).mpr (ih _)

theorem evictPlan_short (memOf : Nat → Int) (needed : Int) (cands : List Nat) (a : Int)
    (ha : a < needed) (k : Nat) (hk : k < (evictPlan memOf needed cands a).length) :
    a + (((evictPlan memOf needed cands a).take k).map memOf).sum < needed := by
  induction cands generalizing a k with
  | nil => simp [evictPlan] at hk
  | cons j t ih =>
    simp only [evictPlan] at hk ⊢
    split at hk
    · rename_i h
      rw [if_pos h]
      have : k = 0 := by simpa using hk
      subst this
      simpa using ha
    · rename_i h
      rw [if_neg h]
      cases k with
      | zero => simpa using ha
      | succ k =>
        have := ih (a + memOf j) (by omega) k (by simpa using hk)
        simp only [List.take_succ_cons, List.map_cons, List.sum_cons]
        omega

theorem evictPlan_stop (memOf : Nat → Int) (needed : Int) (cands : List Nat) (a : Int) :
    a + ((evictPlan memOf needed cands a).map memOf).sum ≥ needed
      ∨ evictPlan memOf needed cands a = cands := by
  induction cands generalizing a with
  | nil => right; rfl
  | cons j t ih =>
    simp only [evictPlan]
    split
    · left; simpa using (by assumption)
    · rcases ih (a + memOf j) with h | h
      · left
        simp only [List.map_cons, List.sum_cons]
        omega
      · right; rw [h]

theorem memoryCheckPlan_ok (memOf : Nat → Int) (needed : Int) (cands : List Nat) (a t : Int) :
    MemoryCheckOK memOf needed cands (memoryCheckPlan memOf needed cands a) a
      (a + ((memoryCheckPlan memOf needed cands a).map memOf).sum) t
      (t + SWAP_TIME * (memoryCheckPlan memOf needed cands a).length) := by
  unfold memoryCheckPlan
  split
  · rename_i h
    exact ⟨fun h' => absurd h (by omega), evictPlan_prefix _ _ _ _,
      fun k hk => evictPlan_short _ _ _ _ (by omega) k hk,
      fun _ => evictPlan_stop _ _ _ _, rfl, rfl⟩
  · exact ⟨fun _ => rfl, List.nil_prefix, fun k hk => absurd hk (by simp),
      fun h' => absurd h' (by omega), rfl, rfl⟩

namespace NP
open Scheduling.NP

theorem np_swapOut_fields (s : State) (j m : Nat) :
    (procAt (swapOut s j).proc m).memory_required = (procAt s.proc m).memory_required
      ∧ (procAt (swapOut s j).proc m).is_completed = (procAt s.proc m).is_completed
      ∧ (m ≠ j → (procAt (swapOut s j).proc m).is_swapped = (procAt s.proc m).is_swapped) := by
  have h := np_swapOut_noSwap s j m
  refine ⟨by rw [noSwap_eq h], by rw [noSwap_eq h], fun hm => ?_⟩
  show (procAt (s.proc.set j _) m).is_swapped = _
  rw [procAt_set_ne _ _ hm]

theorem np_foldl_swapOut (L : List Nat) (s : State) (hL : ∀ j ∈ L, j < s.proc.length) :
    (L.foldl swapOut s).available_memory
        = s.available_memory + (L.map (fun j => (procAt s.proc j).memory_required)).sum
      ∧ (L.foldl swapOut s).current_time = s.current_time + SWAP_TIME * L.length
      ∧ ∀ m, (procAt (L.foldl swapOut s).proc m).is_swapped
          = if m ∈ L then 1 else (procAt s.proc m).is_swapped := by
  induction L generalizing s with
  | nil => simp
  | cons j t ih =>
    have hj : j < s.proc.length := hL j (by simp)
    obtain ⟨h1, h2, h3⟩ := ih (swapOut s j) (fun x hx => by
      show x < (s.proc.set j _).length
      rw [List.length_set]; exact hL x (by simp [hx]))
    have hmem : (fun x => (procAt (swapOut s j).proc x).memory_required)
        = (fun x => (procAt s.proc x).memory_required) := by
      funext x; exact (np_swapOut_fields s j x).1
    simp only [List.foldl_cons]
    refine ⟨?_, ?_, ?_⟩
    · rw [h1, hmem]
      show s.available_memory + (procAt s.proc j).memory_required + _ = _
      simp only [List.map_cons, List.sum_cons]
      ring
    · rw [h2]
      show s.current_time + SWAP_TIME + _ = _
      simp only [List.length_cons]
      push_cast
      ring
    · intro m
      rw [h3 m]
      by_cases hmt : m ∈ t
      · simp [hmt]
      · by_cases hmj : m = j
        · subst hmj
          simp only [hmt, if_false, List.mem_cons, true_or, if_true]
          show (procAt (s.proc.set m _) m).is_swapped = 1
          rw [procAt_set_self _ hj]
        · simp only [hmt, if_false, List.mem_cons, hmj, or_self]
          exact (np_swapOut_fields s j m).2.2 hmj

theorem np_scan_plan (idx : Nat) (memOf : Nat → Int) (c : Nat → Bool) :
    ∀ (js : List Nat) (s : State), js.Nodup →
      (∀ j, (procAt s.proc j).memory_required = memOf j) →
      (∀ j ∈ js, c j = true
        ↔ ((procAt s.proc j).is_completed ≠ 0 ∧ (procAt s.proc j).is_swapped = 0)) →
      swapOutScan idx js s
        = (evictPlan memOf (memOf idx) (js.filter c) s.available_memory).foldl swapOut s := by
  intro js
  induction js with
  | nil => intro s _ _ _; rfl
  | cons j t ih =>
    intro s hnd hmem hc
    have hjt : j ∉ t := (List.nodup_cons.mp hnd).1
    have hndt : t.Nodup := (List.nodup_cons.mp hnd).2
    simp only [swapOutScan]
    by_cases hcj : (procAt s.proc j).is_completed ≠ 0 ∧ (procAt s.proc j).is_swapped = 0
    · have hcj' : c j = true := (hc j (by simp)).mpr hcj
      rw [if_pos hcj, List.filter_cons_of_pos hcj']
      simp only [evictPlan]
      have hav : (swapOut s j).available_memory = s.available_memory + memOf j := by
        show s.available_memory + (procAt s.proc j).memory_required = _
        rw [hmem j]
      have hnd' : (procAt (swapOut s j).proc idx).memory_required = memOf idx := by
        rw [(np_swapOut_fields s j idx).1, hmem idx]
      rw [hav, hnd']
      split
      · rfl
      · rw [ih (swapOut s j) hndt (fun x => by rw [(np_swapOut_fields s j x).1, hmem x])
          (fun x hx => by
            have hxj : x ≠ j := fun e => hjt (e ▸ hx)
            rw [(np_swapOut_fields s j x).2.1, (np_swapOut_fields s j x).2.2 hxj]
            exact hc x (by simp [hx])), hav]
        rfl
    · have hcj' : ¬ c j = true := fun h => hcj ((hc j (by simp)).mp h)
      rw [if_neg hcj, List.filter_cons_of_neg hcj']
      exact ih s hndt hmem (fun x hx => hc x (by simp [hx]))

theorem np_makeRoom_plan (s : State) (idx : Nat) :
    makeRoom s idx = (plan s idx).foldl swapOut s := by
  unfold makeRoom plan memoryCheckPlan
  split
  · exact np_scan_plan idx (fun j => (procAt s.proc j).memory_required)
      (fun j => decide ((procAt s.proc j).is_completed ≠ 0 ∧ (procAt s.proc j).is_swapped = 0))
      (List.range s.proc.length) s (List.nodup_range _) (fun _ => rfl)
      (fun j _ => by simp)
  · rfl

theorem np_plan_lt (s : State) (idx : Nat) : ∀ j ∈ plan s idx, j < s.proc.length := by
  intro j hj
  have hsub : plan s idx <+: candidates s := by
    unfold plan memoryCheckPlan
    split
    · exact evictPlan_prefix _ _ _ _
    · exact List.nil_prefix
  have := List.mem_filter.mp (hsub.subset hj)
  exact List.mem_range.mp this.1

/-- The memory check of `sjf.c` / `PS.c` does what the specification describes. -/
theorem np_memory_check (s : State) (idx : Nat) :
    MemoryCheckOK (fun j => (procAt s.proc j).memory_required)
        (procAt s.proc idx).memory_required (candidates s) (plan s idx)
        s.available_memory (makeRoom s idx).available_memory
        s.current_time (makeRoom s idx).current_time
      ∧ (∀ m, (procAt (makeRoom s idx).proc m).is_swapped
          = if m ∈ plan s idx then 1 else (procAt s.proc m).is_swapped)
      ∧ (∀ m, noSwap (procAt (makeRoom s idx).proc m) = noSwap (procAt s.proc m)) := by
  obtain ⟨h1, h2, h3⟩ := np_foldl_swapOut (plan s idx) s (np_plan_lt s idx)
  have hok := memoryCheckPlan_ok (fun j => (procAt s.proc j).memory_required)
    (procAt s.proc idx).memory_required (candidates s) s.available_memory s.current_time
  rw [np_makeRoom_plan, h1, h2]
  exact ⟨hok, h3, fun m => by rw [← np_makeRoom_plan]; exact np_makeRoom_noSwap s idx m⟩

end NP

namespace RR
open Scheduling.RR

theorem rr_swapOut_fields (s : State) (j m : Nat) :
    (procAt (swapOut s j).proc m).memory_required = (procAt s.proc m).memory_required
      ∧ (procAt (swapOut s j).proc m).remaining_time = (procAt s.proc m).remaining_time
      ∧ (m ≠ j → (procAt (swapOut s j).proc m).is_swapped = (procAt s.proc m).is_swapped) := by
  have h := rr_swapOut_noSwap s j m
  refine ⟨by rw [noSwap_eq h], by rw [noSwap_eq h], fun hm => ?_⟩
  show (procAt (s.proc.set j _) m).is_swapped = _
  rw [procAt_set_ne _ _ hm]

theorem rr_foldl_swapOut (L : List Nat) (s : State) (hL : ∀ j ∈ L, j < s.proc.length) :
    (L.foldl swapOut s).available_memory
        = s.available_memory + (L.map (fun j => (procAt s.proc j).memory_required)).sum
      ∧ (L.foldl swapOut s).current_time = s.current_time + SWAP_TIME * L.length
      ∧ ∀ m, (procAt (L.foldl swapOut s).proc m).is_swapped
          = if m ∈ L then 1 else (procAt s.proc m).is_swapped := by
  induction L generalizing s with
  | nil => simp
  | cons j t ih =>
    have hj : j < s.proc.length := hL j (by simp)
    obtain ⟨h1, h2, h3⟩ := ih (swapOut s j) (fun x hx => by
      show x < (s.proc.set j _).length
      rw [List.length_set]; exact hL x (by simp [hx]))
    have hmem : (fun x => (procAt (swapOut s j).proc x).memory_required)
        = (fun x => (procAt s.proc x).memory_required) := by
      funext x; exact (rr_swapOut_fields s j x).1
    simp only [List.foldl_cons]
    refine ⟨?_, ?_, ?_⟩
    · rw [h1, hmem]
      show s.available_memory + (procAt s.proc j).memory_required + _ = _
      simp only [List.map_cons, List.sum_cons]
      ring
    · rw [h2]
      show s.current_time + SWAP_TIME + _ = _
      simp only [List.length_cons]
      push_cast
      ring
    · intro m
      rw [h3 m]
      by_cases hmt : m ∈ t
      · simp [hmt]
      · by_cases hmj : m = j
        · subst hmj
          simp only [hmt, if_false, List.mem_cons, true_or, if_true]
          show (procAt (s.proc.set m _) m).is_swapped = 1
          rw [procAt_set_self _ hj]
        · simp only [hmt, if_false, List.mem_cons, hmj, or_self]
          exact (rr_swapOut_fields s j m).2.2 hmj

theorem rr_scan_plan (idx : Nat) (memOf : Nat → Int) (c : Nat → Bool) :
    ∀ (js : List Nat) (s : State), js.Nodup →
      (∀ j, (procAt s.proc j).memory_required = memOf j) →
      (∀ j ∈ js, c j = true
        ↔ ((procAt s.proc j).remaining_time = 0 ∧ (procAt s.proc j).is_swapped = 0)) →
      swapOutScan idx js s
        = (evictPlan memOf (memOf idx) (js.filter c) s.available_memory).foldl swapOut s := by
  intro js
  induction js with
  | nil => intro s _ _ _; rfl
  | cons j t ih =>
    intro s hnd hmem hc
    have hjt : j ∉ t := (List.nodup_cons.mp hnd).1
    have hndt : t.Nodup := (List.nodup_cons.mp hnd).2
    simp only [swapOutScan]
    by_cases hcj : (procAt s.proc j).remaining_time = 0 ∧ (procAt s.proc j).is_swapped = 0
    · have hcj' : c j = true := (hc j (by simp)).mpr hcj
      rw [if_pos hcj, List.filter_cons_of_pos hcj']
      simp only [evictPlan]
      have hav : (swapOut s j).available_memory = s.available_memory + memOf j := by
        show s.available_memory + (procAt s.proc j).memory_required = _
        rw [hmem j]
      have hnd' : (procAt (swapOut s j).proc idx).memory_required = memOf idx := by
        rw [(rr_swapOut_fields s j idx).1, hmem idx]
      rw [hav, hnd']
      split
      · rfl
      · rw [ih (swapOut s j) hndt (fun x => by rw [(rr_swapOut_fields s j x).1, hmem x])
          (fun x hx => by
            have hxj : x ≠ j := fun e => hjt (e ▸ hx)
            rw [(rr_swapOut_fields s j x).2.1, (rr_swapOut_fields s j x).2.2 hxj]
            exact hc x (by simp [hx])), hav]
        rfl
    · have hcj' : ¬ c j = true := fun h => hcj ((hc j (by simp)).mp h)
      rw [if_neg hcj, List.filter_cons_of_neg hcj']
      exact ih s hndt hmem (fun x hx => hc x (by simp [hx]))

theorem rr_makeRoom_plan (s : State) (idx : Nat) :
    makeRoom s idx = (plan s idx).foldl swapOut s := by
  unfold makeRoom plan memoryCheckPlan
  split
  · exact rr_scan_plan idx (fun j => (procAt s.proc j).memory_required)
      (fun j => decide ((procAt s.proc j).remaining_time = 0 ∧ (procAt s.proc j).is_swapped = 0))
      (List.range s.proc.length) s (List.nodup_range _) (fun _ => rfl)
      (fun j _ => by simp)
  · rfl

theorem rr_plan_lt (s : State) (idx : Nat) : ∀ j ∈ plan s idx, j < s.proc.length := by
  intro j hj
  have hsub : plan s idx <+: candidates s := by
    unfold plan memoryCheckPlan
    split
    · exact evictPlan_prefix _ _ _ _
    · exact List.nil_prefix
  have := List.mem_filter.mp (hsub.subset hj)
  exact List.mem_range.mp this.1

/-- The memory check of `RR.c` does what the specification describes. -/
theorem rr_memory_check (s : State) (idx : Nat) :
    MemoryCheckOK (fun j => (procAt s.proc j).memory_required)
        (procAt s.proc idx).memory_required (candidates s) (plan s idx)
        s.available_memory (makeRoom s idx).available_memory
        s.current_time (makeRoom s idx).current_time
      ∧ (∀ m, (procAt (makeRoom s idx).proc m).is_swapped
          = if m ∈ plan s idx then 1 else (procAt s.proc m).is_swapped)
      ∧ (∀ m, noSwap (procAt (makeRoom s idx).proc m) = noSwap (procAt s.proc m)) := by
  obtain ⟨h1, h2, h3⟩ := rr_foldl_swapOut (plan s idx) s (rr_plan_lt s idx)
  have hok := memoryCheckPlan_ok (fun j => (procAt s.proc j).memory_required)
    (procAt s.proc idx).memory_required (candidates s) s.available_memory s.current_time
  rw [rr_makeRoom_plan, h1, h2]
  exact ⟨hok, h3, fun m => by rw [← rr_makeRoom_plan]; exact rr_makeRoom_noSwap s idx m⟩

end RR

namespace FCFS
open Scheduling.FCFS

theorem fcfs_swapOut_fields (s : State) (j m : Nat) :
    (procAt (swapOut s j).proc m).memory_required = (procAt s.proc m).memory_required
      ∧ (procAt (swapOut s j).proc m).completion_time = (procAt s.proc m).completion_time
      ∧ (m ≠ j → (procAt (swapOut s j).proc m).is_swapped = (procAt s.proc m).is_swapped) := by
  have h := fcfs_swapOut_noSwap s j m
  refine ⟨by rw [noSwap_eq h], by rw [noSwap_eq h], fun hm => ?_⟩
  show (procAt (s.proc.set j _) m).is_swapped = _
  rw [procAt_set_ne _ _ hm]

theorem fcfs_foldl_swapOut (L : List Nat) (s : State) (hL : ∀ j ∈ L, j < s.proc.length) :
    (L.foldl swapOut s).available_memory
        = s.available_memory + (L.map (fun j => (procAt s.proc j).memory_required)).sum
      ∧ (L.foldl swapOut s).current_time = s.current_time + SWAP_TIME * L.length
      ∧ ∀ m, (procAt (L.foldl swapOut s).proc m).is_swapped
          = if m ∈ L then 1 else (procAt s.proc m).is_swapped := by
  induction L generalizing s with
  | nil => simp
  | cons j t ih =>
    have hj : j < s.proc.length := hL j (by simp)
    obtain ⟨h1, h2, h3⟩ := ih (swapOut s j) (fun x hx => by
      show x < (s.proc.set j _).length
      rw [List.length_set]; exact hL x (by simp [hx]))
    have hmem : (fun x => (procAt (swapOut s j).proc x).memory_required)
        = (fun x => (procAt s.proc x).memory_required) := by
      funext x; exact (fcfs_swapOut_fields s j x).1
    simp only [List.foldl_cons]
    refine ⟨?_, ?_, ?_⟩
    · rw [h1, hmem]
      show s.available_memory + (procAt s.proc j).memory_required + _ = _
      simp only [List.map_cons, List.sum_cons]
      ring
    · rw [h2]
      show s.current_time + SWAP_TIME + _ = _
      simp only [List.length_cons]
      push_cast
      ring
    · intro m
      rw [h3 m]
      by_cases hmt : m ∈ t
      · simp [hmt]
      · by_cases hmj : m = j
        · subst hmj
          simp only [hmt, if_false, List.mem_cons, true_or, if_true]
          show (procAt (s.proc.set m _) m).is_swapped = 1
          rw [procAt_set_self _ hj]
        · simp only [hmt, if_false, List.mem_cons, hmj, or_self]
          exact (fcfs_swapOut_fields s j m).2.2 hmj

theorem fcfs_scan_plan (i : Nat) (memOf : Nat → Int) (c : Nat → Bool) :
    ∀ (js : List Nat) (s : State), js.Nodup →
      (∀ j, (procAt s.proc j).memory_required = memOf j) →
      (∀ j ∈ js, (procAt s.proc j).completion_time ≤ s.current_time) →
      (∀ j ∈ js, c j = true
        ↔ ((procAt s.proc j).completion_time > 0 ∧ (procAt s.proc j).is_swapped = 0)) →
      swapOutScan i js s
        = (evictPlan memOf (memOf i) (js.filter c) s.available_memory).foldl swapOut s := by
  intro js
  induction js with
  | nil => intro s _ _ _ _; rfl
  | cons j t ih =>
    intro s hnd hmem hdone hc
    have hjt : j ∉ t := (List.nodup_cons.mp hnd).1
    have hndt : t.Nodup := (List.nodup_cons.mp hnd).2
    have hdj := hdone j (by simp)
    simp only [swapOutScan]
    by_cases hcj : (procAt s.proc j).completion_time > 0 ∧ (procAt s.proc j).is_swapped = 0
    · have hcj' : c j = true := (hc j (by simp)).mpr hcj
      rw [if_pos ⟨hcj.1, hdj, hcj.2⟩, List.filter_cons_of_pos hcj']
      simp only [evictPlan]
      have hav : (swapOut s j).available_memory = s.available_memory + memOf j := by
        show s.available_memory + (procAt s.proc j).memory_required = _
        rw [hmem j]
      have hnd' : (procAt (swapOut s j).proc i).memory_required = memOf i := by
        rw [(fcfs_swapOut_fields s j i).1, hmem i]
      rw [hav, hnd']
      split
      · rfl
      · rw [ih (swapOut s j) hndt (fun x => by rw [(fcfs_swapOut_fields s j x).1, hmem x])
          (fun x hx => by
            rw [(fcfs_swapOut_fields s j x).2.1]
            have := hdone x (by simp [hx])
            show _ ≤ s.current_time + SWAP_TIME
            simp only [SWAP_TIME]; omega)
          (fun x hx => by
            have hxj : x ≠ j := fun e => hjt (e ▸ hx)
            rw [(fcfs_swapOut_fields s j x).2.1, (fcfs_swapOut_fields s j x).2.2 hxj]
            exact hc x (by simp [hx])), hav]
        rfl
    · have hcj' : ¬ c j = true := fun h => hcj ((hc j (by simp)).mp h)
      rw [if_neg (fun h => hcj ⟨h.1, h.2.2⟩), List.filter_cons_of_neg hcj']
      exact ih s hndt hmem (fun x hx => hdone x (by simp [hx]))
        (fun x hx => hc x (by simp [hx]))

theorem fcfs_makeRoom_plan (s : State) (i : Nat)
    (hdone : ∀ j, j < i → (procAt s.proc j).completion_time ≤ s.current_time) :
    makeRoom s i = (plan s i).foldl swapOut s := by
  unfold makeRoom plan memoryCheckPlan
  split
  · exact fcfs_scan_plan i (fun j => (procAt s.proc j).memory_required)
      (fun j => decide ((procAt s.proc j).completion_time > 0
        ∧ (procAt s.proc j).completion_time ≤ s.current_time ∧ (procAt s.proc j).is_swapped = 0))
      (List.range i) s (List.nodup_range _) (fun _ => rfl)
      (fun j hj => hdone j (List.mem_range.mp hj))
      (fun j hj => by
        have := hdone j (List.mem_range.mp hj)
        simp only [decide_eq_true_eq]
        constructor
        · intro h; exact ⟨h.1, h.2.2⟩
        · intro h; exact ⟨h.1, this, h.2⟩)
  · rfl

theorem fcfs_plan_lt (s : State) (i : Nat) : ∀ j ∈ plan s i, j < i := by
  intro j hj
  have hsub : plan s i <+: candidates s i := by
    unfold plan memoryCheckPlan
    split
    · exact evictPlan_prefix _ _ _ _
    · exact List.nil_prefix
  have := List.mem_filter.mp (hsub.subset hj)
  exact List.mem_range.mp this.1

/-- The memory check of `fcfs.c` does what the specification describes, when the processes
before `i` have completed by the current time. -/
theorem fcfs_memory_check (s : State) (i : Nat) (hi : i ≤ s.proc.length)
    (hdone : ∀ j, j < i → (procAt s.proc j).completion_time ≤ s.current_time) :
    MemoryCheckOK (fun j => (procAt s.proc j).memory_required)
        (procAt s.proc i).memory_required (candidates s i) (plan s i)
        s.available_memory (makeRoom s i).available_memory
        s.current_time (makeRoom s i).current_time
      ∧ (∀ m, (procAt (makeRoom s i).proc m).is_swapped
          = if m ∈ plan s i then 1 else (procAt s.proc m).is_swapped)
      ∧ (∀ m, noSwap (procAt (makeRoom s i).proc m) = noSwap (procAt s.proc m)) := by
  obtain ⟨h1, h2, h3⟩ := fcfs_foldl_swapOut (plan s i) s
    (fun j hj => lt_of_lt_of_le (fcfs_plan_lt s i j hj) hi)
  have hok := memoryCheckPlan_ok (fun j => (procAt s.proc j).memory_required)
    (procAt s.proc i).memory_required (candidates s i) s.available_memory s.current_time
  rw [fcfs_makeRoom_plan s i hdone, h1, h2]
  exact ⟨hok, h3, fun m => by rw [← fcfs_makeRoom_plan s i hdone]; exact fcfs_makeRoom_noSwap s i m⟩

end FCFS

namespace RR
open Scheduling.RR

theorem rr_first_start {proc0 : List Process} {total : Int} {s : State} (h : Inv proc0 total s)
    (tq : Int) (hfront : s.front ≠ s.queue.length)
    (hfresh : ∀ p ∈ proc0, Fresh p) (hburst : ∀ p ∈ proc0, 0 < p.burst_time)
    (hfirst : (procAt s.proc (queueAt s.queue s.front)).remaining_time
      = (procAt s.proc (queueAt s.queue s.front)).burst_time) :
    (procAt (RR.dispatch tq s).proc (queueAt s.queue s.front)).start_time
      = (afterEviction s).current_time + SWAP_TIME := by
  obtain ⟨-, hidx, -, hrem, -, -⟩ := h.rr_head hfront
  obtain ⟨aLen, -, -⟩ := h.rr_admission_facts hfront hfresh hburst
  have hi : queueAt s.queue s.front < s.proc.length := by rw [h.len]; exact hidx
  have hrem' : (procAt s.proc (queueAt s.queue s.front)).remaining_time ≠ 0 := by omega
  obtain ⟨d1, -⟩ := rr_dispatch_spec tq s hi hrem' (by rw [h.vlen, h.len])
  rw [finalRec_eq] at d1
  have pSelf : procAt (RR.dispatch tq s).proc (queueAt s.queue s.front)
      = runRec (procAt s.proc (queueAt s.queue s.front)) (afterAdmission s).current_time tq := by
    rw [d1, procAt_set_self _ (by rw [aLen]; exact hi)]
  have hfr := hfresh _ (procAt_mem hidx)
  have hu := h.unstarted _ hfirst
  have hadm : afterAdmission s = swapIn (afterEviction s) (queueAt s.queue s.front) := by
    unfold afterAdmission admission afterEviction
    rw [if_pos hfirst]
  have hAt : (afterAdmission s).current_time = (afterEviction s).current_time + SWAP_TIME := by
    rw [hadm]; rfl
  rw [pSelf, runRec_first _ _ _ (by rw [hu]; exact hfr.2.2.2.2), hAt]

end RR

/-- C18. The memory check at a dispatch does what the specification describes.  When a process
that needs `m` units is dispatched with `a` units free: if `a >= m` nothing is swapped out;
otherwise the completed, not-yet-swapped processes are swapped out in array order, stopping
right after the first one that brings the free memory to `m` or more, or after all of them, each
adding its `memory_required` to `available_memory`; and execution starts at the dispatch time
plus `SWAP_TIME` times the number of evictions plus one.  This is stated for every iteration of
`calculate_fcfs` (the dispatch time being the clock after the idle jump), for every dispatch of
a pending process by the code shared by `calculate_sjf` and `calculate_priority`, and for every
first dispatch of a process by `calculate_rr`; later dispatches of a preempted process skip the
check.  The workload is as `initialize_processes` leaves it, with `burst_time > 0` and
`time_quantum > 0`. -/
theorem exact_C18_memory_check (proc : List Process) (total_memory time_quantum : Int)
    (hfresh : ∀ p ∈ proc, Fresh p) (hburst : ∀ p ∈ proc, 0 < p.burst_time)
    (htq : 0 < time_quantum) :
    (∀ k, k < proc.length →
        MemoryCheckOK
            (fun j => (procAt (FCFS.stateAt proc total_memory k).proc j).memory_required)
            (procAt (FCFS.stateAt proc total_memory k).proc k).memory_required
            (FCFS.candidates (FCFS.idleJump (FCFS.stateAt proc total_memory k) k) k)
            (FCFS.plan (FCFS.idleJump (FCFS.stateAt proc total_memory k) k) k)
            (FCFS.stateAt proc total_memory k).available_memory
            (FCFS.afterEviction (FCFS.stateAt proc total_memory k) k).available_memory
            (FCFS.idleJump (FCFS.stateAt proc total_memory k) k).current_time
            (FCFS.afterEviction (FCFS.stateAt proc total_memory k) k).current_time
          ∧ (∀ j, j ∈ FCFS.candidates (FCFS.idleJump (FCFS.stateAt proc total_memory k) k) k
              ↔ j < k ∧ (procAt (FCFS.stateAt proc total_memory k).proc j).is_swapped = 0)
          ∧ (∀ j, (procAt (FCFS.afterEviction (FCFS.stateAt proc total_memory k) k).proc j).is_swapped
              = if j ∈ FCFS.plan (FCFS.idleJump (FCFS.stateAt proc total_memory k) k) k then 1
                else (procAt (FCFS.stateAt proc total_memory k).proc j).is_swapped)
          ∧ (procAt (FCFS.stateAt proc total_memory (k + 1)).proc k).start_time
              = (FCFS.idleJump (FCFS.stateAt proc total_memory k) k).current_time
                + SWAP_TIME
                  * ((FCFS.plan (FCFS.idleJump (FCFS.stateAt proc total_memory k) k) k).length
                      + 1))
      ∧ (∀ (s : NP.State) (idx : Nat), idx < s.proc.length →
          (procAt s.proc idx).is_completed = 0 →
          MemoryCheckOK (fun j => (procAt s.proc j).memory_required)
              (procAt s.proc idx).memory_required (NP.candidates s) (NP.plan s idx)
              s.available_memory (NP.makeRoom s idx).available_memory
              s.current_time (NP.makeRoom s idx).current_time
            ∧ (∀ j, (procAt (NP.makeRoom s idx).proc j).is_swapped
                = if j ∈ NP.plan s idx then 1 else (procAt s.proc j).is_swapped)
            ∧ (procAt (NP.dispatch s idx).proc idx).start_time
                = s.current_time + SWAP_TIME * ((NP.plan s idx).length + 1))
      ∧ (∀ s, RR.Reach time_quantum (RR.init proc total_memory) s →
          s.front ≠ s.queue.length →
          (procAt s.proc (RR.queueAt s.queue s.front)).remaining_time
            = (procAt s.proc (RR.queueAt s.queue s.front)).burst_time →
          MemoryCheckOK (fun j => (procAt s.proc j).memory_required)
              (procAt s.proc (RR.queueAt s.queue s.front)).memory_required (RR.candidates s)
              (RR.plan s (RR.queueAt s.queue s.front))
              s.available_memory (RR.afterEviction s).available_memory
              s.current_time (RR.afterEviction s).current_time
            ∧ (∀ j, (procAt (RR.afterEviction s).proc j).is_swapped
                = if j ∈ RR.plan s (RR.queueAt s.queue s.front) then 1
                  else (procAt s.proc j).is_swapped)
            ∧ (procAt (RR.step time_quantum s).proc (RR.queueAt s.queue s.front)).start_time
                = s.current_time
                  + SWAP_TIME * ((RR.plan s (RR.queueAt s.queue s.front)).length + 1)) := by
  refine ⟨?_, ?_, ?_⟩
  · intro k hk
    have hinv := FCFS.fcfs_inv_stateAt proc total_memory hfresh hburst k (le_of_lt hk)
    have hklen : k < (FCFS.stateAt proc total_memory k).proc.length := by
      rw [FCFS.fcfs_stateAt_length]; exact hk
    have htime := (FCFS.idleJump_time (FCFS.stateAt proc total_memory k) k).1
    have hdone : ∀ j, j < k →
        (procAt (FCFS.idleJump (FCFS.stateAt proc total_memory k) k).proc j).completion_time
          ≤ (FCFS.idleJump (FCFS.stateAt proc total_memory k) k).current_time := by
      intro j hj
      rw [FCFS.idleJump_proc]
      have := hinv.before j hj
      omega
    obtain ⟨c1, c2, -⟩ := FCFS.fcfs_memory_check
      (FCFS.idleJump (FCFS.stateAt proc total_memory k) k) k
      (by rw [FCFS.idleJump_proc]; exact le_of_lt hklen) hdone
    simp only [FCFS.idleJump_proc, FCFS.idleJump_available] at c1 c2
    refine ⟨c1, ?_, c2, ?_⟩
    · intro j
      unfold FCFS.candidates
      simp only [List.mem_filter, List.mem_range, decide_eq_true_eq, FCFS.idleJump_proc]
      constructor
      · intro h; exact ⟨h.1, h.2.2.2⟩
      · intro h
        have h1 := hinv.completion_pos j h.1
        have h2 := hinv.before j h.1
        exact ⟨h.1, h1, by omega, h.2⟩
    · rw [FCFS.fcfs_stateAt_succ, FCFS.fcfs_body_self _ k hklen]
      show FCFS.startOf (FCFS.stateAt proc total_memory k) k = _
      unfold FCFS.startOf
      have := c1.2.2.2.2.2
      unfold FCFS.afterEviction at this
      rw [this]
      ring
  · intro s idx hidx hp
    obtain ⟨c1, c2, -⟩ := NP.np_memory_check s idx
    refine ⟨c1, c2, ?_⟩
    rw [NP.np_dispatch_self s idx hidx hp]
    show NP.startOf s idx = _
    unfold NP.startOf
    rw [c1.2.2.2.2.2]
    ring
  · intro s hs hfront hfirst
    have hinv := RR.Inv.rr_reach htq hfresh hburst hs
    obtain ⟨c1, c2, -⟩ := RR.rr_memory_check { s with front := s.front + 1 }
      (RR.queueAt s.queue s.front)
    refine ⟨c1, c2, ?_⟩
    have hstep : RR.step time_quantum s = RR.dispatch time_quantum s := by
      unfold RR.step; rw [if_neg hfront]
    rw [hstep, RR.rr_first_start hinv time_quantum hfront hfresh hburst hfirst]
    have hc : (RR.afterEviction s).current_time
        = s.current_time
          + SWAP_TIME * ((RR.plan s (RR.queueAt s.queue s.front)).length : Int) :=
      c1.2.2.2.2.2
    rw [hc]
    ring

namespace RR
open Scheduling.RR

theorem count_filter_range (n : Nat) (c : Nat → Bool) (j : Nat) :
    ((List.range n).filter c).count j = if j < n ∧ c j = true then 1 else 0 := by
  rw [List.count_eq_of_nodup ((List.nodup_range n).filter _)]
  simp [List.mem_filter]

theorem Inv.rr_step_queue {proc0 : List Process} {total : Int} {s : State}
    (h : Inv proc0 total s) (tq : Int) (j : Nat) :
    (RR.step tq s).queue.count j
        = s.queue.count j + arrivalInsertions s (RR.step tq s) j + preemptions tq s j
      ∧ (visitedAt s.visited j ≠ 0 → visitedAt (RR.step tq s).visited j ≠ 0) := by
  by_cases hfront : s.front = s.queue.length
  · have hstep : RR.step tq s = idle s := by unfold RR.step; rw [if_pos hfront]
    obtain ⟨-, -, -, -, -, -, e7, e8⟩ :=
      enqueueArrivals_spec { s with current_time := s.current_time + 1 }
        (by show s.visited.length = s.proc.length; rw [h.vlen, h.len])
    have hq : (idle s).queue = s.queue ++ (List.range s.proc.length).filter
        (fun i => decide (arrived { s with current_time := s.current_time + 1 } i)) := e7
    have hv : visitedAt (idle s).visited j
        = if j < s.proc.length ∧ arrived { s with current_time := s.current_time + 1 } j then 1
          else visitedAt s.visited j := e8 j
    have hp : preemptions tq s j = 0 := by
      unfold preemptions; rw [if_neg (fun hc => hc.1 hfront)]
    rw [hp, hstep, hq, List.count_append, count_filter_range]
    unfold arrivalInsertions
    rw [hv]
    by_cases hc : j < s.proc.length ∧ arrived { s with current_time := s.current_time + 1 } j
    · have hv0 : visitedAt s.visited j = 0 := hc.2.2
      simp [hc, hv0]
    · have hc' : ¬ (j < s.proc.length
          ∧ decide (arrived { s with current_time := s.current_time + 1 } j) = true) := by
        simpa using hc
      rw [if_neg hc, if_neg hc']
      refine ⟨?_, fun h => h⟩
      by_cases h0 : visitedAt s.visited j = 0 <;> simp [h0]
  · have hstep : RR.step tq s = dispatch tq s := by unfold RR.step; rw [if_neg hfront]
    obtain ⟨-, hidx, -, hrem, -, -⟩ := h.rr_head hfront
    have hi : queueAt s.queue s.front < s.proc.length := by rw [h.len]; exact hidx
    have hrem' : (procAt s.proc (queueAt s.queue s.front)).remaining_time ≠ 0 := by omega
    obtain ⟨d1, -, -, -, d5, -, -, d8⟩ := rr_dispatch_spec tq s hi hrem' (by rw [h.vlen, h.len])
    obtain ⟨-, -, -, -, -, -, a7⟩ := afterSlice_spec tq s hi hrem'
    have aLen : (afterAdmission s).proc.length = s.proc.length := by
      unfold afterAdmission; rw [admission_length]
    have hself : procAt (dispatch tq s).proc (queueAt s.queue s.front) = finalRec tq s := by
      rw [d1, procAt_set_self _ (by rw [aLen]; exact hi)]
    have hv := d8 j
    have hp : preemptions tq s j
        = if queueAt s.queue s.front = j ∧ (finalRec tq s).remaining_time > 0 then 1 else 0 := by
      unfold preemptions
      rw [hstep]
      by_cases hj : queueAt s.queue s.front = j
      · subst hj; rw [hself]; simp [hfront]
      · simp [hj]
    have hR : (if (finalRec tq s).remaining_time > 0 then [queueAt s.queue s.front] else []).count j
        = if queueAt s.queue s.front = j ∧ (finalRec tq s).remaining_time > 0 then 1 else 0 := by
      by_cases hpos : (finalRec tq s).remaining_time > 0
      · rw [if_pos hpos]
        by_cases hj : queueAt s.queue s.front = j
        · subst hj; simp [hpos]
        · have hj' : j ≠ queueAt s.queue s.front := fun e => hj e.symm
          simp [hj, hj', hpos]
      · rw [if_neg hpos]; simp [hpos]
    rw [hp, hstep, d5, List.count_append, List.count_append, hR, count_filter_range]
    unfold arrivalInsertions
    rw [hv]
    by_cases hc : j < s.proc.length ∧ arrivedRem (afterSlice tq s) j
    · have hv0 : visitedAt s.visited j = 0 := by
        have := hc.2.2.1; rw [a7] at this; exact this
      simp [hc, hv0]
    · have hc' : ¬ (j < s.proc.length ∧ decide (arrivedRem (afterSlice tq s) j) = true) := by
        simpa using hc
      rw [if_neg hc, if_neg hc']
      refine ⟨?_, fun h => h⟩
      by_cases h0 : visitedAt s.visited j = 0 <;> simp [h0]

theorem rr_init_queue (proc : List Process) (total : Int) (j : Nat) :
    (RR.init proc total).queue.count j
      = if visitedAt (RR.init proc total).visited j ≠ 0 then 1 else 0 := by
  obtain ⟨-, -, -, -, -, -, e7, e8⟩ :=
    enqueueArrivals_spec
      { proc := proc, current_time := 0, available_memory := total, completed := 0,
        queue := [], front := 0, visited := List.replicate proc.length 0 }
      (by simp)
  have hq : (RR.init proc total).queue = [] ++ (List.range proc.length).filter
      (fun i => decide (arrived
        { proc := proc, current_time := 0, available_memory := total, completed := 0,
          queue := [], front := 0, visited := List.replicate proc.length 0 } i)) := e7
  have hv : visitedAt (RR.init proc total).visited j
      = if j < proc.length ∧ arrived
          { proc := proc, current_time := 0, available_memory := total, completed := 0,
            queue := [], front := 0, visited := List.replicate proc.length 0 } j then 1
        else visitedAt (List.replicate proc.length 0) j := e8 j
  rw [hq, hv, List.nil_append, count_filter_range, visitedAt_replicate]
  by_cases hc : j < proc.length ∧ arrived
      { proc := proc, current_time := 0, available_memory := total, completed := 0,
        queue := [], front := 0, visited := List.replicate proc.length 0 } j
  · simp [hc]
  · have hc' : ¬ (j < proc.length ∧ decide (arrived
        { proc := proc, current_time := 0, available_memory := total, completed := 0,
          queue := [], front := 0, visited := List.replicate proc.length 0 } j) = true) := by
      simpa using hc
    rw [if_neg hc, if_neg hc']
    simp

end RR

namespace RR
open Scheduling.RR

/-- What one iteration of the loop of `calculate_rr` does to the process array, the clock and
the counters. -/
theorem Inv.rr_step_records {proc0 : List Process} {total : Int} {s : State}
    (h : Inv proc0 total s) (tq : Int)
    (hfresh : ∀ p ∈ proc0, Fresh p) (hburst : ∀ p ∈ proc0, 0 < p.burst_time) :
    (s.front = s.queue.length →
        (RR.step tq s).proc = s.proc ∧ (RR.step tq s).completed = s.completed
          ∧ (RR.step tq s).available_memory = s.available_memory)
      ∧ (s.front ≠ s.queue.length →
          procAt (RR.step tq s).proc (queueAt s.queue s.front)
              = runRec (procAt s.proc (queueAt s.queue s.front)) (afterAdmission s).current_time tq
            ∧ (∀ m, m ≠ queueAt s.queue s.front →
                noSwap (procAt (RR.step tq s).proc m) = noSwap (procAt s.proc m))
            ∧ (RR.step tq s).completed
                = (if (procAt (RR.step tq s).proc (queueAt s.queue s.front)).remaining_time > 0
                    then s.completed else s.completed + 1)
            ∧ (RR.step tq s).current_time
                = (afterAdmission s).current_time
                  + sliceLen (procAt s.proc (queueAt s.queue s.front)) tq
            ∧ (RR.step tq s).available_memory = (afterAdmission s).available_memory) := by
  refine ⟨fun hfront => ?_, fun hfront => ?_⟩
  · have hstep : RR.step tq s = idle s := by unfold RR.step; rw [if_pos hfront]
    obtain ⟨e1, -, e3, e4, -⟩ :=
      enqueueArrivals_spec { s with current_time := s.current_time + 1 }
        (by show s.visited.length = s.proc.length; rw [h.vlen, h.len])
    rw [hstep]
    exact ⟨e1, e4, e3⟩
  · have hstep : RR.step tq s = dispatch tq s := by unfold RR.step; rw [if_neg hfront]
    obtain ⟨-, hidx, -, hrem, -, -⟩ := h.rr_head hfront
    obtain ⟨aLen, -, aOther, -⟩ := h.rr_admission_facts hfront hfresh hburst
    have hi : queueAt s.queue s.front < s.proc.length := by rw [h.len]; exact hidx
    have hrem' : (procAt s.proc (queueAt s.queue s.front)).remaining_time ≠ 0 := by omega
    obtain ⟨d1, d2, d3, d4, -⟩ := rr_dispatch_spec tq s hi hrem' (by rw [h.vlen, h.len])
    have hself : procAt (dispatch tq s).proc (queueAt s.queue s.front) = finalRec tq s := by
      rw [d1, procAt_set_self _ (by rw [aLen]; exact hi)]
    rw [hstep]
    refine ⟨by rw [hself, finalRec_eq], fun m hm => ?_, by rw [hself]; exact d4, d2, d3⟩
    rw [d1, procAt_set_ne _ _ hm]
    exact aOther m hm

end RR

namespace PS
open Scheduling.PS

/-- Apart from the sentinel value: when no eligible process has priority `INT_MAX` or more, the
selection scan of `calculate_priority` yields `-1` exactly when no process is eligible. -/
theorem ps_select_none_iff (proc : List Process) (t : Int)
    (hmax : ∀ i, NP.eligible proc t i → (procAt proc i).priority < INT_MAX) :
    select proc t = -1 ↔ ∀ i, ¬ NP.eligible proc t i := by
  rcases ps_select_cases proc t with ⟨h1, h2⟩ | ⟨h1, h2, -⟩
  · refine ⟨fun _ i hi => ?_, fun _ => h1⟩
    have := h2 i hi
    have := hmax i hi
    omega
  · refine ⟨fun h => ?_, fun h => absurd h2 (h _)⟩
    omega

end PS

namespace SJF
open Scheduling.SJF

/-- Apart from the sentinel value: when no eligible process has burst time `INT_MAX` or more,
the selection scan of `calculate_sjf` yields `-1` exactly when no process is eligible. -/
theorem sjf_select_none_iff (oob : Process) (proc : List Process) (t : Int)
    (hmax : ∀ p ∈ proc, p.burst_time < INT_MAX) :
    select oob proc t = -1 ↔ ∀ i, ¬ NP.eligible proc t i := by
  rcases sjf_select_cases oob proc t (fun p hp => le_of_lt (hmax p hp)) with
    ⟨h1, h2⟩ | ⟨h1, h2, -⟩
  · refine ⟨fun _ i hi => ?_, fun _ => h1⟩
    have := (h2 i hi).1
    have := hmax _ (procAt_mem hi.1)
    omega
  · refine ⟨fun h => ?_, fun h => absurd h2 (h _)⟩
    omega

end SJF

theorem DoneP.ran_through {p0 p : Process} (h : DoneP p0 p) : RanThrough p := by
  have h1 := h.completion
  have h2 := h.turnaround
  have h3 := h.waiting
  have h4 := h.response
  refine ⟨h1, ?_⟩
  omega

namespace NP
open Scheduling.NP

theorem OrderOK.np_order_step {select : List Process → Int → Int} {s : State} (ho : OrderOK s)
    (hsound : SelectSound select) : OrderOK (NP.step select s) := by
  unfold NP.step
  split
  · exact ho
  · rename_i hsel
    rcases hsound s.proc s.current_time with h1 | ⟨_, hk, _, hp⟩
    · exact absurd h1 hsel
    · generalize (select s.proc s.current_time).toNat = k at hk hp
      have heo := (np_dispatch_completed s k).2
      have hself := np_dispatch_self s k hk hp
      have hlen := np_dispatch_length s k
      have hother : ∀ m, m ≠ k →
          (procAt (dispatch s k).proc m).is_completed = (procAt s.proc m).is_completed := by
        intro m hm
        rw [np_dispatch_other s k m hm]
        exact noSwap_is_completed (np_makeRoom_noSwap s k m)
      have hk_not : k ∉ s.execution_order := fun hm => ((ho.2 k).mp hm).2 hp
      refine ⟨?_, fun j => ?_⟩
      · rw [heo]
        exact List.Nodup.append ho.1 (List.nodup_singleton k)
          (fun x hx hx' => hk_not (by rw [List.mem_singleton.mp hx'] at hx; exact hx))
      · rw [heo, hlen, List.mem_append, List.mem_singleton]
        by_cases hjk : j = k
        · subst hjk
          rw [hself]
          exact ⟨fun _ => ⟨hk, by simp [ranRecord]⟩, fun _ => Or.inr rfl⟩
        · rw [hother j hjk, ho.2 j]
          exact ⟨fun h => h.resolve_right hjk, fun h => Or.inl h⟩

theorem np_order_reach {select : List Process → Int → Int} {proc0 : List Process} {total : Int}
    {s : State} (hsound : SelectSound select) (hfresh : ∀ p ∈ proc0, Fresh p)
    (hr : Reach select (NP.init proc0 total) s) : OrderOK s := by
  induction hr with
  | init =>
    refine ⟨List.nodup_nil, fun j => ⟨fun h => absurd h (List.not_mem_nil j), fun h => ?_⟩⟩
    exact absurd (hfresh _ (procAt_mem h.1)).2.2.1 h.2
  | step _ _ ih => exact ih.np_order_step hsound

/-- When the loop of `calculate_sjf` / `calculate_priority` returns, every process ran once
without interruption and the sequence of dispatched indices is a permutation of `0 .. n-1`. -/
theorem np_ran_once {select : List Process → Int → Int} (hsound : SelectSound select)
    (proc : List Process) (total : Int)
    (hfresh : ∀ p ∈ proc, Fresh p) (hburst : ∀ p ∈ proc, 0 < p.burst_time)
    (fuel : Nat) (r : State) (h : loop select fuel (NP.init proc total) = some r) :
    (∀ p ∈ r.proc, RanThrough p) ∧ r.execution_order.Perm (List.range proc.length) := by
  obtain ⟨hreach, hdone⟩ := np_loop_reach fuel Reach.init h
  have hinv := Inv.np_reach hsound (fun p hp => le_of_lt (hburst p hp)) hfresh hreach
  have hall := all_done_of_doneCount (by rw [← hinv.count]; exact hdone)
  have ho := np_order_reach hsound hfresh hreach
  refine ⟨fun p hp => ?_, ?_⟩
  · obtain ⟨j, hj, he⟩ := exists_procAt_of_mem hp
    rw [← he]
    exact (hinv.done j (by rw [he]; exact hall p hp)).ran_through
  · rw [List.perm_ext_iff_of_nodup ho.1 (List.nodup_range _)]
    intro j
    rw [ho.2 j, List.mem_range, hinv.len]
    exact ⟨fun h => h.1, fun h => ⟨h, hall _ (procAt_mem (by rw [hinv.len]; exact h))⟩⟩

end NP

namespace FCFS
open Scheduling.FCFS

theorem fcfs_ran_once (proc : List Process) (total : Int)
    (hfresh : ∀ p ∈ proc, Fresh p) (hburst : ∀ p ∈ proc, 0 < p.burst_time) :
    (∀ p ∈ (calculate_fcfs proc total).proc, RanThrough p)
      ∧ ∀ k, k < proc.length →
          procAt (stateAt proc total (k + 1)).proc k
              = ranRecord (procAt (stateAt proc total k).proc k) (startOf (stateAt proc total k) k)
            ∧ ∀ j, j ≠ k → noSwap (procAt (stateAt proc total (k + 1)).proc j)
                = noSwap (procAt (stateAt proc total k).proc j) := by
  refine ⟨fun p hp => ?_, fun k hk => ?_⟩
  · have hinv := fcfs_inv_final proc total hfresh hburst
    obtain ⟨j, hj, he⟩ := exists_procAt_of_mem hp
    have hj' : j < proc.length := by rw [hinv.len, sortByArrival_length] at hj; exact hj
    rw [← he]
    exact (hinv.done j hj').ran_through
  · rw [fcfs_stateAt_succ]
    refine ⟨fcfs_body_self _ k (by rw [fcfs_stateAt_length]; exact hk), fun j hj => ?_⟩
    rw [fcfs_body_other _ k j hj, fcfs_makeRoom_noSwap, idleJump_proc]

end FCFS

/-- C26. In the FCFS, SJF and Priority simulations, on a workload as `initialize_processes`
leaves it with `burst_time > 0`, every process is dispatched exactly once and runs without
interruption: in the returned table `completion_time = start_time + burst_time`, and so
`waiting_time = response_time`, for every process.  In `calculate_fcfs` iteration `k` writes the
run of process `k` to its record and leaves the other records alone but for their swap flags;
in `calculate_sjf` and `calculate_priority` the sequence of dispatched indices (the array
`execution_order` of `sjf.c`) is a permutation of `0 .. n-1` when the loop returns, which it
does when no burst time, respectively priority, equals `INT_MAX`. -/
theorem exact_C26_dispatched_once (proc : List Process) (total_memory : Int)
    (hfresh : ∀ p ∈ proc, Fresh p) (hburst : ∀ p ∈ proc, 0 < p.burst_time) :
    ((∀ p ∈ (FCFS.calculate_fcfs proc total_memory).proc, RanThrough p)
        ∧ ∀ k, k < proc.length →
            procAt (FCFS.stateAt proc total_memory (k + 1)).proc k
                = FCFS.ranRecord (procAt (FCFS.stateAt proc total_memory k).proc k)
                    (FCFS.startOf (FCFS.stateAt proc total_memory k) k)
              ∧ ∀ j, j ≠ k → noSwap (procAt (FCFS.stateAt proc total_memory (k + 1)).proc j)
                  = noSwap (procAt (FCFS.stateAt proc total_memory k).proc j))
      ∧ (∀ oob fuel r, SJF.calculate_sjf oob proc total_memory fuel = some r →
          (∀ p ∈ r.proc, RanThrough p) ∧ r.execution_order.Perm (List.range proc.length))
      ∧ (∀ fuel r, PS.calculate_priority proc total_memory fuel = some r →
          (∀ p ∈ r.proc, RanThrough p) ∧ r.execution_order.Perm (List.range proc.length))
      ∧ ((∀ p ∈ proc, p.burst_time < INT_MAX) →
          ∀ oob, ∃ fuel r, SJF.calculate_sjf oob proc total_memory fuel = some r)
      ∧ ((∀ p ∈ proc, p.priority < INT_MAX) →
          ∃ fuel r, PS.calculate_priority proc total_memory fuel = some r) :=
  ⟨FCFS.fcfs_ran_once proc total_memory hfresh hburst,
    fun oob fuel r h => NP.np_ran_once (SJF.sjf_select_sound oob) proc total_memory hfresh hburst
      fuel r h,
    fun fuel r h => NP.np_ran_once PS.ps_select_sound proc total_memory hfresh hburst fuel r h,
    fun hmax oob => SJF.sjf_terminates oob proc total_memory hfresh hburst hmax,
    fun hmax => PS.ps_terminates proc total_memory hfresh hburst hmax⟩

namespace FCFS
open Scheduling.FCFS

theorem fcfs_scan_fits (proc : List Process) (total : Int)
    (hfresh : ∀ p ∈ proc, Fresh p) (hburst : ∀ p ∈ proc, 0 < p.burst_time)
    (hfit : ∀ p ∈ proc, p.memory_required ≤ total) (k : Nat) (hk : k < proc.length) :
    (afterEviction (stateAt proc total k) k).available_memory
        ≥ (procAt (afterEviction (stateAt proc total k) k).proc k).memory_required
      ∧ 0 ≤ (stateAt proc total (k + 1)).available_memory := by
  have hinv := fcfs_inv_stateAt proc total hfresh hburst k (by omega)
  have hlen : (stateAt proc total k).proc.length = proc.length := by
    rw [hinv.len, sortByArrival_length]
  have hks : k < (sortByArrival proc).length := by rw [sortByArrival_length]; omega
  have h3 : procAt (makeRoom (idleJump (stateAt proc total k) k) k).proc k
      = procAt (stateAt proc total k).proc k := by
    rw [fcfs_makeRoom_other _ _ _ (le_refl _)]; simp
  have hneed : (procAt (stateAt proc total k).proc k).memory_required ≤ total := by
    rw [hinv.fcfs_memory_fields k]
    exact hfit _ ((sortByArrival_perm proc).mem_iff.mp (procAt_mem hks))
  have hge : (afterEviction (stateAt proc total k) k).available_memory
      ≥ (procAt (stateAt proc total k).proc k).memory_required := by
    rcases fcfs_makeRoom_exhaustive (idleJump (stateAt proc total k) k) k
      (by simp only [idleJump_proc]; omega)
      (fun j hj => by
        have h1 := hinv.completion_pos j hj
        have h2 := hinv.before j hj
        have h3 := (idleJump_time (stateAt proc total k) k).1
        simp only [idleJump_proc]
        exact ⟨h1, by omega⟩) with h | h
    · rw [h3] at h; exact h
    · -- every earlier process is swapped out: nothing is resident
      have hm := fcfs_makeRoom_memory (idleJump (stateAt proc total k) k) k
        (by simp only [idleJump_proc]; omega)
        (fun j hj => by
          simp only [idleJump_proc]
          rw [(hinv.done j hj).swapped_in]; decide)
      simp only [idleJump_proc, idleJump_available] at hm
      have hzero : residentMemory (makeRoom (idleJump (stateAt proc total k) k) k).proc
          = 0 := by
        apply residentMemory_eq_zero_of_held
        intro p hp
        obtain ⟨j, hj, he⟩ := exists_procAt_of_mem hp
        rw [← he]
        by_cases hjk : j < k
        · simp [held, h j hjk]
        · rw [fcfs_makeRoom_other _ _ _ (by omega)]
          simp only [idleJump_proc]
          rw [hinv.untouched j (by omega)]
          rw [fcfs_makeRoom_length, idleJump_proc, hinv.len] at hj
          have := (hfresh _ ((sortByArrival_perm proc).mem_iff.mp (procAt_mem hj))).2.1
          simp [held, this]
      have := hinv.memory
      show (makeRoom (idleJump (stateAt proc total k) k) k).available_memory ≥ _
      omega
  refine ⟨?_, ?_⟩
  · show _ ≥ (procAt (makeRoom (idleJump (stateAt proc total k) k) k).proc k).memory_required
    rw [h3]; exact hge
  · rw [fcfs_stateAt_succ, fcfs_body_available]
    omega

end FCFS

namespace NP
open Scheduling.NP

theorem Inv.np_scan_fits {proc0 : List Process} {total : Int} {s : State}
    (h : Inv proc0 total s) (i : Nat) (hi : i < s.proc.length)
    (hp : (procAt s.proc i).is_completed = 0)
    (hfresh : ∀ p ∈ proc0, Fresh p) (hfit : ∀ p ∈ proc0, p.memory_required ≤ total) :
    (makeRoom s i).available_memory ≥ (procAt (makeRoom s i).proc i).memory_required := by
  have h3 : procAt (makeRoom s i).proc i = procAt s.proc i := np_makeRoom_pending s i i hp
  have hneed : (procAt s.proc i).memory_required ≤ total := by
    rw [h.np_memory_fields i]
    exact hfit _ (procAt_mem (by rw [← h.len]; exact hi))
  rcases np_makeRoom_exhaustive s i with hge | hall
  · exact hge
  · have hm := np_makeRoom_memory s i (fun j hj => by
      rw [(h.done j hj).swapped_in]; decide)
    have hzero : residentMemory (makeRoom s i).proc = 0 := by
      apply residentMemory_eq_zero_of_held
      intro p hp'
      obtain ⟨j, hj, he⟩ := exists_procAt_of_mem hp'
      rw [np_makeRoom_length] at hj
      rw [← he]
      by_cases hc : (procAt (makeRoom s i).proc j).is_completed = 0
      · have hc0 : (procAt s.proc j).is_completed = 0 := by
          rw [← noSwap_is_completed (np_makeRoom_noSwap s i j)]; exact hc
        rw [np_makeRoom_pending s i j hc0, h.pending j hc0]
        have := (hfresh _ (procAt_mem (by rw [← h.len]; exact hj))).2.1
        simp [held, this]
      · simp [held, hall j hj hc]
    have := h.memory
    rw [h3]
    omega

/-- In a run of `calculate_sjf` / `calculate_priority` on a workload whose every
`memory_required` is at most `total_memory`: at a dispatch the state after the eviction scan has
room for the process, and the dispatch leaves a non-negative `available_memory`. -/
theorem np_scan_fits_step {select : List Process → Int → Int} (hsound : SelectSound select)
    (proc : List Process) (total : Int)
    (hfresh : ∀ p ∈ proc, Fresh p) (hburst : ∀ p ∈ proc, 0 < p.burst_time)
    (hfit : ∀ p ∈ proc, p.memory_required ≤ total)
    (s : State) (hr : Reach select (NP.init proc total) s)
    (hsel : select s.proc s.current_time ≠ -1) :
    NP.step select s = dispatch s (select s.proc s.current_time).toNat
      ∧ (makeRoom s (select s.proc s.current_time).toNat).available_memory
          ≥ (procAt (makeRoom s (select s.proc s.current_time).toNat).proc
              (select s.proc s.current_time).toNat).memory_required
      ∧ 0 ≤ (NP.step select s).available_memory := by
  have hinv := Inv.np_reach hsound (fun p hp => le_of_lt (hburst p hp)) hfresh hr
  have hstep : NP.step select s = dispatch s (select s.proc s.current_time).toNat := by
    simp [NP.step, hsel]
  rcases hsound s.proc s.current_time with h1 | ⟨_, hk, _, hp⟩
  · exact absurd h1 hsel
  · refine ⟨hstep, hinv.np_scan_fits _ hk hp hfresh hfit, ?_⟩
    rw [hstep]
    exact hinv.np_dispatch_nonneg _ hk hp hfresh hfit

end NP

/-- C27. In the FCFS, SJF and Priority simulations, on a workload as `initialize_processes`
leaves it with `burst_time > 0` whose every `memory_required` is at most `total_memory`: at
every dispatch the state after the memory check and its eviction scan has `available_memory`
at least the dispatched process's `memory_required` (so the test
`available_memory < memory_required` that guards the WARNING line is false), and the dispatch
leaves `available_memory >= 0`.  At every iteration boundary `available_memory >= 0`, given
`total_memory >= 0`: before the first dispatch `available_memory` is `total_memory` itself. -/
theorem exact_C27_memory_suffices (proc : List Process) (total_memory : Int)
    (hfresh : ∀ p ∈ proc, Fresh p) (hburst : ∀ p ∈ proc, 0 < p.burst_time)
    (hfit : ∀ p ∈ proc, p.memory_required ≤ total_memory) :
    (∀ k, k < proc.length →
        (FCFS.afterEviction (FCFS.stateAt proc total_memory k) k).available_memory
            ≥ (procAt (FCFS.afterEviction (FCFS.stateAt proc total_memory k) k).proc
                k).memory_required
          ∧ 0 ≤ (FCFS.stateAt proc total_memory (k + 1)).available_memory)
      ∧ (∀ oob s, NP.Reach (SJF.select oob) (NP.init proc total_memory) s →
          SJF.select oob s.proc s.current_time ≠ -1 →
          NP.step (SJF.select oob) s
              = NP.dispatch s (SJF.select oob s.proc s.current_time).toNat
            ∧ (NP.makeRoom s (SJF.select oob s.proc s.current_time).toNat).available_memory
                ≥ (procAt (NP.makeRoom s (SJF.select oob s.proc s.current_time).toNat).proc
                    (SJF.select oob s.proc s.current_time).toNat).memory_required
            ∧ 0 ≤ (NP.step (SJF.select oob) s).available_memory)
      ∧ (∀ s, NP.Reach PS.select (NP.init proc total_memory) s →
          PS.select s.proc s.current_time ≠ -1 →
          NP.step PS.select s = NP.dispatch s (PS.select s.proc s.current_time).toNat
            ∧ (NP.makeRoom s (PS.select s.proc s.current_time).toNat).available_memory
                ≥ (procAt (NP.makeRoom s (PS.select s.proc s.current_time).toNat).proc
                    (PS.select s.proc s.current_time).toNat).memory_required
            ∧ 0 ≤ (NP.step PS.select s).available_memory)
      ∧ (0 ≤ total_memory →
          (∀ k, k ≤ proc.length → 0 ≤ (FCFS.stateAt proc total_memory k).available_memory)
            ∧ (∀ oob s, NP.Reach (SJF.select oob) (NP.init proc total_memory) s →
                0 ≤ s.available_memory)
            ∧ (∀ s, NP.Reach PS.select (NP.init proc total_memory) s →
                0 ≤ s.available_memory)) := by
  refine ⟨fun k hk => FCFS.fcfs_scan_fits proc total_memory hfresh hburst hfit k hk,
    fun oob s hs hsel => NP.np_scan_fits_step (SJF.sjf_select_sound oob) proc total_memory
      hfresh hburst hfit s hs hsel,
    fun s hs hsel => NP.np_scan_fits_step PS.ps_select_sound proc total_memory
      hfresh hburst hfit s hs hsel, fun htotal => ?_⟩
  exact ⟨fun k hk => FCFS.fcfs_available_nonneg proc total_memory hfresh hburst htotal hfit k hk,
    fun oob s hs => NP.np_available_nonneg (SJF.sjf_select_sound oob) proc total_memory hfresh
      hburst htotal hfit s hs,
    fun s hs => NP.np_available_nonneg PS.ps_select_sound proc total_memory hfresh
      hburst htotal hfit s hs⟩

theorem SerialPair.no_overlap {p q : Process} (h : SerialPair p q) (t : Int) :
    ¬ (p.start_time ≤ t ∧ t < p.completion_time ∧ q.start_time ≤ t ∧ t < q.completion_time) := by
  unfold SerialPair at h
  simp only [SWAP_TIME] at h
  omega

namespace FCFS
open Scheduling.FCFS

theorem fcfs_serial (proc : List Process) (total : Int)
    (hfresh : ∀ p ∈ proc, Fresh p) (hburst : ∀ p ∈ proc, 0 < p.burst_time) :
    SerialRuns (calculate_fcfs proc total).proc := by
  have hinv := fcfs_inv_final proc total hfresh hburst
  have hlen : (calculate_fcfs proc total).proc.length = proc.length := by
    rw [hinv.len, sortByArrival_length]
  intro i j hi hj hij
  rw [hlen] at hi hj
  have hp : SerialPair (procAt (calculate_fcfs proc total).proc i)
      (procAt (calculate_fcfs proc total).proc j) := by
    rcases Nat.lt_or_gt_of_ne hij with h | h
    · exact Or.inl (hinv.order i j h hj)
    · exact Or.inr (hinv.order j i h hi)
  exact ⟨hp, SerialPair.no_overlap hp⟩

end FCFS

namespace NP
open Scheduling.NP

/-- At every iteration boundary of `calculate_sjf` / `calculate_priority` the runs of the
completed processes are pairwise `SWAP_TIME` apart; when the loop returns, the whole table is
serial. -/
theorem np_serial {select : List Process → Int → Int} (hsound : SelectSound select)
    (proc : List Process) (total : Int)
    (hfresh : ∀ p ∈ proc, Fresh p) (hburst : ∀ p ∈ proc, 0 < p.burst_time) :
    (∀ s, Reach select (NP.init proc total) s → ∀ i j, i ≠ j →
        (procAt s.proc i).is_completed ≠ 0 → (procAt s.proc j).is_completed ≠ 0 →
        SerialPair (procAt s.proc i) (procAt s.proc j))
      ∧ ∀ fuel r, loop select fuel (NP.init proc total) = some r → SerialRuns r.proc := by
  refine ⟨fun s hs i j hij hi hj => ?_, fun fuel r h => ?_⟩
  · exact (Inv.np_reach hsound (fun p hp => le_of_lt (hburst p hp)) hfresh hs).order i j hij hi hj
  · obtain ⟨hreach, hdone⟩ := np_loop_reach fuel Reach.init h
    have hinv := Inv.np_reach hsound (fun p hp => le_of_lt (hburst p hp)) hfresh hreach
    have hall := all_done_of_doneCount (by rw [← hinv.count]; exact hdone)
    intro i j hi hj hij
    have hp : SerialPair (procAt r.proc i) (procAt r.proc j) :=
      hinv.order i j hij (hall _ (procAt_mem hi)) (hall _ (procAt_mem hj))
    exact ⟨hp, SerialPair.no_overlap hp⟩

end NP

/-- C30. In the FCFS, SJF and Priority simulations, on a workload as `initialize_processes`
leaves it with `burst_time > 0`: in the final table any two distinct processes are such that
one has `completion_time + SWAP_TIME <= start_time` of the other, so that no instant lies in
both intervals `[start_time, completion_time)` (`SerialRuns`); in `calculate_sjf` and
`calculate_priority` the same holds at every iteration boundary among the completed processes,
and the loop returns when no burst time, respectively priority, equals `INT_MAX`. -/
theorem exact_C30_one_cpu (proc : List Process) (total_memory : Int)
    (hfresh : ∀ p ∈ proc, Fresh p) (hburst : ∀ p ∈ proc, 0 < p.burst_time) :
    SerialRuns (FCFS.calculate_fcfs proc total_memory).proc
      ∧ (∀ oob,
          (∀ s, NP.Reach (SJF.select oob) (NP.init proc total_memory) s → ∀ i j, i ≠ j →
              (procAt s.proc i).is_completed ≠ 0 → (procAt s.proc j).is_completed ≠ 0 →
              SerialPair (procAt s.proc i) (procAt s.proc j))
            ∧ ∀ fuel r, SJF.calculate_sjf oob proc total_memory fuel = some r →
                SerialRuns r.proc)
      ∧ ((∀ p ∈ proc, p.burst_time < INT_MAX) →
          ∀ oob, ∃ fuel r, SJF.calculate_sjf oob proc total_memory fuel = some r)
      ∧ ((∀ s, NP.Reach PS.select (NP.init proc total_memory) s → ∀ i j, i ≠ j →
              (procAt s.proc i).is_completed ≠ 0 → (procAt s.proc j).is_completed ≠ 0 →
              SerialPair (procAt s.proc i) (procAt s.proc j))
            ∧ ∀ fuel r, PS.calculate_priority proc total_memory fuel = some r →
                SerialRuns r.proc)
      ∧ ((∀ p ∈ proc, p.priority < INT_MAX) →
          ∃ fuel r, PS.calculate_priority proc total_memory fuel = some r) :=
  ⟨FCFS.fcfs_serial proc total_memory hfresh hburst,
    fun oob => NP.np_serial (SJF.sjf_select_sound oob) proc total_memory hfresh hburst,
    fun hmax oob => SJF.sjf_terminates oob proc total_memory hfresh hburst hmax,
    NP.np_serial PS.ps_select_sound proc total_memory hfresh hburst,
    fun hmax => PS.ps_terminates proc total_memory hfresh hburst hmax⟩

theorem ceilDiv_bounds (a b : Int) (hb : 0 < b) :
    (ceilDiv a b - 1) * b < a ∧ a ≤ ceilDiv a b * b := by
  unfold ceilDiv
  have h1 := Int.ediv_add_emod (a + b - 1) b
  have h2 := Int.emod_nonneg (a + b - 1) (ne_of_gt hb)
  have h3 := Int.emod_lt_of_pos (a + b - 1) hb
  have e1 : ((a + b - 1) / b - 1) * b = b * ((a + b - 1) / b) - b := by ring
  have e2 : (a + b - 1) / b * b = b * ((a + b - 1) / b) := by ring
  rw [e1, e2]
  constructor <;> omega

theorem ceilDiv_unique {a b c : Int} (hb : 0 < b) (h1 : (c - 1) * b < a) (h2 : a ≤ c * b) :
    ceilDiv a b = c := by
  obtain ⟨k1, k2⟩ := ceilDiv_bounds a b hb
  have l1 : (ceilDiv a b - 1) * b < c * b := lt_of_lt_of_le k1 h2
  have l2 : (c - 1) * b < ceilDiv a b * b := lt_of_lt_of_le h1 k2
  have m1 := lt_of_mul_lt_mul_right l1 (le_of_lt hb)
  have m2 := lt_of_mul_lt_mul_right l2 (le_of_lt hb)
  omega

theorem ceilDiv_zero (b : Int) (hb : 0 < b) : ceilDiv 0 b = 0 :=
  ceilDiv_unique hb (by simp; exact hb) (by simp)

theorem ceilDiv_one {a b : Int} (ha : 0 < a) (hab : a ≤ b) : ceilDiv a b = 1 :=
  ceilDiv_unique (lt_of_lt_of_le ha hab) (by simpa using ha) (by simpa using hab)

theorem ceilDiv_sub (a b : Int) (hb : 0 < b) : ceilDiv (a - b) b = ceilDiv a b - 1 := by
  obtain ⟨k1, k2⟩ := ceilDiv_bounds a b hb
  apply ceilDiv_unique hb
  · have e : (ceilDiv a b - 1 - 1) * b = (ceilDiv a b - 1) * b - b := by ring
    rw [e]; omega
  · have e : (ceilDiv a b - 1) * b = ceilDiv a b * b - b := by ring
    rw [e]; omega

theorem ceilDiv_pos {a b : Int} (ha : 0 < a) (hb : 0 < b) : 1 ≤ ceilDiv a b := by
  obtain ⟨-, k2⟩ := ceilDiv_bounds a b hb
  by_contra hc
  have : ceilDiv a b * b ≤ 0 := mul_nonpos_of_nonpos_of_nonneg (by omega) (le_of_lt hb)
  omega

/-- The integer `ceilDiv a b` is the ceiling of the rational number `a / b`. -/
theorem ceilDiv_eq_ceil (a b : Int) (hb : 0 < b) : ceilDiv a b = ⌈(a : ℚ) / (b : ℚ)⌉ := by
  obtain ⟨k1, k2⟩ := ceilDiv_bounds a b hb
  have hbq : (0 : ℚ) < (b : ℚ) := by exact_mod_cast hb
  symm
  rw [Int.ceil_eq_iff]
  constructor
  · rw [lt_div_iff₀ hbq]
    exact_mod_cast k1
  · rw [div_le_iff₀ hbq]
    exact_mod_cast k2

theorem sum_map_indicator (a n : Nat) :
    ((List.range n).map (fun j => if a = j then (1 : Int) else 0)).sum
      = if a < n then 1 else 0 := by
  induction n with
  | zero => simp
  | succ n ih =>
    rw [List.range_succ, List.map_append, List.sum_append, ih]
    simp only [List.map_cons, List.map_nil, List.sum_cons, List.sum_nil]
    by_cases h1 : a < n
    · have : a ≠ n := by omega
      simp [h1, this]; omega
    · by_cases h2 : a = n
      · simp [h2]
      · have : ¬ a < n + 1 := by omega
        simp [h1, h2, this]

/-- A list of indices below `n` is as long as the sum of the numbers of occurrences of
`0 .. n-1` in it. -/
theorem length_eq_sum_count (l : List Nat) (n : Nat) (h : ∀ q ∈ l, q < n) :
    (l.length : Int) = ((List.range n).map (fun j => (l.count j : Int))).sum := by
  induction l with
  | nil => simp
  | cons a t ih =>
    have ha : a < n := h a (by simp)
    have ht := ih (fun q hq => h q (by simp [hq]))
    have e : (fun j => ((a :: t).count j : Int))
        = fun j => (t.count j : Int) + (if a = j then (1 : Int) else 0) := by
      funext j
      rw [List.count_cons]
      by_cases hj : a = j
      · simp [hj]
      · simp [hj]
    rw [e, List.sum_map_add, ← ht, sum_map_indicator, if_pos ha]
    simp

theorem map_eq_map_range {β : Type} (g : Process → β) (l : List Process) :
    l.map g = (List.range l.length).map (fun j => g (procAt l j)) := by
  apply List.ext_getElem (by simp)
  intro n h1 h2
  have h1' : n < l.length := by simpa using h1
  simp [procAt_of_lt h1']

namespace RR
open Scheduling.RR

theorem writesOf_le {proc0 : List Process} {total : Int} {s : State} (h : Inv proc0 total s)
    (tq : Int) (htq : 0 < tq) (hburst : ∀ p ∈ proc0, 0 < p.burst_time) (j : Nat)
    (hj : j < proc0.length) :
    writesOf tq s j ≤ ceilDiv (procAt proc0 j).burst_time tq := by
  have hb : 0 < (procAt s.proc j).burst_time := by
    rw [h.burst j]; exact hburst _ (procAt_mem hj)
  have hbc := ceilDiv_pos hb htq
  unfold writesOf
  rw [h.burst j] at hbc ⊢
  split
  · omega
  · by_cases hr : 0 < (procAt s.proc j).remaining_time
    · have := ceilDiv_pos hr htq
      rw [if_pos hr]; omega
    · have h0 : (procAt s.proc j).remaining_time = 0 := by have := (h.range j).1; omega
      rw [if_neg hr, h0, ceilDiv_zero tq htq]; omega

theorem writes_init (proc : List Process) (total tq : Int)
    (hfresh : ∀ p ∈ proc, Fresh p) (hburst : ∀ p ∈ proc, 0 < p.burst_time) (j : Nat)
    (hj : j < proc.length) :
    ((RR.init proc total).queue.count j : Int) = writesOf tq (RR.init proc total) j := by
  have hinv := Inv.rr_init proc total hfresh hburst
  rw [rr_init_queue]
  unfold writesOf
  by_cases hv : visitedAt (RR.init proc total).visited j = 0
  · simp [hv]
  · have hb : 0 < (procAt (RR.init proc total).proc j).burst_time := by
      rw [hinv.burst j]; exact hburst _ (procAt_mem hj)
    have hr : (procAt (RR.init proc total).proc j).remaining_time
        = (procAt (RR.init proc total).proc j).burst_time := by
      have e : (RR.init proc total).proc = proc :=
        (enqueueArrivals_spec
          { proc := proc, current_time := 0, available_memory := total, completed := 0,
            queue := [], front := 0, visited := List.replicate proc.length 0 } (by simp)).1
      rw [e]
      exact (hfresh _ (procAt_mem hj)).2.2.2.1
    rw [if_neg hv, if_pos hv, hr, if_pos hb]
    simp

theorem Inv.rr_writes_step {proc0 : List Process} {total : Int} {s : State}
    (h : Inv proc0 total s) (tq : Int) (htq : 0 < tq)
    (hfresh : ∀ p ∈ proc0, Fresh p) (hburst : ∀ p ∈ proc0, 0 < p.burst_time) (j : Nat)
    (hj : j < proc0.length) (ih : (s.queue.count j : Int) = writesOf tq s j) :
    ((RR.step tq s).queue.count j : Int) = writesOf tq (RR.step tq s) j := by
  have h' := h.rr_step htq hfresh hburst
  obtain ⟨hcount, hmono⟩ := h.rr_step_queue tq j
  obtain ⟨hidle, hdisp⟩ := h.rr_step_records tq hfresh hburst
  have hb : 0 < (procAt s.proc j).burst_time := by
    rw [h.burst j]; exact hburst _ (procAt_mem hj)
  have hbb : (procAt (RR.step tq s).proc j).burst_time = (procAt s.proc j).burst_time := by
    rw [h'.burst j, h.burst j]
  rw [hcount]
  push_cast
  rw [ih]
  -- the remaining time of `j` after the iteration, and whether the iteration preempts `j`
  have hrem : (s.front ≠ s.queue.length ∧ queueAt s.queue s.front = j
        ∧ (procAt (RR.step tq s).proc j).remaining_time
            = (procAt s.proc j).remaining_time - sliceLen (procAt s.proc j) tq
        ∧ visitedAt s.visited j ≠ 0 ∧ 0 < (procAt s.proc j).remaining_time)
      ∨ ((s.front = s.queue.length ∨ queueAt s.queue s.front ≠ j)
        ∧ (procAt (RR.step tq s).proc j).remaining_time = (procAt s.proc j).remaining_time) := by
    by_cases hfront : s.front = s.queue.length
    · right
      refine ⟨Or.inl hfront, ?_⟩
      rw [(hidle hfront).1]
    · obtain ⟨d1, d2, -⟩ := hdisp hfront
      obtain ⟨-, -, hvis, hpos, -, -⟩ := h.rr_head hfront
      by_cases hq : queueAt s.queue s.front = j
      · left
        subst hq
        refine ⟨hfront, rfl, ?_, hvis, hpos⟩
        rw [d1]
        exact (runRec_frame _ _ _).2.2.2.2.2.1
      · right
        exact ⟨Or.inr hq, noSwap_remaining (d2 j (fun e => hq e.symm))⟩
  rcases hrem with ⟨hfront, hq, hr, hvis, hpos⟩ | ⟨hno, hr⟩
  · -- `j` is dispatched
    have hv' := hmono hvis
    have ha : arrivalInsertions s (RR.step tq s) j = 0 := by
      unfold arrivalInsertions; rw [if_neg (fun hc => hvis hc.1)]
    have hp : preemptions tq s j
        = if 0 < (procAt (RR.step tq s).proc j).remaining_time then 1 else 0 := by
      unfold preemptions
      by_cases hc : 0 < (procAt (RR.step tq s).proc j).remaining_time
      · rw [if_pos ⟨hfront, hq, hc⟩, if_pos hc]
      · rw [if_neg (fun hx => hc hx.2.2), if_neg hc]
    rw [ha, hp]
    unfold writesOf
    rw [if_neg hvis, if_neg hv', if_pos hpos, hbb, hr]
    unfold sliceLen
    by_cases hlt : (procAt s.proc j).remaining_time < tq
    · rw [if_pos hlt, sub_self, ceilDiv_zero tq htq, ceilDiv_one hpos (le_of_lt hlt)]
      simp
    · rw [if_neg hlt]
      by_cases heq : (procAt s.proc j).remaining_time = tq
      · rw [heq, sub_self, ceilDiv_zero tq htq, ceilDiv_one htq (le_refl _)]
        simp
      · have hgt : 0 < (procAt s.proc j).remaining_time - tq := by omega
        rw [ceilDiv_sub _ _ htq]
        simp only [if_pos hgt]
        push_cast
        ring
  · -- `j` is not dispatched
    have hp : preemptions tq s j = 0 := by
      unfold preemptions
      rw [if_neg (fun hc => by rcases hno with h1 | h1; exact hc.1 h1; exact h1 hc.2.1)]
    rw [hp]
    unfold arrivalInsertions writesOf
    rw [hbb, hr]
    by_cases hv : visitedAt s.visited j = 0
    · obtain ⟨-, hu⟩ := h.unvisited j hj hv
      by_cases hv' : visitedAt (RR.step tq s).visited j = 0
      · simp [hv, hv']
      · have hpos : 0 < (procAt s.proc j).remaining_time := by omega
        simp [hv, hv', hu, hb]
    · have hv' := hmono hv
      simp [hv, hv']

theorem rr_writes_reach {proc : List Process} {total tq : Int} {s : State} (htq : 0 < tq)
    (hfresh : ∀ p ∈ proc, Fresh p) (hburst : ∀ p ∈ proc, 0 < p.burst_time)
    (hr : Reach tq (RR.init proc total) s) (j : Nat) (hj : j < proc.length) :
    (s.queue.count j : Int) = writesOf tq s j := by
  induction hr with
  | init => exact writes_init proc total tq hfresh hburst j hj
  | step hs _ ih =>
    exact (Inv.rr_reach htq hfresh hburst hs).rr_writes_step tq htq hfresh hburst j hj ih

/-- At every iteration boundary the number of entries written to the queue is the sum of
`writesOf`, which is at most the sum of `ceil(burst_time / time_quantum)`. -/
theorem rr_rear_le {proc : List Process} {total tq : Int} {s : State} (htq : 0 < tq)
    (hfresh : ∀ p ∈ proc, Fresh p) (hburst : ∀ p ∈ proc, 0 < p.burst_time)
    (hr : Reach tq (RR.init proc total) s) :
    (s.queue.length : Int) ≤ totalSlices proc tq := by
  have hinv := Inv.rr_reach htq hfresh hburst hr
  rw [length_eq_sum_count s.queue proc.length hinv.queue_lt]
  unfold totalSlices
  rw [map_eq_map_range]
  apply List.sum_le_sum
  intro j hj
  have hj' : j < proc.length := List.mem_range.mp hj
  show (s.queue.count j : Int) ≤ _
  rw [rr_writes_reach htq hfresh hburst hr j hj']
  exact writesOf_le hinv tq htq hburst j hj'

end RR

end Exact

/-! ## Runs without overflow agree with the simulations over the mathematical integers -/

theorem wrap_of_inInt {x : Int} (h : InInt x) : wrap x = x := by
  unfold InInt INT_MIN INT_MAX at h
  unfold wrap
  omega

theorem forall_mem_append_left {l1 l2 : List Int} (h : ∀ x ∈ l1 ++ l2, InInt x) :
    ∀ x ∈ l1, InInt x :=
  fun x hx => h x (List.mem_append_left _ hx)

theorem forall_mem_append_right {l1 l2 : List Int} (h : ∀ x ∈ l1 ++ l2, InInt x) :
    ∀ x ∈ l2, InInt x :=
  fun x hx => h x (List.mem_append_right _ hx)

namespace FCFS

theorem fcfs_swapOut_exact (s : State) (j : Nat) (h : ∀ x ∈ swapOutOps s j, InInt x) :
    swapOut s j = Exact.FCFS.swapOut s j := by
  have h1 := h (s.available_memory + (procAt s.proc j).memory_required) (by simp [swapOutOps])
  have h2 := h (s.current_time + SWAP_TIME) (by simp [swapOutOps])
  have h3 := h (s.total_swap_operations + 1) (by simp [swapOutOps])
  unfold swapOut Exact.FCFS.swapOut
  simp only [wrap_of_inInt h1, wrap_of_inInt h2, wrap_of_inInt h3]

theorem fcfs_swapOutScan_exact (i : Nat) (js : List Nat) (s : State)
    (h : ∀ x ∈ swapOutScanOps i js s, InInt x) :
    swapOutScan i js s = Exact.FCFS.swapOutScan i js s := by
  induction js generalizing s with
  | nil => rfl
  | cons j js ih =>
    simp only [swapOutScan, Exact.FCFS.swapOutScan]
    simp only [swapOutScanOps] at h
    by_cases hc : (procAt s.proc j).completion_time > 0
        ∧ (procAt s.proc j).completion_time ≤ s.current_time ∧ (procAt s.proc j).is_swapped = 0
    · rw [if_pos hc] at h ⊢
      rw [if_pos hc]
      by_cases hb : (swapOut s j).available_memory
          ≥ (procAt (swapOut s j).proc i).memory_required
      · rw [if_pos hb] at h
        have e := fcfs_swapOut_exact s j h
        rw [if_pos hb, ← e, if_pos hb]
      · rw [if_neg hb] at h
        have e := fcfs_swapOut_exact s j (forall_mem_append_left h)
        rw [if_neg hb, ← e, if_neg hb]
        exact ih _ (forall_mem_append_right h)
    · rw [if_neg hc] at h ⊢
      rw [if_neg hc]
      exact ih _ h

theorem fcfs_makeRoom_exact (s : State) (i : Nat) (h : ∀ x ∈ makeRoomOps s i, InInt x) :
    makeRoom s i = Exact.FCFS.makeRoom s i := by
  unfold makeRoom Exact.FCFS.makeRoom
  unfold makeRoomOps at h
  split
  · rename_i hc
    rw [if_pos hc] at h
    exact fcfs_swapOutScan_exact i _ s h
  · rfl

theorem fcfs_swapIn_exact (s : State) (i : Nat) (h : ∀ x ∈ swapInOps s i, InInt x) :
    swapIn s i = Exact.FCFS.swapIn s i := by
  have h1 := h (s.current_time + SWAP_TIME) (by simp [swapInOps])
  have h2 := h (s.available_memory - (procAt s.proc i).memory_required) (by simp [swapInOps])
  have h3 := h (s.total_swap_operations + 1) (by simp [swapInOps])
  have h4 := h (wrap (s.current_time + SWAP_TIME) - (procAt s.proc i).arrival_time)
    (by simp [swapInOps])
  rw [wrap_of_inInt h1] at h4
  unfold swapIn Exact.FCFS.swapIn
  simp only [wrap_of_inInt h1, wrap_of_inInt h2, wrap_of_inInt h3, wrap_of_inInt h4]

theorem fcfs_execute_exact (s : State) (i : Nat) (h : ∀ x ∈ executeOps s i, InInt x) :
    execute s i = Exact.FCFS.execute s i := by
  have h1 := h (s.current_time + (procAt s.proc i).burst_time) (by simp [executeOps])
  have h2 := h (wrap (s.current_time + (procAt s.proc i).burst_time)
    - (procAt s.proc i).arrival_time) (by simp [executeOps])
  have h3 := h (wrap (wrap (s.current_time + (procAt s.proc i).burst_time)
    - (procAt s.proc i).arrival_time) - (procAt s.proc i).burst_time) (by simp [executeOps])
  rw [wrap_of_inInt h1] at h2 h3
  rw [wrap_of_inInt h2] at h3
  unfold execute Exact.FCFS.execute
  simp only [wrap_of_inInt h1, wrap_of_inInt h2, wrap_of_inInt h3]

theorem body_exact (s : State) (i : Nat) (h : ∀ x ∈ bodyOps s i, InInt x) :
    makeRoom (idleJump s i) i = Exact.FCFS.makeRoom (idleJump s i) i
      ∧ swapIn (makeRoom (idleJump s i) i) i
          = Exact.FCFS.swapIn (Exact.FCFS.makeRoom (idleJump s i) i) i
      ∧ body s i = Exact.FCFS.body s i := by
  unfold bodyOps at h
  have e1 := fcfs_makeRoom_exact (idleJump s i) i
    (forall_mem_append_left (forall_mem_append_left h))
  have e2 := fcfs_swapIn_exact (makeRoom (idleJump s i) i) i
    (forall_mem_append_right (forall_mem_append_left h))
  have e3 := fcfs_execute_exact (swapIn (makeRoom (idleJump s i) i) i) i (forall_mem_append_right h)
  refine ⟨e1, by rw [e2, e1], ?_⟩
  unfold body Exact.FCFS.body
  rw [e3, e2, e1]

theorem stateAt_succ (proc : List Process) (total : Int) (k : Nat) :
    stateAt proc total (k + 1) = body (stateAt proc total k) k := by
  unfold stateAt
  rw [List.range_succ, List.foldl_append]
  rfl

theorem stateAt_exact (proc : List Process) (total : Int) (h : NoOverflow proc total) (k : Nat)
    (hk : k ≤ proc.length) : stateAt proc total k = Exact.FCFS.stateAt proc total k := by
  induction k with
  | zero => rfl
  | succ k ih =>
    rw [stateAt_succ, Exact.FCFS.fcfs_stateAt_succ, ← ih (by omega)]
    exact (body_exact _ k (h k (by omega))).2.2

theorem calculate_fcfs_exact (proc : List Process) (total : Int) (h : NoOverflow proc total) :
    calculate_fcfs proc total = Exact.FCFS.calculate_fcfs proc total :=
  stateAt_exact proc total h proc.length (le_refl _)

end FCFS

namespace NP

theorem np_swapOut_exact (s : State) (j : Nat) (h : ∀ x ∈ swapOutOps s j, InInt x) :
    swapOut s j = Exact.NP.swapOut s j := by
  have h1 := h (s.available_memory + (procAt s.proc j).memory_required) (by simp [swapOutOps])
  have h2 := h (s.current_time + SWAP_TIME) (by simp [swapOutOps])
  unfold swapOut Exact.NP.swapOut
  simp only [wrap_of_inInt h1, wrap_of_inInt h2]

theorem np_swapOutScan_exact (idx : Nat) (js : List Nat) (s : State)
    (h : ∀ x ∈ swapOutScanOps idx js s, InInt x) :
    swapOutScan idx js s = Exact.NP.swapOutScan idx js s := by
  induction js generalizing s with
  | nil => rfl
  | cons j js ih =>
    simp only [swapOutScan, Exact.NP.swapOutScan]
    simp only [swapOutScanOps] at h
    by_cases hc : (procAt s.proc j).is_completed ≠ 0 ∧ (procAt s.proc j).is_swapped = 0
    · rw [if_pos hc] at h ⊢
      rw [if_pos hc]
      by_cases hb : (swapOut s j).available_memory
          ≥ (procAt (swapOut s j).proc idx).memory_required
      · rw [if_pos hb] at h
        have e := np_swapOut_exact s j h
        rw [if_pos hb, ← e, if_pos hb]
      · rw [if_neg hb] at h
        have e := np_swapOut_exact s j (forall_mem_append_left h)
        rw [if_neg hb, ← e, if_neg hb]
        exact ih _ (forall_mem_append_right h)
    · rw [if_neg hc] at h ⊢
      rw [if_neg hc]
      exact ih _ h

theorem np_makeRoom_exact (s : State) (idx : Nat) (h : ∀ x ∈ makeRoomOps s idx, InInt x) :
    makeRoom s idx = Exact.NP.makeRoom s idx := by
  unfold makeRoom Exact.NP.makeRoom
  unfold makeRoomOps at h
  split
  · rename_i hc
    rw [if_pos hc] at h
    exact np_swapOutScan_exact idx _ s h
  · rfl

theorem np_swapIn_exact (s : State) (idx : Nat) (h : ∀ x ∈ swapInOps s idx, InInt x) :
    swapIn s idx = Exact.NP.swapIn s idx := by
  have h1 := h (s.current_time + SWAP_TIME) (by simp [swapInOps])
  have h2 := h (s.available_memory - (procAt s.proc idx).memory_required) (by simp [swapInOps])
  have h4 := h (wrap (s.current_time + SWAP_TIME) - (procAt s.proc idx).arrival_time)
    (by simp [swapInOps])
  rw [wrap_of_inInt h1] at h4
  unfold swapIn Exact.NP.swapIn
  simp only [wrap_of_inInt h1, wrap_of_inInt h2, wrap_of_inInt h4]

theorem np_execute_exact (s : State) (idx : Nat) (h : ∀ x ∈ executeOps s idx, InInt x) :
    execute s idx = Exact.NP.execute s idx := by
  have h1 := h (s.current_time + (procAt s.proc idx).burst_time) (by simp [executeOps])
  have h2 := h (wrap (s.current_time + (procAt s.proc idx).burst_time)
    - (procAt s.proc idx).arrival_time) (by simp [executeOps])
  have h3 := h (wrap (wrap (s.current_time + (procAt s.proc idx).burst_time)
    - (procAt s.proc idx).arrival_time) - (procAt s.proc idx).burst_time) (by simp [executeOps])
  rw [wrap_of_inInt h1] at h2 h3
  rw [wrap_of_inInt h2] at h3
  unfold execute Exact.NP.execute
  simp only [wrap_of_inInt h1, wrap_of_inInt h2, wrap_of_inInt h3]

theorem np_dispatch_exact (s : State) (idx : Nat) (h : ∀ x ∈ dispatchOps s idx, InInt x) :
    makeRoom s idx = Exact.NP.makeRoom s idx ∧ dispatch s idx = Exact.NP.dispatch s idx := by
  unfold dispatchOps at h
  have e1 := np_makeRoom_exact s idx (forall_mem_append_left (forall_mem_append_left h))
  have e2 := np_swapIn_exact (makeRoom s idx) idx
    (forall_mem_append_right (forall_mem_append_left h))
  have e3 := np_execute_exact (swapIn (makeRoom s idx) idx) idx (forall_mem_append_right h)
  refine ⟨e1, ?_⟩
  unfold dispatch Exact.NP.dispatch
  rw [e3, e2, e1]

theorem np_step_exact (select : List Process → Int → Int) (s : State)
    (h : ∀ x ∈ stepOps select s, InInt x) :
    NP.step select s = Exact.NP.step select s
      ∧ (select s.proc s.current_time ≠ -1 →
          makeRoom s (select s.proc s.current_time).toNat
            = Exact.NP.makeRoom s (select s.proc s.current_time).toNat
          ∧ dispatch s (select s.proc s.current_time).toNat
            = Exact.NP.dispatch s (select s.proc s.current_time).toNat) := by
  unfold stepOps at h
  unfold NP.step Exact.NP.step
  by_cases hc : select s.proc s.current_time = -1
  · rw [if_pos hc] at h
    have h1 := h (s.current_time + 1) (by simp)
    rw [if_pos hc, if_pos hc, wrap_of_inInt h1]
    exact ⟨rfl, fun hn => absurd hc hn⟩
  · rw [if_neg hc] at h
    rw [if_neg hc, if_neg hc]
    exact ⟨(np_dispatch_exact s _ h).2, fun _ => np_dispatch_exact s _ h⟩

theorem np_reach_exact {select : List Process → Int → Int} {proc : List Process} {total : Int}
    {s : State} (h : NoOverflow select proc total)
    (hr : Reach select (NP.init proc total) s) :
    Exact.NP.Reach select (NP.init proc total) s := by
  induction hr with
  | init => exact Exact.NP.Reach.init
  | step hs hc ih =>
    rw [(np_step_exact select _ (h _ hs hc)).1]
    exact Exact.NP.Reach.step ih hc

theorem np_loop_exact {select : List Process → Int → Int} {proc : List Process} {total : Int}
    (h : NoOverflow select proc total) (fuel : Nat) (s : State)
    (hs : Reach select (NP.init proc total) s) :
    loop select fuel s = Exact.NP.loop select fuel s := by
  induction fuel generalizing s with
  | zero => rfl
  | succ fuel ih =>
    simp only [loop, Exact.NP.loop]
    by_cases hc : s.completed < s.proc.length
    · rw [if_pos hc, if_pos hc, ← (np_step_exact select s (h s hs hc)).1]
      exact ih _ (Reach.step hs hc)
    · rw [if_neg hc, if_neg hc]

theorem np_run_reach {select : List Process → Int → Int} {s0 : State} (fuel : Nat) {s r : State}
    (hs : Reach select s0 s) (h : loop select fuel s = some r) :
    Reach select s0 r ∧ r.proc.length ≤ r.completed := by
  induction fuel generalizing s with
  | zero =>
    simp only [loop] at h
    split at h
    · simp at h
    · simp only [Option.some.injEq] at h; subst h; exact ⟨hs, by omega⟩
  | succ fuel ih =>
    simp only [loop] at h
    split at h
    · rename_i hc; exact ih (Reach.step hs hc) h
    · simp only [Option.some.injEq] at h; subst h; exact ⟨hs, by omega⟩

/-- A run that exits within `fuel` iterations, all of whose operations give `int` values, has
no overflow. -/
theorem np_noOverflow_of_runOps {select : List Process → Int → Int} {proc : List Process}
    {total : Int} (fuel : Nat) (hret : (loop select fuel (NP.init proc total)).isSome = true)
    (hops : ∀ x ∈ runOps select fuel (NP.init proc total), InInt x) :
    NoOverflow select proc total := by
  have key : ∀ s, Reach select (NP.init proc total) s →
      ∃ f, (loop select f s).isSome = true ∧ ∀ x ∈ runOps select f s, InInt x := by
    intro s hr
    induction hr with
    | init => exact ⟨fuel, hret, hops⟩
    | step hs hc ih =>
      obtain ⟨f, h1, h2⟩ := ih
      cases f with
      | zero => simp [loop, hc] at h1
      | succ f =>
        simp only [loop, if_pos hc] at h1
        simp only [runOps, if_pos hc] at h2
        exact ⟨f, h1, forall_mem_append_right h2⟩
  intro s hr hc
  obtain ⟨f, h1, h2⟩ := key s hr
  cases f with
  | zero => simp [loop, hc] at h1
  | succ f =>
    simp only [runOps, if_pos hc] at h2
    exact forall_mem_append_left h2

end NP

namespace SJF

theorem calculate_sjf_exact {oob : Process} {proc : List Process} {total : Int}
    (h : NP.NoOverflow (select oob) proc total) (fuel : Nat) :
    calculate_sjf oob proc total fuel = Exact.SJF.calculate_sjf oob proc total fuel :=
  NP.np_loop_exact h fuel _ NP.Reach.init

end SJF

namespace PS

theorem calculate_priority_exact {proc : List Process} {total : Int}
    (h : NP.NoOverflow select proc total) (fuel : Nat) :
    calculate_priority proc total fuel = Exact.PS.calculate_priority proc total fuel :=
  NP.np_loop_exact h fuel _ NP.Reach.init

end PS

namespace RR

theorem rr_swapOut_exact (s : State) (j : Nat) (h : ∀ x ∈ swapOutOps s j, InInt x) :
    swapOut s j = Exact.RR.swapOut s j := by
  have h1 := h (s.available_memory + (procAt s.proc j).memory_required) (by simp [swapOutOps])
  have h2 := h (s.current_time + SWAP_TIME) (by simp [swapOutOps])
  unfold swapOut Exact.RR.swapOut
  simp only [wrap_of_inInt h1, wrap_of_inInt h2]

theorem rr_swapOutScan_exact (idx : Nat) (js : List Nat) (s : State)
    (h : ∀ x ∈ swapOutScanOps idx js s, InInt x) :
    swapOutScan idx js s = Exact.RR.swapOutScan idx js s := by
  induction js generalizing s with
  | nil => rfl
  | cons j js ih =>
    simp only [swapOutScan, Exact.RR.swapOutScan]
    simp only [swapOutScanOps] at h
    by_cases hc : (procAt s.proc j).remaining_time = 0 ∧ (procAt s.proc j).is_swapped = 0
    · rw [if_pos hc] at h ⊢
      rw [if_pos hc]
      by_cases hb : (swapOut s j).available_memory
          ≥ (procAt (swapOut s j).proc idx).memory_required
      · rw [if_pos hb] at h
        have e := rr_swapOut_exact s j h
        rw [if_pos hb, ← e, if_pos hb]
      · rw [if_neg hb] at h
        have e := rr_swapOut_exact s j (forall_mem_append_left h)
        rw [if_neg hb, ← e, if_neg hb]
        exact ih _ (forall_mem_append_right h)
    · rw [if_neg hc] at h ⊢
      rw [if_neg hc]
      exact ih _ h

theorem rr_makeRoom_exact (s : State) (idx : Nat) (h : ∀ x ∈ makeRoomOps s idx, InInt x) :
    makeRoom s idx = Exact.RR.makeRoom s idx := by
  unfold makeRoom Exact.RR.makeRoom
  unfold makeRoomOps at h
  split
  · rename_i hc
    rw [if_pos hc] at h
    exact rr_swapOutScan_exact idx _ s h
  · rfl

theorem rr_swapIn_exact (s : State) (idx : Nat) (h : ∀ x ∈ swapInOps s idx, InInt x) :
    swapIn s idx = Exact.RR.swapIn s idx := by
  have h1 := h (s.current_time + SWAP_TIME) (by simp [swapInOps])
  have h2 := h ((procAt s.proc idx).total_swap_time + SWAP_TIME) (by simp [swapInOps])
  have h3 := h (s.available_memory - (procAt s.proc idx).memory_required) (by simp [swapInOps])
  unfold swapIn Exact.RR.swapIn
  simp only [wrap_of_inInt h1, wrap_of_inInt h2, wrap_of_inInt h3]

theorem admission_exact (s : State) (idx : Nat) (h : ∀ x ∈ admissionOps s idx, InInt x) :
    admission s idx = Exact.RR.admission s idx
      ∧ ((procAt s.proc idx).remaining_time = (procAt s.proc idx).burst_time →
          makeRoom s idx = Exact.RR.makeRoom s idx) := by
  unfold admission Exact.RR.admission
  unfold admissionOps at h
  by_cases hc : (procAt s.proc idx).remaining_time = (procAt s.proc idx).burst_time
  · rw [if_pos hc] at h
    have e1 := rr_makeRoom_exact s idx (forall_mem_append_left h)
    have e2 := rr_swapIn_exact (makeRoom s idx) idx (forall_mem_append_right h)
    rw [if_pos hc, if_pos hc, e2]
    exact ⟨by rw [e1], fun _ => e1⟩
  · rw [if_neg hc, if_neg hc]
    exact ⟨rfl, fun hn => absurd hn hc⟩

theorem firstExec_exact (s : State) (idx : Nat) (h : ∀ x ∈ firstExecOps s idx, InInt x) :
    firstExec s idx = Exact.RR.firstExec s idx := by
  unfold firstExec Exact.RR.firstExec
  unfold firstExecOps at h
  by_cases hc : (procAt s.proc idx).first_execution = 0
  · rw [if_pos hc] at h
    have h1 := h (s.current_time - (procAt s.proc idx).arrival_time) (by simp)
    rw [if_pos hc, if_pos hc]
    simp only [wrap_of_inInt h1]
  · rw [if_neg hc, if_neg hc]

theorem runSlice_exact (s : State) (idx : Nat) (tq : Int)
    (h : ∀ x ∈ runSliceOps s idx tq, InInt x) :
    runSlice s idx tq = Exact.RR.runSlice s idx tq := by
  have h1 := h (s.current_time + exec_time s idx tq) (by simp [runSliceOps])
  unfold runSlice Exact.RR.runSlice
  simp only [wrap_of_inInt h1]

theorem finish_exact (s : State) (idx : Nat) (h : ∀ x ∈ finishOps s idx, InInt x) :
    finish s idx = Exact.RR.finish s idx := by
  unfold finish Exact.RR.finish
  unfold finishOps at h
  by_cases hc : (procAt s.proc idx).remaining_time > 0
  · rw [if_pos hc, if_pos hc]
  · rw [if_neg hc] at h
    have h1 := h (s.current_time - (procAt s.proc idx).arrival_time) (by simp)
    have h2 := h (wrap (s.current_time - (procAt s.proc idx).arrival_time)
      - (procAt s.proc idx).burst_time) (by simp)
    rw [wrap_of_inInt h1] at h2
    rw [if_neg hc, if_neg hc]
    simp only [wrap_of_inInt h1, wrap_of_inInt h2]

/-- A dispatch without overflow is the dispatch over the mathematical integers, and so are its
intermediate states. -/
theorem rr_dispatch_exact (tq : Int) (s : State) (h : ∀ x ∈ dispatchOps tq s, InInt x) :
    admission { s with front := s.front + 1 } (queueAt s.queue s.front)
        = Exact.RR.admission { s with front := s.front + 1 } (queueAt s.queue s.front)
      ∧ ((procAt s.proc (queueAt s.queue s.front)).remaining_time
            = (procAt s.proc (queueAt s.queue s.front)).burst_time →
          makeRoom { s with front := s.front + 1 } (queueAt s.queue s.front)
            = Exact.RR.makeRoom { s with front := s.front + 1 } (queueAt s.queue s.front))
      ∧ runSlice (firstExec (admission { s with front := s.front + 1 }
            (queueAt s.queue s.front)) (queueAt s.queue s.front)) (queueAt s.queue s.front) tq
          = Exact.RR.runSlice (Exact.RR.firstExec (Exact.RR.admission
              { s with front := s.front + 1 } (queueAt s.queue s.front))
              (queueAt s.queue s.front)) (queueAt s.queue s.front) tq
      ∧ dispatch tq s = Exact.RR.dispatch tq s := by
  simp only [dispatchOps] at h
  have e1 := admission_exact { s with front := s.front + 1 } (queueAt s.queue s.front)
    (forall_mem_append_left (forall_mem_append_left (forall_mem_append_left h)))
  have e2 := firstExec_exact _ (queueAt s.queue s.front)
    (forall_mem_append_right (forall_mem_append_left (forall_mem_append_left h)))
  have e3 := runSlice_exact _ (queueAt s.queue s.front) tq
    (forall_mem_append_right (forall_mem_append_left h))
  have e4 := finish_exact _ (queueAt s.queue s.front) (forall_mem_append_right h)
  have e5 : runSlice (firstExec (admission { s with front := s.front + 1 }
        (queueAt s.queue s.front)) (queueAt s.queue s.front)) (queueAt s.queue s.front) tq
      = Exact.RR.runSlice (Exact.RR.firstExec (Exact.RR.admission
          { s with front := s.front + 1 } (queueAt s.queue s.front))
          (queueAt s.queue s.front)) (queueAt s.queue s.front) tq := by
    rw [e3, e2, e1.1]
  refine ⟨e1.1, e1.2, e5, ?_⟩
  show finish (enqueueArrivalsRem (runSlice (firstExec (admission { s with front := s.front + 1 }
        (queueAt s.queue s.front)) (queueAt s.queue s.front)) (queueAt s.queue s.front) tq))
      (queueAt s.queue s.front) = _
  rw [e4, e5]
  rfl

theorem idle_exact (s : State) (h : InInt (s.current_time + 1)) : idle s = Exact.RR.idle s := by
  unfold idle Exact.RR.idle
  rw [wrap_of_inInt h]

theorem rr_step_exact (tq : Int) (s : State) (h : ∀ x ∈ stepOps tq s, InInt x) :
    RR.step tq s = Exact.RR.step tq s := by
  unfold stepOps at h
  unfold RR.step Exact.RR.step
  by_cases hc : s.front = s.queue.length
  · rw [if_pos hc] at h
    rw [if_pos hc, if_pos hc]
    exact idle_exact s (h _ (by simp))
  · rw [if_neg hc] at h
    rw [if_neg hc, if_neg hc]
    exact (rr_dispatch_exact tq s h).2.2.2

theorem stepOps_dispatch {tq : Int} {s : State} (hf : s.front ≠ s.queue.length)
    (h : ∀ x ∈ stepOps tq s, InInt x) : ∀ x ∈ dispatchOps tq s, InInt x := by
  unfold stepOps at h
  rw [if_neg hf] at h
  exact h

theorem rr_reach_exact {tq : Int} {proc : List Process} {total : Int} {s : State}
    (h : NoOverflow tq proc total) (hr : Reach tq (RR.init proc total) s) :
    Exact.RR.Reach tq (RR.init proc total) s := by
  induction hr with
  | init => exact Exact.RR.Reach.init
  | step hs hc ih =>
    rw [rr_step_exact tq _ (h _ hs hc)]
    exact Exact.RR.Reach.step ih hc

theorem rr_run_reach {tq : Int} {s0 : State} (fuel : Nat) {s r : State}
    (hs : Reach tq s0 s) (h : loop tq fuel s = some r) :
    Reach tq s0 r ∧ r.proc.length ≤ r.completed := by
  induction fuel generalizing s with
  | zero =>
    simp only [loop] at h
    split at h
    · simp at h
    · simp only [Option.some.injEq] at h; subst h; exact ⟨hs, by omega⟩
  | succ fuel ih =>
    simp only [loop] at h
    split at h
    · rename_i hc
      split at h
      · exact ih (Reach.step hs hc) h
      · simp at h
    · simp only [Option.some.injEq] at h; subst h; exact ⟨hs, by omega⟩

/-- What the loop of `calculate_rr` returns, the loop over the mathematical integers returns
too, when the run has no overflow. -/
theorem loop_some_exact {tq : Int} {proc : List Process} {total : Int}
    (h : NoOverflow tq proc total) (fuel : Nat) (s r : State)
    (hs : Reach tq (RR.init proc total) s) (hl : loop tq fuel s = some r) :
    Exact.RR.loop tq fuel s = some r := by
  induction fuel generalizing s with
  | zero => exact hl
  | succ fuel ih =>
    simp only [loop] at hl
    simp only [Exact.RR.loop]
    by_cases hc : s.completed < s.proc.length
    · rw [if_pos hc] at hl
      rw [if_pos hc, ← rr_step_exact tq s (h s hs hc)]
      split at hl
      · exact ih _ (Reach.step hs hc) hl
      · simp at hl
    · rw [if_neg hc] at hl
      rw [if_neg hc]
      exact hl

/-- When no reachable state holds more than `QUEUE_SIZE` queue entries and the run has no
overflow, the loop of `calculate_rr` returns what the loop over the mathematical integers
returns. -/
theorem rr_loop_exact {tq : Int} {proc : List Process} {total : Int}
    (h : NoOverflow tq proc total)
    (hcap : ∀ s, Reach tq (RR.init proc total) s → s.queue.length ≤ QUEUE_SIZE)
    (fuel : Nat) (s : State) (hs : Reach tq (RR.init proc total) s) :
    loop tq fuel s = Exact.RR.loop tq fuel s := by
  induction fuel generalizing s with
  | zero => rfl
  | succ fuel ih =>
    simp only [loop, Exact.RR.loop]
    by_cases hc : s.completed < s.proc.length
    · rw [if_pos hc, if_pos hc, if_pos (hcap _ (Reach.step hs hc)),
        ← rr_step_exact tq s (h s hs hc)]
      exact ih _ (Reach.step hs hc)
    · rw [if_neg hc, if_neg hc]

/-- A run that exits within `fuel` iterations, all of whose operations give `int` values, has
no overflow. -/
theorem rr_noOverflow_of_runOps {tq : Int} {proc : List Process} {total : Int} (fuel : Nat)
    (hret : (loop tq fuel (RR.init proc total)).isSome = true)
    (hops : ∀ x ∈ runOps tq fuel (RR.init proc total), InInt x) :
    NoOverflow tq proc total := by
  have key : ∀ s, Reach tq (RR.init proc total) s →
      ∃ f, (loop tq f s).isSome = true ∧ ∀ x ∈ runOps tq f s, InInt x := by
    intro s hr
    induction hr with
    | init => exact ⟨fuel, hret, hops⟩
    | step hs hc ih =>
      obtain ⟨f, h1, h2⟩ := ih
      cases f with
      | zero => simp [loop, hc] at h1
      | succ f =>
        simp only [loop, if_pos hc] at h1
        simp only [runOps, if_pos hc] at h2
        split at h1
        · exact ⟨f, h1, forall_mem_append_right h2⟩
        · simp at h1
  intro s hr hc
  obtain ⟨f, h1, h2⟩ := key s hr
  cases f with
  | zero => simp [loop, hc] at h1
  | succ f =>
    simp only [runOps, if_pos hc] at h2
    exact forall_mem_append_left h2

end RR

namespace RR

theorem calculate_rr_some_exact {tq : Int} {proc : List Process} {total : Int}
    (h : NoOverflow tq proc total) {fuel : Nat} {r : State}
    (hr : calculate_rr proc total tq fuel = some r) :
    Exact.RR.calculate_rr proc total tq fuel = some r
      ∧ Reach tq (RR.init proc total) r ∧ proc.length ≤ MAX_PROCESSES := by
  unfold calculate_rr at hr
  split at hr
  · rename_i hn
    exact ⟨loop_some_exact h fuel _ r Reach.init hr, (rr_run_reach fuel Reach.init hr).1, hn⟩
  · simp at hr

theorem calculate_rr_reach {tq : Int} {proc : List Process} {total : Int} {fuel : Nat}
    {r : State} (hr : calculate_rr proc total tq fuel = some r) :
    Reach tq (RR.init proc total) r ∧ r.proc.length ≤ r.completed := by
  unfold calculate_rr at hr
  split at hr
  · exact rr_run_reach fuel Reach.init hr
  · simp at hr

/-- The queue of a run without overflow never holds more than `totalSlices` entries. -/
theorem rear_le_totalSlices {tq : Int} {proc : List Process} {total : Int}
    (h : NoOverflow tq proc total) (htq : 0 < tq)
    (hfresh : ∀ p ∈ proc, Fresh p) (hburst : ∀ p ∈ proc, 0 < p.burst_time)
    {s : State} (hs : Reach tq (RR.init proc total) s) :
    (s.queue.length : Int) ≤ totalSlices proc tq :=
  Exact.RR.rr_rear_le htq hfresh hburst (rr_reach_exact h hs)

/-- The loop of `calculate_rr` exits when the run has no overflow and the arrays `visited` and
`queue` are large enough for it. -/
theorem calculate_rr_returns {tq : Int} {proc : List Process} {total : Int}
    (h : NoOverflow tq proc total) (htq : 0 < tq)
    (hfresh : ∀ p ∈ proc, Fresh p) (hburst : ∀ p ∈ proc, 0 < p.burst_time)
    (hn : proc.length ≤ MAX_PROCESSES) (hq : totalSlices proc tq ≤ (QUEUE_SIZE : Int)) :
    ∃ fuel r, calculate_rr proc total tq fuel = some r
      ∧ Exact.RR.calculate_rr proc total tq fuel = some r := by
  obtain ⟨fuel, r, hr⟩ := Exact.RR.rr_terminates proc total tq htq hfresh hburst
  refine ⟨fuel, r, ?_, hr⟩
  unfold calculate_rr
  rw [if_pos hn, rr_loop_exact h (fun s hs => ?_) fuel _ Reach.init]
  · exact hr
  · have := rear_le_totalSlices h htq hfresh hburst hs
    omega

end RR

/-! ## The demo runs have no overflow -/

theorem demo_fcfs_noOverflow : FCFS.NoOverflow demoProcesses 6000 := by
  set_option maxRecDepth 100000 in decide

theorem demo_sjf_noOverflow : NP.NoOverflow (SJF.select default) demoProcesses 6000 :=
  NP.np_noOverflow_of_runOps 20 (by set_option maxRecDepth 100000 in decide)
    (by set_option maxRecDepth 100000 in decide)

theorem demo_ps_noOverflow : NP.NoOverflow PS.select demoProcesses 6000 :=
  NP.np_noOverflow_of_runOps 20 (by set_option maxRecDepth 100000 in decide)
    (by set_option maxRecDepth 100000 in decide)

theorem demo_rr_noOverflow : RR.NoOverflow 3 demoProcesses 6000 :=
  RR.rr_noOverflow_of_runOps 30 (by set_option maxRecDepth 100000 in decide)
    (by set_option maxRecDepth 100000 in decide)

namespace FCFS

/-- Iteration `k` of a run of `calculate_fcfs` without overflow is iteration `k` of the run over
the mathematical integers, intermediate states included. -/
theorem fcfs_iteration_exact (proc : List Process) (total : Int) (h : NoOverflow proc total) (k : Nat)
    (hk : k < proc.length) :
    stateAt proc total k = Exact.FCFS.stateAt proc total k
      ∧ stateAt proc total (k + 1) = Exact.FCFS.stateAt proc total (k + 1)
      ∧ afterEviction (Exact.FCFS.stateAt proc total k) k
          = Exact.FCFS.afterEviction (Exact.FCFS.stateAt proc total k) k
      ∧ body (Exact.FCFS.stateAt proc total k) k
          = Exact.FCFS.body (Exact.FCFS.stateAt proc total k) k
      ∧ startOf (Exact.FCFS.stateAt proc total k) k
          = Exact.FCFS.startOf (Exact.FCFS.stateAt proc total k) k
      ∧ (DegradedOutcome (Exact.FCFS.stateAt proc total k) k
          ↔ Exact.FCFS.DegradedOutcome (Exact.FCFS.stateAt proc total k) k) := by
  have e0 := stateAt_exact proc total h k (by omega)
  have e1 := stateAt_exact proc total h (k + 1) (by omega)
  have hb := body_exact _ k (h k hk)
  rw [e0] at hb
  have ea : afterEviction (Exact.FCFS.stateAt proc total k) k
      = Exact.FCFS.afterEviction (Exact.FCFS.stateAt proc total k) k := hb.1
  refine ⟨e0, e1, ea, hb.2.2, ?_, ?_⟩
  · unfold startOf Exact.FCFS.startOf
    rw [hb.1]
  · unfold DegradedOutcome Exact.FCFS.DegradedOutcome
    rw [ea, hb.2.2]

end FCFS

namespace NP

/-- An iteration without overflow is the iteration over the mathematical integers. -/
theorem np_iteration_exact (select : List Process → Int → Int) (s : State)
    (h : ∀ x ∈ stepOps select s, InInt x) (hsel : select s.proc s.current_time ≠ -1) :
    NP.step select s = Exact.NP.step select s
      ∧ makeRoom s (select s.proc s.current_time).toNat
          = Exact.NP.makeRoom s (select s.proc s.current_time).toNat
      ∧ dispatch s (select s.proc s.current_time).toNat
          = Exact.NP.dispatch s (select s.proc s.current_time).toNat
      ∧ startOf s (select s.proc s.current_time).toNat
          = Exact.NP.startOf s (select s.proc s.current_time).toNat
      ∧ (DegradedOutcome s (select s.proc s.current_time).toNat
          ↔ Exact.NP.DegradedOutcome s (select s.proc s.current_time).toNat) := by
  obtain ⟨e1, e2⟩ := np_step_exact select s h
  obtain ⟨e3, e4⟩ := e2 hsel
  refine ⟨e1, e3, e4, ?_, ?_⟩
  · unfold startOf Exact.NP.startOf
    rw [e3]
  · unfold DegradedOutcome Exact.NP.DegradedOutcome
    rw [e3, e4]

theorem dispatch_vocab_exact (s : State) (idx : Nat) (h : ∀ x ∈ dispatchOps s idx, InInt x) :
    makeRoom s idx = Exact.NP.makeRoom s idx ∧ dispatch s idx = Exact.NP.dispatch s idx
      ∧ startOf s idx = Exact.NP.startOf s idx
      ∧ (DegradedOutcome s idx ↔ Exact.NP.DegradedOutcome s idx) := by
  obtain ⟨e3, e4⟩ := np_dispatch_exact s idx h
  refine ⟨e3, e4, ?_, ?_⟩
  · unfold startOf Exact.NP.startOf
    rw [e3]
  · unfold DegradedOutcome Exact.NP.DegradedOutcome
    rw [e3, e4]

end NP

namespace RR

/-- A dispatch without overflow is the dispatch over the mathematical integers, intermediate
states included. -/
theorem rr_iteration_exact (tq : Int) (s : State) (h : ∀ x ∈ stepOps tq s, InInt x)
    (hf : s.front ≠ s.queue.length) :
    RR.step tq s = Exact.RR.step tq s
      ∧ dispatch tq s = Exact.RR.dispatch tq s
      ∧ afterAdmission s = Exact.RR.afterAdmission s
      ∧ afterSlice tq s = Exact.RR.afterSlice tq s
      ∧ finalRec tq s = Exact.RR.finalRec tq s
      ∧ (∀ j, preemptions tq s j = Exact.RR.preemptions tq s j)
      ∧ ((procAt s.proc (queueAt s.queue s.front)).remaining_time
            = (procAt s.proc (queueAt s.queue s.front)).burst_time →
          afterEviction s = Exact.RR.afterEviction s
            ∧ (DegradedOutcome tq s ↔ Exact.RR.DegradedOutcome tq s)) := by
  have e0 := rr_step_exact tq s h
  obtain ⟨e1, e2, e3, e4⟩ := rr_dispatch_exact tq s (stepOps_dispatch hf h)
  have ea : afterAdmission s = Exact.RR.afterAdmission s := e1
  have es : afterSlice tq s = Exact.RR.afterSlice tq s := e3
  refine ⟨e0, e4, ea, es, ?_, fun j => ?_, fun hfirst => ?_⟩
  · unfold finalRec Exact.RR.finalRec
    rw [ea]
  · unfold preemptions Exact.RR.preemptions
    rw [e0]
  · have ee : afterEviction s = Exact.RR.afterEviction s := e2 hfirst
    refine ⟨ee, ?_⟩
    unfold DegradedOutcome Exact.RR.DegradedOutcome
    rw [ee, e4]

theorem idle_preemptions (tq : Int) (s : State) (hf : s.front = s.queue.length) (j : Nat) :
    preemptions tq s j = 0 := by
  unfold preemptions
  rw [if_neg (fun hc => hc.1 hf)]

end RR

namespace NP

theorem np_reach_steps (select : List Process → Int → Int) (s0 : State) (k : Nat)
    (h : ∀ m, m < k →
      ((NP.step select)^[m] s0).completed < ((NP.step select)^[m] s0).proc.length) :
    Reach select s0 ((NP.step select)^[k] s0) := by
  induction k with
  | zero => exact Reach.init
  | succ k ih =>
    rw [Function.iterate_succ_apply']
    exact Reach.step (ih (fun m hm => h m (by omega))) (h k (by omega))

end NP

namespace RR

theorem rr_reach_steps (tq : Int) (s0 : State) (k : Nat)
    (h : ∀ m, m < k →
      ((RR.step tq)^[m] s0).completed < ((RR.step tq)^[m] s0).proc.length) :
    Reach tq s0 ((RR.step tq)^[k] s0) := by
  induction k with
  | zero => exact Reach.init
  | succ k ih =>
    rw [Function.iterate_succ_apply']
    exact Reach.step (ih (fun m hm => h m (by omega))) (h k (by omega))

end RR
/-! ## The demo runs return -/

theorem demo_sjf_isSome : (SJF.calculate_sjf default demoProcesses 6000 20).isSome = true := by
  decide

theorem demo_ps_isSome : (PS.calculate_priority demoProcesses 6000 20).isSome = true := by
  decide

theorem demo_rr_isSome : (RR.calculate_rr demoProcesses 6000 3 30).isSome = true := by
  decide

theorem foldl_wrap_exact (f : Process → Int) (l : List Process) (acc : Int)
    (h : ∀ x ∈ sumOps f acc l, InInt x) :
    l.foldl (fun a p => wrap (a + f p)) acc = l.foldl (fun a p => a + f p) acc := by
  induction l generalizing acc with
  | nil => rfl
  | cons p ps ih =>
    have h1 : wrap (acc + f p) = acc + f p := wrap_of_inInt (h _ (by simp [sumOps]))
    simp only [List.foldl_cons]
    rw [h1]
    apply ih
    intro x hx
    apply h
    simp only [sumOps, List.mem_cons]
    right
    rw [h1]
    exact hx

theorem total_burst_exact (proc : List Process) (h : ∀ x ∈ total_burstOps proc, InInt x) :
    total_burst proc = Exact.total_burst proc :=
  foldl_wrap_exact (fun p => p.burst_time) proc 0 h

theorem utilizationOK_exact (proc : List Process) (m : Int)
    (h : ∀ x ∈ total_burstOps proc, InInt x) :
    UtilizationOK proc m ↔ Exact.UtilizationOK proc m := by
  unfold UtilizationOK Exact.UtilizationOK
  rw [total_burst_exact proc h]

/-! ## Frame properties of the `int` model

The statements of this part hold of every run, with or without overflow: they are about which
fields an operation writes, not about the values of the clock or of the memory. -/

theorem is_swapped_set_same (l : List Process) (i m : Nat) (p : Process)
    (h : p.is_swapped = (procAt l i).is_swapped) :
    (procAt (l.set i p) m).is_swapped = (procAt l m).is_swapped := by
  rw [Exact.procAt_set]
  split
  · rename_i hc; rw [hc.1, h]
  · rfl

namespace FCFS

theorem swapOut_frame (s : State) (j m : Nat) :
    (swapOut s j).proc.length = s.proc.length
      ∧ noSwap (procAt (swapOut s j).proc m) = noSwap (procAt s.proc m)
      ∧ (m ≠ j → procAt (swapOut s j).proc m = procAt s.proc m)
      ∧ ((procAt (swapOut s j).proc m).is_swapped ≠ (procAt s.proc m).is_swapped →
          m = j ∧ (procAt (swapOut s j).proc m).is_swapped = 1) := by
  refine ⟨by simp [swapOut], ?_, fun hm => ?_, fun hne => ?_⟩
  · simp only [swapOut, Exact.procAt_set]
    split
    · rename_i h; rw [h.1]; rfl
    · rfl
  · simp [swapOut, Exact.procAt_set, hm]
  · simp only [swapOut, Exact.procAt_set] at hne ⊢
    split at hne
    · rename_i h; rw [if_pos h]; exact ⟨h.1, rfl⟩
    · exact absurd rfl hne

/-- The eviction scan of `calculate_fcfs` writes only the swap-out fields, and only of records
among the scanned indices that have `completion_time > 0` and were not swapped out. -/
theorem swapOutScan_frame (i : Nat) (js : List Nat) (s : State) (m : Nat) :
    (swapOutScan i js s).proc.length = s.proc.length
      ∧ noSwap (procAt (swapOutScan i js s).proc m) = noSwap (procAt s.proc m)
      ∧ (m ∉ js → procAt (swapOutScan i js s).proc m = procAt s.proc m)
      ∧ ((procAt s.proc m).is_swapped ≠ 0 →
          procAt (swapOutScan i js s).proc m = procAt s.proc m)
      ∧ ((procAt (swapOutScan i js s).proc m).is_swapped ≠ (procAt s.proc m).is_swapped →
          m ∈ js ∧ 0 < (procAt s.proc m).completion_time
            ∧ (procAt s.proc m).is_swapped = 0
            ∧ (procAt (swapOutScan i js s).proc m).is_swapped = 1) := by
  induction js generalizing s with
  | nil => exact ⟨rfl, rfl, fun _ => rfl, fun _ => rfl, fun h => absurd rfl h⟩
  | cons j js ih =>
    obtain ⟨o1, o2, o3, o4⟩ := swapOut_frame s j m
    have hone : (procAt (swapOut s j).proc m).is_swapped ≠ (procAt s.proc m).is_swapped →
        (procAt s.proc j).completion_time > 0 ∧ (procAt s.proc j).is_swapped = 0 →
        m ∈ j :: js ∧ 0 < (procAt s.proc m).completion_time
          ∧ (procAt s.proc m).is_swapped = 0
          ∧ (procAt (swapOut s j).proc m).is_swapped = 1 := by
      intro hne hc
      obtain ⟨e, h1⟩ := o4 hne
      subst e
      exact ⟨by simp, hc.1, hc.2, h1⟩
    simp only [swapOutScan]
    split
    · rename_i hc
      have hkeep : (procAt s.proc m).is_swapped ≠ 0 →
          procAt (swapOut s j).proc m = procAt s.proc m := by
        intro hsw
        apply o3
        intro e
        subst e
        exact hsw hc.2.2
      split
      · exact ⟨o1, o2, fun hm => o3 (fun e => hm (by simp [e])), hkeep,
          fun hne => hone hne ⟨hc.1, hc.2.2⟩⟩
      · obtain ⟨i1, i2, i3, i4, i5⟩ := ih (swapOut s j)
        refine ⟨by rw [i1, o1], by rw [i2, o2], fun hm => ?_, fun hsw => ?_, fun hne => ?_⟩
        · rw [i3 (fun e => hm (by simp [e])), o3 (fun e => hm (by simp [e]))]
        · rw [i4 (by rw [hkeep hsw]; exact hsw), hkeep hsw]
        · by_cases h1 : (procAt (swapOut s j).proc m).is_swapped = (procAt s.proc m).is_swapped
          · rw [← h1] at hne
            obtain ⟨a1, a2, a3, a4⟩ := i5 hne
            have e := congrArg Process.completion_time o2
            simp only [noSwap] at e
            exact ⟨by simp [a1], by rw [← e]; exact a2, by rw [← h1]; exact a3, a4⟩
          · obtain ⟨b1, b2, b3, b4⟩ := hone h1 ⟨hc.1, hc.2.2⟩
            refine ⟨b1, b2, b3, ?_⟩
            rw [i4 (by rw [b4]; decide)]
            exact b4
    · obtain ⟨i1, i2, i3, i4, i5⟩ := ih s
      refine ⟨i1, i2, fun hm => i3 (fun e => hm (by simp [e])), i4, fun hne => ?_⟩
      obtain ⟨a1, a2, a3, a4⟩ := i5 hne
      exact ⟨by simp [a1], a2, a3, a4⟩

theorem makeRoom_frame (s : State) (i m : Nat) :
    (makeRoom s i).proc.length = s.proc.length
      ∧ noSwap (procAt (makeRoom s i).proc m) = noSwap (procAt s.proc m)
      ∧ (i ≤ m → procAt (makeRoom s i).proc m = procAt s.proc m)
      ∧ ((procAt s.proc m).is_swapped ≠ 0 → procAt (makeRoom s i).proc m = procAt s.proc m)
      ∧ ((procAt (makeRoom s i).proc m).is_swapped ≠ (procAt s.proc m).is_swapped →
          m < i ∧ 0 < (procAt s.proc m).completion_time
            ∧ (procAt s.proc m).is_swapped = 0
            ∧ (procAt (makeRoom s i).proc m).is_swapped = 1) := by
  unfold makeRoom
  split
  · obtain ⟨a1, a2, a3, a4, a5⟩ := swapOutScan_frame i (List.range i) s m
    refine ⟨a1, a2, fun hm => a3 (by simp; omega), a4, fun hne => ?_⟩
    obtain ⟨b1, b2⟩ := a5 hne
    exact ⟨by simpa using b1, b2⟩
  · exact ⟨rfl, rfl, fun _ => rfl, fun _ => rfl, fun h => absurd rfl h⟩

/-- What iteration `i` of the main loop of `calculate_fcfs` does to the process array, apart from
the values of the times: it swaps in `proc[i]`, and the swap-out fields are the only fields of
another record that it writes. -/
theorem body_frame (s : State) (i m : Nat) :
    (body s i).proc.length = s.proc.length
      ∧ (m ≠ i → procAt (body s i).proc m = procAt (makeRoom (idleJump s i) i).proc m)
      ∧ (m ≠ i → noSwap (procAt (body s i).proc m) = noSwap (procAt s.proc m))
      ∧ (i < s.proc.length → (procAt (body s i).proc i).total_swap_time = SWAP_TIME)
      ∧ ((procAt s.proc m).is_swapped ≠ 0 →
          (procAt (body s i).proc m).is_swapped = (procAt s.proc m).is_swapped)
      ∧ ((procAt (body s i).proc m).is_swapped ≠ (procAt s.proc m).is_swapped →
          m < i ∧ 0 < (procAt s.proc m).completion_time
            ∧ (procAt s.proc m).is_swapped = 0
            ∧ (procAt (body s i).proc m).is_swapped = 1) := by
  obtain ⟨a1, a2, a3, a4, a5⟩ := makeRoom_frame (idleJump s i) i m
  simp only [Exact.FCFS.idleJump_proc] at a1 a2 a3 a4 a5
  have hother : m ≠ i → procAt (body s i).proc m = procAt (makeRoom (idleJump s i) i).proc m := by
    intro hm
    simp only [body, execute, swapIn]
    rw [Exact.procAt_set_ne _ _ hm, Exact.procAt_set_ne _ _ hm]
  have hflag : (procAt (body s i).proc m).is_swapped
      = (procAt (makeRoom (idleJump s i) i).proc m).is_swapped := by
    have he : ∀ t : State, (procAt (execute t i).proc m).is_swapped
        = (procAt t.proc m).is_swapped := fun t => is_swapped_set_same t.proc i m _ rfl
    have hs : ∀ t : State, (procAt (swapIn t i).proc m).is_swapped
        = (procAt t.proc m).is_swapped := fun t => is_swapped_set_same t.proc i m _ rfl
    exact (he _).trans (hs _)
  refine ⟨by simp [body, execute, swapIn, a1], hother, fun hm => by rw [hother hm]; exact a2,
    fun hi => ?_, fun hsw => by rw [hflag, a4 hsw], fun hne => ?_⟩
  · have h2 : i < (makeRoom (idleJump s i) i).proc.length := by
      rw [(makeRoom_frame (idleJump s i) i i).1]; simpa using hi
    simp only [body, execute, swapIn]
    rw [Exact.procAt_set_self _ (by simpa using h2), Exact.procAt_set_self _ h2]
  · rw [hflag] at hne ⊢
    exact a5 hne

/-- In every run of `calculate_fcfs`, after `k` iterations the first `k` processes have been
swapped in. -/
theorem stateAt_charged (proc : List Process) (total : Int) (k : Nat) (hk : k ≤ proc.length) :
    (stateAt proc total k).proc.length = proc.length
      ∧ ∀ j, j < k → (procAt (stateAt proc total k).proc j).total_swap_time = SWAP_TIME := by
  induction k with
  | zero =>
    exact ⟨Exact.FCFS.sortByArrival_length proc, fun j hj => absurd hj (Nat.not_lt_zero j)⟩
  | succ k ih =>
    obtain ⟨h1, h2⟩ := ih (by omega)
    rw [stateAt_succ]
    refine ⟨by rw [(body_frame _ k 0).1, h1], fun j hj => ?_⟩
    by_cases hjk : j = k
    · subst hjk
      exact (body_frame _ j 0).2.2.2.1 (by rw [h1]; omega)
    · have e := congrArg Process.total_swap_time ((body_frame (stateAt proc total k) k j).2.2.1 hjk)
      simp only [noSwap] at e
      rw [e]
      exact h2 j (by omega)

/-- The swap flags between two iteration boundaries of `calculate_fcfs`, in every run: a flag
that is set is left alone, and a flag that becomes set is that of an earlier process, which has
`completion_time > 0`, and becomes `1`. -/
theorem stateAt_flags (proc : List Process) (total : Int) (k : Nat) :
    SwapFlagOK (fun p => 0 < p.completion_time) (stateAt proc total k).proc
        (stateAt proc total (k + 1)).proc
      ∧ ∀ j, (procAt (stateAt proc total (k + 1)).proc j).is_swapped
          ≠ (procAt (stateAt proc total k).proc j).is_swapped → j < k := by
  rw [stateAt_succ]
  refine ⟨fun j => ⟨fun hsw => (body_frame _ k j).2.2.2.2.1 hsw, fun h0 hne => ?_⟩,
    fun j hne => ((body_frame _ k j).2.2.2.2.2 hne).1⟩
  obtain ⟨-, b2, -, b4⟩ := (body_frame (stateAt proc total k) k j).2.2.2.2.2 (by rw [h0]; exact hne)
  exact ⟨b2, b4⟩

end FCFS

namespace NP

theorem np_swapOut_frame (s : State) (j m : Nat) :
    (swapOut s j).proc.length = s.proc.length
      ∧ (swapOut s j).completed = s.completed
      ∧ noSwap (procAt (swapOut s j).proc m) = noSwap (procAt s.proc m)
      ∧ (m ≠ j → procAt (swapOut s j).proc m = procAt s.proc m)
      ∧ ((procAt (swapOut s j).proc m).is_swapped ≠ (procAt s.proc m).is_swapped →
          m = j ∧ (procAt (swapOut s j).proc m).is_swapped = 1) := by
  refine ⟨by simp [swapOut], rfl, ?_, fun hm => ?_, fun hne => ?_⟩
  · simp only [swapOut, Exact.procAt_set]
    split
    · rename_i h; rw [h.1]; rfl
    · rfl
  · simp [swapOut, Exact.procAt_set, hm]
  · simp only [swapOut, Exact.procAt_set] at hne ⊢
    split at hne
    · rename_i h; rw [if_pos h]; exact ⟨h.1, rfl⟩
    · exact absurd rfl hne

/-- The eviction scan of `calculate_sjf` / `calculate_priority` writes only the flag
`is_swapped`, and only of records that are marked completed and were not swapped out. -/
theorem np_swapOutScan_frame (idx : Nat) (js : List Nat) (s : State) (m : Nat) :
    (swapOutScan idx js s).proc.length = s.proc.length
      ∧ (swapOutScan idx js s).completed = s.completed
      ∧ noSwap (procAt (swapOutScan idx js s).proc m) = noSwap (procAt s.proc m)
      ∧ ((procAt s.proc m).is_swapped ≠ 0 ∨ (procAt s.proc m).is_completed = 0 →
          procAt (swapOutScan idx js s).proc m = procAt s.proc m)
      ∧ ((procAt (swapOutScan idx js s).proc m).is_swapped ≠ (procAt s.proc m).is_swapped →
          m ∈ js ∧ (procAt s.proc m).is_completed ≠ 0
            ∧ (procAt s.proc m).is_swapped = 0
            ∧ (procAt (swapOutScan idx js s).proc m).is_swapped = 1) := by
  induction js generalizing s with
  | nil => exact ⟨rfl, rfl, rfl, fun _ => rfl, fun h => absurd rfl h⟩
  | cons j js ih =>
    obtain ⟨o1, o0, o2, o3, o4⟩ := np_swapOut_frame s j m
    have hone : (procAt (swapOut s j).proc m).is_swapped ≠ (procAt s.proc m).is_swapped →
        (procAt s.proc j).is_completed ≠ 0 ∧ (procAt s.proc j).is_swapped = 0 →
        m ∈ j :: js ∧ (procAt s.proc m).is_completed ≠ 0
          ∧ (procAt s.proc m).is_swapped = 0
          ∧ (procAt (swapOut s j).proc m).is_swapped = 1 := by
      intro hne hc
      obtain ⟨e, h1⟩ := o4 hne
      subst e
      exact ⟨by simp, hc.1, hc.2, h1⟩
    simp only [swapOutScan]
    split
    · rename_i hc
      have hkeep : (procAt s.proc m).is_swapped ≠ 0 ∨ (procAt s.proc m).is_completed = 0 →
          procAt (swapOut s j).proc m = procAt s.proc m := by
        intro hsw
        apply o3
        intro e
        subst e
        rcases hsw with h | h
        · exact h hc.2
        · exact hc.1 h
      split
      · exact ⟨o1, o0, o2, hkeep, fun hne => hone hne hc⟩
      · obtain ⟨i1, i0, i2, i4, i5⟩ := ih (swapOut s j)
        refine ⟨by rw [i1, o1], by rw [i0, o0], by rw [i2, o2], fun hsw => ?_, fun hne => ?_⟩
        · rw [i4 (by rw [hkeep hsw]; exact hsw), hkeep hsw]
        · by_cases h1 : (procAt (swapOut s j).proc m).is_swapped = (procAt s.proc m).is_swapped
          · rw [← h1] at hne
            obtain ⟨a1, a2, a3, a4⟩ := i5 hne
            have e := congrArg Process.is_completed o2
            simp only [noSwap] at e
            exact ⟨by simp [a1], by rw [← e]; exact a2, by rw [← h1]; exact a3, a4⟩
          · obtain ⟨b1, b2, b3, b4⟩ := hone h1 hc
            refine ⟨b1, b2, b3, ?_⟩
            rw [i4 (Or.inl (by rw [b4]; decide))]
            exact b4
    · obtain ⟨i1, i0, i2, i4, i5⟩ := ih s
      refine ⟨i1, i0, i2, i4, fun hne => ?_⟩
      obtain ⟨a1, a2, a3, a4⟩ := i5 hne
      exact ⟨by simp [a1], a2, a3, a4⟩

theorem np_makeRoom_frame (s : State) (idx m : Nat) :
    (makeRoom s idx).proc.length = s.proc.length
      ∧ (makeRoom s idx).completed = s.completed
      ∧ noSwap (procAt (makeRoom s idx).proc m) = noSwap (procAt s.proc m)
      ∧ ((procAt s.proc m).is_swapped ≠ 0 ∨ (procAt s.proc m).is_completed = 0 →
          procAt (makeRoom s idx).proc m = procAt s.proc m)
      ∧ ((procAt (makeRoom s idx).proc m).is_swapped ≠ (procAt s.proc m).is_swapped →
          (procAt s.proc m).is_completed ≠ 0
            ∧ (procAt s.proc m).is_swapped = 0
            ∧ (procAt (makeRoom s idx).proc m).is_swapped = 1) := by
  unfold makeRoom
  split
  · obtain ⟨a1, a0, a2, a4, a5⟩ := np_swapOutScan_frame idx (List.range s.proc.length) s m
    exact ⟨a1, a0, a2, a4, fun hne => (a5 hne).2⟩
  · exact ⟨rfl, rfl, rfl, fun _ => rfl, fun h => absurd rfl h⟩

/-- What a dispatch of `calculate_sjf` / `calculate_priority` does to the process array and to
`completed`, apart from the values of the times: it swaps in and marks completed `proc[idx]`,
and the flag `is_swapped` is the only field of another record that it writes. -/
theorem np_dispatch_frame (s : State) (idx m : Nat) :
    (dispatch s idx).proc.length = s.proc.length
      ∧ (dispatch s idx).completed = s.completed + 1
      ∧ (m ≠ idx → noSwap (procAt (dispatch s idx).proc m) = noSwap (procAt s.proc m))
      ∧ (idx < s.proc.length → (procAt (dispatch s idx).proc idx).is_completed = 1
          ∧ (procAt (dispatch s idx).proc idx).total_swap_time = SWAP_TIME)
      ∧ ((procAt s.proc m).is_swapped ≠ 0 →
          (procAt (dispatch s idx).proc m).is_swapped = (procAt s.proc m).is_swapped)
      ∧ ((procAt (dispatch s idx).proc m).is_swapped ≠ (procAt s.proc m).is_swapped →
          (procAt s.proc m).is_completed ≠ 0
            ∧ (procAt s.proc m).is_swapped = 0
            ∧ (procAt (dispatch s idx).proc m).is_swapped = 1) := by
  obtain ⟨a1, a0, a2, a4, a5⟩ := np_makeRoom_frame s idx m
  have hother : m ≠ idx → procAt (dispatch s idx).proc m = procAt (makeRoom s idx).proc m := by
    intro hm
    simp only [dispatch, execute, swapIn]
    rw [Exact.procAt_set_ne _ _ hm, Exact.procAt_set_ne _ _ hm]
  have hflag : (procAt (dispatch s idx).proc m).is_swapped
      = (procAt (makeRoom s idx).proc m).is_swapped := by
    have he : ∀ t : State, (procAt (execute t idx).proc m).is_swapped
        = (procAt t.proc m).is_swapped := fun t => is_swapped_set_same t.proc idx m _ rfl
    have hs : ∀ t : State, (procAt (swapIn t idx).proc m).is_swapped
        = (procAt t.proc m).is_swapped := fun t => is_swapped_set_same t.proc idx m _ rfl
    exact (he _).trans (hs _)
  refine ⟨by simp [dispatch, execute, swapIn, a1], ?_, fun hm => by rw [hother hm]; exact a2,
    fun hi => ?_, fun hsw => by rw [hflag, a4 (Or.inl hsw)], fun hne => ?_⟩
  · show (makeRoom s idx).completed + 1 = _
    rw [a0]
  · have h2 : idx < (makeRoom s idx).proc.length := by
      rw [(np_makeRoom_frame s idx idx).1]; exact hi
    simp only [dispatch, execute, swapIn]
    rw [Exact.procAt_set_self _ (by simpa using h2), Exact.procAt_set_self _ h2]
    exact ⟨rfl, rfl⟩
  · rw [hflag] at hne ⊢
    exact a5 hne

theorem Tally.tally_init (proc0 : List Process) (total : Int)
    (hfresh : ∀ p ∈ proc0, p.is_completed = 0) : Tally proc0 (NP.init proc0 total) := by
  have hnone : ∀ j, ¬ (procAt proc0 j).is_completed ≠ 0 := by
    intro j hj
    by_cases hl : j < proc0.length
    · exact hj (hfresh _ (Exact.procAt_mem hl))
    · apply hj
      rw [Exact.procAt_default (Nat.le_of_not_lt hl)]
      rfl
  refine ⟨rfl, ?_, fun j hj => absurd hj (hnone j)⟩
  simp only [NP.init, doneCount]
  symm
  rw [List.countP_eq_zero]
  intro a ha
  simp [hfresh a ha]

theorem Tally.tally_step {select : List Process → Int → Int} {proc0 : List Process} {s : State}
    (hsound : SelectSound select) (h : Tally proc0 s) : Tally proc0 (NP.step select s) := by
  unfold NP.step
  split
  · exact ⟨h.len, h.count, h.done⟩
  · rename_i hsel
    rcases hsound s.proc s.current_time with h1 | ⟨_, hk, -, hp⟩
    · exact absurd h1 hsel
    · generalize (select s.proc s.current_time).toNat = k at hk hp
      have hfr := fun m => np_dispatch_frame s k m
      have hdone := ((hfr 0).2.2.2.1 hk)
      have hcomp : ∀ m, m ≠ k → (procAt (dispatch s k).proc m).is_completed
          = (procAt s.proc m).is_completed := by
        intro m hm
        have e := congrArg Process.is_completed ((hfr m).2.2.1 hm)
        simpa only [noSwap] using e
      refine ⟨by rw [(hfr 0).1, h.len], ?_, fun j hj => ?_⟩
      · rw [(hfr 0).2.1, h.count]
        have hmr := fun m => np_makeRoom_frame s k m
        have hlen : k < (makeRoom s k).proc.length := by rw [(hmr 0).1]; exact hk
        have hc : doneCount (makeRoom s k).proc = doneCount s.proc := by
          apply Exact.doneCount_congr (hmr 0).1
          intro m
          have e := congrArg Process.is_completed (hmr m).2.2.1
          simpa only [noSwap] using e
        have hset : (dispatch s k).proc
            = ((makeRoom s k).proc.set k (procAt (swapIn (makeRoom s k) k).proc k)).set k
                (procAt (dispatch s k).proc k) := by
          simp only [dispatch, execute, swapIn]
          rw [Exact.procAt_set_self _ hlen,
            Exact.procAt_set_self _ (by simpa using hlen)]
        have hset2 : (dispatch s k).proc
            = (makeRoom s k).proc.set k (procAt (dispatch s k).proc k) := by
          rw [hset, List.set_set]
          congr 1
          simp only [dispatch, execute, swapIn]
          rw [Exact.procAt_set_self _ (by simpa using hlen),
            Exact.procAt_set_self _ (by simpa using hlen),
            Exact.procAt_set_self _ (by simpa using hlen)]
        rw [hset2, Exact.doneCount_set _ _ _ hlen
          (by rw [(hmr k).2.2.2.1 (Or.inr hp)]; exact hp) (by rw [hdone.1]; decide), hc]
      · by_cases hjk : j = k
        · subst hjk; exact hdone
        · rw [hcomp j hjk] at hj ⊢
          have e := congrArg Process.total_swap_time ((hfr j).2.2.1 hjk)
          simp only [noSwap] at e
          rw [e]
          exact h.done j hj

theorem Tally.tally_reach {select : List Process → Int → Int} {proc0 : List Process} {total : Int}
    {s : State} (hsound : SelectSound select) (hfresh : ∀ p ∈ proc0, p.is_completed = 0)
    (hr : Reach select (NP.init proc0 total) s) : Tally proc0 s := by
  induction hr with
  | init => exact Tally.tally_init proc0 total hfresh
  | step _ _ ih => exact ih.tally_step hsound

/-- When the loop of `calculate_sjf` / `calculate_priority` returns, in every run, every process
is marked completed and has been swapped in. -/
theorem np_final_charged {select : List Process → Int → Int} {proc0 : List Process}
    {total : Int} (hsound : SelectSound select) (hfresh : ∀ p ∈ proc0, p.is_completed = 0)
    (fuel : Nat) (r : State) (hr : loop select fuel (NP.init proc0 total) = some r) :
    r.proc.length = proc0.length
      ∧ ∀ p ∈ r.proc, p.is_completed = 1 ∧ p.total_swap_time = SWAP_TIME := by
  obtain ⟨hreach, hdone⟩ := np_run_reach fuel Reach.init hr
  have ht := Tally.tally_reach hsound hfresh hreach
  refine ⟨ht.len, fun p hp => ?_⟩
  have hall := Exact.all_done_of_doneCount (by rw [← ht.count]; exact hdone) p hp
  obtain ⟨i, hi, he⟩ := Exact.exists_procAt_of_mem hp
  rw [← he] at hall ⊢
  exact ht.done i hall

/-- The swap flags over an iteration of the loop of `calculate_sjf` / `calculate_priority`, in
every run: a flag that is set is left alone, and a flag that becomes set is that of a process
marked completed, and becomes `1`. -/
theorem np_flags_step {select : List Process → Int → Int} {proc0 : List Process} {s : State}
    (h : Tally proc0 s) :
    SwapFlagOK (fun p => p.is_completed = 1) s.proc (NP.step select s).proc := by
  intro j
  unfold NP.step
  split
  · exact ⟨fun _ => rfl, fun h0 hne => absurd h0 hne⟩
  · obtain ⟨-, -, -, -, f5, f6⟩ := np_dispatch_frame s (select s.proc s.current_time).toNat j
    refine ⟨f5, fun h0 hne => ?_⟩
    obtain ⟨b1, -, b3⟩ := f6 (by rw [h0]; exact hne)
    exact ⟨(h.done j b1).1, b3⟩

end NP

/-- Writing to entry `i` a record that agrees with the old one under `g` changes no value of
`g` along the array. -/
theorem procAt_set_field {α : Type} (g : Process → α) (l : List Process) (i m : Nat)
    (p : Process) (h : g p = g (procAt l i)) : g (procAt (l.set i p) m) = g (procAt l m) := by
  rw [Exact.procAt_set]
  split
  · rename_i hc; rw [hc.1, h]
  · rfl

namespace RR

theorem rr_swapOut_frame (s : State) (j m : Nat) :
    (swapOut s j).proc.length = s.proc.length
      ∧ ((swapOut s j).completed = s.completed ∧ (swapOut s j).queue = s.queue
          ∧ (swapOut s j).front = s.front ∧ (swapOut s j).visited = s.visited)
      ∧ noSwap (procAt (swapOut s j).proc m) = noSwap (procAt s.proc m)
      ∧ (m ≠ j → procAt (swapOut s j).proc m = procAt s.proc m)
      ∧ ((procAt (swapOut s j).proc m).is_swapped ≠ (procAt s.proc m).is_swapped →
          m = j ∧ (procAt (swapOut s j).proc m).is_swapped = 1) := by
  refine ⟨by simp [swapOut], ⟨rfl, rfl, rfl, rfl⟩, ?_, fun hm => ?_, fun hne => ?_⟩
  · simp only [swapOut, Exact.procAt_set]
    split
    · rename_i h; rw [h.1]; rfl
    · rfl
  · simp [swapOut, Exact.procAt_set, hm]
  · simp only [swapOut, Exact.procAt_set] at hne ⊢
    split at hne
    · rename_i h; rw [if_pos h]; exact ⟨h.1, rfl⟩
    · exact absurd rfl hne

/-- The eviction scan of `calculate_rr` writes only the flag `is_swapped`, and only of records
with `remaining_time = 0` that were not swapped out. -/
theorem rr_swapOutScan_frame (idx : Nat) (js : List Nat) (s : State) (m : Nat) :
    (swapOutScan idx js s).proc.length = s.proc.length
      ∧ ((swapOutScan idx js s).completed = s.completed
          ∧ (swapOutScan idx js s).queue = s.queue
          ∧ (swapOutScan idx js s).front = s.front
          ∧ (swapOutScan idx js s).visited = s.visited)
      ∧ noSwap (procAt (swapOutScan idx js s).proc m) = noSwap (procAt s.proc m)
      ∧ ((procAt s.proc m).is_swapped ≠ 0 ∨ (procAt s.proc m).remaining_time ≠ 0 →
          procAt (swapOutScan idx js s).proc m = procAt s.proc m)
      ∧ ((procAt (swapOutScan idx js s).proc m).is_swapped ≠ (procAt s.proc m).is_swapped →
          m ∈ js ∧ (procAt s.proc m).remaining_time = 0
            ∧ (procAt s.proc m).is_swapped = 0
            ∧ (procAt (swapOutScan idx js s).proc m).is_swapped = 1) := by
  induction js generalizing s with
  | nil => exact ⟨rfl, ⟨rfl, rfl, rfl, rfl⟩, rfl, fun _ => rfl, fun h => absurd rfl h⟩
  | cons j js ih =>
    obtain ⟨o1, o0, o2, o3, o4⟩ := rr_swapOut_frame s j m
    have hone : (procAt (swapOut s j).proc m).is_swapped ≠ (procAt s.proc m).is_swapped →
        (procAt s.proc j).remaining_time = 0 ∧ (procAt s.proc j).is_swapped = 0 →
        m ∈ j :: js ∧ (procAt s.proc m).remaining_time = 0
          ∧ (procAt s.proc m).is_swapped = 0
          ∧ (procAt (swapOut s j).proc m).is_swapped = 1 := by
      intro hne hc
      obtain ⟨e, h1⟩ := o4 hne
      subst e
      exact ⟨by simp, hc.1, hc.2, h1⟩
    simp only [swapOutScan]
    split
    · rename_i hc
      have hkeep : (procAt s.proc m).is_swapped ≠ 0 ∨ (procAt s.proc m).remaining_time ≠ 0 →
          procAt (swapOut s j).proc m = procAt s.proc m := by
        intro hsw
        apply o3
        intro e
        subst e
        rcases hsw with h | h
        · exact h hc.2
        · exact h hc.1
      split
      · exact ⟨o1, o0, o2, hkeep, fun hne => hone hne hc⟩
      · obtain ⟨i1, i0, i2, i4, i5⟩ := ih (swapOut s j)
        refine ⟨by rw [i1, o1], ⟨by rw [i0.1, o0.1], by rw [i0.2.1, o0.2.1],
          by rw [i0.2.2.1, o0.2.2.1], by rw [i0.2.2.2, o0.2.2.2]⟩, by rw [i2, o2],
          fun hsw => ?_, fun hne => ?_⟩
        · rw [i4 (by rw [hkeep hsw]; exact hsw), hkeep hsw]
        · by_cases h1 : (procAt (swapOut s j).proc m).is_swapped = (procAt s.proc m).is_swapped
          · rw [← h1] at hne
            obtain ⟨a1, a2, a3, a4⟩ := i5 hne
            have e := congrArg Process.remaining_time o2
            simp only [noSwap] at e
            exact ⟨by simp [a1], by rw [← e]; exact a2, by rw [← h1]; exact a3, a4⟩
          · obtain ⟨b1, b2, b3, b4⟩ := hone h1 hc
            refine ⟨b1, b2, b3, ?_⟩
            rw [i4 (Or.inl (by rw [b4]; decide))]
            exact b4
    · obtain ⟨i1, i0, i2, i4, i5⟩ := ih s
      refine ⟨i1, i0, i2, i4, fun hne => ?_⟩
      obtain ⟨a1, a2, a3, a4⟩ := i5 hne
      exact ⟨by simp [a1], a2, a3, a4⟩

theorem rr_makeRoom_frame (s : State) (idx m : Nat) :
    (makeRoom s idx).proc.length = s.proc.length
      ∧ ((makeRoom s idx).completed = s.completed ∧ (makeRoom s idx).queue = s.queue
          ∧ (makeRoom s idx).front = s.front ∧ (makeRoom s idx).visited = s.visited)
      ∧ noSwap (procAt (makeRoom s idx).proc m) = noSwap (procAt s.proc m)
      ∧ ((procAt s.proc m).is_swapped ≠ 0 ∨ (procAt s.proc m).remaining_time ≠ 0 →
          procAt (makeRoom s idx).proc m = procAt s.proc m)
      ∧ ((procAt (makeRoom s idx).proc m).is_swapped ≠ (procAt s.proc m).is_swapped →
          (procAt s.proc m).remaining_time = 0
            ∧ (procAt s.proc m).is_swapped = 0
            ∧ (procAt (makeRoom s idx).proc m).is_swapped = 1) := by
  unfold makeRoom
  split
  · obtain ⟨a1, a0, a2, a4, a5⟩ := rr_swapOutScan_frame idx (List.range s.proc.length) s m
    exact ⟨a1, a0, a2, a4, fun hne => (a5 hne).2⟩
  · exact ⟨rfl, ⟨rfl, rfl, rfl, rfl⟩, rfl, fun _ => rfl, fun h => absurd rfl h⟩

/-- The admission block leaves alone every field but the swap fields: `g` is any reading of a
record that does not depend on `is_swapped`, `swap_out_time` and `total_swap_time`. -/
theorem admission_frame {α : Type} (g : Process → α)
    (hg : ∀ (p : Process) (a b c : Int),
      g { p with is_swapped := a, swap_out_time := b, total_swap_time := c } = g p)
    (s : State) (idx m : Nat) :
    (admission s idx).proc.length = s.proc.length
      ∧ ((admission s idx).completed = s.completed ∧ (admission s idx).queue = s.queue
          ∧ (admission s idx).front = s.front ∧ (admission s idx).visited = s.visited)
      ∧ g (procAt (admission s idx).proc m) = g (procAt s.proc m) := by
  have hns : ∀ p q : Process, noSwap p = noSwap q → g p = g q := by
    intro p q h
    have e1 : g (noSwap p) = g p := hg p 0 0 p.total_swap_time
    have e2 : g (noSwap q) = g q := hg q 0 0 q.total_swap_time
    rw [← e1, ← e2, h]
  unfold admission
  split
  · obtain ⟨a1, a0, a2, -⟩ := rr_makeRoom_frame s idx m
    refine ⟨by simp [swapIn, a1], a0, ?_⟩
    have hs : g (procAt (swapIn (makeRoom s idx) idx).proc m)
        = g (procAt (makeRoom s idx).proc m) :=
      procAt_set_field g _ idx m _ (hg (procAt (makeRoom s idx).proc idx) _ _ _)
    rw [hs]
    exact hns _ _ a2
  · exact ⟨rfl, ⟨rfl, rfl, rfl, rfl⟩, rfl⟩

/-- The admission block charges the swap-in to the dispatched process when the dispatch is its
first (`remaining_time = burst_time`), and to no other process. -/
theorem admission_charge (s : State) (idx m : Nat) :
    (procAt (admission s idx).proc m).total_swap_time
      = if m = idx ∧ idx < s.proc.length
            ∧ (procAt s.proc idx).remaining_time = (procAt s.proc idx).burst_time then
          wrap ((procAt s.proc idx).total_swap_time + SWAP_TIME)
        else (procAt s.proc m).total_swap_time := by
  have hts : ∀ k, (procAt (makeRoom s idx).proc k).total_swap_time
      = (procAt s.proc k).total_swap_time := by
    intro k
    have e := congrArg Process.total_swap_time (rr_makeRoom_frame s idx k).2.2.1
    simpa only [noSwap] using e
  unfold admission
  split
  · rename_i hfirst
    simp only [swapIn]
    rw [Exact.procAt_set, (rr_makeRoom_frame s idx 0).1]
    by_cases hc : m = idx ∧ idx < s.proc.length
    · rw [if_pos hc, if_pos ⟨hc.1, hc.2, hfirst⟩]
      show wrap ((procAt (makeRoom s idx).proc idx).total_swap_time + SWAP_TIME) = _
      rw [hts]
    · rw [if_neg hc, if_neg (fun h => hc ⟨h.1, h.2.1⟩)]
      exact hts m
  · rename_i hfirst
    rw [if_neg (fun h => hfirst h.2.2)]

/-- The swap flags over the admission block. -/
theorem admission_flags (s : State) (idx m : Nat) :
    ((procAt s.proc m).is_swapped ≠ 0 →
        (procAt (admission s idx).proc m).is_swapped = (procAt s.proc m).is_swapped)
      ∧ ((procAt (admission s idx).proc m).is_swapped ≠ (procAt s.proc m).is_swapped →
          (procAt s.proc m).remaining_time = 0
            ∧ (procAt s.proc m).is_swapped = 0
            ∧ (procAt (admission s idx).proc m).is_swapped = 1) := by
  unfold admission
  split
  · obtain ⟨-, -, -, a4, a5⟩ := rr_makeRoom_frame s idx m
    have hs : (procAt (swapIn (makeRoom s idx) idx).proc m).is_swapped
        = (procAt (makeRoom s idx).proc m).is_swapped :=
      is_swapped_set_same _ idx m _ rfl
    rw [hs]
    exact ⟨fun h => by rw [a4 (Or.inl h)], a5⟩
  · exact ⟨fun _ => rfl, fun h => absurd rfl h⟩

/-- The first-execution block leaves alone every field but `start_time`, `response_time` and
`first_execution`. -/
theorem firstExec_frame {α : Type} (g : Process → α)
    (hg : ∀ (p : Process) (a b c : Int),
      g { p with start_time := a, response_time := b, first_execution := c } = g p)
    (s : State) (idx m : Nat) :
    (firstExec s idx).proc.length = s.proc.length
      ∧ ((firstExec s idx).completed = s.completed ∧ (firstExec s idx).queue = s.queue
          ∧ (firstExec s idx).front = s.front ∧ (firstExec s idx).visited = s.visited
          ∧ (firstExec s idx).current_time = s.current_time)
      ∧ g (procAt (firstExec s idx).proc m) = g (procAt s.proc m) := by
  unfold firstExec
  split
  · exact ⟨by simp, ⟨rfl, rfl, rfl, rfl, rfl⟩,
      procAt_set_field g _ idx m _ (hg (procAt s.proc idx) _ _ _)⟩
  · exact ⟨rfl, ⟨rfl, rfl, rfl, rfl, rfl⟩, rfl⟩

/-- The slice leaves alone every field but `remaining_time`. -/
theorem runSlice_frame {α : Type} (g : Process → α)
    (hg : ∀ (p : Process) (a : Int), g { p with remaining_time := a } = g p)
    (s : State) (idx : Nat) (tq : Int) (m : Nat) :
    (runSlice s idx tq).proc.length = s.proc.length
      ∧ ((runSlice s idx tq).completed = s.completed ∧ (runSlice s idx tq).queue = s.queue
          ∧ (runSlice s idx tq).front = s.front ∧ (runSlice s idx tq).visited = s.visited)
      ∧ g (procAt (runSlice s idx tq).proc m) = g (procAt s.proc m) :=
  ⟨by simp [runSlice], ⟨rfl, rfl, rfl, rfl⟩,
    procAt_set_field g _ idx m _ (hg (procAt s.proc idx) _)⟩

theorem runSlice_remaining (s : State) (idx : Nat) (tq : Int) (m : Nat) :
    (procAt (runSlice s idx tq).proc m).remaining_time
      = if m = idx ∧ idx < s.proc.length then
          (procAt s.proc idx).remaining_time - sliceLen (procAt s.proc idx) tq
        else (procAt s.proc m).remaining_time := by
  simp only [runSlice]
  rw [Exact.procAt_set]
  split <;> rfl

/-- Requeueing or completing leaves alone every field but `completion_time`,
`turnaround_time` and `waiting_time`. -/
theorem finish_frame {α : Type} (g : Process → α)
    (hg : ∀ (p : Process) (a b c : Int),
      g { p with completion_time := a, turnaround_time := b, waiting_time := c } = g p)
    (s : State) (idx m : Nat) :
    (finish s idx).proc.length = s.proc.length
      ∧ ((finish s idx).front = s.front ∧ (finish s idx).visited = s.visited
          ∧ (finish s idx).current_time = s.current_time)
      ∧ g (procAt (finish s idx).proc m) = g (procAt s.proc m) := by
  unfold finish
  split
  · exact ⟨rfl, ⟨rfl, rfl, rfl⟩, rfl⟩
  · exact ⟨by simp, ⟨rfl, rfl, rfl⟩,
      procAt_set_field g _ idx m _ (hg (procAt s.proc idx) _ _ _)⟩

theorem finish_effect (s : State) (idx m : Nat) :
    (finish s idx).queue
        = (if (procAt s.proc idx).remaining_time > 0 then s.queue ++ [idx] else s.queue)
      ∧ (finish s idx).completed
        = (if (procAt s.proc idx).remaining_time > 0 then s.completed else s.completed + 1)
      ∧ (procAt (finish s idx).proc m).completion_time
        = if m = idx ∧ idx < s.proc.length ∧ ¬ (procAt s.proc idx).remaining_time > 0 then
            s.current_time
          else (procAt s.proc m).completion_time := by
  unfold finish
  split
  · rename_i h
    exact ⟨rfl, rfl, by rw [if_neg (fun hc => hc.2.2 h)]⟩
  · rename_i h
    refine ⟨rfl, rfl, ?_⟩
    show (procAt (s.proc.set idx _) m).completion_time = _
    rw [Exact.procAt_set]
    by_cases hc : m = idx ∧ idx < s.proc.length
    · rw [if_pos hc, if_pos ⟨hc.1, hc.2, h⟩]
    · rw [if_neg hc, if_neg (fun hx => hc ⟨hx.1, hx.2.1⟩)]

/-- What a dispatch of `calculate_rr` does to the queue, the counters and the fields
`arrival_time`, `burst_time`, `remaining_time` and `completion_time`, whatever the values of the
clock and of the memory. -/
theorem rr_dispatch_frame (tq : Int) (s : State)
    (hi : queueAt s.queue s.front < s.proc.length) (hv : s.visited.length = s.proc.length) :
    (dispatch tq s).proc.length = s.proc.length
      ∧ (∀ m, (procAt (dispatch tq s).proc m).arrival_time = (procAt s.proc m).arrival_time
          ∧ (procAt (dispatch tq s).proc m).burst_time = (procAt s.proc m).burst_time)
      ∧ (∀ m, (procAt (dispatch tq s).proc m).remaining_time
          = if m = queueAt s.queue s.front then
              (procAt s.proc m).remaining_time - sliceLen (procAt s.proc m) tq
            else (procAt s.proc m).remaining_time)
      ∧ (∀ m, (procAt (dispatch tq s).proc m).completion_time
          = if m = queueAt s.queue s.front
                ∧ ¬ (procAt (dispatch tq s).proc m).remaining_time > 0 then
              (dispatch tq s).current_time
            else (procAt s.proc m).completion_time)
      ∧ (dispatch tq s).completed
          = (if (procAt (dispatch tq s).proc (queueAt s.queue s.front)).remaining_time > 0
              then s.completed else s.completed + 1)
      ∧ (dispatch tq s).queue
          = (s.queue ++ (List.range s.proc.length).filter
              (fun i => decide (arrivedRem (afterSlice tq s) i)))
            ++ (if (procAt (dispatch tq s).proc (queueAt s.queue s.front)).remaining_time > 0
                then [queueAt s.queue s.front] else [])
      ∧ (dispatch tq s).front = s.front + 1
      ∧ (dispatch tq s).visited.length = s.visited.length
      ∧ (∀ m, visitedAt (dispatch tq s).visited m
          = if m < s.proc.length ∧ arrivedRem (afterSlice tq s) m then 1
            else visitedAt s.visited m)
      ∧ (dispatch tq s).current_time = (afterSlice tq s).current_time
      ∧ ((afterSlice tq s).queue = s.queue ∧ (afterSlice tq s).front = s.front + 1
          ∧ (afterSlice tq s).visited = s.visited
          ∧ (afterSlice tq s).proc.length = s.proc.length
          ∧ ∀ m, (procAt (afterSlice tq s).proc m).arrival_time = (procAt s.proc m).arrival_time
              ∧ (procAt (afterSlice tq s).proc m).remaining_time
                  = (procAt (dispatch tq s).proc m).remaining_time)
      ∧ ((afterAdmission s).queue = s.queue ∧ (afterAdmission s).front = s.front + 1
          ∧ (afterAdmission s).visited = s.visited
          ∧ ∀ m, (procAt (afterAdmission s).proc m).remaining_time
              = (procAt s.proc m).remaining_time) := by
  -- the admission block
  have hA := fun m => admission_frame (fun p => (p.arrival_time, p.burst_time, p.remaining_time,
    p.completion_time)) (fun _ _ _ _ => rfl) { s with front := s.front + 1 }
    (queueAt s.queue s.front) m
  have hAlen : (afterAdmission s).proc.length = s.proc.length := (hA 0).1
  have hA1 : (afterAdmission s).completed = s.completed := (hA 0).2.1.1
  have hA2 : (afterAdmission s).queue = s.queue := (hA 0).2.1.2.1
  have hA3 : (afterAdmission s).front = s.front + 1 := (hA 0).2.1.2.2.1
  have hA4 : (afterAdmission s).visited = s.visited := (hA 0).2.1.2.2.2
  have hAf : ∀ m, (procAt (afterAdmission s).proc m).arrival_time = (procAt s.proc m).arrival_time
      ∧ (procAt (afterAdmission s).proc m).burst_time = (procAt s.proc m).burst_time
      ∧ (procAt (afterAdmission s).proc m).remaining_time = (procAt s.proc m).remaining_time
      ∧ (procAt (afterAdmission s).proc m).completion_time
          = (procAt s.proc m).completion_time := by
    intro m
    have e : ((procAt (afterAdmission s).proc m).arrival_time,
        (procAt (afterAdmission s).proc m).burst_time,
        (procAt (afterAdmission s).proc m).remaining_time,
        (procAt (afterAdmission s).proc m).completion_time)
        = ((procAt s.proc m).arrival_time, (procAt s.proc m).burst_time,
          (procAt s.proc m).remaining_time, (procAt s.proc m).completion_time) := (hA m).2.2
    simp only [Prod.mk.injEq] at e
    exact e
  clear hA
  -- the first-execution block
  have hF := fun m => firstExec_frame (fun p => (p.arrival_time, p.burst_time, p.remaining_time,
    p.completion_time)) (fun _ _ _ _ => rfl) (afterAdmission s) (queueAt s.queue s.front) m
  obtain ⟨hF1, hF2, hF3, hF4, hF5⟩ := (hF 0).2.1
  have hFf : ∀ m, (procAt (firstExec (afterAdmission s) (queueAt s.queue s.front)).proc
        m).arrival_time = (procAt s.proc m).arrival_time
      ∧ (procAt (firstExec (afterAdmission s) (queueAt s.queue s.front)).proc m).burst_time
          = (procAt s.proc m).burst_time
      ∧ (procAt (firstExec (afterAdmission s) (queueAt s.queue s.front)).proc m).remaining_time
          = (procAt s.proc m).remaining_time
      ∧ (procAt (firstExec (afterAdmission s) (queueAt s.queue s.front)).proc m).completion_time
          = (procAt s.proc m).completion_time := by
    intro m
    have e := (hF m).2.2
    simp only [Prod.mk.injEq] at e
    obtain ⟨a1, a2, a3, a4⟩ := hAf m
    exact ⟨e.1.trans a1, e.2.1.trans a2, e.2.2.1.trans a3, e.2.2.2.trans a4⟩
  have hFlen : (firstExec (afterAdmission s) (queueAt s.queue s.front)).proc.length
      = s.proc.length := (hF 0).1.trans hAlen
  clear hF
  -- the slice
  have hS := fun m => runSlice_frame (fun p => (p.arrival_time, p.burst_time,
    p.completion_time)) (fun _ _ => rfl)
    (firstExec (afterAdmission s) (queueAt s.queue s.front)) (queueAt s.queue s.front) tq m
  have hSlen : (afterSlice tq s).proc.length = s.proc.length := (hS 0).1.trans hFlen
  have hS1 : (afterSlice tq s).completed = s.completed := ((hS 0).2.1.1.trans hF1).trans hA1
  have hS2 : (afterSlice tq s).queue = s.queue := ((hS 0).2.1.2.1.trans hF2).trans hA2
  have hS3 : (afterSlice tq s).front = s.front + 1 := ((hS 0).2.1.2.2.1.trans hF3).trans hA3
  have hS4 : (afterSlice tq s).visited = s.visited := ((hS 0).2.1.2.2.2.trans hF4).trans hA4
  have hSf : ∀ m, (procAt (afterSlice tq s).proc m).arrival_time = (procAt s.proc m).arrival_time
      ∧ (procAt (afterSlice tq s).proc m).burst_time = (procAt s.proc m).burst_time
      ∧ (procAt (afterSlice tq s).proc m).completion_time
          = (procAt s.proc m).completion_time := by
    intro m
    have e : ((procAt (afterSlice tq s).proc m).arrival_time,
        (procAt (afterSlice tq s).proc m).burst_time,
        (procAt (afterSlice tq s).proc m).completion_time)
        = ((procAt (firstExec (afterAdmission s) (queueAt s.queue s.front)).proc m).arrival_time,
          (procAt (firstExec (afterAdmission s) (queueAt s.queue s.front)).proc m).burst_time,
          (procAt (firstExec (afterAdmission s) (queueAt s.queue s.front)).proc
            m).completion_time) := (hS m).2.2
    simp only [Prod.mk.injEq] at e
    obtain ⟨a1, a2, -, a4⟩ := hFf m
    exact ⟨e.1.trans a1, e.2.1.trans a2, e.2.2.trans a4⟩
  clear hS
  have hSr : ∀ m, (procAt (afterSlice tq s).proc m).remaining_time
      = if m = queueAt s.queue s.front then
          (procAt s.proc m).remaining_time - sliceLen (procAt s.proc m) tq
        else (procAt s.proc m).remaining_time := by
    intro m
    have e : (procAt (afterSlice tq s).proc m).remaining_time = _ :=
      runSlice_remaining (firstExec (afterAdmission s) (queueAt s.queue s.front))
        (queueAt s.queue s.front) tq m
    rw [hFlen] at e
    rw [e]
    by_cases hm : m = queueAt s.queue s.front
    · subst hm
      rw [if_pos ⟨rfl, hi⟩, if_pos rfl]
      have hsl : sliceLen (procAt (firstExec (afterAdmission s) (queueAt s.queue s.front)).proc
          (queueAt s.queue s.front)) tq = sliceLen (procAt s.proc (queueAt s.queue s.front)) tq := by
        unfold sliceLen
        rw [(hFf _).2.2.1]
      rw [hsl, (hFf _).2.2.1]
    · rw [if_neg (fun h => hm h.1), if_neg hm]
      exact (hFf m).2.2.1
  -- the arrival check
  obtain ⟨e1, e2, e3, e4, e5, e6, e7, e8⟩ :=
    Exact.RR.enqueueArrivalsRem_spec (afterSlice tq s)
      (by rw [hSlen, hS4]; exact hv)
  -- requeue or complete
  have hQ := fun m => finish_frame (fun p => (p.arrival_time, p.burst_time, p.remaining_time))
    (fun _ _ _ _ => rfl) (enqueueArrivalsRem (afterSlice tq s)) (queueAt s.queue s.front) m
  obtain ⟨hQ1, hQ2, hQ3⟩ := (hQ 0).2.1
  have hQe := fun m => finish_effect (enqueueArrivalsRem (afterSlice tq s))
    (queueAt s.queue s.front) m
  have hD : dispatch tq s
      = finish (enqueueArrivalsRem (afterSlice tq s)) (queueAt s.queue s.front) := rfl
  have hDf : ∀ m, (procAt (dispatch tq s).proc m).arrival_time = (procAt s.proc m).arrival_time
      ∧ (procAt (dispatch tq s).proc m).burst_time = (procAt s.proc m).burst_time
      ∧ (procAt (dispatch tq s).proc m).remaining_time
          = (procAt (afterSlice tq s).proc m).remaining_time := by
    intro m
    have e := (hQ m).2.2
    simp only [Prod.mk.injEq] at e
    rw [hD]
    rw [e1] at e
    exact ⟨e.1.trans (hSf m).1, e.2.1.trans (hSf m).2.1, e.2.2⟩
  have hrem : (procAt (enqueueArrivalsRem (afterSlice tq s)).proc
        (queueAt s.queue s.front)).remaining_time
      = (procAt (dispatch tq s).proc (queueAt s.queue s.front)).remaining_time := by
    rw [e1, (hDf _).2.2]
  refine ⟨?_, fun m => ⟨(hDf m).1, (hDf m).2.1⟩, fun m => by rw [(hDf m).2.2, hSr m],
    fun m => ?_, ?_, ?_, ?_, ?_, fun m => ?_, ?_,
    ⟨hS2, hS3, hS4, hSlen, fun m => ⟨(hSf m).1, ((hDf m).2.2).symm⟩⟩,
    ⟨hA2, hA3, hA4, fun m => (hAf m).2.2.1⟩⟩
  · rw [hD, (hQ 0).1, e1, hSlen]
  · have e := (hQe m).2.2
    rw [hD, e, e1, hSlen, e2, hQ3, e2]
    by_cases hm : m = queueAt s.queue s.front
    · subst hm
      rw [← hD, ← (hDf _).2.2]
      by_cases hp : (procAt (dispatch tq s).proc (queueAt s.queue s.front)).remaining_time > 0
      · rw [if_neg (fun h => h.2.2 hp), if_neg (fun h => h.2 hp)]
        exact (hSf _).2.2
      · rw [if_pos ⟨rfl, hi, hp⟩, if_pos ⟨rfl, hp⟩]
    · rw [if_neg (fun h => hm h.1), if_neg (fun h => hm h.1)]
      exact (hSf m).2.2
  · rw [← hrem, hD, (hQe 0).2.1, e4, hS1]
  · rw [← hrem, hD, (hQe 0).1, e7, hSlen, hS2]
    split <;> simp
  · rw [hD, hQ1, e5, hS3]
  · rw [hD, hQ2, e6, hS4]
  · rw [hD, hQ2, e8 m, hSlen, hS4]
  · rw [hD, hQ3, e2]

end RR

namespace RR

/-- The swap-in charge over a dispatch of `calculate_rr`. -/
theorem rr_dispatch_charge (tq : Int) (s : State) (hi : queueAt s.queue s.front < s.proc.length)
    (hv : s.visited.length = s.proc.length) (m : Nat) :
    (procAt (dispatch tq s).proc m).total_swap_time
      = if m = queueAt s.queue s.front
            ∧ (procAt s.proc m).remaining_time = (procAt s.proc m).burst_time then
          wrap ((procAt s.proc m).total_swap_time + SWAP_TIME)
        else (procAt s.proc m).total_swap_time := by
  have hA : (procAt (afterAdmission s).proc m).total_swap_time = _ :=
    admission_charge { s with front := s.front + 1 } (queueAt s.queue s.front) m
  have hF : (procAt (firstExec (afterAdmission s) (queueAt s.queue s.front)).proc
      m).total_swap_time = (procAt (afterAdmission s).proc m).total_swap_time :=
    (firstExec_frame (fun p => p.total_swap_time) (fun _ _ _ _ => rfl) (afterAdmission s)
      (queueAt s.queue s.front) m).2.2
  have hS : (procAt (afterSlice tq s).proc m).total_swap_time
      = (procAt (firstExec (afterAdmission s) (queueAt s.queue s.front)).proc
          m).total_swap_time :=
    (runSlice_frame (fun p => p.total_swap_time) (fun _ _ => rfl)
      (firstExec (afterAdmission s) (queueAt s.queue s.front)) (queueAt s.queue s.front) tq
      m).2.2
  obtain ⟨-, -, -, -, -, -, -, -, -, -, ⟨-, -, d3, d4, -⟩, -⟩ := rr_dispatch_frame tq s hi hv
  obtain ⟨e1, -⟩ := Exact.RR.enqueueArrivalsRem_spec (afterSlice tq s) (by rw [d4, d3]; exact hv)
  have hQ : (procAt (dispatch tq s).proc m).total_swap_time
      = (procAt (enqueueArrivalsRem (afterSlice tq s)).proc m).total_swap_time :=
    (finish_frame (fun p => p.total_swap_time) (fun _ _ _ _ => rfl)
      (enqueueArrivalsRem (afterSlice tq s)) (queueAt s.queue s.front) m).2.2
  rw [hQ, e1, hS, hF, hA]
  by_cases hm : m = queueAt s.queue s.front
  · subst hm
    by_cases hf : (procAt s.proc (queueAt s.queue s.front)).remaining_time
        = (procAt s.proc (queueAt s.queue s.front)).burst_time
    · rw [if_pos ⟨rfl, hi, hf⟩, if_pos ⟨rfl, hf⟩]
    · rw [if_neg (fun h => hf h.2.2), if_neg (fun h => hf h.2)]
  · rw [if_neg (fun h => hm h.1), if_neg (fun h => hm h.1)]

theorem Discipline.disc_init (proc0 : List Process) (total : Int)
    (hfresh : ∀ p ∈ proc0, Fresh p) (hburst : ∀ p ∈ proc0, 0 < p.burst_time) :
    Discipline proc0 (RR.init proc0 total) := by
  obtain ⟨e1, e2, e3, e4, e5, e6, e7, e8⟩ := Exact.RR.enqueueArrivals_spec
    { proc := proc0, current_time := 0, available_memory := total, completed := 0, queue := [],
      front := 0, visited := List.replicate proc0.length 0 } (by simp)
  have hrem : ∀ j, (procAt proc0 j).remaining_time = (procAt proc0 j).burst_time := by
    intro j
    by_cases hj : j < proc0.length
    · exact (hfresh _ (Exact.procAt_mem hj)).2.2.2.1
    · rw [Exact.procAt_default (Nat.le_of_not_lt hj)]; rfl
  have hts : ∀ j, (procAt proc0 j).total_swap_time = 0 := by
    intro j
    by_cases hj : j < proc0.length
    · exact (hfresh _ (Exact.procAt_mem hj)).2.1
    · rw [Exact.procAt_default (Nat.le_of_not_lt hj)]; rfl
  have hready : ready (RR.init proc0 total) = (RR.init proc0 total).queue := by
    unfold ready; rw [show (RR.init proc0 total).front = 0 from e5]; rfl
  unfold RR.init at hready ⊢
  simp only at e1 e2 e3 e4 e5 e6 e7 e8
  refine ⟨?_, ?_, ?_, ?_, ?_, ?_, ?_, ?_, ?_, ?_, ?_, ?_, ?_, ?_⟩
  · rw [e1]
  · rw [e6]; simp
  · intro j; rw [e1]
  · intro j; rw [e1]
  · intro j; rw [e1, hrem j]
    by_cases hj : j < proc0.length
    · have := hburst _ (Exact.procAt_mem hj); omega
    · rw [Exact.procAt_default (Nat.le_of_not_lt hj)]; decide
  · rw [e5]; exact Nat.zero_le _
  · intro q hq
    rw [e7] at hq
    simp only [List.nil_append, List.mem_filter, List.mem_range] at hq
    exact hq.1
  · intro q hq
    rw [hready, e7] at hq
    simp only [List.nil_append, List.mem_filter, List.mem_range, decide_eq_true_eq] at hq
    rw [e8 q, if_pos hq, e1, hrem q]
    exact ⟨by decide, hburst _ (Exact.procAt_mem hq.1)⟩
  · rw [hready, e7]
    simp only [List.nil_append]
    exact Exact.RR.nodup_filter_range _ _
  · intro j hj hv _
    rw [hready, e7]
    rw [e8 j] at hv
    simp only [List.nil_append, List.mem_filter, List.mem_range, decide_eq_true_eq]
    by_cases hc : j < proc0.length ∧ arrived
        { proc := proc0, current_time := 0, available_memory := total, completed := 0,
          queue := [], front := 0, visited := List.replicate proc0.length 0 } j
    · exact hc
    · rw [if_neg hc, Exact.RR.visitedAt_replicate] at hv; exact absurd rfl hv
  · intro j _ _
    rw [e1]; exact hrem j
  · rw [e4, e1]
    simp only [finishedCount]
    symm
    rw [List.countP_eq_zero]
    intro a ha
    have h1 := (hfresh a ha).2.2.2.1
    have h2 := hburst a ha
    simp only [decide_eq_true_eq]
    omega
  · intro j _; rw [e1]; exact hts j
  · intro j hj; rw [e1, hrem j] at hj; omega

theorem Discipline.disc_idle {proc0 : List Process} {s : State} (h : Discipline proc0 s)
    (hfront : s.front = s.queue.length) (hburst : ∀ p ∈ proc0, 0 < p.burst_time) :
    Discipline proc0 (RR.idle s) := by
  obtain ⟨e1, e2, e3, e4, e5, e6, e7, e8⟩ := Exact.RR.enqueueArrivals_spec
    { s with current_time := wrap (s.current_time + 1) } (by rw [h.vlen, h.len])
  have hempty : ready s = [] := by
    unfold ready; rw [hfront]; exact List.drop_length _
  have hready : ready (RR.idle s) = (List.range s.proc.length).filter
      (fun i => decide (arrived { s with current_time := wrap (s.current_time + 1) } i)) := by
    unfold ready RR.idle
    rw [e5, e7]
    show List.drop s.front (s.queue ++ _) = _
    rw [hfront, List.drop_left]
  have hbpos : ∀ j, j < proc0.length → 0 < (procAt s.proc j).burst_time := by
    intro j hj; rw [h.burst j]; exact hburst _ (Exact.procAt_mem hj)
  unfold RR.idle at hready ⊢
  simp only at e1 e2 e3 e4 e5 e6 e7 e8
  refine ⟨?_, ?_, ?_, ?_, ?_, ?_, ?_, ?_, ?_, ?_, ?_, ?_, ?_, ?_⟩
  · rw [e1]; exact h.len
  · rw [e6]; exact h.vlen
  · intro j; rw [e1]; exact h.arrival j
  · intro j; rw [e1]; exact h.burst j
  · intro j; rw [e1]; exact h.range j
  · rw [e5, e7]; simp only [List.length_append]; have := h.front_le; omega
  · intro q hq
    rw [e7] at hq
    rcases List.mem_append.mp hq with h1 | h1
    · exact h.queue_lt q h1
    · simp only [List.mem_filter, List.mem_range] at h1
      rw [← h.len]; exact h1.1
  · intro q hq
    rw [hready] at hq
    simp only [List.mem_filter, List.mem_range, decide_eq_true_eq] at hq
    rw [e8 q, if_pos hq, e1]
    refine ⟨by decide, ?_⟩
    have hq0 : q < proc0.length := by rw [← h.len]; exact hq.1
    rw [h.unvisited q hq0 hq.2.2]
    exact hbpos q hq0
  · rw [hready]; exact Exact.RR.nodup_filter_range _ _
  · intro j hj hv hr
    rw [hready]
    rw [e8 j] at hv
    rw [e1] at hr
    simp only [List.mem_filter, List.mem_range, decide_eq_true_eq]
    by_cases hc : j < s.proc.length
        ∧ arrived { s with current_time := wrap (s.current_time + 1) } j
    · exact hc
    · rw [if_neg hc] at hv
      have := h.in_ready j hj hv hr
      rw [hempty] at this
      simp at this
  · intro j hj hv
    rw [e8 j] at hv
    rw [e1]
    by_cases hc : j < s.proc.length
        ∧ arrived { s with current_time := wrap (s.current_time + 1) } j
    · rw [if_pos hc] at hv; exact absurd hv (by decide)
    · rw [if_neg hc] at hv
      exact h.unvisited j hj hv
  · rw [e4, e1]; exact h.count
  · intro j; rw [e1]; exact h.fresh j
  · intro j; rw [e1]; exact h.charged j

/-- Facts about the start of a dispatch from a state of the run. -/
theorem Discipline.rr_front {proc0 : List Process} {s : State} (h : Discipline proc0 s)
    (hfront : s.front ≠ s.queue.length) :
    ready s = queueAt s.queue s.front :: s.queue.drop (s.front + 1)
      ∧ queueAt s.queue s.front < proc0.length
      ∧ visitedAt s.visited (queueAt s.queue s.front) ≠ 0
      ∧ 0 < (procAt s.proc (queueAt s.queue s.front)).remaining_time
      ∧ queueAt s.queue s.front ∉ s.queue.drop (s.front + 1)
      ∧ (s.queue.drop (s.front + 1)).Nodup := by
  have hlt : s.front < s.queue.length := lt_of_le_of_ne h.front_le hfront
  have hq : queueAt s.queue s.front = s.queue[s.front] := by
    simp [queueAt, List.getElem?_eq_getElem hlt]
  have hr : ready s = queueAt s.queue s.front :: s.queue.drop (s.front + 1) := by
    unfold ready; rw [List.drop_eq_getElem_cons hlt, ← hq]
  have hmem : queueAt s.queue s.front ∈ s.queue := by rw [hq]; exact List.getElem_mem _
  have hok := h.ready_ok (queueAt s.queue s.front) (by rw [hr]; simp)
  have hnd := h.ready_nodup
  rw [hr, List.nodup_cons] at hnd
  exact ⟨hr, h.queue_lt _ hmem, hok.1, hok.2, hnd.1, hnd.2⟩

end RR

namespace RR

/-- The arrival check after the slice of a dispatch from a state of the run admits exactly the
unvisited processes other than the dispatched one that have arrived by the end of the slice. -/
theorem Discipline.rr_arrivals {proc0 : List Process} {s : State} (h : Discipline proc0 s)
    (tq : Int) (hfront : s.front ≠ s.queue.length) (hburst : ∀ p ∈ proc0, 0 < p.burst_time)
    (m : Nat) (hm : m < proc0.length) :
    arrivedRem (afterSlice tq s) m ↔
      ((procAt s.proc m).arrival_time ≤ (dispatch tq s).current_time
        ∧ visitedAt s.visited m = 0) := by
  obtain ⟨hr, hidx, hvis, hrem, hnotin, hnd⟩ := h.rr_front hfront
  have hi : queueAt s.queue s.front < s.proc.length := by rw [h.len]; exact hidx
  obtain ⟨-, -, d3, -, -, -, -, -, -, d10, ⟨-, -, s3, -, s5⟩, -⟩ :=
    rr_dispatch_frame tq s hi (by rw [h.vlen, h.len])
  unfold arrivedRem
  rw [s3, (s5 m).1, (s5 m).2, d3 m, d10]
  constructor
  · rintro ⟨c1, c2, -⟩
    exact ⟨c1, c2⟩
  · rintro ⟨c1, c2⟩
    have hmx : m ≠ queueAt s.queue s.front := fun e => hvis (e ▸ c2)
    have hu := h.unvisited m hm c2
    have hb : 0 < (procAt s.proc m).burst_time := by
      rw [h.burst m]; exact hburst _ (Exact.procAt_mem hm)
    rw [if_neg hmx]
    exact ⟨c1, c2, by omega⟩

theorem Discipline.disc_dispatch {proc0 : List Process} {tq : Int} {s : State}
    (h : Discipline proc0 s) (hfront : s.front ≠ s.queue.length) (htq : 0 < tq)
    (hburst : ∀ p ∈ proc0, 0 < p.burst_time) :
    Discipline proc0 (RR.dispatch tq s) := by
  obtain ⟨hr, hidx, hvis, hrem, hnotin, hnd⟩ := h.rr_front hfront
  have hi : queueAt s.queue s.front < s.proc.length := by rw [h.len]; exact hidx
  have hv : s.visited.length = s.proc.length := by rw [h.vlen, h.len]
  obtain ⟨d1, d2, d3, -, d5, d6, d7, d8, d9, -, -, -⟩ := rr_dispatch_frame tq s hi hv
  have dts := rr_dispatch_charge tq s hi hv
  have hsl := Exact.RR.sliceLen_pos (p := procAt s.proc (queueAt s.queue s.front)) hrem htq
  have hrange := h.range (queueAt s.queue s.front)
  have pSelf : (procAt (RR.dispatch tq s).proc (queueAt s.queue s.front)).remaining_time
      = (procAt s.proc (queueAt s.queue s.front)).remaining_time
        - sliceLen (procAt s.proc (queueAt s.queue s.front)) tq := by
    rw [d3, if_pos rfl]
  have pRem : ∀ m, m ≠ queueAt s.queue s.front →
      (procAt (RR.dispatch tq s).proc m).remaining_time = (procAt s.proc m).remaining_time := by
    intro m hm; rw [d3, if_neg hm]
  have hArr : ∀ m, m < proc0.length → (arrivedRem (afterSlice tq s) m ↔
      ((procAt s.proc m).arrival_time ≤ (dispatch tq s).current_time
        ∧ visitedAt s.visited m = 0)) := fun m hm => h.rr_arrivals tq hfront hburst m hm
  have hReady : ready (RR.dispatch tq s)
      = (s.queue.drop (s.front + 1)
          ++ (List.range s.proc.length).filter (fun i => decide (arrivedRem (afterSlice tq s) i)))
        ++ (if (procAt (RR.dispatch tq s).proc (queueAt s.queue s.front)).remaining_time > 0
            then [queueAt s.queue s.front] else []) := by
    have hlt : s.front + 1 ≤ s.queue.length := by
      have := h.front_le
      omega
    unfold ready
    rw [d6, d7, List.append_assoc, List.drop_append_of_le_length hlt, List.append_assoc]
  have hRestIn : ∀ q, q ∈ s.queue.drop (s.front + 1) → q ∈ ready s := by
    intro q hq; rw [hr]; exact List.mem_cons_of_mem _ hq
  have hA : ∀ q, q ∈ (List.range s.proc.length).filter
      (fun i => decide (arrivedRem (afterSlice tq s) i)) →
      q < proc0.length ∧ q ≠ queueAt s.queue s.front ∧ visitedAt s.visited q = 0 := by
    intro q hq
    simp only [List.mem_filter, List.mem_range, decide_eq_true_eq] at hq
    have hq0 : q < proc0.length := by rw [← h.len]; exact hq.1
    have := (hArr q hq0).mp hq.2
    exact ⟨hq0, fun e => hvis (e ▸ this.2), this.2⟩
  refine ⟨?_, ?_, ?_, ?_, ?_, ?_, ?_, ?_, ?_, ?_, ?_, ?_, ?_, ?_⟩
  · rw [d1]; exact h.len
  · rw [d8]; exact h.vlen
  · intro j; rw [(d2 j).1]; exact h.arrival j
  · intro j; rw [(d2 j).2]; exact h.burst j
  · intro j
    rw [(d2 j).2]
    by_cases hj : j = queueAt s.queue s.front
    · rw [hj, pSelf]; omega
    · rw [pRem j hj]; exact h.range j
  · rw [d7, d6]
    have := h.front_le
    simp only [List.length_append]
    omega
  · intro q hq
    rw [d6] at hq
    rcases List.mem_append.mp hq with h1 | h1
    · rcases List.mem_append.mp h1 with h2 | h2
      · exact h.queue_lt q h2
      · exact (hA q h2).1
    · split at h1
      · simp only [List.mem_singleton] at h1; rw [h1]; exact hidx
      · simp at h1
  · intro q hq
    rw [hReady] at hq
    rcases List.mem_append.mp hq with h1 | h1
    · rcases List.mem_append.mp h1 with h2 | h2
      · have hqx : q ≠ queueAt s.queue s.front := fun e => hnotin (e ▸ h2)
        have hok := h.ready_ok q (hRestIn q h2)
        rw [d9 q, pRem q hqx]
        refine ⟨?_, hok.2⟩
        split
        · decide
        · exact hok.1
      · obtain ⟨hq0, hqx, hq1⟩ := hA q h2
        simp only [List.mem_filter, List.mem_range, decide_eq_true_eq] at h2
        rw [d9 q, if_pos h2, pRem q hqx, h.unvisited q hq0 hq1, h.burst q]
        exact ⟨by decide, hburst _ (Exact.procAt_mem hq0)⟩
    · split at h1
      · rename_i hpos
        simp only [List.mem_singleton] at h1
        rw [h1, d9]
        refine ⟨?_, hpos⟩
        split
        · decide
        · exact hvis
      · simp at h1
  · rw [hReady]
    rw [List.nodup_append]
    refine ⟨?_, ?_, ?_⟩
    · rw [List.nodup_append]
      refine ⟨hnd, Exact.RR.nodup_filter_range _ _, ?_⟩
      intro q hq1 hq2
      exact (h.ready_ok q (hRestIn q hq1)).1 (hA q hq2).2.2
    · split
      · exact List.nodup_singleton _
      · exact List.nodup_nil
    · intro q hq1 hq2
      split at hq2
      · simp only [List.mem_singleton] at hq2
        rcases List.mem_append.mp hq1 with h2 | h2
        · exact hnotin (hq2 ▸ h2)
        · exact (hA q h2).2.1 hq2
      · simp at hq2
  · intro j hj hvj hrj
    rw [hReady]
    by_cases hjx : j = queueAt s.queue s.front
    · rw [hjx] at hrj
      rw [if_pos hrj, hjx]
      simp
    · rw [pRem j hjx] at hrj
      rw [d9 j] at hvj
      apply List.mem_append_left
      by_cases hc : j < s.proc.length ∧ arrivedRem (afterSlice tq s) j
      · apply List.mem_append_right
        simp only [List.mem_filter, List.mem_range, decide_eq_true_eq]
        exact hc
      · rw [if_neg hc] at hvj
        apply List.mem_append_left
        have := h.in_ready j hj hvj hrj
        rw [hr] at this
        rcases List.mem_cons.mp this with h1 | h1
        · exact absurd h1 hjx
        · exact h1
  · intro j hj hvj
    rw [d9 j] at hvj
    by_cases hc : j < s.proc.length ∧ arrivedRem (afterSlice tq s) j
    · rw [if_pos hc] at hvj; exact absurd hvj (by decide)
    · rw [if_neg hc] at hvj
      have hjx : j ≠ queueAt s.queue s.front := fun e => hvis (e ▸ hvj)
      rw [(d2 j).2, pRem j hjx]
      exact h.unvisited j hj hvj
  · rw [d5, h.count]
    have hlen : (RR.dispatch tq s).proc.length = s.proc.length := d1
    have hcnt : finishedCount (RR.dispatch tq s).proc
        = finishedCount (s.proc.set (queueAt s.queue s.front)
            (procAt (RR.dispatch tq s).proc (queueAt s.queue s.front))) := by
      apply Exact.RR.finishedCount_congr (by rw [hlen, List.length_set])
      intro m
      rw [Exact.procAt_set]
      by_cases hm : m = queueAt s.queue s.front
      · rw [if_pos ⟨hm, hi⟩, hm]
      · rw [if_neg (fun hc => hm hc.1), pRem m hm]
    rw [hcnt, Exact.RR.finishedCount_set _ _ _ hi (by omega), pSelf]
    by_cases hz : (procAt s.proc (queueAt s.queue s.front)).remaining_time
        - sliceLen (procAt s.proc (queueAt s.queue s.front)) tq = 0
    · rw [if_neg (by omega), if_pos hz]
    · rw [if_pos (by omega), if_neg hz]; rfl
  · intro j hj
    rw [(d2 j).2] at hj
    by_cases hjx : j = queueAt s.queue s.front
    · rw [hjx, pSelf] at hj; omega
    · rw [pRem j hjx] at hj
      rw [dts j, if_neg (fun hc => hjx hc.1)]
      exact h.fresh j hj
  · intro j hj
    rw [(d2 j).2] at hj
    rw [dts j]
    by_cases hjx : j = queueAt s.queue s.front
    · by_cases hf : (procAt s.proc j).remaining_time = (procAt s.proc j).burst_time
      · rw [if_pos ⟨hjx, hf⟩, h.fresh j hf]
        decide
      · rw [if_neg (fun hc => hf hc.2)]
        exact h.charged j (by have := (h.range j).2; omega)
    · rw [if_neg (fun hc => hjx hc.1)]
      rw [pRem j hjx] at hj
      exact h.charged j hj

theorem Discipline.disc_step {proc0 : List Process} {tq : Int} {s : State}
    (h : Discipline proc0 s) (htq : 0 < tq) (hburst : ∀ p ∈ proc0, 0 < p.burst_time) :
    Discipline proc0 (RR.step tq s) := by
  unfold RR.step
  split
  · rename_i hf; exact h.disc_idle hf hburst
  · rename_i hf; exact h.disc_dispatch hf htq hburst

/-- Every state at an iteration boundary of the loop of `calculate_rr` satisfies the queue
discipline, in every run. -/
theorem Discipline.disc_reach {proc0 : List Process} {total : Int} {tq : Int} {s : State}
    (htq : 0 < tq) (hfresh : ∀ p ∈ proc0, Fresh p) (hburst : ∀ p ∈ proc0, 0 < p.burst_time)
    (hr : Reach tq (RR.init proc0 total) s) : Discipline proc0 s := by
  induction hr with
  | init => exact Discipline.disc_init proc0 total hfresh hburst
  | step _ _ ih => exact ih.disc_step htq hburst

end RR

namespace RR

theorem Discipline.queue_ok {proc0 : List Process} {s : State} (h : Discipline proc0 s) :
    QueueOK s :=
  ⟨h.ready_nodup, fun q hq => (h.ready_ok q hq).2⟩

/-- The ready queue stays in order inside a dispatch: after the dequeue and admission, after the
slice, and after the arrival check. -/
theorem Discipline.queue_ok_inside {proc0 : List Process} {s : State}
    (h : Discipline proc0 s) (tq : Int) (hfront : s.front ≠ s.queue.length) :
    QueueOK (afterAdmission s) ∧ QueueOK (afterSlice tq s)
      ∧ QueueOK (enqueueArrivalsRem (afterSlice tq s)) := by
  obtain ⟨hr, hidx, hvis, hrem, hnotin, hnd⟩ := h.rr_front hfront
  have hi : queueAt s.queue s.front < s.proc.length := by rw [h.len]; exact hidx
  have hv : s.visited.length = s.proc.length := by rw [h.vlen, h.len]
  obtain ⟨-, -, d3, -, -, -, -, -, -, -, ⟨a5, a6, a7, hlen4, a8⟩, ⟨b5, b6, b7, b8⟩⟩ :=
    rr_dispatch_frame tq s hi hv
  obtain ⟨e1, -, -, -, e5, -, e7, -⟩ :=
    Exact.RR.enqueueArrivalsRem_spec (afterSlice tq s) (by rw [a7, hlen4]; exact hv)
  have hrA : ready (afterAdmission s) = s.queue.drop (s.front + 1) := by
    unfold ready; rw [b5, b6]
  have hrS : ready (afterSlice tq s) = s.queue.drop (s.front + 1) := by
    unfold ready; rw [a5, a6]
  have htail : ∀ q ∈ s.queue.drop (s.front + 1), q ≠ queueAt s.queue s.front
      ∧ visitedAt s.visited q ≠ 0 ∧ 0 < (procAt s.proc q).remaining_time := by
    intro q hq
    have hq' : q ∈ ready s := by rw [hr]; exact List.mem_cons_of_mem _ hq
    exact ⟨fun e => hnotin (e ▸ hq), h.ready_ok q hq'⟩
  have hremS : ∀ q, q ≠ queueAt s.queue s.front →
      (procAt (afterSlice tq s).proc q).remaining_time = (procAt s.proc q).remaining_time := by
    intro q hq
    rw [(a8 q).2, d3, if_neg hq]
  refine ⟨⟨by rw [hrA]; exact hnd, ?_⟩, ⟨by rw [hrS]; exact hnd, ?_⟩, ?_, ?_⟩
  · intro q hq
    rw [hrA] at hq
    rw [b8 q]; exact (htail q hq).2.2
  · intro q hq
    rw [hrS] at hq
    rw [hremS q (htail q hq).1]; exact (htail q hq).2.2
  · unfold ready
    rw [e7, e5, a5, a6, List.drop_append_of_le_length (by have := h.front_le; omega)]
    refine List.Nodup.append hnd ((List.nodup_range _).filter _) ?_
    intro q hq1 hq2
    have hvq := (htail q hq1).2.1
    have := (List.mem_filter.mp hq2).2
    simp only [decide_eq_true_eq, arrivedRem] at this
    rw [a7] at this
    exact hvq this.2.1
  · intro q hq
    unfold ready at hq
    rw [e7, e5, a5, a6, List.drop_append_of_le_length (by have := h.front_le; omega)] at hq
    rw [e1]
    rcases List.mem_append.mp hq with hq1 | hq2
    · rw [hremS q (htail q hq1).1]; exact (htail q hq1).2.2
    · have := (List.mem_filter.mp hq2).2
      simp only [decide_eq_true_eq, arrivedRem] at this
      exact this.2.2

/-- What an iteration writes to the queue: one entry per arrival insertion and one per
preemption. -/
theorem Discipline.step_queue {proc0 : List Process} {s : State}
    (h : Discipline proc0 s) (tq : Int) (j : Nat) :
    (RR.step tq s).queue.count j
        = s.queue.count j + arrivalInsertions s (RR.step tq s) j + preemptions tq s j
      ∧ (visitedAt s.visited j ≠ 0 → visitedAt (RR.step tq s).visited j ≠ 0) := by
  by_cases hfront : s.front = s.queue.length
  · have hstep : RR.step tq s = idle s := by unfold RR.step; rw [if_pos hfront]
    obtain ⟨-, -, -, -, -, -, e7, e8⟩ :=
      Exact.RR.enqueueArrivals_spec { s with current_time := wrap (s.current_time + 1) }
        (by show s.visited.length = s.proc.length; rw [h.vlen, h.len])
    have hq : (idle s).queue = s.queue ++ (List.range s.proc.length).filter
        (fun i => decide (arrived { s with current_time := wrap (s.current_time + 1) } i)) := e7
    have hv : visitedAt (idle s).visited j
        = if j < s.proc.length
            ∧ arrived { s with current_time := wrap (s.current_time + 1) } j then 1
          else visitedAt s.visited j := e8 j
    have hp : preemptions tq s j = 0 := idle_preemptions tq s hfront j
    rw [hp, hstep, hq, List.count_append, Exact.RR.count_filter_range]
    unfold arrivalInsertions
    rw [hv]
    by_cases hc : j < s.proc.length
        ∧ arrived { s with current_time := wrap (s.current_time + 1) } j
    · have hv0 : visitedAt s.visited j = 0 := hc.2.2
      simp [hc, hv0]
    · have hc' : ¬ (j < s.proc.length
          ∧ decide (arrived { s with current_time := wrap (s.current_time + 1) } j) = true) := by
        simpa using hc
      rw [if_neg hc, if_neg hc']
      refine ⟨?_, fun h => h⟩
      by_cases h0 : visitedAt s.visited j = 0 <;> simp [h0]
  · have hstep : RR.step tq s = dispatch tq s := by unfold RR.step; rw [if_neg hfront]
    obtain ⟨-, hidx, -, hrem, -, -⟩ := h.rr_front hfront
    have hi : queueAt s.queue s.front < s.proc.length := by rw [h.len]; exact hidx
    obtain ⟨-, -, -, -, -, d5, -, -, d8, -, ⟨-, -, a7, -, -⟩, -⟩ :=
      rr_dispatch_frame tq s hi (by rw [h.vlen, h.len])
    have hv := d8 j
    have hp : preemptions tq s j
        = if queueAt s.queue s.front = j
            ∧ (procAt (dispatch tq s).proc (queueAt s.queue s.front)).remaining_time > 0
          then 1 else 0 := by
      unfold preemptions
      rw [hstep]
      by_cases hj : queueAt s.queue s.front = j
      · subst hj; simp [hfront]
      · simp [hj]
    have hR : (if (procAt (dispatch tq s).proc (queueAt s.queue s.front)).remaining_time > 0
          then [queueAt s.queue s.front] else []).count j
        = if queueAt s.queue s.front = j
            ∧ (procAt (dispatch tq s).proc (queueAt s.queue s.front)).remaining_time > 0
          then 1 else 0 := by
      by_cases hpos : (procAt (dispatch tq s).proc (queueAt s.queue s.front)).remaining_time > 0
      · rw [if_pos hpos]
        by_cases hj : queueAt s.queue s.front = j
        · subst hj; simp [hpos]
        · have hj' : j ≠ queueAt s.queue s.front := fun e => hj e.symm
          simp [hj, hj', hpos]
      · rw [if_neg hpos]; simp [hpos]
    rw [hp, hstep, d5, List.count_append, List.count_append, hR, Exact.RR.count_filter_range]
    unfold arrivalInsertions
    rw [hv]
    by_cases hc : j < s.proc.length ∧ arrivedRem (afterSlice tq s) j
    · have hv0 : visitedAt s.visited j = 0 := by
        have := hc.2.2.1; rw [a7] at this; exact this
      simp [hc, hv0]
    · have hc' : ¬ (j < s.proc.length ∧ decide (arrivedRem (afterSlice tq s) j) = true) := by
        simpa using hc
      rw [if_neg hc, if_neg hc']
      refine ⟨?_, fun h => h⟩
      by_cases h0 : visitedAt s.visited j = 0 <;> simp [h0]

/-- When the loop of `calculate_rr` returns, in every run, no process has time remaining, the
ready queue is empty, every process has been visited and has been charged one swap-in. -/
theorem rr_final_discipline (proc : List Process) (total tq : Int) (htq : 0 < tq)
    (hfresh : ∀ p ∈ proc, Fresh p) (hburst : ∀ p ∈ proc, 0 < p.burst_time)
    (fuel : Nat) (r : State) (h : calculate_rr proc total tq fuel = some r) :
    Discipline proc r ∧ (∀ p ∈ r.proc, p.remaining_time = 0)
      ∧ ready r = [] ∧ (∀ j, j < proc.length → visitedAt r.visited j ≠ 0)
      ∧ ∀ p ∈ r.proc, p.total_swap_time = SWAP_TIME := by
  obtain ⟨hreach, hdone⟩ := calculate_rr_reach h
  have hinv := Discipline.disc_reach htq hfresh hburst hreach
  have hall := Exact.RR.all_finished_of_count (by rw [← hinv.count]; exact hdone)
  refine ⟨hinv, hall, ?_, fun j hj hv => ?_, fun p hp => ?_⟩
  · cases hr : ready r with
    | nil => rfl
    | cons q t =>
      have hq : q ∈ ready r := by rw [hr]; simp
      have h1 := (hinv.ready_ok q hq).2
      have h2 := hall _ (Exact.procAt_mem (l := r.proc) (i := q) (by
        rw [hinv.len]; exact hinv.queue_lt q (List.mem_of_mem_drop hq)))
      omega
  · have h1 := hinv.unvisited j hj hv
    have h2 := hall _ (Exact.procAt_mem (l := r.proc) (i := j) (by rw [hinv.len]; exact hj))
    have h3 : 0 < (procAt r.proc j).burst_time := by
      rw [hinv.burst j]; exact hburst _ (Exact.procAt_mem hj)
    omega
  · obtain ⟨i, hi, he⟩ := Exact.exists_procAt_of_mem hp
    have h0 := hall p hp
    rw [← he] at h0 ⊢
    apply hinv.charged i
    have h3 : 0 < (procAt r.proc i).burst_time := by
      rw [hinv.burst i]; exact hburst _ (Exact.procAt_mem (by rw [← hinv.len]; exact hi))
    omega

end RR

namespace FCFS

/-- The record that iteration `k` of the main loop of `calculate_fcfs` leaves for process `k`,
and the clock and free memory it ends with, from the record `p` and the clock `t` found after
the memory check. -/
theorem body_record (s : State) (k : Nat) (hk : k < s.proc.length) :
    initData (procAt (body s k).proc k)
        = [(procAt (makeRoom (idleJump s k) k).proc k).pid,
            (procAt (makeRoom (idleJump s k) k).proc k).arrival_time,
            (procAt (makeRoom (idleJump s k) k).proc k).burst_time,
            (procAt (makeRoom (idleJump s k) k).proc k).memory_required,
            (procAt (makeRoom (idleJump s k) k).proc k).is_swapped, SWAP_TIME]
      ∧ (procAt (body s k).proc k).start_time
          = wrap ((makeRoom (idleJump s k) k).current_time + SWAP_TIME)
      ∧ (procAt (body s k).proc k).response_time
          = wrap (wrap ((makeRoom (idleJump s k) k).current_time + SWAP_TIME)
              - (procAt (makeRoom (idleJump s k) k).proc k).arrival_time)
      ∧ (procAt (body s k).proc k).completion_time
          = wrap (wrap ((makeRoom (idleJump s k) k).current_time + SWAP_TIME)
              + (procAt (makeRoom (idleJump s k) k).proc k).burst_time)
      ∧ (procAt (body s k).proc k).turnaround_time
          = wrap (wrap (wrap ((makeRoom (idleJump s k) k).current_time + SWAP_TIME)
              + (procAt (makeRoom (idleJump s k) k).proc k).burst_time)
              - (procAt (makeRoom (idleJump s k) k).proc k).arrival_time)
      ∧ (procAt (body s k).proc k).waiting_time
          = wrap (wrap (wrap (wrap ((makeRoom (idleJump s k) k).current_time + SWAP_TIME)
              + (procAt (makeRoom (idleJump s k) k).proc k).burst_time)
              - (procAt (makeRoom (idleJump s k) k).proc k).arrival_time)
              - (procAt (makeRoom (idleJump s k) k).proc k).burst_time)
      ∧ (body s k).current_time
          = wrap (wrap ((makeRoom (idleJump s k) k).current_time + SWAP_TIME)
              + (procAt (makeRoom (idleJump s k) k).proc k).burst_time)
      ∧ (body s k).available_memory
          = wrap ((makeRoom (idleJump s k) k).available_memory
              - (procAt (makeRoom (idleJump s k) k).proc k).memory_required) := by
  have h2 : k < (makeRoom (idleJump s k) k).proc.length := by
    rw [(makeRoom_frame (idleJump s k) k 0).1]; simpa using hk
  have e2 : procAt (swapIn (makeRoom (idleJump s k) k) k).proc k = _ :=
    Exact.procAt_set_self _ h2
  have e3 : procAt (execute (swapIn (makeRoom (idleJump s k) k) k) k).proc k = _ :=
    Exact.procAt_set_self _ (by simpa [swapIn] using h2)
  refine ⟨?_, ?_, ?_, ?_, ?_, ?_, ?_, ?_⟩
  · show initData (procAt (execute (swapIn (makeRoom (idleJump s k) k) k) k).proc k) = _
    rw [e3, e2]; rfl
  · show (procAt (execute (swapIn (makeRoom (idleJump s k) k) k) k).proc k).start_time = _
    rw [e3, e2]
  · show (procAt (execute (swapIn (makeRoom (idleJump s k) k) k) k).proc k).response_time = _
    rw [e3, e2]
  · show (procAt (execute (swapIn (makeRoom (idleJump s k) k) k) k).proc k).completion_time = _
    rw [e3, e2]; rfl
  · show (procAt (execute (swapIn (makeRoom (idleJump s k) k) k) k).proc k).turnaround_time = _
    rw [e3, e2]; rfl
  · show (procAt (execute (swapIn (makeRoom (idleJump s k) k) k) k).proc k).waiting_time = _
    rw [e3, e2]; rfl
  · show wrap ((swapIn (makeRoom (idleJump s k) k) k).current_time
        + (procAt (swapIn (makeRoom (idleJump s k) k) k).proc k).burst_time) = _
    rw [e2]; rfl
  · rfl

theorem initData_fields {p q : Process} (h : initData p = initData q) :
    p.pid = q.pid ∧ p.arrival_time = q.arrival_time ∧ p.burst_time = q.burst_time
      ∧ p.memory_required = q.memory_required ∧ p.is_swapped = q.is_swapped
      ∧ p.total_swap_time = q.total_swap_time := by
  simpa [initData] using h

theorem SameProc.set_same {k : Nat} {l1 l2 : List Process} (h : SameProc k l1 l2) (i : Nat)
    {p q : Process} (hpq : SameRec k i p q) : SameProc k (l1.set i p) (l2.set i q) := by
  refine ⟨by simp [h.1], fun m => ?_⟩
  rw [Exact.procAt_set, Exact.procAt_set, h.1]
  split
  · rename_i hm; rw [hm.1]; exact hpq
  · exact h.2 m

theorem SameRec.at_zero {m m' : Nat} {p q : Process} (h : SameRec 0 m p q) : SameRec 0 m' p q :=
  ⟨h.1, fun hm => absurd hm (by omega)⟩

theorem SameProc.swapStep_same {l1 l2 : List Process} (h : SameProc 0 l1 l2) (j : Nat) :
    SameProc 0 (swapStep l1 j) (swapStep l2 j) := by
  unfold FCFS.swapStep
  have e1 := (initData_fields (h.2 j).1).2.1
  have e2 := (initData_fields (h.2 (j + 1)).1).2.1
  rw [e1, e2]
  split
  · exact (h.set_same j (h.2 (j + 1)).at_zero).set_same (j + 1) (h.2 j).at_zero
  · exact h

theorem SameProc.foldl_swapStep_same {l1 l2 : List Process} (h : SameProc 0 l1 l2)
    (js : List Nat) : SameProc 0 (js.foldl swapStep l1) (js.foldl swapStep l2) := by
  induction js generalizing l1 l2 with
  | nil => exact h
  | cons j t ih => exact ih (h.swapStep_same j)

theorem SameProc.innerPass_same {l1 l2 : List Process} (h : SameProc 0 l1 l2) (i : Nat) :
    SameProc 0 (innerPass l1 i) (innerPass l2 i) := by
  unfold FCFS.innerPass
  rw [h.1]
  exact h.foldl_swapStep_same _

theorem SameProc.foldl_innerPass_same {l1 l2 : List Process} (h : SameProc 0 l1 l2)
    (is : List Nat) : SameProc 0 (is.foldl innerPass l1) (is.foldl innerPass l2) := by
  induction is generalizing l1 l2 with
  | nil => exact h
  | cons i t ih => exact ih (h.innerPass_same i)

theorem SameProc.sortByArrival_same {l1 l2 : List Process} (h : SameProc 0 l1 l2) :
    SameProc 0 (sortByArrival l1) (sortByArrival l2) := by
  unfold FCFS.sortByArrival
  rw [h.1]
  exact h.foldl_innerPass_same _

theorem sameProc_of_map {l1 l2 : List Process} (h : l1.map initData = l2.map initData) :
    SameProc 0 l1 l2 := by
  have hlen : l1.length = l2.length := by
    have := congrArg List.length h
    simpa using this
  refine ⟨hlen, fun m => ⟨?_, fun hm => absurd hm (by omega)⟩⟩
  by_cases hm : m < l1.length
  · have h1 : (l1.map initData)[m]? = (l2.map initData)[m]? := by rw [h]
    simp only [List.getElem?_map] at h1
    rw [List.getElem?_eq_getElem hm, List.getElem?_eq_getElem (by omega)] at h1
    simp only [Option.map_some', Option.some.injEq] at h1
    rw [Exact.procAt_of_lt hm, Exact.procAt_of_lt (by omega)]
    exact h1
  · rw [Exact.procAt_default (by omega), Exact.procAt_default (by omega)]

theorem Sim.idleJump_same {k : Nat} {s1 s2 : State} (h : Sim k s1 s2) (i : Nat) :
    Sim k (idleJump s1 i) (idleJump s2 i) := by
  obtain ⟨ht, ha, hp⟩ := h
  have e := (initData_fields (hp.2 i).1).2.1
  unfold FCFS.idleJump
  rw [ht, e]
  split
  · exact ⟨rfl, ha, hp⟩
  · exact ⟨ht, ha, hp⟩

theorem Sim.swapOut_same {k : Nat} {s1 s2 : State} (h : Sim k s1 s2) (j : Nat) :
    Sim k (swapOut s1 j) (swapOut s2 j) := by
  obtain ⟨ht, ha, hp⟩ := h
  obtain ⟨e1, e2, e3, e4, e5, e6⟩ := initData_fields (hp.2 j).1
  refine ⟨?_, ?_, ?_⟩
  · show wrap (s1.current_time + SWAP_TIME) = wrap (s2.current_time + SWAP_TIME)
    rw [ht]
  · show wrap (s1.available_memory + (procAt s1.proc j).memory_required)
      = wrap (s2.available_memory + (procAt s2.proc j).memory_required)
    rw [ha, e4]
  · show SameProc k (s1.proc.set j _) (s2.proc.set j _)
    apply hp.set_same
    refine ⟨?_, fun hm => (hp.2 j).2 hm⟩
    simp [initData, e1, e2, e3, e4, e6]

theorem Sim.swapOutScan_same {k : Nat} (i : Nat) (js : List Nat) (hjs : ∀ j ∈ js, j < k)
    {s1 s2 : State} (h : Sim k s1 s2) :
    Sim k (swapOutScan i js s1) (swapOutScan i js s2) := by
  induction js generalizing s1 s2 with
  | nil => exact h
  | cons j t ih =>
    have hj : j < k := hjs j (by simp)
    have ht : ∀ x ∈ t, x < k := fun x hx => hjs x (by simp [hx])
    obtain ⟨e1, e2, e3, e4, e5, e6⟩ := initData_fields (h.2.2.2 j).1
    have ec := ((h.2.2.2 j).2 hj).1
    have hs := h.swapOut_same j
    have em := (initData_fields (hs.2.2.2 i).1).2.2.2.1
    simp only [FCFS.swapOutScan]
    rw [ec, e5, h.1, hs.2.1, em]
    split
    · split
      · exact hs
      · exact ih ht hs
    · exact ih ht h

theorem Sim.makeRoom_same {k : Nat} {s1 s2 : State} (h : Sim k s1 s2) :
    Sim k (makeRoom s1 k) (makeRoom s2 k) := by
  have em := (initData_fields (h.2.2.2 k).1).2.2.2.1
  unfold FCFS.makeRoom
  rw [em, h.2.1]
  split
  · exact h.swapOutScan_same k _ (fun j hj => List.mem_range.mp hj)
  · exact h

theorem Sim.body_same {k : Nat} {s1 s2 : State} (h : Sim k s1 s2) (hk : k < s1.proc.length) :
    Sim (k + 1) (body s1 k) (body s2 k) := by
  have hk2 : k < s2.proc.length := by rw [← h.2.2.1]; exact hk
  have hm := (h.idleJump_same k).makeRoom_same
  obtain ⟨e1, e2, e3, e4, e5, e6⟩ := initData_fields (hm.2.2.2 k).1
  obtain ⟨a1, a2, a3, a4, a5, a6, a7, a8⟩ := body_record s1 k hk
  obtain ⟨b1, b2, b3, b4, b5, b6, b7, b8⟩ := body_record s2 k hk2
  refine ⟨?_, ?_, ?_, ?_⟩
  · rw [a7, b7, hm.1, e3]
  · rw [a8, b8, hm.2.1, e4]
  · rw [(body_frame s1 k 0).1, (body_frame s2 k 0).1]; exact h.2.2.1
  · intro m
    by_cases hmk : m = k
    · subst hmk
      refine ⟨?_, fun _ => ?_⟩
      · rw [a1, b1, e1, e2, e3, e4, e5]
      · rw [a2, a3, a4, a5, a6, b2, b3, b4, b5, b6, hm.1, e2, e3]
        exact ⟨rfl, rfl, rfl, rfl, rfl⟩
    · rw [(body_frame s1 k m).2.1 hmk, (body_frame s2 k m).2.1 hmk]
      exact ⟨(hm.2.2.2 m).1, fun hlt => (hm.2.2.2 m).2 (by omega)⟩

theorem stateAt_same {proc1 proc2 : List Process} (h : proc1.map initData = proc2.map initData)
    (total : Int) (k : Nat) (hk : k ≤ proc1.length) :
    Sim k (stateAt proc1 total k) (stateAt proc2 total k) := by
  induction k with
  | zero => exact ⟨rfl, rfl, (sameProc_of_map h).sortByArrival_same⟩
  | succ k ih =>
    rw [stateAt_succ, stateAt_succ]
    exact (ih (by omega)).body_same (by rw [(stateAt_charged proc1 total k (by omega)).1]; omega)

/-- The printed process table that `calculate_fcfs` leaves depends only on the fields that
`initialize_processes` sets, not on what the array held otherwise. -/
theorem table_deterministic {proc1 proc2 : List Process}
    (h : proc1.map initData = proc2.map initData) (total : Int) :
    (calculate_fcfs proc1 total).proc.map tableRow
        = (calculate_fcfs proc2 total).proc.map tableRow
      ∧ (calculate_fcfs proc1 total).current_time = (calculate_fcfs proc2 total).current_time
      ∧ (calculate_fcfs proc1 total).available_memory
          = (calculate_fcfs proc2 total).available_memory := by
  have hlen : proc1.length = proc2.length := by
    have := congrArg List.length h
    simpa using this
  have hs := stateAt_same h total proc1.length (le_refl _)
  have hs' : Sim proc1.length (calculate_fcfs proc1 total) (calculate_fcfs proc2 total) := by
    unfold calculate_fcfs; rw [← hlen]; exact hs
  refine ⟨?_, hs'.1, hs'.2.1⟩
  apply Exact.map_eq_of_procAt tableRow hs'.2.2.1
  intro m
  by_cases hm : m < proc1.length
  · obtain ⟨e1, e2, e3, e4, e5, e6⟩ := initData_fields (hs'.2.2.2 m).1
    obtain ⟨c1, c2, c3, c4, -⟩ := (hs'.2.2.2 m).2 hm
    simp [tableRow, e1, e2, e3, e4, e5, e6, c1, c2, c3, c4]
  · have l1 : (calculate_fcfs proc1 total).proc.length = proc1.length :=
      (stateAt_charged proc1 total _ (le_refl _)).1
    have l2 : (calculate_fcfs proc2 total).proc.length = proc2.length :=
      (stateAt_charged proc2 total _ (le_refl _)).1
    rw [Exact.procAt_default (by omega), Exact.procAt_default (by omega)]

end FCFS

namespace FCFS

theorem scan_returns (i : Nat) (js : List Nat) (hnd : js.Nodup) (s : State)
    (hjs : ∀ j ∈ js, j < s.proc.length) :
    ∃ ev : List Nat, ev.Sublist js
      ∧ (∀ j ∈ ev, 0 < (procAt s.proc j).completion_time ∧ (procAt s.proc j).is_swapped = 0)
      ∧ (∀ j, (procAt (swapOutScan i js s).proc j).is_swapped
          = if j ∈ ev then 1 else (procAt s.proc j).is_swapped)
      ∧ (swapOutScan i js s).available_memory
          = ev.foldl (fun x j => wrap (x + (procAt s.proc j).memory_required))
              s.available_memory := by
  induction js generalizing s with
  | nil => exact ⟨[], List.Sublist.refl _, by simp, fun j => by simp [swapOutScan], rfl⟩
  | cons j t ih =>
    obtain ⟨hjt, ht⟩ := List.nodup_cons.mp hnd
    have hj : j < s.proc.length := hjs j (by simp)
    have hself : (procAt (swapOut s j).proc j).is_swapped = 1 := by
      show (procAt (s.proc.set j _) j).is_swapped = 1
      rw [Exact.procAt_set_self _ hj]
    have hother : ∀ m, m ≠ j → procAt (swapOut s j).proc m = procAt s.proc m :=
      fun m hm => (swapOut_frame s j m).2.2.1 hm
    have hmem : (fun (x : Int) (m : Nat) =>
        wrap (x + (procAt (swapOut s j).proc m).memory_required))
        = fun x m => wrap (x + (procAt s.proc m).memory_required) := by
      funext x m
      have := congrArg Process.memory_required (swapOut_frame s j m).2.1
      exact congrArg (fun y => wrap (x + y)) this
    simp only [swapOutScan]
    split
    · rename_i hc
      split
      · refine ⟨[j], List.singleton_sublist.mpr (List.mem_cons_self _ _),
          fun m hm => ?_, fun m => ?_, ?_⟩
        · rw [List.mem_singleton.mp hm]; exact ⟨hc.1, hc.2.2⟩
        · by_cases hm : m = j
          · subst hm; rw [if_pos (List.mem_singleton.mpr rfl)]; exact hself
          · rw [if_neg (fun h => hm (List.mem_singleton.mp h)), hother m hm]
        · rfl
      · obtain ⟨ev, h1, h2, h3, h4⟩ := ih ht (swapOut s j)
          (fun m hm => by rw [(swapOut_frame s j 0).1]; exact hjs m (by simp [hm]))
        have hne : ∀ m ∈ ev, m ≠ j := fun m hm h => hjt (h ▸ h1.subset hm)
        refine ⟨j :: ev, h1.cons₂ j, fun m hm => ?_, fun m => ?_, ?_⟩
        · rcases List.mem_cons.mp hm with h | h
          · rw [h]; exact ⟨hc.1, hc.2.2⟩
          · have := h2 m h; rw [hother m (hne m h)] at this; exact this
        · rw [h3 m]
          by_cases hm : m = j
          · subst hm
            rw [if_neg (fun h => hne m h rfl), if_pos (List.mem_cons_self _ _)]; exact hself
          · by_cases hme : m ∈ ev
            · rw [if_pos hme, if_pos (List.mem_cons_of_mem _ hme)]
            · rw [if_neg hme, if_neg (fun h => (List.mem_cons.mp h).elim hm hme), hother m hm]
        · rw [h4, hmem]; rfl
    · obtain ⟨ev, h1, h2, h3, h4⟩ := ih ht s (fun m hm => hjs m (by simp [hm]))
      exact ⟨ev, h1.cons j, h2, h3, h4⟩

/-- The eviction scan of iteration `i` of `calculate_fcfs`, in any state and with or without
overflow: the processes it swaps out are distinct processes before `i` whose `completion_time`
is assigned and that were not swapped out, and the memory of each is added once. -/
theorem makeRoom_returns (s : State) (i : Nat) (hi : i ≤ s.proc.length) :
    ∃ ev : List Nat, ReturnedOnceInt (fun p => 0 < p.completion_time) s.proc (makeRoom s i).proc
      i ev s.available_memory (makeRoom s i).available_memory := by
  unfold makeRoom
  split
  · exact scan_returns i (List.range i) (List.nodup_range i) s
      (fun j hj => lt_of_lt_of_le (List.mem_range.mp hj) hi)
  · exact ⟨[], List.nil_sublist _, by simp, fun j => by simp, rfl⟩

end FCFS

namespace NP

theorem np_scan_returns (idx : Nat) (js : List Nat) (hnd : js.Nodup) (s : State)
    (hjs : ∀ j ∈ js, j < s.proc.length) :
    ∃ ev : List Nat, ev.Sublist js
      ∧ (∀ j ∈ ev, (procAt s.proc j).is_completed ≠ 0 ∧ (procAt s.proc j).is_swapped = 0)
      ∧ (∀ j, (procAt (swapOutScan idx js s).proc j).is_swapped
          = if j ∈ ev then 1 else (procAt s.proc j).is_swapped)
      ∧ (swapOutScan idx js s).available_memory
          = ev.foldl (fun x j => wrap (x + (procAt s.proc j).memory_required))
              s.available_memory := by
  induction js generalizing s with
  | nil => exact ⟨[], List.Sublist.refl _, by simp, fun j => by simp [swapOutScan], rfl⟩
  | cons j t ih =>
    obtain ⟨hjt, ht⟩ := List.nodup_cons.mp hnd
    have hj : j < s.proc.length := hjs j (by simp)
    have hself : (procAt (swapOut s j).proc j).is_swapped = 1 := by
      show (procAt (s.proc.set j _) j).is_swapped = 1
      rw [Exact.procAt_set_self _ hj]
    have hother : ∀ m, m ≠ j → procAt (swapOut s j).proc m = procAt s.proc m :=
      fun m hm => (np_swapOut_frame s j m).2.2.2.1 hm
    have hmem : (fun (x : Int) (m : Nat) =>
        wrap (x + (procAt (swapOut s j).proc m).memory_required))
        = fun x m => wrap (x + (procAt s.proc m).memory_required) := by
      funext x m
      have := congrArg Process.memory_required (np_swapOut_frame s j m).2.2.1
      exact congrArg (fun y => wrap (x + y)) this
    simp only [swapOutScan]
    split
    · rename_i hc
      split
      · refine ⟨[j], List.singleton_sublist.mpr (List.mem_cons_self _ _),
          fun m hm => ?_, fun m => ?_, ?_⟩
        · rw [List.mem_singleton.mp hm]; exact hc
        · by_cases hm : m = j
          · subst hm; rw [if_pos (List.mem_singleton.mpr rfl)]; exact hself
          · rw [if_neg (fun h => hm (List.mem_singleton.mp h)), hother m hm]
        · rfl
      · obtain ⟨ev, h1, h2, h3, h4⟩ := ih ht (swapOut s j)
          (fun m hm => by rw [(np_swapOut_frame s j 0).1]; exact hjs m (by simp [hm]))
        have hne : ∀ m ∈ ev, m ≠ j := fun m hm h => hjt (h ▸ h1.subset hm)
        refine ⟨j :: ev, h1.cons₂ j, fun m hm => ?_, fun m => ?_, ?_⟩
        · rcases List.mem_cons.mp hm with h | h
          · rw [h]; exact hc
          · have := h2 m h; rw [hother m (hne m h)] at this; exact this
        · rw [h3 m]
          by_cases hm : m = j
          · subst hm
            rw [if_neg (fun h => hne m h rfl), if_pos (List.mem_cons_self _ _)]; exact hself
          · by_cases hme : m ∈ ev
            · rw [if_pos hme, if_pos (List.mem_cons_of_mem _ hme)]
            · rw [if_neg hme, if_neg (fun h => (List.mem_cons.mp h).elim hm hme), hother m hm]
        · rw [h4, hmem]; rfl
    · obtain ⟨ev, h1, h2, h3, h4⟩ := ih ht s (fun m hm => hjs m (by simp [hm]))
      exact ⟨ev, h1.cons j, h2, h3, h4⟩

/-- The eviction scan of `calculate_sjf` / `calculate_priority`, in any state and with or
without overflow: the processes it swaps out are distinct, marked completed and not swapped out
before, and the memory of each is added once. -/
theorem np_makeRoom_returns (s : State) (idx : Nat) :
    ∃ ev : List Nat, ReturnedOnceInt (fun p => p.is_completed ≠ 0) s.proc (makeRoom s idx).proc
      s.proc.length ev s.available_memory (makeRoom s idx).available_memory := by
  unfold makeRoom
  split
  · exact np_scan_returns idx (List.range s.proc.length) (List.nodup_range _) s
      (fun j hj => List.mem_range.mp hj)
  · exact ⟨[], List.nil_sublist _, by simp, fun j => by simp, rfl⟩

end NP

namespace RR

theorem rr_scan_returns (idx : Nat) (js : List Nat) (hnd : js.Nodup) (s : State)
    (hjs : ∀ j ∈ js, j < s.proc.length) :
    ∃ ev : List Nat, ev.Sublist js
      ∧ (∀ j ∈ ev, (procAt s.proc j).remaining_time = 0 ∧ (procAt s.proc j).is_swapped = 0)
      ∧ (∀ j, (procAt (swapOutScan idx js s).proc j).is_swapped
          = if j ∈ ev then 1 else (procAt s.proc j).is_swapped)
      ∧ (swapOutScan idx js s).available_memory
          = ev.foldl (fun x j => wrap (x + (procAt s.proc j).memory_required))
              s.available_memory := by
  induction js generalizing s with
  | nil => exact ⟨[], List.Sublist.refl _, by simp, fun j => by simp [swapOutScan], rfl⟩
  | cons j t ih =>
    obtain ⟨hjt, ht⟩ := List.nodup_cons.mp hnd
    have hj : j < s.proc.length := hjs j (by simp)
    have hself : (procAt (swapOut s j).proc j).is_swapped = 1 := by
      show (procAt (s.proc.set j _) j).is_swapped = 1
      rw [Exact.procAt_set_self _ hj]
    have hother : ∀ m, m ≠ j → procAt (swapOut s j).proc m = procAt s.proc m :=
      fun m hm => (rr_swapOut_frame s j m).2.2.2.1 hm
    have hmem : (fun (x : Int) (m : Nat) =>
        wrap (x + (procAt (swapOut s j).proc m).memory_required))
        = fun x m => wrap (x + (procAt s.proc m).memory_required) := by
      funext x m
      have := congrArg Process.memory_required (rr_swapOut_frame s j m).2.2.1
      exact congrArg (fun y => wrap (x + y)) this
    simp only [swapOutScan]
    split
    · rename_i hc
      split
      · refine ⟨[j], List.singleton_sublist.mpr (List.mem_cons_self _ _),
          fun m hm => ?_, fun m => ?_, ?_⟩
        · rw [List.mem_singleton.mp hm]; exact hc
        · by_cases hm : m = j
          · subst hm; rw [if_pos (List.mem_singleton.mpr rfl)]; exact hself
          · rw [if_neg (fun h => hm (List.mem_singleton.mp h)), hother m hm]
        · rfl
      · obtain ⟨ev, h1, h2, h3, h4⟩ := ih ht (swapOut s j)
          (fun m hm => by rw [(rr_swapOut_frame s j 0).1]; exact hjs m (by simp [hm]))
        have hne : ∀ m ∈ ev, m ≠ j := fun m hm h => hjt (h ▸ h1.subset hm)
        refine ⟨j :: ev, h1.cons₂ j, fun m hm => ?_, fun m => ?_, ?_⟩
        · rcases List.mem_cons.mp hm with h | h
          · rw [h]; exact hc
          · have := h2 m h; rw [hother m (hne m h)] at this; exact this
        · rw [h3 m]
          by_cases hm : m = j
          · subst hm
            rw [if_neg (fun h => hne m h rfl), if_pos (List.mem_cons_self _ _)]; exact hself
          · by_cases hme : m ∈ ev
            · rw [if_pos hme, if_pos (List.mem_cons_of_mem _ hme)]
            · rw [if_neg hme, if_neg (fun h => (List.mem_cons.mp h).elim hm hme), hother m hm]
        · rw [h4, hmem]; rfl
    · obtain ⟨ev, h1, h2, h3, h4⟩ := ih ht s (fun m hm => hjs m (by simp [hm]))
      exact ⟨ev, h1.cons j, h2, h3, h4⟩

/-- The eviction scan of `calculate_rr`, in any state and with or without overflow: the
processes it swaps out are distinct, finished and not swapped out before, and the memory of each
is added once. -/
theorem rr_makeRoom_returns (s : State) (idx : Nat) :
    ∃ ev : List Nat, ReturnedOnceInt (fun p => p.remaining_time = 0) s.proc (makeRoom s idx).proc
      s.proc.length ev s.available_memory (makeRoom s idx).available_memory := by
  unfold makeRoom
  split
  · exact rr_scan_returns idx (List.range s.proc.length) (List.nodup_range _) s
      (fun j hj => List.mem_range.mp hj)
  · exact ⟨[], List.nil_sublist _, by simp, fun j => by simp, rfl⟩

theorem arrivalStep_proc (s : State) (i : Nat) : (arrivalStep s i).proc = s.proc := by
  unfold arrivalStep; split <;> rfl

theorem arrivalStepRem_proc (s : State) (i : Nat) : (arrivalStepRem s i).proc = s.proc := by
  unfold arrivalStepRem; split <;> rfl

theorem enqueueArrivals_proc (s : State) : (enqueueArrivals s).proc = s.proc := by
  unfold enqueueArrivals
  generalize List.range s.proc.length = l
  induction l generalizing s with
  | nil => rfl
  | cons x t ih => rw [List.foldl_cons, ih, arrivalStep_proc]

theorem enqueueArrivalsRem_proc (s : State) : (enqueueArrivalsRem s).proc = s.proc := by
  unfold enqueueArrivalsRem
  generalize List.range s.proc.length = l
  induction l generalizing s with
  | nil => rfl
  | cons x t ih => rw [List.foldl_cons, ih, arrivalStepRem_proc]

/-- The swap flags over an iteration of the loop of `calculate_rr`, in any state and with or
without overflow: a flag that is set is left alone, and a flag that becomes set is that of a
finished process, and becomes `1`. -/
theorem rr_flags_step (tq : Int) (s : State) :
    SwapFlagOK (fun p => p.remaining_time = 0) s.proc (RR.step tq s).proc := by
  intro j
  have key : (procAt (RR.step tq s).proc j).is_swapped = (procAt s.proc j).is_swapped
      ∨ (procAt (RR.step tq s).proc j).is_swapped
        = (procAt (admission { s with front := s.front + 1 }
            (queueAt s.queue s.front)).proc j).is_swapped := by
    unfold RR.step
    split
    · left
      show (procAt (enqueueArrivals _).proc j).is_swapped = _
      rw [enqueueArrivals_proc]
    · right
      show (procAt (finish (enqueueArrivalsRem (runSlice (firstExec
        (admission { s with front := s.front + 1 } (queueAt s.queue s.front))
        (queueAt s.queue s.front)) (queueAt s.queue s.front) tq))
        (queueAt s.queue s.front)).proc j).is_swapped = _
      rw [(finish_frame (fun p => p.is_swapped) (fun _ _ _ _ => rfl) _ _ j).2.2,
        enqueueArrivalsRem_proc,
        (runSlice_frame (fun p => p.is_swapped) (fun _ _ => rfl) _ _ _ j).2.2,
        (firstExec_frame (fun p => p.is_swapped) (fun _ _ _ _ => rfl) _ _ j).2.2]
  rcases key with h | h
  · rw [h]; exact ⟨fun _ => rfl, fun h0 hne => absurd h0 hne⟩
  · rw [h]
    obtain ⟨f1, f2⟩ := admission_flags { s with front := s.front + 1 } (queueAt s.queue s.front) j
    refine ⟨f1, fun h0 hne => ?_⟩
    obtain ⟨b1, -, b3⟩ := f2 (by rw [show (procAt s.proc j).is_swapped = 0 from h0]; exact hne)
    exact ⟨b1, b3⟩

end RR

namespace RR

/-- What the first-execution block writes: the three fields of the dispatched process, when its
`first_execution` is `0`. -/
theorem firstExec_effect (s : State) (idx m : Nat) :
    (procAt (firstExec s idx).proc m).first_execution
        = (if m = idx ∧ idx < s.proc.length ∧ (procAt s.proc idx).first_execution = 0 then 1
            else (procAt s.proc m).first_execution)
      ∧ (procAt (firstExec s idx).proc m).start_time
        = (if m = idx ∧ idx < s.proc.length ∧ (procAt s.proc idx).first_execution = 0 then
            s.current_time
          else (procAt s.proc m).start_time)
      ∧ (procAt (firstExec s idx).proc m).response_time
        = (if m = idx ∧ idx < s.proc.length ∧ (procAt s.proc idx).first_execution = 0 then
            wrap (s.current_time - (procAt s.proc idx).arrival_time)
          else (procAt s.proc m).response_time) := by
  unfold firstExec
  by_cases hf : (procAt s.proc idx).first_execution = 0
  · rw [if_pos hf]
    simp only []
    rw [Exact.procAt_set]
    by_cases hm : m = idx ∧ idx < s.proc.length
    · rw [if_pos hm, if_pos ⟨hm.1, hm.2, hf⟩, if_pos ⟨hm.1, hm.2, hf⟩, if_pos ⟨hm.1, hm.2, hf⟩]
      exact ⟨rfl, rfl, rfl⟩
    · rw [if_neg hm, if_neg (fun h => hm ⟨h.1, h.2.1⟩), if_neg (fun h => hm ⟨h.1, h.2.1⟩),
        if_neg (fun h => hm ⟨h.1, h.2.1⟩)]
      exact ⟨rfl, rfl, rfl⟩
  · rw [if_neg hf, if_neg (fun h => hf h.2.2), if_neg (fun h => hf h.2.2),
      if_neg (fun h => hf h.2.2)]
    exact ⟨rfl, rfl, rfl⟩

theorem enqueueArrivalsRem_memory (s : State) :
    (enqueueArrivalsRem s).available_memory = s.available_memory := by
  unfold enqueueArrivalsRem
  generalize List.range s.proc.length = l
  induction l generalizing s with
  | nil => rfl
  | cons x t ih =>
    rw [List.foldl_cons, ih]
    unfold arrivalStepRem; split <;> rfl

/-- Where a dispatch leaves `first_execution`, `start_time` and `response_time`, with or without
overflow: the first-execution block writes them for the dispatched process when its
`first_execution` is `0`, with the clock the admission block left; nothing else writes them. -/
theorem rr_dispatch_started (tq : Int) (s : State)
    (hi : queueAt s.queue s.front < s.proc.length) (m : Nat) :
    (procAt (dispatch tq s).proc m).first_execution
        = (if m = queueAt s.queue s.front
              ∧ (procAt s.proc (queueAt s.queue s.front)).first_execution = 0 then 1
            else (procAt s.proc m).first_execution)
      ∧ (procAt (dispatch tq s).proc m).start_time
        = (if m = queueAt s.queue s.front
              ∧ (procAt s.proc (queueAt s.queue s.front)).first_execution = 0 then
            (afterAdmission s).current_time
          else (procAt s.proc m).start_time)
      ∧ (procAt (dispatch tq s).proc m).response_time
        = (if m = queueAt s.queue s.front
              ∧ (procAt s.proc (queueAt s.queue s.front)).first_execution = 0 then
            wrap ((afterAdmission s).current_time
              - (procAt s.proc (queueAt s.queue s.front)).arrival_time)
          else (procAt s.proc m).response_time) := by
  have hA : ∀ m, (fun p : Process => (p.first_execution, p.start_time, p.response_time,
      p.arrival_time)) (procAt (afterAdmission s).proc m)
      = (fun p : Process => (p.first_execution, p.start_time, p.response_time,
      p.arrival_time)) (procAt s.proc m) := fun m =>
    (admission_frame (fun p : Process => (p.first_execution, p.start_time, p.response_time,
      p.arrival_time)) (fun _ _ _ _ => rfl) { s with front := s.front + 1 }
      (queueAt s.queue s.front) m).2.2
  simp only [Prod.mk.injEq] at hA
  have hlenA : (afterAdmission s).proc.length = s.proc.length :=
    (admission_frame (fun _ => ()) (fun _ _ _ _ => rfl) { s with front := s.front + 1 }
      (queueAt s.queue s.front) 0).1
  have hD : ∀ m, (fun p : Process => (p.first_execution, p.start_time, p.response_time))
      (procAt (dispatch tq s).proc m)
      = (fun p : Process => (p.first_execution, p.start_time, p.response_time))
        (procAt (firstExec (afterAdmission s) (queueAt s.queue s.front)).proc m) := by
    intro m
    have h1 := (finish_frame (fun p : Process => (p.first_execution, p.start_time,
      p.response_time)) (fun _ _ _ _ => rfl) (enqueueArrivalsRem (runSlice (firstExec
        (afterAdmission s) (queueAt s.queue s.front)) (queueAt s.queue s.front) tq))
        (queueAt s.queue s.front) m).2.2
    have h2 := congrArg (fun l => (fun p : Process => (p.first_execution, p.start_time,
      p.response_time)) (procAt l m)) (enqueueArrivalsRem_proc (runSlice (firstExec
        (afterAdmission s) (queueAt s.queue s.front)) (queueAt s.queue s.front) tq))
    have h3 := (runSlice_frame (fun p : Process => (p.first_execution, p.start_time,
      p.response_time)) (fun _ _ => rfl) (firstExec (afterAdmission s)
        (queueAt s.queue s.front)) (queueAt s.queue s.front) tq m).2.2
    exact h1.trans (h2.trans h3)
  simp only [Prod.mk.injEq] at hD
  obtain ⟨e1, e2, e3⟩ := firstExec_effect (afterAdmission s) (queueAt s.queue s.front) m
  have hc : (m = queueAt s.queue s.front ∧ queueAt s.queue s.front < (afterAdmission s).proc.length
      ∧ (procAt (afterAdmission s).proc (queueAt s.queue s.front)).first_execution = 0)
      ↔ (m = queueAt s.queue s.front
        ∧ (procAt s.proc (queueAt s.queue s.front)).first_execution = 0) := by
    rw [hlenA, (hA _).1]
    exact ⟨fun h => ⟨h.1, h.2.2⟩, fun h => ⟨h.1, hi, h.2⟩⟩
  rw [(hD m).1, (hD m).2.1, (hD m).2.2, e1, e2, e3, (hA m).1, (hA m).2.1, (hA m).2.2.1,
    (hA (queueAt s.queue s.front)).2.2.2]
  simp only [hc]
  exact ⟨trivial, trivial, trivial⟩

/-- Where a dispatch leaves `available_memory`, with or without overflow: a first dispatch
subtracts the `memory_required` of the process, once, from what the eviction scan left; a later
dispatch leaves it alone. -/
theorem rr_dispatch_memory (tq : Int) (s : State) :
    (dispatch tq s).available_memory
      = if (procAt s.proc (queueAt s.queue s.front)).remaining_time
            = (procAt s.proc (queueAt s.queue s.front)).burst_time then
          wrap ((afterEviction s).available_memory
            - (procAt s.proc (queueAt s.queue s.front)).memory_required)
        else s.available_memory := by
  have h1 : (dispatch tq s).available_memory = (afterAdmission s).available_memory := by
    show (finish (enqueueArrivalsRem (runSlice (firstExec (afterAdmission s)
        (queueAt s.queue s.front)) (queueAt s.queue s.front) tq))
        (queueAt s.queue s.front)).available_memory = _
    have f1 : ∀ t idx, (finish t idx).available_memory = t.available_memory := by
      intro t idx; unfold finish; split <;> rfl
    have f2 : ∀ t idx, (firstExec t idx).available_memory = t.available_memory := by
      intro t idx; unfold firstExec; split <;> rfl
    rw [f1, enqueueArrivalsRem_memory]
    show (firstExec (afterAdmission s) (queueAt s.queue s.front)).available_memory = _
    rw [f2]
  rw [h1]
  unfold afterAdmission admission
  split
  · show wrap ((makeRoom { s with front := s.front + 1 } (queueAt s.queue s.front)).available_memory
      - (procAt (makeRoom { s with front := s.front + 1 } (queueAt s.queue s.front)).proc
          (queueAt s.queue s.front)).memory_required) = _
    have := congrArg Process.memory_required
      (rr_makeRoom_frame { s with front := s.front + 1 } (queueAt s.queue s.front)
        (queueAt s.queue s.front)).2.2.1
    have hm : (procAt (makeRoom { s with front := s.front + 1 } (queueAt s.queue s.front)).proc
        (queueAt s.queue s.front)).memory_required
        = (procAt s.proc (queueAt s.queue s.front)).memory_required := this
    rw [hm]; rfl
  · rfl

/-- In every run of `calculate_rr`, with or without overflow, a process has `first_execution = 0`
exactly as long as its `remaining_time` is its `burst_time`, that is, until it is dispatched. -/
theorem rr_first_test {proc0 : List Process} {total : Int} {tq : Int} {s : State}
    (htq : 0 < tq) (hfresh : ∀ p ∈ proc0, Fresh p) (hburst : ∀ p ∈ proc0, 0 < p.burst_time)
    (hr : Reach tq (RR.init proc0 total) s) :
    ∀ j, j < proc0.length → ((procAt s.proc j).first_execution = 0
      ↔ (procAt s.proc j).remaining_time = (procAt s.proc j).burst_time) := by
  induction hr with
  | init =>
    intro j hj
    have hp : (RR.init proc0 total).proc = proc0 := enqueueArrivals_proc _
    rw [hp]
    have hf := hfresh _ (Exact.procAt_mem hj)
    exact ⟨fun _ => hf.2.2.2.1, fun _ => hf.2.2.2.2⟩
  | step hs hc ih =>
    rename_i s0
    intro j hj
    have hinv := Discipline.disc_reach htq hfresh hburst hs
    unfold RR.step
    split
    · show (procAt (enqueueArrivals _).proc j).first_execution = 0
        ↔ (procAt (enqueueArrivals _).proc j).remaining_time
          = (procAt (enqueueArrivals _).proc j).burst_time
      rw [enqueueArrivals_proc]; exact ih j hj
    · rename_i hfront
      obtain ⟨-, hidx, -, hrem, -⟩ := hinv.rr_front hfront
      have hi : queueAt s0.queue s0.front < s0.proc.length := by rw [hinv.len]; exact hidx
      obtain ⟨-, d2, d3, -⟩ := rr_dispatch_frame tq s0 hi (by rw [hinv.vlen, hinv.len])
      obtain ⟨e1, -⟩ := rr_dispatch_started tq s0 hi j
      rw [e1, d3 j, (d2 j).2]
      by_cases hjq : j = queueAt s0.queue s0.front
      · subst hjq
        rw [if_pos rfl]
        have hsl : 0 < sliceLen (procAt s0.proc (queueAt s0.queue s0.front)) tq :=
          (Exact.RR.sliceLen_pos hrem htq).1
        have hle := (hinv.range (queueAt s0.queue s0.front)).2
        constructor
        · intro h
          by_cases h0 : (procAt s0.proc (queueAt s0.queue s0.front)).first_execution = 0
          · rw [if_pos ⟨rfl, h0⟩] at h; exact absurd h (by decide)
          · rw [if_neg (fun hh => h0 hh.2)] at h; exact absurd h h0
        · intro h; omega
      · rw [if_neg hjq, if_neg (fun h => hjq h.1)]
        exact ih j hj

end RR

theorem foldl_charged (l : List Process) (hall : ∀ p ∈ l, p.total_swap_time = SWAP_TIME)
    (acc : Int) (h0 : 0 ≤ acc) (hmax : acc + (l.length : Int) * SWAP_TIME ≤ INT_MAX) :
    l.foldl (fun a p => wrap (a + p.total_swap_time)) acc
      = acc + (l.length : Int) * SWAP_TIME := by
  induction l generalizing acc with
  | nil => simp
  | cons p t ih =>
    have hp : p.total_swap_time = SWAP_TIME := hall p (List.mem_cons_self _ _)
    have hlen : ((p :: t).length : Int) = (t.length : Int) + 1 := by simp
    rw [hlen] at hmax ⊢
    simp only [SWAP_TIME, INT_MAX] at hmax hp ⊢
    have hw : wrap (acc + p.total_swap_time) = acc + 2 := by
      rw [hp]; unfold wrap; omega
    rw [List.foldl_cons, hw, ih (fun q hq => hall q (List.mem_cons_of_mem _ hq)) (acc + 2)
      (by omega) (by simp only [SWAP_TIME, INT_MAX]; omega)]
    simp only [SWAP_TIME]
    ring

/-- A table of `n` processes, each charged one swap-in, has the reported total `n * SWAP_TIME`,
as long as that number is an `int` value. -/
theorem swapTimeOK_of_charged (n : Nat) (table : List Process) (hlen : table.length = n)
    (hall : ∀ p ∈ table, p.total_swap_time = SWAP_TIME)
    (hn : (n : Int) * SWAP_TIME ≤ INT_MAX) : SwapTimeOK n table := by
  refine ⟨hall, ?_⟩
  unfold total_swap_time
  rw [foldl_charged table hall 0 (le_refl _) (by rw [hlen]; simpa using hn), hlen]
  simp

namespace RR

theorem Discipline.writesOf_bound {proc0 : List Process} {s : State} (h : Discipline proc0 s)
    (tq : Int) (htq : 0 < tq) (hburst : ∀ p ∈ proc0, 0 < p.burst_time) (j : Nat)
    (hj : j < proc0.length) :
    writesOf tq s j ≤ ceilDiv (procAt proc0 j).burst_time tq := by
  have hb : 0 < (procAt s.proc j).burst_time := by
    rw [h.burst j]; exact hburst _ (Exact.procAt_mem hj)
  have hbc := Exact.ceilDiv_pos hb htq
  unfold writesOf
  rw [h.burst j] at hbc ⊢
  split
  · omega
  · by_cases hr : 0 < (procAt s.proc j).remaining_time
    · have := Exact.ceilDiv_pos hr htq
      rw [if_pos hr]; omega
    · have h0 : (procAt s.proc j).remaining_time = 0 := by have := (h.range j).1; omega
      rw [if_neg hr, h0, Exact.ceilDiv_zero tq htq]; omega

/-- One iteration keeps the number of queue entries of process `j` equal to `writesOf`, with or
without overflow. -/
theorem Discipline.writes_step {proc0 : List Process} {s : State}
    (h : Discipline proc0 s) (tq : Int) (htq : 0 < tq)
    (hburst : ∀ p ∈ proc0, 0 < p.burst_time) (j : Nat)
    (hj : j < proc0.length) (ih : (s.queue.count j : Int) = writesOf tq s j) :
    ((RR.step tq s).queue.count j : Int) = writesOf tq (RR.step tq s) j := by
  have h' := h.disc_step htq hburst
  obtain ⟨hcount, hmono⟩ := h.step_queue tq j
  have hb : 0 < (procAt s.proc j).burst_time := by
    rw [h.burst j]; exact hburst _ (Exact.procAt_mem hj)
  have hbb : (procAt (RR.step tq s).proc j).burst_time = (procAt s.proc j).burst_time := by
    rw [h'.burst j, h.burst j]
  rw [hcount]
  push_cast
  rw [ih]
  have hrem : (s.front ≠ s.queue.length ∧ queueAt s.queue s.front = j
        ∧ (procAt (RR.step tq s).proc j).remaining_time
            = (procAt s.proc j).remaining_time - sliceLen (procAt s.proc j) tq
        ∧ visitedAt s.visited j ≠ 0 ∧ 0 < (procAt s.proc j).remaining_time)
      ∨ ((s.front = s.queue.length ∨ queueAt s.queue s.front ≠ j)
        ∧ (procAt (RR.step tq s).proc j).remaining_time = (procAt s.proc j).remaining_time) := by
    by_cases hfront : s.front = s.queue.length
    · right
      refine ⟨Or.inl hfront, ?_⟩
      have hstep : RR.step tq s = idle s := by unfold RR.step; rw [if_pos hfront]
      have hp : (idle s).proc = s.proc := enqueueArrivals_proc _
      rw [hstep, hp]
    · have hstep : RR.step tq s = dispatch tq s := by unfold RR.step; rw [if_neg hfront]
      obtain ⟨-, hidx, hvis, hpos, -⟩ := h.rr_front hfront
      have hi : queueAt s.queue s.front < s.proc.length := by rw [h.len]; exact hidx
      obtain ⟨-, -, d3, -⟩ := rr_dispatch_frame tq s hi (by rw [h.vlen, h.len])
      by_cases hq : queueAt s.queue s.front = j
      · left
        subst hq
        refine ⟨hfront, rfl, ?_, hvis, hpos⟩
        rw [hstep, d3, if_pos rfl]
      · right
        refine ⟨Or.inr hq, ?_⟩
        rw [hstep, d3, if_neg (fun e => hq e.symm)]
  rcases hrem with ⟨hfront, hq, hr, hvis, hpos⟩ | ⟨hno, hr⟩
  · have hv' := hmono hvis
    have ha : arrivalInsertions s (RR.step tq s) j = 0 := by
      unfold arrivalInsertions; rw [if_neg (fun hc => hvis hc.1)]
    have hp : preemptions tq s j
        = if 0 < (procAt (RR.step tq s).proc j).remaining_time then 1 else 0 := by
      unfold preemptions
      by_cases hc : 0 < (procAt (RR.step tq s).proc j).remaining_time
      · rw [if_pos ⟨hfront, hq, hc⟩, if_pos hc]
      · rw [if_neg (fun hx => hc hx.2.2), if_neg hc]
    rw [ha, hp]
    unfold writesOf
    rw [if_neg hvis, if_neg hv', if_pos hpos, hbb, hr]
    unfold sliceLen
    by_cases hlt : (procAt s.proc j).remaining_time < tq
    · rw [if_pos hlt, sub_self, Exact.ceilDiv_zero tq htq, Exact.ceilDiv_one hpos (le_of_lt hlt)]
      simp
    · rw [if_neg hlt]
      by_cases heq : (procAt s.proc j).remaining_time = tq
      · rw [heq, sub_self, Exact.ceilDiv_zero tq htq, Exact.ceilDiv_one htq (le_refl _)]
        simp
      · have hgt : 0 < (procAt s.proc j).remaining_time - tq := by omega
        rw [Exact.ceilDiv_sub _ _ htq]
        simp only [if_pos hgt]
        push_cast
        ring
  · have hp : preemptions tq s j = 0 := by
      unfold preemptions
      rw [if_neg (fun hc => by rcases hno with h1 | h1; exact hc.1 h1; exact h1 hc.2.1)]
    rw [hp]
    unfold arrivalInsertions writesOf
    rw [hbb, hr]
    by_cases hv : visitedAt s.visited j = 0
    · have hu := h.unvisited j hj hv
      by_cases hv' : visitedAt (RR.step tq s).visited j = 0
      · simp [hv, hv']
      · have hpos : 0 < (procAt s.proc j).remaining_time := by omega
        simp [hv, hv', hu, hb]
    · have hv' := hmono hv
      simp [hv, hv']

theorem writes_reach {proc : List Process} {total tq : Int} {s : State} (htq : 0 < tq)
    (hfresh : ∀ p ∈ proc, Fresh p) (hburst : ∀ p ∈ proc, 0 < p.burst_time)
    (hr : Reach tq (RR.init proc total) s) (j : Nat) (hj : j < proc.length) :
    (s.queue.count j : Int) = writesOf tq s j := by
  induction hr with
  | init => exact Exact.RR.writes_init proc total tq hfresh hburst j hj
  | step hs _ ih =>
    exact (Discipline.disc_reach htq hfresh hburst hs).writes_step tq htq hburst j hj ih

/-- The writes of one iteration are appended to the queue, with or without overflow. -/
theorem Discipline.step_prefix {proc0 : List Process} {s : State}
    (h : Discipline proc0 s) (tq : Int) : s.queue <+: (RR.step tq s).queue := by
  by_cases hfront : s.front = s.queue.length
  · have hstep : RR.step tq s = idle s := by unfold RR.step; rw [if_pos hfront]
    have e7 := (Exact.RR.enqueueArrivals_spec { s with current_time := wrap (s.current_time + 1) }
        (by show s.visited.length = s.proc.length; rw [h.vlen, h.len])).2.2.2.2.2.2.1
    have hq : (idle s).queue = s.queue ++ (List.range s.proc.length).filter
        (fun i => decide (arrived { s with current_time := wrap (s.current_time + 1) } i)) := e7
    rw [hstep, hq]
    exact List.prefix_append _ _
  · have hstep : RR.step tq s = dispatch tq s := by unfold RR.step; rw [if_neg hfront]
    obtain ⟨-, hidx, -⟩ := h.rr_front hfront
    have hi : queueAt s.queue s.front < s.proc.length := by rw [h.len]; exact hidx
    obtain ⟨-, -, -, -, -, d6, -⟩ := rr_dispatch_frame tq s hi (by rw [h.vlen, h.len])
    rw [hstep, d6, List.append_assoc]
    exact List.prefix_append _ _

/-- A state that keeps the queue discipline and whose queue holds `writesOf` entries of each
process has written at most the sum of `ceil(burst_time / time_quantum)` entries. -/
theorem Discipline.rear_bound {proc0 : List Process} {s : State} (h : Discipline proc0 s)
    (tq : Int) (htq : 0 < tq) (hburst : ∀ p ∈ proc0, 0 < p.burst_time)
    (hw : ∀ j, j < proc0.length → (s.queue.count j : Int) = writesOf tq s j) :
    (s.queue.length : Int) ≤ totalSlices proc0 tq := by
  rw [Exact.length_eq_sum_count s.queue proc0.length h.queue_lt]
  unfold totalSlices
  rw [Exact.map_eq_map_range]
  apply List.sum_le_sum
  intro j hj
  have hj' : j < proc0.length := List.mem_range.mp hj
  show (s.queue.count j : Int) ≤ _
  rw [hw j hj']
  exact h.writesOf_bound tq htq hburst j hj'

/-- When the loop of `calculate_rr` returns, with or without overflow, each process has been
written to the queue `ceil(burst_time / time_quantum)` times, and `rear` is the sum of these
numbers. -/
theorem final_rear (proc : List Process) (total tq : Int) (htq : 0 < tq)
    (hfresh : ∀ p ∈ proc, Fresh p) (hburst : ∀ p ∈ proc, 0 < p.burst_time)
    (fuel : Nat) (r : State) (h : calculate_rr proc total tq fuel = some r) :
    (∀ j, j < proc.length →
        (r.queue.count j : Int) = ceilDiv (procAt proc j).burst_time tq)
      ∧ (r.queue.length : Int) = totalSlices proc tq := by
  obtain ⟨hreach, -⟩ := calculate_rr_reach h
  obtain ⟨hinv, hall, -, hvis, -⟩ := rr_final_discipline proc total tq htq hfresh hburst fuel r h
  have hcount : ∀ j, j < proc.length →
      (r.queue.count j : Int) = ceilDiv (procAt proc j).burst_time tq := by
    intro j hj
    rw [writes_reach htq hfresh hburst hreach j hj]
    have h0 : (procAt r.proc j).remaining_time = 0 :=
      hall _ (Exact.procAt_mem (by rw [hinv.len]; exact hj))
    unfold writesOf
    rw [if_neg (hvis j hj), h0, Exact.ceilDiv_zero tq htq, hinv.burst j]
    simp
  refine ⟨hcount, ?_⟩
  rw [Exact.length_eq_sum_count r.queue proc.length hinv.queue_lt]
  unfold totalSlices
  rw [Exact.map_eq_map_range]
  congr 1
  apply List.map_congr_left
  intro j hj
  exact hcount j (List.mem_range.mp hj)

end RR

namespace RR

/-- A run whose iteration number `k` writes past the end of `queue[100]` has no result, whatever
the number of iterations allowed. -/
theorem loop_none_of_overrun (tq : Int) (k : Nat) (s : State)
    (hrun : ∀ m, m ≤ k → ((RR.step tq)^[m] s).completed < ((RR.step tq)^[m] s).proc.length)
    (hfit : ∀ m, m < k → ((RR.step tq)^[m + 1] s).queue.length ≤ QUEUE_SIZE)
    (hover : ¬ ((RR.step tq)^[k + 1] s).queue.length ≤ QUEUE_SIZE) (fuel : Nat) :
    loop tq fuel s = none := by
  induction k generalizing s fuel with
  | zero =>
    have h0 : s.completed < s.proc.length := hrun 0 (le_refl _)
    cases fuel with
    | zero => simp only [loop]; rw [if_pos h0]
    | succ fuel =>
      simp only [loop]
      have hover1 : ¬ (RR.step tq s).queue.length ≤ QUEUE_SIZE := hover
      rw [if_pos h0, if_neg hover1]
  | succ k ih =>
    have h0 : s.completed < s.proc.length := hrun 0 (by omega)
    cases fuel with
    | zero => simp only [loop]; rw [if_pos h0]
    | succ fuel =>
      simp only [loop]
      have h1 : (RR.step tq s).queue.length ≤ QUEUE_SIZE := hfit 0 (by omega)
      rw [if_pos h0, if_pos h1]
      exact ih (RR.step tq s) (fun m hm => hrun (m + 1) (by omega))
        (fun m hm => hfit (m + 1) (by omega)) hover fuel

/-- The run of `calculate_rr` with `time_quantum = 1` on one process with burst time 150 has no
result: the iteration number 100 makes the 101st write to `queue[100]`. -/
theorem queue_overrun_no_result (fuel : Nat) :
    calculate_rr queueOverrunExample 6000 1 fuel = none := by
  unfold calculate_rr
  rw [if_pos (by decide)]
  exact loop_none_of_overrun 1 99 _ (by set_option maxRecDepth 1000000 in decide)
    (by set_option maxRecDepth 1000000 in decide)
    (by set_option maxRecDepth 1000000 in decide) fuel

end RR

/-- C1, as stated, fails.  The workload has two processes as `initialize_processes` leaves them,
with `int` fields, non-negative arrival times and positive burst times, the first with burst time
`INT_MAX`.  In `calculate_fcfs` the clock stands at 2 when the first process starts and passes
`INT_MAX` while it runs: its `completion_time` and `turnaround_time` are `-2147483647`. -/
theorem C1_metrics_overflow_counterexample :
    (∀ p ∈ longBurstExample, Fresh p ∧ IntFields p ∧ 0 ≤ p.arrival_time ∧ 0 < p.burst_time)
      ∧ (procAt (FCFS.calculate_fcfs longBurstExample 6000).proc 0).start_time = 2
      ∧ (procAt (FCFS.calculate_fcfs longBurstExample 6000).proc 0).completion_time
          = -2147483647
      ∧ (procAt (FCFS.calculate_fcfs longBurstExample 6000).proc 0).turnaround_time
          = -2147483647
      ∧ ¬ (∀ p ∈ (FCFS.calculate_fcfs longBurstExample 6000).proc, MetricsOK p) := by
  decide

/-- C1, amended.  After a run of any of the four simulations that has no `int` overflow, on a workload
as `initialize_processes` leaves it with `burst_time > 0` (and `time_quantum > 0` for
round-robin), every process has `turnaround_time = completion_time - arrival_time` and
`waiting_time = turnaround_time - burst_time`, both non-negative.  The loops of `calculate_sjf`
and `calculate_priority` return when no burst time, respectively priority value, equals
`INT_MAX`; the loop of `calculate_rr` returns when `n <= MAX_PROCESSES` and the sum of
`ceil(burst_time / time_quantum)` is at most the size of `queue[100]`. -/
theorem C1_metrics_after_run (proc : List Process) (total_memory time_quantum : Int)
    (hfresh : ∀ p ∈ proc, Fresh p) (hburst : ∀ p ∈ proc, 0 < p.burst_time)
    (htq : 0 < time_quantum) :
    (FCFS.NoOverflow proc total_memory →
        ∀ p ∈ (FCFS.calculate_fcfs proc total_memory).proc, MetricsOK p)
      ∧ (∀ oob, NP.NoOverflow (SJF.select oob) proc total_memory →
          ∀ fuel r, SJF.calculate_sjf oob proc total_memory fuel = some r →
            ∀ p ∈ r.proc, MetricsOK p)
      ∧ (NP.NoOverflow PS.select proc total_memory →
          ∀ fuel r, PS.calculate_priority proc total_memory fuel = some r →
            ∀ p ∈ r.proc, MetricsOK p)
      ∧ (RR.NoOverflow time_quantum proc total_memory →
          ∀ fuel r, RR.calculate_rr proc total_memory time_quantum fuel = some r →
            ∀ p ∈ r.proc, MetricsOK p)
      ∧ ((∀ p ∈ proc, p.burst_time < INT_MAX) →
          ∀ oob, NP.NoOverflow (SJF.select oob) proc total_memory →
            ∃ fuel r, SJF.calculate_sjf oob proc total_memory fuel = some r)
      ∧ ((∀ p ∈ proc, p.priority < INT_MAX) → NP.NoOverflow PS.select proc total_memory →
          ∃ fuel r, PS.calculate_priority proc total_memory fuel = some r)
      ∧ (RR.NoOverflow time_quantum proc total_memory → proc.length ≤ MAX_PROCESSES →
          RR.totalSlices proc time_quantum ≤ (QUEUE_SIZE : Int) →
          ∃ fuel r, RR.calculate_rr proc total_memory time_quantum fuel = some r) := by
  obtain ⟨x1, x2, x3, x4, x5, x6, -⟩ :=
    Exact.exact_C1_metrics_after_run proc total_memory time_quantum hfresh hburst htq
  refine ⟨fun h => ?_, fun oob h fuel r hr => ?_, fun h fuel r hr => ?_, fun h fuel r hr => ?_,
    fun hmax oob h => ?_, fun hmax h => ?_, fun h hn hq => ?_⟩
  · rw [FCFS.calculate_fcfs_exact proc total_memory h]; exact x1
  · rw [SJF.calculate_sjf_exact h] at hr; exact x2 oob fuel r hr
  · rw [PS.calculate_priority_exact h] at hr; exact x3 fuel r hr
  · exact x4 fuel r (RR.calculate_rr_some_exact h hr).1
  · obtain ⟨fuel, r, hr⟩ := x5 hmax oob
    exact ⟨fuel, r, by rw [SJF.calculate_sjf_exact h]; exact hr⟩
  · obtain ⟨fuel, r, hr⟩ := x6 hmax
    exact ⟨fuel, r, by rw [PS.calculate_priority_exact h]; exact hr⟩
  · obtain ⟨fuel, r, hr, -⟩ := RR.calculate_rr_returns h htq hfresh hburst hn hq
    exact ⟨fuel, r, hr⟩

/-- C1 at the demo workload with `total_memory = 6000` and `time_quantum = 3`: the four runs
have no overflow, the table of `calculate_fcfs` satisfies the metrics relations, and the loop of
`calculate_rr` returns (`n = 10`, and the sum of `ceil(burst_time / 3)` is 16). -/
theorem C1_metrics_after_run_witness :
    (∀ p ∈ (FCFS.calculate_fcfs demoProcesses 6000).proc, MetricsOK p)
      ∧ (∀ fuel r, SJF.calculate_sjf default demoProcesses 6000 fuel = some r →
          ∀ p ∈ r.proc, MetricsOK p)
      ∧ (∀ fuel r, PS.calculate_priority demoProcesses 6000 fuel = some r →
          ∀ p ∈ r.proc, MetricsOK p)
      ∧ (∀ fuel r, RR.calculate_rr demoProcesses 6000 3 fuel = some r →
          ∀ p ∈ r.proc, MetricsOK p)
      ∧ (∃ fuel r, SJF.calculate_sjf default demoProcesses 6000 fuel = some r)
      ∧ (∃ fuel r, PS.calculate_priority demoProcesses 6000 fuel = some r)
      ∧ (∃ fuel r, RR.calculate_rr demoProcesses 6000 3 fuel = some r) := by
  have h := C1_metrics_after_run demoProcesses 6000 3 (by decide) (by decide) (by decide)
  exact ⟨h.1 demo_fcfs_noOverflow, h.2.1 default demo_sjf_noOverflow,
    h.2.2.1 demo_ps_noOverflow, h.2.2.2.1 demo_rr_noOverflow,
    h.2.2.2.2.1 (by decide) default demo_sjf_noOverflow,
    h.2.2.2.2.2.1 (by decide) demo_ps_noOverflow,
    h.2.2.2.2.2.2 demo_rr_noOverflow (by decide) (by decide)⟩

/-- C2, as stated, fails.  `calculate_rr` with `total_memory = 6000` and `time_quantum = 3` on
two processes that need `INT_MAX` units of memory each: after the second iteration both are
resident, holding `4294967294` units, and `available_memory` is `6002`. -/
theorem C2_memory_overflow_counterexample :
    (∀ p ∈ hugeMemoryExample, Fresh p ∧ IntFields p ∧ 0 ≤ p.arrival_time ∧ 0 < p.burst_time)
      ∧ RR.Reach 3 (RR.init hugeMemoryExample 6000)
          (RR.step 3 (RR.step 3 (RR.init hugeMemoryExample 6000)))
      ∧ (RR.step 3 (RR.step 3 (RR.init hugeMemoryExample 6000))).available_memory = 6002
      ∧ residentMemory (RR.step 3 (RR.step 3 (RR.init hugeMemoryExample 6000))).proc
          = 4294967294
      ∧ (RR.step 3 (RR.step 3 (RR.init hugeMemoryExample 6000))).available_memory
          + residentMemory (RR.step 3 (RR.step 3 (RR.init hugeMemoryExample 6000))).proc
          ≠ 6000 :=
  ⟨by decide, RR.Reach.step (RR.Reach.step RR.Reach.init (by decide)) (by decide), by decide,
    by decide, by decide⟩

/-- C2, amended.  At every iteration boundary of the main loop of each of the four simulations, in a run
without `int` overflow, `available_memory` plus the memory held by the resident processes
equals `total_memory`.  A process is resident when it has been swapped in (the swap-in is the
only place that charges `total_swap_time`) and `is_swapped = 0`.  The workload is as
`initialize_processes` leaves it, with `burst_time > 0` and `time_quantum > 0`. -/
theorem C2_memory_conservation (proc : List Process) (total_memory time_quantum : Int)
    (hfresh : ∀ p ∈ proc, Fresh p) (hburst : ∀ p ∈ proc, 0 < p.burst_time)
    (htq : 0 < time_quantum) :
    (FCFS.NoOverflow proc total_memory → ∀ k, k ≤ proc.length →
        (FCFS.stateAt proc total_memory k).available_memory
          + residentMemory (FCFS.stateAt proc total_memory k).proc = total_memory)
      ∧ (∀ oob, NP.NoOverflow (SJF.select oob) proc total_memory →
          ∀ s, NP.Reach (SJF.select oob) (NP.init proc total_memory) s →
            s.available_memory + residentMemory s.proc = total_memory)
      ∧ (NP.NoOverflow PS.select proc total_memory →
          ∀ s, NP.Reach PS.select (NP.init proc total_memory) s →
            s.available_memory + residentMemory s.proc = total_memory)
      ∧ (RR.NoOverflow time_quantum proc total_memory →
          ∀ s, RR.Reach time_quantum (RR.init proc total_memory) s →
            s.available_memory + residentMemory s.proc = total_memory) := by
  obtain ⟨x1, x2, x3, x4⟩ :=
    Exact.exact_C2_memory_conservation proc total_memory time_quantum hfresh hburst htq
  refine ⟨fun h k hk => ?_, fun oob h s hs => x2 oob s (NP.np_reach_exact h hs),
    fun h s hs => x3 s (NP.np_reach_exact h hs), fun h s hs => x4 s (RR.rr_reach_exact h hs)⟩
  rw [FCFS.stateAt_exact proc total_memory h k hk]
  exact x1 k hk

/-- C2 at the demo workload with `total_memory = 6000` and `time_quantum = 3`, whose four runs
have no overflow. -/
theorem C2_memory_conservation_witness :
    (∀ k, k ≤ demoProcesses.length →
        (FCFS.stateAt demoProcesses 6000 k).available_memory
          + residentMemory (FCFS.stateAt demoProcesses 6000 k).proc = 6000)
      ∧ (∀ s, NP.Reach (SJF.select default) (NP.init demoProcesses 6000) s →
          s.available_memory + residentMemory s.proc = 6000)
      ∧ (∀ s, NP.Reach PS.select (NP.init demoProcesses 6000) s →
          s.available_memory + residentMemory s.proc = 6000)
      ∧ (∀ s, RR.Reach 3 (RR.init demoProcesses 6000) s →
          s.available_memory + residentMemory s.proc = 6000) := by
  have h := C2_memory_conservation demoProcesses 6000 3 (by decide) (by decide) (by decide)
  exact ⟨h.1 demo_fcfs_noOverflow, h.2.1 default demo_sjf_noOverflow,
    h.2.2.1 demo_ps_noOverflow, h.2.2.2 demo_rr_noOverflow⟩

/-- C4, as stated, fails.  `calculate_fcfs` on three processes with arrival times 0, 1, 2 and
burst times 10, `INT_MAX`, 5: the second starts at 14 and the clock passes `INT_MAX` while it
runs, its `completion_time` is `-2147483635`; the third, which arrived later, starts at 4. -/
theorem C4_dispatch_order_overflow_counterexample :
    (∀ p ∈ wrappedClockExample, Fresh p ∧ IntFields p ∧ 0 ≤ p.arrival_time ∧ 0 < p.burst_time)
      ∧ (FCFS.calculate_fcfs wrappedClockExample 6000).proc.map (fun p => p.arrival_time)
          = [0, 1, 2]
      ∧ (FCFS.calculate_fcfs wrappedClockExample 6000).proc.map (fun p => p.start_time)
          = [2, 14, 4]
      ∧ (FCFS.calculate_fcfs wrappedClockExample 6000).proc.map (fun p => p.completion_time)
          = [12, -2147483635, 9]
      ∧ ¬ ((procAt (FCFS.calculate_fcfs wrappedClockExample 6000).proc 1).start_time
            < (procAt (FCFS.calculate_fcfs wrappedClockExample 6000).proc 2).start_time) := by
  decide

/-- C4, amended.  In a run of `calculate_fcfs` without `int` overflow, for any two processes of the final
table with `arrival_time(p) < arrival_time(q)`, `p` is dispatched first:
`start_time(p) < start_time(q)` and `completion_time(p) <= start_time(q)`; and for two processes
of equal `arrival_time` at input positions `a < b`, the final table holds them (same `pid`,
`arrival_time`, `burst_time`, `memory_required`) at positions `i < j`, the earlier one
dispatched first.  The workload is as `initialize_processes` leaves it, with `burst_time > 0`. -/
theorem C4_fcfs_dispatch_order (proc : List Process) (total_memory : Int)
    (hfresh : ∀ p ∈ proc, Fresh p) (hburst : ∀ p ∈ proc, 0 < p.burst_time)
    (hfit : FCFS.NoOverflow proc total_memory) :
    (∀ i j, i < proc.length → j < proc.length →
        (procAt (FCFS.calculate_fcfs proc total_memory).proc i).arrival_time
          < (procAt (FCFS.calculate_fcfs proc total_memory).proc j).arrival_time →
        (procAt (FCFS.calculate_fcfs proc total_memory).proc i).start_time
            < (procAt (FCFS.calculate_fcfs proc total_memory).proc j).start_time
          ∧ (procAt (FCFS.calculate_fcfs proc total_memory).proc i).completion_time
            ≤ (procAt (FCFS.calculate_fcfs proc total_memory).proc j).start_time)
      ∧ (∀ a b, a < b → b < proc.length →
          (procAt proc a).arrival_time = (procAt proc b).arrival_time →
          ∃ i j, i < j ∧ j < proc.length
            ∧ (procAt (FCFS.calculate_fcfs proc total_memory).proc i).pid = (procAt proc a).pid
            ∧ (procAt (FCFS.calculate_fcfs proc total_memory).proc i).arrival_time
                = (procAt proc a).arrival_time
            ∧ (procAt (FCFS.calculate_fcfs proc total_memory).proc i).burst_time
                = (procAt proc a).burst_time
            ∧ (procAt (FCFS.calculate_fcfs proc total_memory).proc i).memory_required
                = (procAt proc a).memory_required
            ∧ (procAt (FCFS.calculate_fcfs proc total_memory).proc j).pid = (procAt proc b).pid
            ∧ (procAt (FCFS.calculate_fcfs proc total_memory).proc j).arrival_time
                = (procAt proc b).arrival_time
            ∧ (procAt (FCFS.calculate_fcfs proc total_memory).proc j).burst_time
                = (procAt proc b).burst_time
            ∧ (procAt (FCFS.calculate_fcfs proc total_memory).proc j).memory_required
                = (procAt proc b).memory_required
            ∧ (procAt (FCFS.calculate_fcfs proc total_memory).proc i).start_time
                < (procAt (FCFS.calculate_fcfs proc total_memory).proc j).start_time
            ∧ (procAt (FCFS.calculate_fcfs proc total_memory).proc i).completion_time
                ≤ (procAt (FCFS.calculate_fcfs proc total_memory).proc j).start_time) := by
  rw [FCFS.calculate_fcfs_exact proc total_memory hfit]
  exact Exact.exact_C4_fcfs_dispatch_order proc total_memory hfresh hburst

/-- C4 at the demo workload: `P2` and `P4` both arrive at time 1, `P2` first in the input; the
final table holds them at positions `i < j` with `P2` started and completed before `P4`
starts. -/
theorem C4_fcfs_dispatch_order_witness :
    ∃ i j, i < j ∧ j < demoProcesses.length
      ∧ (procAt (FCFS.calculate_fcfs demoProcesses 6000).proc i).pid = 2
      ∧ (procAt (FCFS.calculate_fcfs demoProcesses 6000).proc j).pid = 4
      ∧ (procAt (FCFS.calculate_fcfs demoProcesses 6000).proc i).start_time
          < (procAt (FCFS.calculate_fcfs demoProcesses 6000).proc j).start_time
      ∧ (procAt (FCFS.calculate_fcfs demoProcesses 6000).proc i).completion_time
          ≤ (procAt (FCFS.calculate_fcfs demoProcesses 6000).proc j).start_time := by
  obtain ⟨i, j, h1, h2, h3, -, -, -, h7, -, -, -, h11, h12⟩ :=
    (C4_fcfs_dispatch_order demoProcesses 6000 (by decide) (by decide)
      demo_fcfs_noOverflow).2 1 3 (by decide) (by decide) (by decide)
  exact ⟨i, j, h1, h2, h3, h7, h11, h12⟩

/-- C9, as stated, fails.  `calculate_rr` with `total_memory = 6000` and `time_quantum = 3` on
two processes that need `INT_MAX` units of memory each: at its first dispatch the second process
finds `available_memory = -2147477647`, below its `memory_required`, with no finished process to
swap out; it is swapped in, and `available_memory` becomes `6002`, which is not negative and is
not the previous value less `memory_required`.  And `calculate_fcfs` on two processes of 5000
units each, the first with burst time `INT_MAX`: when the second is dispatched the first has
run, with `completion_time = -2147483647`, and is not swapped out although only 1000 units are
free. -/
theorem C9_degraded_overflow_counterexample :
    (∀ p ∈ hugeMemoryExample, Fresh p ∧ IntFields p ∧ 0 ≤ p.arrival_time ∧ 0 < p.burst_time)
      ∧ RR.Reach 3 (RR.init hugeMemoryExample 6000) (RR.step 3 (RR.init hugeMemoryExample 6000))
      ∧ RR.queueAt (RR.step 3 (RR.init hugeMemoryExample 6000)).queue
          (RR.step 3 (RR.init hugeMemoryExample 6000)).front = 1
      ∧ (procAt (RR.step 3 (RR.init hugeMemoryExample 6000)).proc 1).remaining_time
          = (procAt (RR.step 3 (RR.init hugeMemoryExample 6000)).proc 1).burst_time
      ∧ (RR.afterEviction (RR.step 3 (RR.init hugeMemoryExample 6000))).available_memory
          = -2147477647
      ∧ (RR.afterEviction (RR.step 3 (RR.init hugeMemoryExample 6000))).available_memory
          < (procAt (RR.step 3 (RR.init hugeMemoryExample 6000)).proc 1).memory_required
      ∧ (RR.step 3 (RR.step 3 (RR.init hugeMemoryExample 6000))).available_memory = 6002
      ∧ ¬ RR.DegradedOutcome 3 (RR.step 3 (RR.init hugeMemoryExample 6000))
      ∧ (∀ p ∈ wrappedEvictionExample,
          Fresh p ∧ IntFields p ∧ 0 ≤ p.arrival_time ∧ 0 < p.burst_time)
      ∧ (procAt (FCFS.stateAt wrappedEvictionExample 6000 1).proc 0).completion_time
          = -2147483647
      ∧ (FCFS.afterEviction (FCFS.stateAt wrappedEvictionExample 6000 1) 1).available_memory
          = 1000
      ∧ (procAt (FCFS.afterEviction (FCFS.stateAt wrappedEvictionExample 6000 1) 1).proc
          0).is_swapped = 0
      ∧ ¬ FCFS.DegradedOutcome (FCFS.stateAt wrappedEvictionExample 6000 1) 1 :=
  ⟨by decide, RR.Reach.step RR.Reach.init (by decide), by decide, by decide, by decide,
    by decide, by decide, fun h => absurd h.2.2.2.1 (by decide), by decide, by decide, by decide,
    by decide, fun h => absurd (h.1 0 (by decide)) (by decide)⟩

/-- C9, amended.  In every simulation (workload as `initialize_processes` leaves it,
`burst_time > 0`, `time_quantum > 0`), in a run without `int` overflow, whatever the memory
sizes: if in an iteration that the loop executes the state after the eviction scan still has
`available_memory` below the dispatched process's `memory_required`, then the scan has swapped
out every completed process, the process is swapped in and executed all the same, and
`available_memory` becomes the previous value plus the freed memory minus `memory_required`, a
negative number (`DegradedOutcome`).  The run goes on until every process has completed: the
final table of `calculate_fcfs` has every process swapped in and run, and the loops of
`calculate_sjf`, `calculate_priority` (no burst time, respectively priority, equal to `INT_MAX`)
and `calculate_rr` (at most `MAX_PROCESSES` processes, and the sum of
`ceil(burst_time / time_quantum)` at most the size of `queue[100]`) return with every process
completed. -/
theorem C9_degraded_admission (proc : List Process) (total_memory time_quantum : Int)
    (hfresh : ∀ p ∈ proc, Fresh p) (hburst : ∀ p ∈ proc, 0 < p.burst_time)
    (htq : 0 < time_quantum) :
    (FCFS.NoOverflow proc total_memory →
        (∀ k, k < proc.length →
          (FCFS.afterEviction (FCFS.stateAt proc total_memory k) k).available_memory
            < (procAt (FCFS.stateAt proc total_memory k).proc k).memory_required →
          FCFS.stateAt proc total_memory (k + 1) = FCFS.body (FCFS.stateAt proc total_memory k) k
            ∧ FCFS.DegradedOutcome (FCFS.stateAt proc total_memory k) k)
        ∧ (∀ p ∈ (FCFS.calculate_fcfs proc total_memory).proc,
            p.total_swap_time = SWAP_TIME ∧ p.completion_time = p.start_time + p.burst_time))
      ∧ (∀ oob, NP.NoOverflow (SJF.select oob) proc total_memory →
          (∀ s, NP.Reach (SJF.select oob) (NP.init proc total_memory) s →
            s.completed < s.proc.length →
            SJF.select oob s.proc s.current_time ≠ -1 →
            (NP.makeRoom s (SJF.select oob s.proc s.current_time).toNat).available_memory
              < (procAt s.proc (SJF.select oob s.proc s.current_time).toNat).memory_required →
            NP.step (SJF.select oob) s
                = NP.dispatch s (SJF.select oob s.proc s.current_time).toNat
              ∧ NP.DegradedOutcome s (SJF.select oob s.proc s.current_time).toNat)
          ∧ ((∀ p ∈ proc, p.burst_time < INT_MAX) → ∃ fuel r,
              SJF.calculate_sjf oob proc total_memory fuel = some r
                ∧ ∀ p ∈ r.proc, p.is_completed ≠ 0))
      ∧ (NP.NoOverflow PS.select proc total_memory →
          (∀ s, NP.Reach PS.select (NP.init proc total_memory) s →
            s.completed < s.proc.length →
            PS.select s.proc s.current_time ≠ -1 →
            (NP.makeRoom s (PS.select s.proc s.current_time).toNat).available_memory
              < (procAt s.proc (PS.select s.proc s.current_time).toNat).memory_required →
            NP.step PS.select s = NP.dispatch s (PS.select s.proc s.current_time).toNat
              ∧ NP.DegradedOutcome s (PS.select s.proc s.current_time).toNat)
          ∧ ((∀ p ∈ proc, p.priority < INT_MAX) → ∃ fuel r,
              PS.calculate_priority proc total_memory fuel = some r
                ∧ ∀ p ∈ r.proc, p.is_completed ≠ 0))
      ∧ (RR.NoOverflow time_quantum proc total_memory →
          (∀ s, RR.Reach time_quantum (RR.init proc total_memory) s →
            s.completed < s.proc.length →
            s.front ≠ s.queue.length →
            (procAt s.proc (RR.queueAt s.queue s.front)).remaining_time
              = (procAt s.proc (RR.queueAt s.queue s.front)).burst_time →
            (RR.afterEviction s).available_memory
              < (procAt s.proc (RR.queueAt s.queue s.front)).memory_required →
            RR.step time_quantum s = RR.dispatch time_quantum s
              ∧ RR.DegradedOutcome time_quantum s)
          ∧ (proc.length ≤ MAX_PROCESSES →
              RR.totalSlices proc time_quantum ≤ (QUEUE_SIZE : Int) →
              ∃ fuel r, RR.calculate_rr proc total_memory time_quantum fuel = some r
                ∧ ∀ p ∈ r.proc, p.remaining_time = 0)) := by
  obtain ⟨x1, x2, x3, x4, x5, x6, x7, x8⟩ :=
    Exact.exact_C9_degraded_admission proc total_memory time_quantum hfresh hburst htq
  refine ⟨fun h => ⟨fun k hk hlow => ?_, ?_⟩, fun oob h => ⟨fun s hs hrun hsel hlow => ?_,
    fun hmax => ?_⟩, fun h => ⟨fun s hs hrun hsel hlow => ?_, fun hmax => ?_⟩,
    fun h => ⟨fun s hs hrun hfront hfirst hlow => ?_, fun hn hq => ?_⟩⟩
  · obtain ⟨e0, e1, e2, e3, -, e5⟩ := FCFS.fcfs_iteration_exact proc total_memory h k hk
    rw [e0, e2] at hlow
    rw [e0, e1, e3, e5]
    exact x1 k hk hlow
  · rw [FCFS.calculate_fcfs_exact proc total_memory h]; exact x2
  · obtain ⟨e0, e1, e2, -, e4⟩ := NP.np_iteration_exact _ s (h s hs hrun) hsel
    rw [e1] at hlow
    rw [e0, e2, e4]
    exact x3 oob s (NP.np_reach_exact h hs) hsel hlow
  · obtain ⟨fuel, r, hr, hall⟩ := x4 hmax oob
    exact ⟨fuel, r, by rw [SJF.calculate_sjf_exact h]; exact hr, hall⟩
  · obtain ⟨e0, e1, e2, -, e4⟩ := NP.np_iteration_exact _ s (h s hs hrun) hsel
    rw [e1] at hlow
    rw [e0, e2, e4]
    exact x5 s (NP.np_reach_exact h hs) hsel hlow
  · obtain ⟨fuel, r, hr, hall⟩ := x6 hmax
    exact ⟨fuel, r, by rw [PS.calculate_priority_exact h]; exact hr, hall⟩
  · obtain ⟨e0, e1, -, -, -, -, e6⟩ := RR.rr_iteration_exact time_quantum s (h s hs hrun) hfront
    obtain ⟨e7, e8⟩ := e6 hfirst
    rw [e7] at hlow
    rw [e0, e1, e8]
    exact x7 s (RR.rr_reach_exact h hs) hfront hfirst hlow
  · obtain ⟨fuel, r, hr, hr'⟩ := RR.calculate_rr_returns h htq hfresh hburst hn hq
    obtain ⟨fuel2, r2, hr2, hall⟩ := x8
    have hreach := (Exact.RR.rr_loop_reach fuel Exact.RR.Reach.init hr').1
    have hdone := (Exact.RR.rr_loop_reach fuel Exact.RR.Reach.init hr').2
    have hinv := Exact.RR.Inv.rr_reach htq hfresh hburst hreach
    exact ⟨fuel, r, hr, Exact.RR.all_finished_of_count (by rw [← hinv.count]; exact hdone)⟩

/-- C9 amended, at a workload whose first process needs 7000 of 6000 memory units:
`calculate_fcfs`, whose run has no overflow, swaps it in all the same, leaving
`available_memory = -1000`, and runs it from time 2 to time 7. -/
theorem C9_degraded_admission_witness :
    (FCFS.stateAt oversizedExample 6000 1).available_memory = -1000
      ∧ FCFS.DegradedOutcome (FCFS.stateAt oversizedExample 6000 0) 0
      ∧ (procAt (FCFS.stateAt oversizedExample 6000 1).proc 0).start_time = 2
      ∧ (procAt (FCFS.stateAt oversizedExample 6000 1).proc 0).completion_time = 7 :=
  ⟨by decide,
    (((C9_degraded_admission oversizedExample 6000 3 (by decide) (by decide) (by decide)).1
      (by decide)).1 0 (by decide) (by decide)).2,
    by decide, by decide⟩

/-- C10, as stated, fails.  In the round-robin run of the demo workload (`total_memory = 6000`,
`time_quantum = 3`) the state at the boundary after five iterations has
`available_memory = -724`; and `calculate_fcfs` on a workload whose first process needs 7000
units leaves `available_memory = -1000` after its first iteration.  The upper bound fails
too, by `int` overflow: in the round-robin run (`total_memory = 6000`, `time_quantum = 3`) of two
processes that need `INT_MAX` units each, the state after two iterations has
`available_memory = 6002`. -/
theorem C10_available_memory_counterexample :
    (∃ s, RR.Reach 3 (RR.init demoProcesses 6000) s ∧ s.available_memory = -724
        ∧ ¬ (0 ≤ s.available_memory ∧ s.available_memory ≤ 6000))
      ∧ (FCFS.stateAt oversizedExample 6000 1).available_memory = -1000
      ∧ ¬ (0 ≤ (FCFS.stateAt oversizedExample 6000 1).available_memory
            ∧ (FCFS.stateAt oversizedExample 6000 1).available_memory ≤ 6000)
      ∧ (∀ p ∈ hugeMemoryExample,
          Fresh p ∧ IntFields p ∧ 0 < p.burst_time ∧ 0 ≤ p.memory_required)
      ∧ RR.Reach 3 (RR.init hugeMemoryExample 6000)
          ((RR.step 3)^[2] (RR.init hugeMemoryExample 6000))
      ∧ ((RR.step 3)^[2] (RR.init hugeMemoryExample 6000)).available_memory = 6002
      ∧ ¬ ((RR.step 3)^[2] (RR.init hugeMemoryExample 6000)).available_memory ≤ 6000 := by
  refine ⟨⟨(RR.step 3)^[5] (RR.init demoProcesses 6000), ?_, by decide, by decide⟩, by decide,
    by decide, by decide, RR.rr_reach_steps 3 _ 2 (by decide), by decide, by decide⟩
  exact RR.rr_reach_steps 3 _ 5 (by decide)

/-- C10, amended.  On every workload as `initialize_processes` leaves it with `burst_time > 0`,
`memory_required >= 0` and `time_quantum > 0`, in a run without `int` overflow,
`available_memory` is at most `total_memory` at every iteration boundary of each of the four
simulations; and in `calculate_fcfs`, `calculate_sjf` and `calculate_priority` it is at least
`0` whenever `total_memory >= 0` and every `memory_required` is at most `total_memory`. -/
theorem C10_available_memory_bounds (proc : List Process) (total_memory time_quantum : Int)
    (hfresh : ∀ p ∈ proc, Fresh p) (hburst : ∀ p ∈ proc, 0 < p.burst_time)
    (htq : 0 < time_quantum) (hmem : ∀ p ∈ proc, 0 ≤ p.memory_required) :
    (FCFS.NoOverflow proc total_memory →
        (∀ k, k ≤ proc.length → (FCFS.stateAt proc total_memory k).available_memory ≤ total_memory)
          ∧ (0 ≤ total_memory → (∀ p ∈ proc, p.memory_required ≤ total_memory) →
              ∀ k, k ≤ proc.length → 0 ≤ (FCFS.stateAt proc total_memory k).available_memory))
      ∧ (∀ oob, NP.NoOverflow (SJF.select oob) proc total_memory →
          (∀ s, NP.Reach (SJF.select oob) (NP.init proc total_memory) s →
              s.available_memory ≤ total_memory)
            ∧ (0 ≤ total_memory → (∀ p ∈ proc, p.memory_required ≤ total_memory) →
                ∀ s, NP.Reach (SJF.select oob) (NP.init proc total_memory) s →
                  0 ≤ s.available_memory))
      ∧ (NP.NoOverflow PS.select proc total_memory →
          (∀ s, NP.Reach PS.select (NP.init proc total_memory) s →
              s.available_memory ≤ total_memory)
            ∧ (0 ≤ total_memory → (∀ p ∈ proc, p.memory_required ≤ total_memory) →
                ∀ s, NP.Reach PS.select (NP.init proc total_memory) s →
                  0 ≤ s.available_memory))
      ∧ (RR.NoOverflow time_quantum proc total_memory →
          ∀ s, RR.Reach time_quantum (RR.init proc total_memory) s →
            s.available_memory ≤ total_memory) := by
  obtain ⟨⟨x1, x2, x3, x4⟩, x5⟩ :=
    Exact.exact_C10_available_memory_bounds proc total_memory time_quantum hfresh hburst htq hmem
  refine ⟨fun h => ⟨fun k hk => ?_, fun h0 hle k hk => ?_⟩,
    fun oob h => ⟨fun s hs => x2 oob s (NP.np_reach_exact h hs),
      fun h0 hle s hs => (x5 h0 hle).2.1 oob s (NP.np_reach_exact h hs)⟩,
    fun h => ⟨fun s hs => x3 s (NP.np_reach_exact h hs),
      fun h0 hle s hs => (x5 h0 hle).2.2 s (NP.np_reach_exact h hs)⟩,
    fun h s hs => x4 s (RR.rr_reach_exact h hs)⟩
  · rw [FCFS.stateAt_exact proc total_memory h k hk]; exact x1 k hk
  · rw [FCFS.stateAt_exact proc total_memory h k hk]; exact (x5 h0 hle).1 k hk

/-- C10 amended, at the demo workload, whose runs have no overflow: the final
`available_memory` of `calculate_fcfs` lies in `[0, 6000]`, and that of the round-robin state
after five iterations is at most `6000`. -/
theorem C10_available_memory_bounds_witness :
    (0 ≤ (FCFS.calculate_fcfs demoProcesses 6000).available_memory
        ∧ (FCFS.calculate_fcfs demoProcesses 6000).available_memory ≤ 6000)
      ∧ ((RR.step 3)^[5] (RR.init demoProcesses 6000)).available_memory ≤ 6000 := by
  have h := C10_available_memory_bounds demoProcesses 6000 3 (by decide) (by decide)
    (by decide) (by decide)
  exact ⟨⟨(h.1 demo_fcfs_noOverflow).2 (by decide) (by decide) demoProcesses.length (le_refl _),
    (h.1 demo_fcfs_noOverflow).1 demoProcesses.length (le_refl _)⟩,
    h.2.2.2 demo_rr_noOverflow _ (RR.rr_reach_steps 3 _ 5 (by decide))⟩

/-- C11, as stated, fails.  `calculate_fcfs` on two processes arriving at `0`, the first with
burst time `2147483644`: the clock stands at `2147483646` when the second is dispatched, and
the swap-in takes it past `INT_MAX`: the second process has
`start_time = response_time = -2147483648`, before its arrival. -/
theorem C11_response_overflow_counterexample :
    (∀ p ∈ wrappedStartExample, Fresh p ∧ IntFields p ∧ 0 ≤ p.arrival_time ∧ 0 < p.burst_time)
      ∧ (procAt (FCFS.calculate_fcfs wrappedStartExample 6000).proc 0).completion_time
          = 2147483646
      ∧ (procAt (FCFS.calculate_fcfs wrappedStartExample 6000).proc 1).arrival_time = 0
      ∧ (procAt (FCFS.calculate_fcfs wrappedStartExample 6000).proc 1).start_time
          = -2147483648
      ∧ (procAt (FCFS.calculate_fcfs wrappedStartExample 6000).proc 1).response_time
          = -2147483648
      ∧ ¬ (∀ p ∈ (FCFS.calculate_fcfs wrappedStartExample 6000).proc, ResponseOK p) := by
  decide

/-- C11, amended.  After a run of any of the four simulations that has no `int` overflow, on a
workload as `initialize_processes` leaves it with `burst_time > 0` (and `time_quantum > 0` for
round-robin), every process has `start_time >= arrival_time` and
`response_time = start_time - arrival_time >= 0`. -/
theorem C11_response_nonneg (proc : List Process) (total_memory time_quantum : Int)
    (hfresh : ∀ p ∈ proc, Fresh p) (hburst : ∀ p ∈ proc, 0 < p.burst_time)
    (htq : 0 < time_quantum) :
    (FCFS.NoOverflow proc total_memory →
        ∀ p ∈ (FCFS.calculate_fcfs proc total_memory).proc, ResponseOK p)
      ∧ (∀ oob, NP.NoOverflow (SJF.select oob) proc total_memory →
          ∀ fuel r, SJF.calculate_sjf oob proc total_memory fuel = some r →
            ∀ p ∈ r.proc, ResponseOK p)
      ∧ (NP.NoOverflow PS.select proc total_memory →
          ∀ fuel r, PS.calculate_priority proc total_memory fuel = some r →
            ∀ p ∈ r.proc, ResponseOK p)
      ∧ (RR.NoOverflow time_quantum proc total_memory →
          ∀ fuel r, RR.calculate_rr proc total_memory time_quantum fuel = some r →
            ∀ p ∈ r.proc, ResponseOK p) := by
  obtain ⟨x1, x2, x3, x4⟩ :=
    Exact.exact_C11_response_nonneg proc total_memory time_quantum hfresh hburst htq
  refine ⟨fun h => ?_, fun oob h fuel r hr => ?_, fun h fuel r hr => ?_, fun h fuel r hr => ?_⟩
  · rw [FCFS.calculate_fcfs_exact proc total_memory h]; exact x1
  · rw [SJF.calculate_sjf_exact h] at hr; exact x2 oob fuel r hr
  · rw [PS.calculate_priority_exact h] at hr; exact x3 fuel r hr
  · exact x4 fuel r (RR.calculate_rr_some_exact h hr).1

/-- C11 amended, at the demo workload with `total_memory = 6000` and `time_quantum = 3`, whose
runs have no overflow: the three loops return within thirty iterations, and every process of the
four final tables satisfies the response relations. -/
theorem C11_response_nonneg_witness :
    (∀ p ∈ (FCFS.calculate_fcfs demoProcesses 6000).proc, ResponseOK p)
      ∧ (∃ r, SJF.calculate_sjf default demoProcesses 6000 20 = some r
          ∧ ∀ p ∈ r.proc, ResponseOK p)
      ∧ (∃ r, PS.calculate_priority demoProcesses 6000 20 = some r
          ∧ ∀ p ∈ r.proc, ResponseOK p)
      ∧ (∃ r, RR.calculate_rr demoProcesses 6000 3 30 = some r
          ∧ ∀ p ∈ r.proc, ResponseOK p) := by
  have h := C11_response_nonneg demoProcesses 6000 3 (by decide) (by decide) (by decide)
  have h1 : (SJF.calculate_sjf default demoProcesses 6000 20).isSome = true := by decide
  have h2 : (PS.calculate_priority demoProcesses 6000 20).isSome = true := by decide
  have h3 : (RR.calculate_rr demoProcesses 6000 3 30).isSome = true := by decide
  obtain ⟨r1, hr1⟩ := Option.isSome_iff_exists.mp h1
  obtain ⟨r2, hr2⟩ := Option.isSome_iff_exists.mp h2
  obtain ⟨r3, hr3⟩ := Option.isSome_iff_exists.mp h3
  exact ⟨h.1 demo_fcfs_noOverflow, ⟨r1, hr1, h.2.1 default demo_sjf_noOverflow 20 r1 hr1⟩,
    ⟨r2, hr2, h.2.2.1 demo_ps_noOverflow 20 r2 hr2⟩,
    ⟨r3, hr3, h.2.2.2 demo_rr_noOverflow 30 r3 hr3⟩⟩

/-- C12, as stated, fails.  `calculate_sjf` on three processes with arrival times 0, 1, 2 and
burst times `2147483641`, 1, 1: the first runs until `2147483643`, the second (equal burst time,
earlier arrival) starts at `2147483645`, and the swap-in of the third takes the clock past
`INT_MAX`: it starts at `-2147483648`. -/
theorem C12_tie_break_overflow_counterexample :
    (∀ p ∈ wrappedTieExample, Fresh p ∧ IntFields p ∧ 0 ≤ p.arrival_time ∧ 0 < p.burst_time)
      ∧ (procAt wrappedTieExample 1).burst_time = (procAt wrappedTieExample 2).burst_time
      ∧ (procAt wrappedTieExample 1).arrival_time < (procAt wrappedTieExample 2).arrival_time
      ∧ (SJF.calculate_sjf default wrappedTieExample 6000 3).map
          (fun r => r.proc.map (fun p => p.start_time))
          = some [2, 2147483645, -2147483648]
      ∧ (SJF.calculate_sjf default wrappedTieExample 6000 3).map
          (fun r => decide ((procAt r.proc 1).start_time < (procAt r.proc 2).start_time))
          = some false := by
  decide

/-- C12, amended.  In a run of `calculate_sjf` without `int` overflow, on a workload as
`initialize_processes` leaves it with `burst_time > 0` (every `int` burst time, so at most
`INT_MAX`), two processes `p` and `q` with equal `burst_time` and
`arrival_time(p) < arrival_time(q)` are dispatched in that order.  At every iteration boundary
of the loop: once `q` has been run, `p` has been run too and `start_time(p) < start_time(q)`.
And in the table the function returns, `start_time(p) < start_time(q)`. -/
theorem C12_sjf_tie_break (oob : Process) (proc : List Process) (total_memory : Int)
    (hfresh : ∀ p ∈ proc, Fresh p) (hburst : ∀ p ∈ proc, 0 < p.burst_time)
    (hint : ∀ p ∈ proc, p.burst_time ≤ INT_MAX)
    (hfit : NP.NoOverflow (SJF.select oob) proc total_memory) :
    (∀ s, NP.Reach (SJF.select oob) (NP.init proc total_memory) s →
        ∀ i j, i < proc.length → j < proc.length →
          (procAt proc i).burst_time = (procAt proc j).burst_time →
          (procAt proc i).arrival_time < (procAt proc j).arrival_time →
          (procAt s.proc j).is_completed ≠ 0 →
          (procAt s.proc i).is_completed ≠ 0
            ∧ (procAt s.proc i).start_time < (procAt s.proc j).start_time)
      ∧ (∀ fuel r, SJF.calculate_sjf oob proc total_memory fuel = some r →
          ∀ i j, i < proc.length → j < proc.length →
            (procAt r.proc i).burst_time = (procAt r.proc j).burst_time →
            (procAt r.proc i).arrival_time < (procAt r.proc j).arrival_time →
            (procAt r.proc i).start_time < (procAt r.proc j).start_time) := by
  obtain ⟨x1, x2⟩ := Exact.exact_C12_sjf_tie_break oob proc total_memory hfresh hburst hint
  refine ⟨fun s hs => x1 s (NP.np_reach_exact hfit hs), fun fuel r hr => ?_⟩
  rw [SJF.calculate_sjf_exact hfit] at hr
  exact x2 fuel r hr

/-- C12 amended, at the demo workload with `total_memory = 6000`, whose run has no overflow: the
loop returns within twenty iterations, and `P4` (arrival 1, burst 2) starts before `P7`
(arrival 4, burst 2). -/
theorem C12_sjf_tie_break_witness :
    ∃ r, SJF.calculate_sjf default demoProcesses 6000 20 = some r
      ∧ (procAt r.proc 3).start_time < (procAt r.proc 6).start_time := by
  have h := C12_sjf_tie_break default demoProcesses 6000 (by decide) (by decide) (by decide)
    demo_sjf_noOverflow
  exact ⟨(SJF.calculate_sjf default demoProcesses 6000 20).get demo_sjf_isSome,
    (Option.some_get demo_sjf_isSome).symm,
    h.2 20 _ (Option.some_get demo_sjf_isSome).symm 3 6 (by decide) (by decide) (by decide)
      (by decide)⟩

/-- C13, as stated, fails.  `calculate_sjf` on two processes arriving at `0` with burst times 1
and `2147483643`: the first completes at 3; the second starts at 5 and the clock passes
`INT_MAX` while it runs, its `completion_time` is `-2147483648`.  The metrics take
`total_burst = 2147483644` and `makespan = 3`, a CPU utilization above 100. -/
theorem C13_utilization_overflow_counterexample :
    (∀ p ∈ wrappedMakespanExample,
        Fresh p ∧ IntFields p ∧ 0 ≤ p.arrival_time ∧ 0 < p.burst_time)
      ∧ (SJF.calculate_sjf default wrappedMakespanExample 6000 2).map
          (fun r => r.proc.map (fun p => p.completion_time)) = some [3, -2147483648]
      ∧ (SJF.calculate_sjf default wrappedMakespanExample 6000 2).map
          (fun r => (total_burst r.proc, makespan r.proc)) = some (2147483644, 3)
      ∧ (SJF.calculate_sjf default wrappedMakespanExample 6000 2).map
          (fun r => decide (total_burst r.proc ≤ makespan r.proc)) = some false
      ∧ ¬ cpu_util 2147483644 3 ≤ 100 := by
  refine ⟨by decide, by decide, by decide, by decide, ?_⟩
  unfold cpu_util
  norm_num

/-- C13, amended.  After a run of any of the four simulations that has no `int` overflow, on a
non-empty workload as `initialize_processes` leaves it with `burst_time > 0` (and
`time_quantum > 0` for round-robin), when the additions `total_burst += burst_time` of
`print_performance_metrics` do not overflow either: the sum of all `burst_time` values is at
most the makespan that `print_performance_metrics` takes, which is the maximum
`completion_time`, so the CPU utilization `(total_burst / makespan) * 100`, taken as an exact
quotient, is at most 100. -/
theorem C13_cpu_utilization_bound (proc : List Process) (total_memory time_quantum : Int)
    (hne : proc ≠ []) (hfresh : ∀ p ∈ proc, Fresh p) (hburst : ∀ p ∈ proc, 0 < p.burst_time)
    (htq : 0 < time_quantum) :
    (FCFS.NoOverflow proc total_memory →
        (∀ x ∈ total_burstOps (FCFS.calculate_fcfs proc total_memory).proc, InInt x) →
        UtilizationOK (FCFS.calculate_fcfs proc total_memory).proc
          (FCFS.makespan (FCFS.calculate_fcfs proc total_memory).proc))
      ∧ (∀ oob, NP.NoOverflow (SJF.select oob) proc total_memory →
          ∀ fuel r, SJF.calculate_sjf oob proc total_memory fuel = some r →
            (∀ x ∈ total_burstOps r.proc, InInt x) → UtilizationOK r.proc (makespan r.proc))
      ∧ (NP.NoOverflow PS.select proc total_memory →
          ∀ fuel r, PS.calculate_priority proc total_memory fuel = some r →
            (∀ x ∈ total_burstOps r.proc, InInt x) → UtilizationOK r.proc (makespan r.proc))
      ∧ (RR.NoOverflow time_quantum proc total_memory →
          ∀ fuel r, RR.calculate_rr proc total_memory time_quantum fuel = some r →
            (∀ x ∈ total_burstOps r.proc, InInt x) → UtilizationOK r.proc (makespan r.proc)) := by
  obtain ⟨x1, x2, x3, x4⟩ :=
    Exact.exact_C13_cpu_utilization_bound proc total_memory time_quantum hne hfresh hburst htq
  refine ⟨fun h hsum => ?_, fun oob h fuel r hr hsum => ?_, fun h fuel r hr hsum => ?_,
    fun h fuel r hr hsum => ?_⟩
  · rw [utilizationOK_exact _ _ hsum, FCFS.calculate_fcfs_exact proc total_memory h]
    exact x1
  · rw [utilizationOK_exact _ _ hsum]
    rw [SJF.calculate_sjf_exact h] at hr
    exact x2 oob fuel r hr
  · rw [utilizationOK_exact _ _ hsum]
    rw [PS.calculate_priority_exact h] at hr
    exact x3 fuel r hr
  · rw [utilizationOK_exact _ _ hsum]
    exact x4 fuel r (RR.calculate_rr_some_exact h hr).1

/-- C13 amended, at the demo workload with `total_memory = 6000` and `time_quantum = 3`, where
nothing overflows: the burst times add up to 38, the FCFS makespan is 66, and the loops of
`calculate_sjf` and `calculate_rr` return with utilization figures in range. -/
theorem C13_cpu_utilization_bound_witness :
    (total_burst (FCFS.calculate_fcfs demoProcesses 6000).proc = 38
        ∧ FCFS.makespan (FCFS.calculate_fcfs demoProcesses 6000).proc = 66
        ∧ UtilizationOK (FCFS.calculate_fcfs demoProcesses 6000).proc
            (FCFS.makespan (FCFS.calculate_fcfs demoProcesses 6000).proc))
      ∧ (∃ r, SJF.calculate_sjf default demoProcesses 6000 20 = some r
          ∧ UtilizationOK r.proc (makespan r.proc))
      ∧ (∃ r, RR.calculate_rr demoProcesses 6000 3 30 = some r
          ∧ UtilizationOK r.proc (makespan r.proc)) := by
  have h := C13_cpu_utilization_bound demoProcesses 6000 3 (by decide) (by decide) (by decide)
    (by decide)
  have e1 : total_burst (FCFS.calculate_fcfs demoProcesses 6000).proc = 38 := by
    set_option maxRecDepth 100000 in decide
  have e2 : FCFS.makespan (FCFS.calculate_fcfs demoProcesses 6000).proc = 66 := by
    set_option maxRecDepth 100000 in decide
  exact ⟨⟨e1, e2, h.1 demo_fcfs_noOverflow (by set_option maxRecDepth 100000 in decide)⟩,
    ⟨_, (Option.some_get demo_sjf_isSome).symm, h.2.1 default demo_sjf_noOverflow 20 _
      (Option.some_get demo_sjf_isSome).symm (by set_option maxRecDepth 100000 in decide)⟩,
    ⟨_, (Option.some_get demo_rr_isSome).symm, h.2.2.2 demo_rr_noOverflow 30 _
      (Option.some_get demo_rr_isSome).symm (by set_option maxRecDepth 100000 in decide)⟩⟩

/-- C14, as stated, fails.  `calculate_fcfs` on three processes with arrival times 0, 1, 2 and
burst times 10, `INT_MAX`, 5: the completion times along the sorted array are 12,
`-2147483635`, 9, not increasing, and `proc[n-1].completion_time = 9` is not the maximum 12. -/
theorem C14_makespan_overflow_counterexample :
    (∀ p ∈ wrappedClockExample, Fresh p ∧ IntFields p ∧ 0 ≤ p.arrival_time ∧ 0 < p.burst_time)
      ∧ (FCFS.calculate_fcfs wrappedClockExample 6000).proc.map (fun p => p.completion_time)
          = [12, -2147483635, 9]
      ∧ FCFS.makespan (FCFS.calculate_fcfs wrappedClockExample 6000).proc = 9
      ∧ makespan (FCFS.calculate_fcfs wrappedClockExample 6000).proc = 12
      ∧ ¬ (∀ p ∈ (FCFS.calculate_fcfs wrappedClockExample 6000).proc,
            p.completion_time ≤ FCFS.makespan (FCFS.calculate_fcfs wrappedClockExample 6000).proc)
      := by
  decide

/-- C14, amended.  The FCFS metrics take `makespan = proc[n-1].completion_time`.  After a run of
`calculate_fcfs` without `int` overflow, on a non-empty workload as `initialize_processes`
leaves it with `burst_time > 0`, completion times are strictly increasing along the sorted
array, so this value is the maximum `completion_time` over all processes; it equals the running
maximum that the other three programs compute. -/
theorem C14_fcfs_makespan_is_max (proc : List Process) (total_memory : Int)
    (hne : proc ≠ []) (hfresh : ∀ p ∈ proc, Fresh p) (hburst : ∀ p ∈ proc, 0 < p.burst_time)
    (hfit : FCFS.NoOverflow proc total_memory) :
    (∀ i j, i < j → j < proc.length →
        (procAt (FCFS.calculate_fcfs proc total_memory).proc i).completion_time
          < (procAt (FCFS.calculate_fcfs proc total_memory).proc j).completion_time)
      ∧ (∀ p ∈ (FCFS.calculate_fcfs proc total_memory).proc,
          p.completion_time ≤ FCFS.makespan (FCFS.calculate_fcfs proc total_memory).proc)
      ∧ (∃ p ∈ (FCFS.calculate_fcfs proc total_memory).proc,
          p.completion_time = FCFS.makespan (FCFS.calculate_fcfs proc total_memory).proc)
      ∧ FCFS.makespan (FCFS.calculate_fcfs proc total_memory).proc
          = makespan (FCFS.calculate_fcfs proc total_memory).proc := by
  rw [FCFS.calculate_fcfs_exact proc total_memory hfit]
  exact Exact.exact_C14_fcfs_makespan_is_max proc total_memory hne hfresh hburst

/-- C14 amended, at the demo workload with `total_memory = 6000`, whose run has no overflow:
the last process of the sorted array completes at 66, which is the maximum completion time. -/
theorem C14_fcfs_makespan_is_max_witness :
    FCFS.makespan (FCFS.calculate_fcfs demoProcesses 6000).proc = 66
      ∧ makespan (FCFS.calculate_fcfs demoProcesses 6000).proc = 66
      ∧ ∀ p ∈ (FCFS.calculate_fcfs demoProcesses 6000).proc, p.completion_time ≤ 66 := by
  have h := C14_fcfs_makespan_is_max demoProcesses 6000 (by decide) (by decide) (by decide)
    demo_fcfs_noOverflow
  have e : FCFS.makespan (FCFS.calculate_fcfs demoProcesses 6000).proc = 66 := by
    set_option maxRecDepth 100000 in decide
  refine ⟨e, ?_, ?_⟩
  · rw [← h.2.2.2]; exact e
  · intro p hp; have := h.2.1 p hp; omega

/-- C3. The sort at the start of `calculate_fcfs` returns a permutation of its input, in
non-decreasing `arrival_time`, and is stable: for every arrival time the processes with that
arrival time come in their input order, so two processes with equal arrival time that stand in
the order `p`, `q` in the input stand in that order in the output.  On the arrivals `0,1,2,1,3` of
`P1..P5` the result is `P1,P2,P4,P3,P5`. -/
theorem C3_fcfs_sort_stable (proc : List Process) :
    (FCFS.sortByArrival proc).Perm proc
      ∧ (FCFS.sortByArrival proc).Pairwise (fun p q => p.arrival_time ≤ q.arrival_time)
      ∧ (∀ a : Int, (FCFS.sortByArrival proc).filter (fun p => decide (p.arrival_time = a))
          = proc.filter (fun p => decide (p.arrival_time = a)))
      ∧ (∀ p q, [p, q].Sublist proc → p.arrival_time = q.arrival_time →
          [p, q].Sublist (FCFS.sortByArrival proc))
      ∧ (FCFS.sortByArrival (demoProcesses.take 5)).map (fun p => p.pid) = [1, 2, 4, 3, 5] := by
  refine ⟨Exact.FCFS.sortByArrival_perm proc, Exact.FCFS.sortByArrival_sorted proc,
    Exact.FCFS.sortByArrival_filter proc, ?_, by decide⟩
  intro p q hsub heq
  have h1 : ([p, q].filter (fun r => decide (r.arrival_time = p.arrival_time))).Sublist
      (proc.filter (fun r => decide (r.arrival_time = p.arrival_time))) := hsub.filter _
  have h2 : [p, q].filter (fun r => decide (r.arrival_time = p.arrival_time)) = [p, q] := by
    simp [heq]
  rw [h2, ← Exact.FCFS.sortByArrival_filter proc p.arrival_time] at h1
  exact h1.trans (List.filter_sublist _)

/-- C5. The selection scan of `calculate_sjf`, run on any process array at any clock value,
yields `-1` or the index of a process with `arrival_time <= current_time` and `is_completed = 0`;
that process has the minimum `burst_time` among all such processes, among those of minimum
`burst_time` the minimum `arrival_time`, and the lowest index if still tied.  Burst times are C
`int` values (`<= INT_MAX`); the record `oob` stands for whatever line 85 reads at `proc[-1]`. -/
theorem C5_sjf_selection (oob : Process) (proc : List Process) (current_time : Int)
    (hint : ∀ p ∈ proc, p.burst_time ≤ INT_MAX) :
    SJF.select oob proc current_time = -1
      ∨ (0 ≤ SJF.select oob proc current_time
          ∧ (SJF.select oob proc current_time).toNat < proc.length
          ∧ (procAt proc (SJF.select oob proc current_time).toNat).arrival_time ≤ current_time
          ∧ (procAt proc (SJF.select oob proc current_time).toNat).is_completed = 0
          ∧ ∀ i, i < proc.length → (procAt proc i).arrival_time ≤ current_time →
              (procAt proc i).is_completed = 0 →
              (procAt proc (SJF.select oob proc current_time).toNat).burst_time
                  ≤ (procAt proc i).burst_time
                ∧ ((procAt proc i).burst_time
                      = (procAt proc (SJF.select oob proc current_time).toNat).burst_time →
                    (procAt proc (SJF.select oob proc current_time).toNat).arrival_time
                        ≤ (procAt proc i).arrival_time
                      ∧ ((procAt proc i).arrival_time
                            = (procAt proc (SJF.select oob proc current_time).toNat).arrival_time →
                          (SJF.select oob proc current_time).toNat ≤ i))) := by
  rcases Exact.SJF.sjf_select_cases oob proc current_time hint with h | ⟨h1, h2, h3⟩
  · exact Or.inl h.1
  · exact Or.inr ⟨h1, h2.1, h2.2.1, h2.2.2, fun i hi ha hc => h3 i ⟨hi, ha, hc⟩⟩

/-- C5 at the demo workload at time 7, when only `P1` has completed: the scan picks `P6`
(index 5, burst 1). -/
theorem C5_sjf_selection_witness :
    SJF.select default (demoProcesses.set 0 { mkProcess 1 0 5 2500 5 with is_completed := 1 }) 7
        = 5
      ∧ (SJF.select default
            (demoProcesses.set 0 { mkProcess 1 0 5 2500 5 with is_completed := 1 }) 7 = -1
        ∨ (0 ≤ SJF.select default
              (demoProcesses.set 0 { mkProcess 1 0 5 2500 5 with is_completed := 1 }) 7
            ∧ (SJF.select default
                (demoProcesses.set 0 { mkProcess 1 0 5 2500 5 with is_completed := 1 }) 7).toNat
              < (demoProcesses.set 0 { mkProcess 1 0 5 2500 5 with is_completed := 1 }).length)) := by
  refine ⟨by decide, ?_⟩
  rcases C5_sjf_selection default
      (demoProcesses.set 0 { mkProcess 1 0 5 2500 5 with is_completed := 1 }) 7 (by decide)
    with h | h
  · exact Or.inl h
  · exact Or.inr ⟨h.1, h.2.1⟩

/-- C20, as stated, fails.  In the round-robin run of the demo workload (`total_memory = 6000`,
`time_quantum = 3`) the arrival check after the first slice, at time 5, appends the processes of
index `1, 2, 3, 4, 5, 6, 7` in that order: `P3` (index 2, arrival 2) is placed ahead of `P4`
(index 3, arrival 1). -/
theorem C20_arrival_order_counterexample :
    RR.appended (RR.afterSlice 3 (RR.init demoProcesses 6000))
        (RR.enqueueArrivalsRem (RR.afterSlice 3 (RR.init demoProcesses 6000)))
        = [1, 2, 3, 4, 5, 6, 7]
      ∧ (procAt demoProcesses 3).arrival_time < (procAt demoProcesses 2).arrival_time
      ∧ ¬ RR.ArrivalSorted demoProcesses
          (RR.appended (RR.afterSlice 3 (RR.init demoProcesses 6000))
            (RR.enqueueArrivalsRem (RR.afterSlice 3 (RR.init demoProcesses 6000)))) := by
  refine ⟨by decide, by decide, by decide⟩

/-- C20, amended.  Whenever `calculate_rr` appends newly arrived processes to the ready queue,
they enter in ascending array-index order, whatever their arrival times: an arrival check run
from state `s` (with `visited` as long as the process array) appends exactly the indices `i < n`
that pass its test (`arrival_time <= current_time`, not visited, and after a slice also
`remaining_time > 0`), the smaller index ahead of the larger. -/
theorem C20_arrival_index_order (s : RR.State) (hv : s.visited.length = s.proc.length) :
    ((RR.enqueueArrivals s).queue = s.queue ++ RR.appended s (RR.enqueueArrivals s)
        ∧ (RR.appended s (RR.enqueueArrivals s)).Pairwise (fun i j => i < j)
        ∧ ∀ i, i ∈ RR.appended s (RR.enqueueArrivals s)
            ↔ i < s.proc.length ∧ (procAt s.proc i).arrival_time ≤ s.current_time
              ∧ RR.visitedAt s.visited i = 0)
      ∧ ((RR.enqueueArrivalsRem s).queue = s.queue ++ RR.appended s (RR.enqueueArrivalsRem s)
        ∧ (RR.appended s (RR.enqueueArrivalsRem s)).Pairwise (fun i j => i < j)
        ∧ ∀ i, i ∈ RR.appended s (RR.enqueueArrivalsRem s)
            ↔ i < s.proc.length ∧ (procAt s.proc i).arrival_time ≤ s.current_time
              ∧ RR.visitedAt s.visited i = 0 ∧ (procAt s.proc i).remaining_time > 0) := by
  obtain ⟨-, -, -, -, -, -, e7, -⟩ := Exact.RR.enqueueArrivals_spec s hv
  obtain ⟨-, -, -, -, -, -, r7, -⟩ := Exact.RR.enqueueArrivalsRem_spec s hv
  have a1 : RR.appended s (RR.enqueueArrivals s)
      = (List.range s.proc.length).filter (fun i => decide (RR.arrived s i)) := by
    unfold RR.appended; rw [e7, List.drop_left]
  have a2 : RR.appended s (RR.enqueueArrivalsRem s)
      = (List.range s.proc.length).filter (fun i => decide (RR.arrivedRem s i)) := by
    unfold RR.appended; rw [r7, List.drop_left]
  refine ⟨⟨by rw [a1]; exact e7, by rw [a1]; exact (List.pairwise_lt_range _).filter _, ?_⟩,
    ⟨by rw [a2]; exact r7, by rw [a2]; exact (List.pairwise_lt_range _).filter _, ?_⟩⟩
  · intro i
    rw [a1]
    simp [RR.arrived]
  · intro i
    rw [a2]
    simp [RR.arrivedRem]

/-- C20 amended, at the arrival check after the first slice of the demo run: the indices
`1 .. 7` are appended in ascending order. -/
theorem C20_arrival_index_order_witness :
    (RR.appended (RR.afterSlice 3 (RR.init demoProcesses 6000))
        (RR.enqueueArrivalsRem (RR.afterSlice 3 (RR.init demoProcesses 6000)))).Pairwise
      (fun i j => i < j) :=
  (C20_arrival_index_order (RR.afterSlice 3 (RR.init demoProcesses 6000)) (by decide)).2.2.1

/-- C8. In `calculate_rr` (workload as `initialize_processes` leaves it, `burst_time > 0`,
`time_quantum > 0`), when a dispatch ends with the process preempted (`remaining_time > 0`), the
ready queue after it is duplicate-free with the preempted process last, and if it holds any other
process then the process at its head, which the next iteration dispatches, is not the preempted
one.  Example with `time_quantum = 3`, `P1` (arrival 0, burst 5) and `P2` (arrival 2, burst 8):
the run returns after five iterations with dispatch sequence `P1, P2, P1, P2, P2` (the entries
`queue[0..4]`), completion times 12 and 17, and before the fifth dispatch the ready queue holds
`P2` only. -/
theorem C8_rr_no_consecutive_quanta (proc : List Process) (total_memory time_quantum : Int)
    (hfresh : ∀ p ∈ proc, Fresh p) (hburst : ∀ p ∈ proc, 0 < p.burst_time)
    (htq : 0 < time_quantum) (s : RR.State)
    (hreach : RR.Reach time_quantum (RR.init proc total_memory) s)
    (hfront : s.front ≠ s.queue.length)
    (hpre : 0 < (procAt (RR.step time_quantum s).proc
      (RR.queueAt s.queue s.front)).remaining_time) :
    (RR.ready (RR.step time_quantum s)).Nodup
      ∧ (∃ others, RR.ready (RR.step time_quantum s) = others ++ [RR.queueAt s.queue s.front])
      ∧ (RR.step time_quantum s).front ≠ (RR.step time_quantum s).queue.length
      ∧ ((∃ q ∈ RR.ready (RR.step time_quantum s), q ≠ RR.queueAt s.queue s.front) →
          RR.queueAt (RR.step time_quantum s).queue (RR.step time_quantum s).front
            ≠ RR.queueAt s.queue s.front)
      ∧ (RR.calculate_rr fairnessExample 6000 3 5).map (fun r => r.queue)
          = some [0, 1, 0, 1, 1]
      ∧ (RR.calculate_rr fairnessExample 6000 3 5).map
          (fun r => r.proc.map (fun p => p.completion_time)) = some [12, 17]
      ∧ RR.ready ((RR.step 3)^[4] (RR.init fairnessExample 6000)) = [1] := by
  have hinv := RR.Discipline.disc_reach htq hfresh hburst hreach
  have hstep : RR.step time_quantum s = RR.dispatch time_quantum s := by
    simp [RR.step, hfront]
  have hinv' : RR.Discipline proc (RR.step time_quantum s) := hinv.disc_step htq hburst
  obtain ⟨-, hidx, -, -, -, -⟩ := hinv.rr_front hfront
  obtain ⟨-, -, -, -, -, e3, e4, -⟩ := RR.rr_dispatch_frame time_quantum s
    (by rw [hinv.len]; exact hidx) (by rw [hinv.vlen, hinv.len])
  rw [← hstep] at e3 e4
  have hlt : s.front + 1 ≤ s.queue.length := by
    have := hinv.front_le
    omega
  have hready : RR.ready (RR.step time_quantum s)
      = (s.queue.drop (s.front + 1) ++ (List.range s.proc.length).filter (fun i =>
            decide (RR.arrivedRem (RR.afterSlice time_quantum s) i)))
          ++ [RR.queueAt s.queue s.front] := by
    unfold RR.ready
    rw [e4, e3, if_pos hpre, List.append_assoc, List.drop_append_of_le_length hlt,
      List.append_assoc]
  have hne : (RR.step time_quantum s).front ≠ (RR.step time_quantum s).queue.length := by
    intro hc
    have : RR.ready (RR.step time_quantum s) = [] := by
      unfold RR.ready; rw [hc]; exact List.drop_length _
    rw [hready] at this
    simp at this
  refine ⟨hinv'.ready_nodup, ⟨_, hready⟩, hne, ?_, by decide, by decide, by decide⟩
  rintro ⟨q, hq, hqne⟩ hhead
  obtain ⟨hr, -, -, -, hnotin, -⟩ := hinv'.rr_front hne
  rw [hhead] at hr hnotin
  rw [hr] at hq
  rcases List.mem_cons.mp hq with h1 | h1
  · exact hqne h1
  · -- the tail is not empty, so its last element is the preempted process
    rw [hready] at hr
    generalize s.queue.drop (s.front + 1) ++ (List.range s.proc.length).filter (fun i =>
      decide (RR.arrivedRem (RR.afterSlice time_quantum s) i)) = L at hr
    cases L with
    | nil =>
      simp only [List.nil_append, List.cons.injEq, true_and] at hr
      rw [← hr] at h1
      simp at h1
    | cons a L' =>
      simp only [List.cons_append, List.cons.injEq] at hr
      apply hnotin
      rw [← hr.2]
      simp

/-- C8 at the example workload, after its first dispatch: `P1` is preempted at time 5 and `P2`,
which arrived during the slice, is dispatched next. -/
theorem C8_rr_no_consecutive_quanta_witness :
    RR.queueAt (RR.step 3 (RR.init fairnessExample 6000)).queue
        (RR.step 3 (RR.init fairnessExample 6000)).front
      ≠ RR.queueAt (RR.init fairnessExample 6000).queue (RR.init fairnessExample 6000).front :=
  (C8_rr_no_consecutive_quanta fairnessExample 6000 3 (by decide) (by decide) (by decide)
    (RR.init fairnessExample 6000) RR.Reach.init (by decide) (by decide)).2.2.2.1
    ⟨1, by decide, by decide⟩

/-- C21. In `calculate_rr`, on a workload as `initialize_processes` leaves it with
`burst_time > 0` and `time_quantum > 0`: at every iteration boundary, and inside a dispatch after
the dequeue and admission, after the slice and after the arrival check, the live part of the
ready queue (positions `front .. rear-1`) holds each process index at most once and only
processes with `remaining_time > 0`.  Every iteration writes to the queue, for each process `j`,
one entry per arrival insertion of `j` (when `visited[j]` is set) and one entry per preemption of
`j`, and nothing else; `visited[j]`, once set, stays set, so `j` is inserted as an arrival at most
once; the entries written before the loop are one per process visited then; and when the loop
returns every process has been visited and the live queue is empty. -/
theorem C21_rr_queue_discipline (proc : List Process) (total_memory time_quantum : Int)
    (hfresh : ∀ p ∈ proc, Fresh p) (hburst : ∀ p ∈ proc, 0 < p.burst_time)
    (htq : 0 < time_quantum) :
    (∀ j, (RR.init proc total_memory).queue.count j
        = if RR.visitedAt (RR.init proc total_memory).visited j ≠ 0 then 1 else 0)
      ∧ (∀ s, RR.Reach time_quantum (RR.init proc total_memory) s →
          RR.QueueOK s
            ∧ (s.front ≠ s.queue.length →
                RR.QueueOK (RR.afterAdmission s) ∧ RR.QueueOK (RR.afterSlice time_quantum s)
                  ∧ RR.QueueOK (RR.enqueueArrivalsRem (RR.afterSlice time_quantum s)))
            ∧ ∀ j, (RR.step time_quantum s).queue.count j
                  = s.queue.count j + RR.arrivalInsertions s (RR.step time_quantum s) j
                    + RR.preemptions time_quantum s j
                ∧ (RR.visitedAt s.visited j ≠ 0 →
                    RR.visitedAt (RR.step time_quantum s).visited j ≠ 0))
      ∧ (∀ fuel r, RR.calculate_rr proc total_memory time_quantum fuel = some r →
          RR.ready r = [] ∧ ∀ j, j < proc.length → RR.visitedAt r.visited j ≠ 0) := by
  refine ⟨Exact.RR.rr_init_queue proc total_memory, ?_, ?_⟩
  · intro s hs
    have hinv := RR.Discipline.disc_reach htq hfresh hburst hs
    exact ⟨hinv.queue_ok,
      fun hfront => hinv.queue_ok_inside time_quantum hfront,
      fun j => hinv.step_queue time_quantum j⟩
  · intro fuel r h
    obtain ⟨-, -, h3, h4, -⟩ :=
      RR.rr_final_discipline proc total_memory time_quantum htq hfresh hburst fuel r h
    exact ⟨h3, h4⟩

/-- C21 at the demo workload with `total_memory = 6000` and `time_quantum = 3`: the first
iteration preempts `P1` (index 0), which then stands twice in the queue written so far, once for
its arrival and once for the preemption, and once in its live part. -/
theorem C21_rr_queue_discipline_witness :
    RR.QueueOK (RR.step 3 (RR.init demoProcesses 6000))
      ∧ (RR.init demoProcesses 6000).queue.count 0 = 1
      ∧ RR.preemptions 3 (RR.init demoProcesses 6000) 0 = 1
      ∧ (RR.step 3 (RR.init demoProcesses 6000)).queue.count 0 = 2
      ∧ (RR.ready (RR.step 3 (RR.init demoProcesses 6000))).count 0 = 1 := by
  have h := C21_rr_queue_discipline demoProcesses 6000 3 (by decide) (by decide) (by decide)
  have hq := (h.2.1 _ (RR.Reach.step RR.Reach.init (by decide))).1
  have hc := ((h.2.1 _ RR.Reach.init).2.2 0).1
  have h0 : (RR.init demoProcesses 6000).queue.count 0 = 1 := by rw [h.1 0]; decide
  have hp : RR.preemptions 3 (RR.init demoProcesses 6000) 0 = 1 := by decide
  have ha : RR.arrivalInsertions (RR.init demoProcesses 6000)
      (RR.step 3 (RR.init demoProcesses 6000)) 0 = 0 := by decide
  refine ⟨hq, h0, hp, by rw [hc, h0, hp, ha], ?_⟩
  exact List.count_eq_one_of_mem hq.1 (by decide)

/-- C25. In `calculate_rr`, on a workload as `initialize_processes` leaves it (so with
`remaining_time = burst_time` on entry) with `burst_time > 0` and `time_quantum > 0`: at every
iteration boundary every `remaining_time` lies in `0 .. burst_time`; no iteration increases a
`remaining_time`; the process that an iteration dispatches has `remaining_time > 0`, so a
process whose `remaining_time` is `0` is never dispatched again; an iteration increments
`completed` exactly when it leaves the dispatched process with `remaining_time = 0`, and it
then assigns `completion_time` the clock at the end of the slice; otherwise `completed` and
`completion_time` are left as they are. -/
theorem C25_rr_remaining_time (proc : List Process) (total_memory time_quantum : Int)
    (hfresh : ∀ p ∈ proc, Fresh p) (hburst : ∀ p ∈ proc, 0 < p.burst_time)
    (htq : 0 < time_quantum) :
    (∀ j, (procAt (RR.init proc total_memory).proc j).remaining_time
        = (procAt (RR.init proc total_memory).proc j).burst_time)
      ∧ ∀ s, RR.Reach time_quantum (RR.init proc total_memory) s →
        (∀ j, 0 ≤ (procAt s.proc j).remaining_time
            ∧ (procAt s.proc j).remaining_time ≤ (procAt s.proc j).burst_time
            ∧ (procAt s.proc j).burst_time = (procAt proc j).burst_time)
          ∧ (∀ j, (procAt (RR.step time_quantum s).proc j).remaining_time
              ≤ (procAt s.proc j).remaining_time)
          ∧ (s.front = s.queue.length → (RR.step time_quantum s).completed = s.completed)
          ∧ (s.front ≠ s.queue.length →
              0 < (procAt s.proc (RR.queueAt s.queue s.front)).remaining_time
                ∧ ((RR.step time_quantum s).completed = s.completed + 1
                    ↔ (procAt (RR.step time_quantum s).proc
                        (RR.queueAt s.queue s.front)).remaining_time = 0)
                ∧ ((procAt (RR.step time_quantum s).proc
                      (RR.queueAt s.queue s.front)).remaining_time = 0 →
                    (procAt (RR.step time_quantum s).proc
                      (RR.queueAt s.queue s.front)).completion_time
                        = (RR.step time_quantum s).current_time)
                ∧ ((procAt (RR.step time_quantum s).proc
                      (RR.queueAt s.queue s.front)).remaining_time ≠ 0 →
                    (RR.step time_quantum s).completed = s.completed
                      ∧ (procAt (RR.step time_quantum s).proc
                          (RR.queueAt s.queue s.front)).completion_time
                            = (procAt s.proc (RR.queueAt s.queue s.front)).completion_time)) := by
  refine ⟨?_, ?_⟩
  · intro j
    have e : (RR.init proc total_memory).proc = proc :=
      (Exact.RR.enqueueArrivals_spec
        { proc := proc, current_time := 0, available_memory := total_memory, completed := 0,
          queue := [], front := 0, visited := List.replicate proc.length 0 } (by simp)).1
    rw [e]
    by_cases hj : j < proc.length
    · exact (hfresh _ (Exact.procAt_mem hj)).2.2.2.1
    · rw [Exact.procAt_default (Nat.le_of_not_lt hj)]; rfl
  · intro s hs
    have hinv := RR.Discipline.disc_reach htq hfresh hburst hs
    have hinv' : RR.Discipline proc (RR.step time_quantum s) := hinv.disc_step htq hburst
    have hidle : s.front = s.queue.length →
        (RR.step time_quantum s).proc = s.proc ∧ (RR.step time_quantum s).completed = s.completed
        := by
      intro hfront
      have hstep : RR.step time_quantum s = RR.idle s := by
        unfold RR.step; rw [if_pos hfront]
      obtain ⟨e1, -, -, e4, -⟩ :=
        Exact.RR.enqueueArrivals_spec { s with current_time := wrap (s.current_time + 1) }
          (by show s.visited.length = s.proc.length; rw [hinv.vlen, hinv.len])
      rw [hstep]
      exact ⟨e1, e4⟩
    refine ⟨fun j => ⟨(hinv.range j).1, (hinv.range j).2, hinv.burst j⟩, fun j => ?_,
      fun hfront => (hidle hfront).2, fun hfront => ?_⟩
    · by_cases hfront : s.front = s.queue.length
      · rw [(hidle hfront).1]
      · have hstep : RR.step time_quantum s = RR.dispatch time_quantum s := by
          unfold RR.step; rw [if_neg hfront]
        obtain ⟨-, hidx, -, hrem, -, -⟩ := hinv.rr_front hfront
        obtain ⟨-, -, d3, -⟩ := RR.rr_dispatch_frame time_quantum s
          (by rw [hinv.len]; exact hidx) (by rw [hinv.vlen, hinv.len])
        rw [hstep, d3 j]
        split
        · rename_i hjq
          have hsl := (Exact.RR.sliceLen_pos (p := procAt s.proc j) (by rw [hjq]; exact hrem)
            htq).1
          omega
        · exact le_refl _
    · have hstep : RR.step time_quantum s = RR.dispatch time_quantum s := by
        unfold RR.step; rw [if_neg hfront]
      obtain ⟨-, hidx, -, hrem, -, -⟩ := hinv.rr_front hfront
      obtain ⟨-, -, -, d4, d5, -, -, -, -, -, -, -⟩ := RR.rr_dispatch_frame time_quantum s
        (by rw [hinv.len]; exact hidx) (by rw [hinv.vlen, hinv.len])
      have hr' := (hinv'.range (RR.queueAt s.queue s.front)).1
      have hcomp := d4 (RR.queueAt s.queue s.front)
      rw [← hstep] at hcomp d5
      refine ⟨hrem, ?_, fun h0 => ?_, fun hne => ?_⟩
      · constructor
        · intro hc
          rw [d5] at hc
          by_contra hne
          rw [if_pos (by omega)] at hc
          omega
        · intro h0
          rw [d5, if_neg (by omega)]
      · rw [hcomp, if_pos ⟨rfl, by omega⟩]
      · have hpos : (procAt (RR.step time_quantum s).proc
            (RR.queueAt s.queue s.front)).remaining_time > 0 := by omega
        exact ⟨by rw [d5, if_pos hpos], by rw [hcomp, if_neg (fun hc => hc.2 hpos)]⟩

/-- C25 at the demo workload with `total_memory = 6000` and `time_quantum = 3`: the second
iteration dispatches `P2` (index 1, burst 3), leaves it with `remaining_time = 0`, increments
`completed` and assigns its `completion_time` the clock. -/
theorem C25_rr_remaining_time_witness :
    RR.queueAt (RR.step 3 (RR.init demoProcesses 6000)).queue
        (RR.step 3 (RR.init demoProcesses 6000)).front = 1
      ∧ (procAt (RR.step 3 (RR.step 3 (RR.init demoProcesses 6000))).proc 1).remaining_time = 0
      ∧ (RR.step 3 (RR.step 3 (RR.init demoProcesses 6000))).completed
          = (RR.step 3 (RR.init demoProcesses 6000)).completed + 1
      ∧ (procAt (RR.step 3 (RR.step 3 (RR.init demoProcesses 6000))).proc 1).completion_time
          = (RR.step 3 (RR.step 3 (RR.init demoProcesses 6000))).current_time := by
  have h := ((C25_rr_remaining_time demoProcesses 6000 3 (by decide) (by decide) (by decide)).2
    _ (RR.Reach.step RR.Reach.init (by decide))).2.2.2 (by decide)
  have hq : RR.queueAt (RR.step 3 (RR.init demoProcesses 6000)).queue
      (RR.step 3 (RR.init demoProcesses 6000)).front = 1 := by decide
  rw [hq] at h
  have h0 : (procAt (RR.step 3 (RR.step 3 (RR.init demoProcesses 6000))).proc 1).remaining_time
      = 0 := by decide
  exact ⟨hq, h0, h.2.1.mpr h0, h.2.2.1 h0⟩

namespace PS

/-- On the sentinel workload the loop of `calculate_priority` has not exited after any number of
iterations, from any clock value. -/
theorem sentinel_loop_none (fuel : Nat) (current_time : Int) :
    NP.loop select fuel
      { proc := sentinelExample, current_time := current_time, available_memory := 6000,
        completed := 0, execution_order := [] } = none := by
  induction fuel generalizing current_time with
  | zero => simp [NP.loop, sentinelExample]
  | succ fuel ih =>
    have hstep : NP.step select
        { proc := sentinelExample, current_time := current_time, available_memory := 6000,
          completed := 0, execution_order := [] }
        = { proc := sentinelExample, current_time := wrap (current_time + 1),
            available_memory := 6000, completed := 0, execution_order := [] } := by
      unfold NP.step
      rw [if_pos (Exact.PS.ps_sentinel_select current_time)]
    simp only [NP.loop]
    rw [if_pos (by simp [sentinelExample]), hstep]
    exact ih _

end PS

/-- C15, at an input where it fails.  `calculate_priority` on the single process
`(arrival_time 0, burst_time 1, priority INT_MAX)` never returns: the selection scan starts from
`highest_priority = INT_MAX` and accepts only a strictly smaller priority value, so it yields
`-1` at every clock value and the loop only ticks.  For every number of iterations the loop has
not exited.  The workload is as `initialize_processes` leaves it, with `arrival_time >= 0` and
`burst_time > 0`. -/
theorem C15_priority_sentinel_never_returns :
    (∀ p ∈ sentinelExample, Fresh p ∧ 0 ≤ p.arrival_time ∧ 0 < p.burst_time)
      ∧ (∀ current_time, PS.select sentinelExample current_time = -1)
      ∧ ∀ fuel, PS.calculate_priority sentinelExample 6000 fuel = none :=
  ⟨by decide, Exact.PS.ps_sentinel_select, fun fuel => PS.sentinel_loop_none fuel 0⟩

/-- C24, at an input where it fails.  On the single process
`(arrival_time 0, burst_time 1, priority INT_MAX)` at clock `0`, the process has arrived and is
not completed, yet the selection scan of `calculate_priority` yields `-1`, and the iteration
only advances the clock by one tick.  The scan starts from `highest_priority = INT_MAX` and
accepts only a strictly smaller priority value. -/
theorem C24_priority_scan_misses_eligible :
    NP.eligible sentinelExample 0 0
      ∧ (procAt sentinelExample 0).arrival_time ≤ 0
      ∧ (procAt sentinelExample 0).is_completed = 0
      ∧ PS.select sentinelExample 0 = -1
      ∧ NP.step PS.select (NP.init sentinelExample 6000)
          = { NP.init sentinelExample 6000 with current_time := 1 } := by
  refine ⟨by decide, by decide, by decide, Exact.PS.ps_sentinel_select 0, by decide⟩

/-- C28. The round-robin run of `preemptedHolderExample` (two processes arriving at 0 with
burst 5 and `memory_required = 4000`) with `total_memory = 6000`, `time_quantum = 3` and
`SWAP_TIME = 2`: every `memory_required` is at most `total_memory`; the first iteration swaps
in process 0, runs it for one quantum and requeues it with `remaining_time = 2`, still holding
its 4000 units (`available_memory = 2000`); the second iteration is the first dispatch of
process 1, its eviction scan frees nothing (process 0 is not finished), and the swap-in leaves
`available_memory = -2000` at a reachable iteration boundary. -/
theorem C28_rr_negative_memory :
    SWAP_TIME = 2
      ∧ (∀ p ∈ preemptedHolderExample, p.memory_required ≤ 6000)
      ∧ RR.queueAt (RR.init preemptedHolderExample 6000).queue
          (RR.init preemptedHolderExample 6000).front = 0
      ∧ (procAt (RR.step 3 (RR.init preemptedHolderExample 6000)).proc 0).remaining_time = 2
      ∧ held (procAt (RR.step 3 (RR.init preemptedHolderExample 6000)).proc 0) = 4000
      ∧ (RR.step 3 (RR.init preemptedHolderExample 6000)).available_memory = 2000
      ∧ RR.queueAt (RR.step 3 (RR.init preemptedHolderExample 6000)).queue
          (RR.step 3 (RR.init preemptedHolderExample 6000)).front = 1
      ∧ (procAt (RR.step 3 (RR.init preemptedHolderExample 6000)).proc 1).remaining_time
          = (procAt (RR.step 3 (RR.init preemptedHolderExample 6000)).proc 1).burst_time
      ∧ (RR.afterEviction (RR.step 3 (RR.init preemptedHolderExample 6000))).available_memory
          = 2000
      ∧ held (procAt (RR.step 3 (RR.step 3 (RR.init preemptedHolderExample 6000))).proc 0)
          = 4000
      ∧ held (procAt (RR.step 3 (RR.step 3 (RR.init preemptedHolderExample 6000))).proc 1)
          = 4000
      ∧ (RR.step 3 (RR.step 3 (RR.init preemptedHolderExample 6000))).available_memory = -2000
      ∧ RR.Reach 3 (RR.init preemptedHolderExample 6000)
          (RR.step 3 (RR.step 3 (RR.init preemptedHolderExample 6000))) := by
  refine ⟨rfl, by decide, by decide, by decide, by decide, by decide, by decide, by decide,
    by decide, by decide, by decide, by decide, ?_⟩
  exact RR.Reach.step (RR.Reach.step RR.Reach.init (by decide)) (by decide)

/-- C17. `calculate_fcfs` on the ten demo processes with `total_memory = 6000` (and
`SWAP_TIME = 2`) dispatches them in the order `P1, P2, P4, P3, P5, P7, P8, P6, P10, P9` (the order
of the sorted array, which the main loop follows; the start times are listed too) with
completion times `7, 12, 16, 28, 34, 38, 42, 45, 58, 66`, and swaps out exactly `P1, P2, P4, P3`.
The run is deterministic: every array that holds the data `initialize_processes` sets, whatever
its other fields hold, gives the same printed process table, the same final clock and the same
final free memory. -/
theorem C17_fcfs_demo_run :
    (FCFS.calculate_fcfs demoProcesses 6000).proc.map (fun p => p.pid)
        = [1, 2, 4, 3, 5, 7, 8, 6, 10, 9]
      ∧ (FCFS.calculate_fcfs demoProcesses 6000).proc.map (fun p => p.start_time)
          = [2, 9, 14, 20, 30, 36, 40, 44, 53, 60]
      ∧ (FCFS.calculate_fcfs demoProcesses 6000).proc.map (fun p => p.completion_time)
          = [7, 12, 16, 28, 34, 38, 42, 45, 58, 66]
      ∧ ((FCFS.calculate_fcfs demoProcesses 6000).proc.filter
            (fun p => decide (p.is_swapped ≠ 0))).map (fun p => p.pid) = [1, 2, 4, 3]
      ∧ (∀ proc, proc.map initData = demoProcesses.map initData →
          (FCFS.calculate_fcfs proc 6000).proc.map tableRow
              = (FCFS.calculate_fcfs demoProcesses 6000).proc.map tableRow
            ∧ (FCFS.calculate_fcfs proc 6000).current_time
                = (FCFS.calculate_fcfs demoProcesses 6000).current_time
            ∧ (FCFS.calculate_fcfs proc 6000).available_memory
                = (FCFS.calculate_fcfs demoProcesses 6000).available_memory) := by
  refine ⟨by set_option maxRecDepth 100000 in decide, by set_option maxRecDepth 100000 in decide,
    by set_option maxRecDepth 100000 in decide, by set_option maxRecDepth 100000 in decide,
    fun proc h => FCFS.table_deterministic h 6000⟩

/-- C17 at an array that holds the demo data and other values in the fields that
`initialize_processes` leaves unset: the printed table is that of the demo run. -/
theorem C17_fcfs_demo_run_witness :
    (FCFS.calculate_fcfs
        (demoProcesses.map (fun p => { p with completion_time := 77, swap_out_time := 5 }))
        6000).proc.map tableRow
      = (FCFS.calculate_fcfs demoProcesses 6000).proc.map tableRow :=
  (C17_fcfs_demo_run.2.2.2.2 _ (by decide)).1

/-- C16, as stated, fails: no input is rejected.  On a workload whose only process has
`burst_time = 0` and `memory_required = 0`, `calculate_fcfs` returns with the clock at 2 and a
changed process table, and `calculate_sjf`, `calculate_priority` and `calculate_rr` return with
the clock at 2 and one process completed.  With `time_quantum = 0` the first iteration of
`calculate_rr` on the demo workload swaps `P1` in and moves the clock to 2. -/
theorem C16_input_rejection_counterexample :
    (∀ p ∈ invalidExample, p.burst_time ≤ 0 ∧ p.memory_required ≤ 0)
      ∧ (FCFS.calculate_fcfs invalidExample 6000).current_time = 2
      ∧ (FCFS.calculate_fcfs invalidExample 6000).proc ≠ invalidExample
      ∧ (SJF.calculate_sjf default invalidExample 6000 5).map
          (fun r => (r.current_time, r.completed)) = some (2, 1)
      ∧ (PS.calculate_priority invalidExample 6000 5).map
          (fun r => (r.current_time, r.completed)) = some (2, 1)
      ∧ (RR.calculate_rr invalidExample 6000 3 5).map
          (fun r => (r.current_time, r.completed)) = some (2, 1)
      ∧ (RR.step 0 (RR.init demoProcesses 6000)).current_time = 2
      ∧ (procAt (RR.step 0 (RR.init demoProcesses 6000)).proc 0).total_swap_time = 2 := by
  refine ⟨by decide, by decide, by decide, by decide, by decide, by decide, by decide, by decide⟩

/-- C16, amended.  A run whose input contains a non-positive `burst_time` or `memory_required`,
or a non-positive `time_quantum`, is not rejected: none of the four functions looks at the
values before the simulation starts, and processes are dispatched on any input.  Whatever the
fields hold, `calculate_fcfs` swaps in every process of the array (its `total_swap_time` is set
to `SWAP_TIME`); an iteration of `calculate_sjf` or `calculate_priority` whose scan selects a
process dispatches it and counts it as completed; and an iteration of `calculate_rr` with a
non-empty ready queue dispatches the head of the queue. -/
theorem C16_no_input_validation (proc : List Process) (total_memory : Int) :
    (∀ j, j < proc.length →
        (procAt (FCFS.calculate_fcfs proc total_memory).proc j).total_swap_time = SWAP_TIME)
      ∧ (∀ oob (s : NP.State), SJF.select oob s.proc s.current_time ≠ -1 →
          NP.step (SJF.select oob) s
              = NP.dispatch s (SJF.select oob s.proc s.current_time).toNat
            ∧ (NP.step (SJF.select oob) s).completed = s.completed + 1)
      ∧ (∀ s : NP.State, PS.select s.proc s.current_time ≠ -1 →
          NP.step PS.select s = NP.dispatch s (PS.select s.proc s.current_time).toNat
            ∧ (NP.step PS.select s).completed = s.completed + 1)
      ∧ (∀ time_quantum (s : RR.State), s.front ≠ s.queue.length →
          RR.step time_quantum s = RR.dispatch time_quantum s
            ∧ (RR.step time_quantum s).front = s.front + 1) := by
  have hnp : ∀ (select : List Process → Int → Int) (s : NP.State),
      select s.proc s.current_time ≠ -1 →
        NP.step select s = NP.dispatch s (select s.proc s.current_time).toNat
          ∧ (NP.step select s).completed = s.completed + 1 := by
    intro select s hsel
    have h : NP.step select s = NP.dispatch s (select s.proc s.current_time).toNat := by
      unfold NP.step; rw [if_neg hsel]
    exact ⟨h, by rw [h]; exact (NP.np_dispatch_frame s _ 0).2.1⟩
  refine ⟨fun j hj => (FCFS.stateAt_charged proc total_memory proc.length (le_refl _)).2 j hj,
    fun oob s h => hnp (SJF.select oob) s h, fun s h => hnp PS.select s h, ?_⟩
  intro tq s hf
  have h : RR.step tq s = RR.dispatch tq s := by unfold RR.step; rw [if_neg hf]
  refine ⟨h, ?_⟩
  rw [h]
  show (RR.finish (RR.enqueueArrivalsRem (RR.runSlice (RR.firstExec
    (RR.admission { s with front := s.front + 1 } (RR.queueAt s.queue s.front))
    (RR.queueAt s.queue s.front)) (RR.queueAt s.queue s.front) tq))
    (RR.queueAt s.queue s.front)).front = s.front + 1
  rw [(RR.finish_frame (fun _ => ()) (fun _ _ _ _ => rfl) _ _ 0).2.1.1,
    Exact.RR.enqueueArrivalsRem_front,
    (RR.runSlice_frame (fun _ => ()) (fun _ _ => rfl) _ _ _ 0).2.1.2.2.1,
    (RR.firstExec_frame (fun _ => ()) (fun _ _ _ _ => rfl) _ _ 0).2.1.2.2.1,
    (RR.admission_frame (fun _ => ()) (fun _ _ _ _ => rfl) _ _ 0).2.1.2.2.1]

/-- C16 amended, at the workload with `burst_time = 0` and `memory_required = 0` and at
`time_quantum = 0`: the process is swapped in by `calculate_fcfs`, and dispatched by the first
iteration of the other three loops. -/
theorem C16_no_input_validation_witness :
    (procAt (FCFS.calculate_fcfs invalidExample 6000).proc 0).total_swap_time = SWAP_TIME
      ∧ (NP.step (SJF.select default) (NP.init invalidExample 6000)).completed = 1
      ∧ (NP.step PS.select (NP.init invalidExample 6000)).completed = 1
      ∧ (RR.step 0 (RR.init invalidExample 6000)).front = 1 := by
  have h := C16_no_input_validation invalidExample 6000
  exact ⟨h.1 0 (by decide), (h.2.1 default (NP.init invalidExample 6000) (by decide)).2,
    (h.2.2.1 (NP.init invalidExample 6000) (by decide)).2,
    (h.2.2.2 0 (RR.init invalidExample 6000) (by decide)).2⟩

/-- C18, as stated, fails.  `calculate_fcfs` with `total_memory = 6000` on two processes of 5000
units each, the first with burst time `INT_MAX`: when the second process is dispatched 1000
units are free, fewer than the 5000 it needs; the first process has run and is not swapped out,
but its `completion_time` has wrapped to `-2147483647`, the scan `completion_time > 0` passes it
over, and nothing is swapped out. -/
theorem C18_eviction_overflow_counterexample :
    (∀ p ∈ wrappedEvictionExample, Fresh p ∧ IntFields p ∧ 0 ≤ p.arrival_time ∧ 0 < p.burst_time)
      ∧ (FCFS.stateAt wrappedEvictionExample 6000 1).available_memory = 1000
      ∧ (procAt (FCFS.stateAt wrappedEvictionExample 6000 1).proc 1).memory_required = 5000
      ∧ (procAt (FCFS.stateAt wrappedEvictionExample 6000 1).proc 0).total_swap_time = SWAP_TIME
      ∧ (procAt (FCFS.stateAt wrappedEvictionExample 6000 1).proc 0).completion_time
          = -2147483647
      ∧ (procAt (FCFS.stateAt wrappedEvictionExample 6000 1).proc 0).is_swapped = 0
      ∧ FCFS.candidates (FCFS.idleJump (FCFS.stateAt wrappedEvictionExample 6000 1) 1) 1 = []
      ∧ (procAt (FCFS.afterEviction (FCFS.stateAt wrappedEvictionExample 6000 1) 1).proc
          0).is_swapped = 0
      ∧ (FCFS.afterEviction (FCFS.stateAt wrappedEvictionExample 6000 1) 1).available_memory
          = 1000
      ∧ ¬ (∀ j, j ∈ FCFS.candidates
              (FCFS.idleJump (FCFS.stateAt wrappedEvictionExample 6000 1) 1) 1
            ↔ j < 1 ∧ (procAt (FCFS.stateAt wrappedEvictionExample 6000 1).proc j).is_swapped
                = 0) :=
  ⟨by decide, by decide, by decide, by decide, by decide, by decide, by decide, by decide,
    by decide, fun h => absurd ((h 0).2 ⟨by decide, by decide⟩) (by decide)⟩

/-- C18, amended.  In a run without `int` overflow the memory check at a dispatch does what the
specification describes.  When a process that needs `m` units is dispatched with `a` units free:
if `a >= m` nothing is swapped out; otherwise the completed, not-yet-swapped processes are
swapped out in array order, stopping right after the first one that brings the free memory to
`m` or more, or after all of them, each adding its `memory_required` to `available_memory`; and
execution starts at the dispatch time plus `SWAP_TIME` times the number of evictions plus one.
This is stated for every iteration of a run of `calculate_fcfs` without overflow (the dispatch
time being the clock after the idle jump), for every dispatch of a pending process by the code
shared by `calculate_sjf` and `calculate_priority` whose operations do not overflow, and for
every first dispatch of a process in a run of `calculate_rr` without overflow; later dispatches
of a preempted process skip the check.  The workload is as `initialize_processes` leaves it,
with `burst_time > 0` and `time_quantum > 0`. -/
theorem C18_memory_check (proc : List Process) (total_memory time_quantum : Int)
    (hfresh : ∀ p ∈ proc, Fresh p) (hburst : ∀ p ∈ proc, 0 < p.burst_time)
    (htq : 0 < time_quantum) :
    (FCFS.NoOverflow proc total_memory → ∀ k, k < proc.length →
        MemoryCheckOK
            (fun j => (procAt (FCFS.stateAt proc total_memory k).proc j).memory_required)
            (procAt (FCFS.stateAt proc total_memory k).proc k).memory_required
            (FCFS.candidates (FCFS.idleJump (FCFS.stateAt proc total_memory k) k) k)
            (FCFS.plan (FCFS.idleJump (FCFS.stateAt proc total_memory k) k) k)
            (FCFS.stateAt proc total_memory k).available_memory
            (FCFS.afterEviction (FCFS.stateAt proc total_memory k) k).available_memory
            (FCFS.idleJump (FCFS.stateAt proc total_memory k) k).current_time
            (FCFS.afterEviction (FCFS.stateAt proc total_memory k) k).current_time
          ∧ (∀ j, j ∈ FCFS.candidates (FCFS.idleJump (FCFS.stateAt proc total_memory k) k) k
              ↔ j < k ∧ (procAt (FCFS.stateAt proc total_memory k).proc j).is_swapped = 0)
          ∧ (∀ j, (procAt (FCFS.afterEviction (FCFS.stateAt proc total_memory k) k).proc j).is_swapped
              = if j ∈ FCFS.plan (FCFS.idleJump (FCFS.stateAt proc total_memory k) k) k then 1
                else (procAt (FCFS.stateAt proc total_memory k).proc j).is_swapped)
          ∧ (procAt (FCFS.stateAt proc total_memory (k + 1)).proc k).start_time
              = (FCFS.idleJump (FCFS.stateAt proc total_memory k) k).current_time
                + SWAP_TIME
                  * ((FCFS.plan (FCFS.idleJump (FCFS.stateAt proc total_memory k) k) k).length
                      + 1))
      ∧ (∀ (s : NP.State) (idx : Nat), idx < s.proc.length →
          (procAt s.proc idx).is_completed = 0 →
          (∀ x ∈ NP.dispatchOps s idx, InInt x) →
          MemoryCheckOK (fun j => (procAt s.proc j).memory_required)
              (procAt s.proc idx).memory_required (NP.candidates s) (NP.plan s idx)
              s.available_memory (NP.makeRoom s idx).available_memory
              s.current_time (NP.makeRoom s idx).current_time
            ∧ (∀ j, (procAt (NP.makeRoom s idx).proc j).is_swapped
                = if j ∈ NP.plan s idx then 1 else (procAt s.proc j).is_swapped)
            ∧ (procAt (NP.dispatch s idx).proc idx).start_time
                = s.current_time + SWAP_TIME * ((NP.plan s idx).length + 1))
      ∧ (RR.NoOverflow time_quantum proc total_memory →
          ∀ s, RR.Reach time_quantum (RR.init proc total_memory) s →
          s.completed < s.proc.length → s.front ≠ s.queue.length →
          (procAt s.proc (RR.queueAt s.queue s.front)).remaining_time
            = (procAt s.proc (RR.queueAt s.queue s.front)).burst_time →
          MemoryCheckOK (fun j => (procAt s.proc j).memory_required)
              (procAt s.proc (RR.queueAt s.queue s.front)).memory_required (RR.candidates s)
              (RR.plan s (RR.queueAt s.queue s.front))
              s.available_memory (RR.afterEviction s).available_memory
              s.current_time (RR.afterEviction s).current_time
            ∧ (∀ j, (procAt (RR.afterEviction s).proc j).is_swapped
                = if j ∈ RR.plan s (RR.queueAt s.queue s.front) then 1
                  else (procAt s.proc j).is_swapped)
            ∧ (procAt (RR.step time_quantum s).proc (RR.queueAt s.queue s.front)).start_time
                = s.current_time
                  + SWAP_TIME * ((RR.plan s (RR.queueAt s.queue s.front)).length + 1)) := by
  obtain ⟨x1, x2, x3⟩ :=
    Exact.exact_C18_memory_check proc total_memory time_quantum hfresh hburst htq
  refine ⟨fun hfit k hk => ?_, fun s idx hidx hp hops => ?_,
    fun hfit s hs hrun hfront hfirst => ?_⟩
  · obtain ⟨e1, e2, e3, -⟩ := FCFS.fcfs_iteration_exact proc total_memory hfit k hk
    rw [e2, e1, e3]
    exact x1 k hk
  · obtain ⟨e1, e2, -⟩ := NP.dispatch_vocab_exact s idx hops
    rw [e1, e2]
    exact x2 s idx hidx hp
  · obtain ⟨e1, -, -, -, -, -, e2⟩ :=
      RR.rr_iteration_exact time_quantum s (hfit s hs hrun) hfront
    rw [e1, (e2 hfirst).1]
    exact x3 s (RR.rr_reach_exact hfit hs) hfront hfirst

/-- C18 amended, at the demo workload with `total_memory = 6000`, whose run has no overflow:
when `calculate_fcfs` dispatches `P3` (index 3 of the sorted array) at time 16 with 2732 units
free, the plan is to swap out `P1` alone, and `P3` starts at `16 + SWAP_TIME * (1 + 1)`. -/
theorem C18_memory_check_witness :
    FCFS.plan (FCFS.idleJump (FCFS.stateAt demoProcesses 6000 3) 3) 3 = [0]
      ∧ (FCFS.stateAt demoProcesses 6000 3).available_memory = 2732
      ∧ (FCFS.afterEviction (FCFS.stateAt demoProcesses 6000 3) 3).available_memory
          = 2732 + 2500
      ∧ (procAt (FCFS.stateAt demoProcesses 6000 4).proc 3).start_time
          = 16 + SWAP_TIME * (1 + 1) := by
  have h := (C18_memory_check demoProcesses 6000 3 (by decide) (by decide) (by decide)).1
    demo_fcfs_noOverflow 3 (by decide)
  have hp : FCFS.plan (FCFS.idleJump (FCFS.stateAt demoProcesses 6000 3) 3) 3 = [0] := by
    set_option maxRecDepth 100000 in decide
  have ht : (FCFS.idleJump (FCFS.stateAt demoProcesses 6000 3) 3).current_time = 16 := by
    set_option maxRecDepth 100000 in decide
  have ha : (FCFS.stateAt demoProcesses 6000 3).available_memory = 2732 := by
    set_option maxRecDepth 100000 in decide
  refine ⟨hp, ha, ?_, ?_⟩
  · have := h.1.2.2.2.2.1
    rw [hp, ha] at this
    have hm : (procAt (FCFS.stateAt demoProcesses 6000 3).proc 0).memory_required = 2500 := by
      set_option maxRecDepth 100000 in decide
    rw [this]
    simp only [List.map_cons, List.map_nil, List.sum_cons, List.sum_nil, hm]
    rfl
  · have := h.2.2.2
    rw [hp, ht] at this
    exact this

/-- C19. In every simulation, with or without `int` overflow, a process's `is_swapped` flag is
set only when the process has already completed (`fcfs.c`: it is one of the processes before the
current one and its `completion_time` is assigned and positive; `sjf.c` and `PS.c`:
`is_completed = 1`; `RR.c`: `remaining_time = 0`), and a flag that is set keeps its value in
every later iteration.  Each eviction scan swaps out distinct processes, all completed and not
swapped out before, and adds the `memory_required` of each to `available_memory` once; so the
memory of a process is returned at most once.  The workload is as `initialize_processes` leaves
it (all flags `0`); the burst times and the quantum are arbitrary. -/
theorem C19_swap_flag_once (proc : List Process) (total_memory time_quantum : Int)
    (hfresh : ∀ p ∈ proc, Fresh p) :
    (∀ k, k < proc.length →
        SwapFlagOK (fun p => 0 < p.completion_time)
            (FCFS.stateAt proc total_memory k).proc
            (FCFS.stateAt proc total_memory (k + 1)).proc
          ∧ (∀ j, (procAt (FCFS.stateAt proc total_memory (k + 1)).proc j).is_swapped
                ≠ (procAt (FCFS.stateAt proc total_memory k).proc j).is_swapped → j < k)
          ∧ ∃ evicted, ReturnedOnceInt (fun p => 0 < p.completion_time)
              (FCFS.stateAt proc total_memory k).proc
              (FCFS.afterEviction (FCFS.stateAt proc total_memory k) k).proc k evicted
              (FCFS.stateAt proc total_memory k).available_memory
              (FCFS.afterEviction (FCFS.stateAt proc total_memory k) k).available_memory)
      ∧ (∀ oob s, NP.Reach (SJF.select oob) (NP.init proc total_memory) s →
          SwapFlagOK (fun p => p.is_completed = 1) s.proc (NP.step (SJF.select oob) s).proc)
      ∧ (∀ s, NP.Reach PS.select (NP.init proc total_memory) s →
          SwapFlagOK (fun p => p.is_completed = 1) s.proc (NP.step PS.select s).proc)
      ∧ (∀ (s : NP.State) (idx : Nat),
          ∃ evicted, ReturnedOnceInt (fun p => p.is_completed ≠ 0) s.proc
            (NP.makeRoom s idx).proc s.proc.length evicted s.available_memory
            (NP.makeRoom s idx).available_memory)
      ∧ (∀ s, RR.Reach time_quantum (RR.init proc total_memory) s →
          SwapFlagOK (fun p => p.remaining_time = 0) s.proc (RR.step time_quantum s).proc)
      ∧ (∀ (s : RR.State) (idx : Nat),
          ∃ evicted, ReturnedOnceInt (fun p => p.remaining_time = 0) s.proc
            (RR.makeRoom s idx).proc s.proc.length evicted s.available_memory
            (RR.makeRoom s idx).available_memory) := by
  have hc : ∀ p ∈ proc, p.is_completed = 0 := fun p hp => (hfresh p hp).2.2.1
  refine ⟨fun k hk => ?_,
    fun oob s hs => NP.np_flags_step (NP.Tally.tally_reach (Exact.SJF.sjf_select_sound oob) hc hs),
    fun s hs => NP.np_flags_step (NP.Tally.tally_reach Exact.PS.ps_select_sound hc hs),
    NP.np_makeRoom_returns, fun s _ => RR.rr_flags_step time_quantum s,
    RR.rr_makeRoom_returns⟩
  obtain ⟨f1, f2⟩ := FCFS.stateAt_flags proc total_memory k
  refine ⟨f1, f2, ?_⟩
  have h := FCFS.makeRoom_returns (FCFS.idleJump (FCFS.stateAt proc total_memory k) k) k
    (by rw [Exact.FCFS.idleJump_proc,
      (FCFS.stateAt_charged proc total_memory k (le_of_lt hk)).1]; exact le_of_lt hk)
  rw [Exact.FCFS.idleJump_proc, Exact.FCFS.idleJump_available] at h
  exact h

/-- C19 at the demo workload with `total_memory = 6000`: iteration 3 of `calculate_fcfs` (the
dispatch of `P3`) sets the flag of `P1`, which had completed, to `1`, and iteration 4 leaves it
there. -/
theorem C19_swap_flag_once_witness :
    (procAt (FCFS.stateAt demoProcesses 6000 3).proc 0).is_swapped = 0
      ∧ 0 < (procAt (FCFS.stateAt demoProcesses 6000 3).proc 0).completion_time
      ∧ (procAt (FCFS.stateAt demoProcesses 6000 4).proc 0).is_swapped = 1
      ∧ (procAt (FCFS.stateAt demoProcesses 6000 5).proc 0).is_swapped = 1 := by
  have h := (C19_swap_flag_once demoProcesses 6000 3 (by decide)).1
  have h0 : (procAt (FCFS.stateAt demoProcesses 6000 3).proc 0).is_swapped = 0 := by
    set_option maxRecDepth 100000 in decide
  have h1 : (procAt (FCFS.stateAt demoProcesses 6000 (3 + 1)).proc 0).is_swapped ≠ 0 := by
    set_option maxRecDepth 100000 in decide
  obtain ⟨hd, hf⟩ := ((h 3 (by decide)).1 0).2 h0 h1
  have hf' : (procAt (FCFS.stateAt demoProcesses 6000 4).proc 0).is_swapped = 1 := hf
  have hk := ((h 4 (by decide)).1 0).1 (by rw [hf']; decide)
  exact ⟨h0, hd, hf', hk.trans hf'⟩

/-- C22. In `calculate_rr`, on a workload as `initialize_processes` leaves it with
`burst_time > 0` and `time_quantum > 0`, with or without `int` overflow, at every dispatch the
admission test `remaining_time == burst_time` holds exactly when `first_execution = 0`, that is,
when the dispatch is the first one of the process.  A first dispatch takes `total_swap_time`
from `0` to `SWAP_TIME` and subtracts `memory_required`, by the `int` subtraction of the code,
from the free memory the eviction scan left; a later dispatch leaves `total_swap_time` at
`SWAP_TIME` and `available_memory` as it was.  After its dispatch a process has
`first_execution` set, and the flag stays set, so no later dispatch is a first one; the
`total_swap_time` of the processes not dispatched is not touched; and in the returned table
every process has `total_swap_time = SWAP_TIME`: each was swapped in exactly once. -/
theorem C22_rr_admission_once (proc : List Process) (total_memory time_quantum : Int)
    (hfresh : ∀ p ∈ proc, Fresh p) (hburst : ∀ p ∈ proc, 0 < p.burst_time)
    (htq : 0 < time_quantum) :
    (∀ s, RR.Reach time_quantum (RR.init proc total_memory) s → s.front ≠ s.queue.length →
        ((procAt s.proc (RR.queueAt s.queue s.front)).remaining_time
            = (procAt s.proc (RR.queueAt s.queue s.front)).burst_time
          ↔ (procAt s.proc (RR.queueAt s.queue s.front)).first_execution = 0)
        ∧ ((procAt s.proc (RR.queueAt s.queue s.front)).first_execution = 0 →
            (procAt s.proc (RR.queueAt s.queue s.front)).total_swap_time = 0
              ∧ (procAt (RR.step time_quantum s).proc
                  (RR.queueAt s.queue s.front)).total_swap_time = SWAP_TIME
              ∧ (RR.step time_quantum s).available_memory
                  = wrap ((RR.afterEviction s).available_memory
                    - (procAt s.proc (RR.queueAt s.queue s.front)).memory_required))
        ∧ ((procAt s.proc (RR.queueAt s.queue s.front)).first_execution ≠ 0 →
            (procAt s.proc (RR.queueAt s.queue s.front)).total_swap_time = SWAP_TIME
              ∧ (procAt (RR.step time_quantum s).proc
                  (RR.queueAt s.queue s.front)).total_swap_time = SWAP_TIME
              ∧ (RR.step time_quantum s).available_memory = s.available_memory)
        ∧ (procAt (RR.step time_quantum s).proc
            (RR.queueAt s.queue s.front)).first_execution ≠ 0)
      ∧ (∀ s, RR.Reach time_quantum (RR.init proc total_memory) s → ∀ j,
          ((procAt s.proc j).first_execution ≠ 0 →
              (procAt (RR.step time_quantum s).proc j).first_execution ≠ 0)
            ∧ ((s.front = s.queue.length ∨ j ≠ RR.queueAt s.queue s.front) →
              (procAt (RR.step time_quantum s).proc j).total_swap_time
                = (procAt s.proc j).total_swap_time))
      ∧ (∀ fuel r, RR.calculate_rr proc total_memory time_quantum fuel = some r →
          ∀ p ∈ r.proc, p.total_swap_time = SWAP_TIME) := by
  refine ⟨?_, ?_, fun fuel r h =>
    (RR.rr_final_discipline proc total_memory time_quantum htq hfresh hburst fuel r h).2.2.2.2⟩
  · intro s hs hfront
    have hinv := RR.Discipline.disc_reach htq hfresh hburst hs
    obtain ⟨-, hidx, -, hrem, -⟩ := hinv.rr_front hfront
    have hi : RR.queueAt s.queue s.front < s.proc.length := by rw [hinv.len]; exact hidx
    have hv : s.visited.length = s.proc.length := by rw [hinv.vlen, hinv.len]
    have hiff := RR.rr_first_test htq hfresh hburst hs _ hidx
    have hstep : RR.step time_quantum s = RR.dispatch time_quantum s := by
      unfold RR.step; rw [if_neg hfront]
    have hch := RR.rr_dispatch_charge time_quantum s hi hv (RR.queueAt s.queue s.front)
    have hmem := RR.rr_dispatch_memory time_quantum s
    have hst := (RR.rr_dispatch_started time_quantum s hi (RR.queueAt s.queue s.front)).1
    rw [hstep]
    refine ⟨hiff.symm, fun hf => ?_, fun hf => ?_, ?_⟩
    · have h0 := hinv.fresh _ (hiff.mp hf)
      refine ⟨h0, ?_, ?_⟩
      · rw [hch, if_pos ⟨rfl, hiff.mp hf⟩, h0]; decide
      · rw [hmem, if_pos (hiff.mp hf)]
    · have hne : (procAt s.proc (RR.queueAt s.queue s.front)).remaining_time
          ≠ (procAt s.proc (RR.queueAt s.queue s.front)).burst_time := fun h => hf (hiff.mpr h)
      have hle := (hinv.range (RR.queueAt s.queue s.front)).2
      have h1 := hinv.charged _ (lt_of_le_of_ne hle hne)
      refine ⟨h1, ?_, ?_⟩
      · rw [hch, if_neg (fun h => hne h.2)]; exact h1
      · rw [hmem, if_neg hne]
    · rw [hst]
      by_cases h0 : (procAt s.proc (RR.queueAt s.queue s.front)).first_execution = 0
      · rw [if_pos ⟨rfl, h0⟩]; decide
      · rw [if_neg (fun h => h0 h.2)]; exact h0
  · intro s hs j
    have hinv := RR.Discipline.disc_reach htq hfresh hburst hs
    unfold RR.step
    split
    · have hp : (RR.idle s).proc = s.proc := RR.enqueueArrivals_proc _
      rw [hp]
      exact ⟨fun h => h, fun _ => rfl⟩
    · rename_i hfront
      obtain ⟨-, hidx, -⟩ := hinv.rr_front hfront
      have hi : RR.queueAt s.queue s.front < s.proc.length := by rw [hinv.len]; exact hidx
      have hv : s.visited.length = s.proc.length := by rw [hinv.vlen, hinv.len]
      refine ⟨fun hf => ?_, fun hc => ?_⟩
      · rw [(RR.rr_dispatch_started time_quantum s hi j).1]
        split
        · decide
        · exact hf
      · have hj : j ≠ RR.queueAt s.queue s.front := hc.elim (fun h => absurd h hfront) id
        rw [RR.rr_dispatch_charge time_quantum s hi hv j, if_neg (fun h => hj h.1)]

/-- C22 at the demo workload with `total_memory = 6000` and `time_quantum = 3`: the first
iteration is the first dispatch of `P1` and takes 2500 units; the ninth iteration dispatches
`P1` again and leaves `available_memory` and `total_swap_time` as they were. -/
theorem C22_rr_admission_once_witness :
    (procAt (RR.step 3 (RR.init demoProcesses 6000)).proc 0).total_swap_time = SWAP_TIME
      ∧ (RR.step 3 (RR.init demoProcesses 6000)).available_memory = 6000 - 2500
      ∧ RR.queueAt ((RR.step 3)^[8] (RR.init demoProcesses 6000)).queue
          ((RR.step 3)^[8] (RR.init demoProcesses 6000)).front = 0
      ∧ (procAt (RR.step 3 ((RR.step 3)^[8] (RR.init demoProcesses 6000))).proc 0).total_swap_time
          = SWAP_TIME
      ∧ (RR.step 3 ((RR.step 3)^[8] (RR.init demoProcesses 6000))).available_memory
          = ((RR.step 3)^[8] (RR.init demoProcesses 6000)).available_memory := by
  have h := (C22_rr_admission_once demoProcesses 6000 3 (by decide) (by decide) (by decide)).1
  have h1 := h _ RR.Reach.init (by decide)
  have hq0 : RR.queueAt (RR.init demoProcesses 6000).queue (RR.init demoProcesses 6000).front
      = 0 := by decide
  rw [hq0] at h1
  obtain ⟨a1, a2⟩ := (h1.2.1 (by decide)).2
  have h8 := h _ (RR.rr_reach_steps 3 (RR.init demoProcesses 6000) 8
    (by set_option maxRecDepth 100000 in decide))
    (by set_option maxRecDepth 100000 in decide)
  have hq8 : RR.queueAt ((RR.step 3)^[8] (RR.init demoProcesses 6000)).queue
      ((RR.step 3)^[8] (RR.init demoProcesses 6000)).front = 0 := by
    set_option maxRecDepth 100000 in decide
  rw [hq8] at h8
  obtain ⟨b1, b2⟩ := (h8.2.2.1 (by set_option maxRecDepth 100000 in decide)).2
  refine ⟨a1, ?_, hq8, b1, b2⟩
  rw [a2]
  decide

/-- C23, as stated, fails.  `calculate_rr` with `time_quantum = INT_MAX` on three processes, the
third arriving at `2147483000` after the first two have run for `2147483000` and `1000` time
units: at its first dispatch the clock has wrapped, the third process gets
`start_time = -2147483290`, before its arrival, and `response_time = 1006`, which is not
`start_time - arrival_time = -4294966290`. -/
theorem C23_response_overflow_counterexample :
    (∀ p ∈ wrappedResponseExample,
        Fresh p ∧ IntFields p ∧ 0 ≤ p.arrival_time ∧ 0 < p.burst_time)
      ∧ RR.Reach 2147483647 (RR.init wrappedResponseExample 6000)
          ((RR.step 2147483647)^[2] (RR.init wrappedResponseExample 6000))
      ∧ RR.queueAt ((RR.step 2147483647)^[2] (RR.init wrappedResponseExample 6000)).queue
          ((RR.step 2147483647)^[2] (RR.init wrappedResponseExample 6000)).front = 2
      ∧ (procAt ((RR.step 2147483647)^[2] (RR.init wrappedResponseExample 6000)).proc
          2).first_execution = 0
      ∧ (procAt ((RR.step 2147483647)^[3] (RR.init wrappedResponseExample 6000)).proc
          2).arrival_time = 2147483000
      ∧ (procAt ((RR.step 2147483647)^[3] (RR.init wrappedResponseExample 6000)).proc
          2).start_time = -2147483290
      ∧ (procAt ((RR.step 2147483647)^[3] (RR.init wrappedResponseExample 6000)).proc
          2).response_time = 1006
      ∧ (procAt ((RR.step 2147483647)^[3] (RR.init wrappedResponseExample 6000)).proc
          2).response_time
        ≠ (procAt ((RR.step 2147483647)^[3] (RR.init wrappedResponseExample 6000)).proc
            2).start_time
          - (procAt ((RR.step 2147483647)^[3] (RR.init wrappedResponseExample 6000)).proc
            2).arrival_time :=
  ⟨by decide, RR.rr_reach_steps _ _ 2 (by decide), by decide, by decide, by decide, by decide,
    by decide, by decide⟩

/-- C23, amended.  In `calculate_rr`, on a workload as `initialize_processes` leaves it with
`burst_time > 0` and `time_quantum > 0`: the first dispatch of a process (`first_execution = 0`)
sets its `start_time` to the clock right after its swap-in, and its `response_time` to the
result of the `int` subtraction `start_time - arrival_time`, which is the difference
`start_time - arrival_time` whenever that difference is an `int` value (no overflow); and an
iteration changes neither `start_time` nor `response_time` of a process that is not dispatched
by it or that has been dispatched before, so every later slice leaves both as they are. -/
theorem C23_rr_start_time_frame (proc : List Process) (total_memory time_quantum : Int)
    (hfresh : ∀ p ∈ proc, Fresh p) (hburst : ∀ p ∈ proc, 0 < p.burst_time)
    (htq : 0 < time_quantum) :
    ∀ s, RR.Reach time_quantum (RR.init proc total_memory) s →
      (s.front ≠ s.queue.length →
          (procAt s.proc (RR.queueAt s.queue s.front)).first_execution = 0 →
          (procAt (RR.step time_quantum s).proc (RR.queueAt s.queue s.front)).start_time
              = (RR.afterAdmission s).current_time
            ∧ (RR.afterAdmission s).current_time
                = wrap ((RR.afterEviction s).current_time + SWAP_TIME)
            ∧ (procAt (RR.step time_quantum s).proc (RR.queueAt s.queue s.front)).response_time
                = wrap
                  ((procAt (RR.step time_quantum s).proc (RR.queueAt s.queue s.front)).start_time
                    - (procAt s.proc (RR.queueAt s.queue s.front)).arrival_time)
            ∧ (InInt
                ((procAt (RR.step time_quantum s).proc (RR.queueAt s.queue s.front)).start_time
                  - (procAt s.proc (RR.queueAt s.queue s.front)).arrival_time) →
              (procAt (RR.step time_quantum s).proc (RR.queueAt s.queue s.front)).response_time
                = (procAt (RR.step time_quantum s).proc (RR.queueAt s.queue s.front)).start_time
                  - (procAt s.proc (RR.queueAt s.queue s.front)).arrival_time))
        ∧ ∀ j, (s.front = s.queue.length ∨ j ≠ RR.queueAt s.queue s.front
              ∨ (procAt s.proc j).first_execution ≠ 0) →
            (procAt (RR.step time_quantum s).proc j).start_time = (procAt s.proc j).start_time
              ∧ (procAt (RR.step time_quantum s).proc j).response_time
                  = (procAt s.proc j).response_time := by
  intro s hs
  have hinv := RR.Discipline.disc_reach htq hfresh hburst hs
  refine ⟨fun hfront hf => ?_, fun j hj => ?_⟩
  · obtain ⟨-, hidx, -⟩ := hinv.rr_front hfront
    have hi : RR.queueAt s.queue s.front < s.proc.length := by rw [hinv.len]; exact hidx
    have hfirst := (RR.rr_first_test htq hfresh hburst hs _ hidx).mp hf
    have hstep : RR.step time_quantum s = RR.dispatch time_quantum s := by
      unfold RR.step; rw [if_neg hfront]
    obtain ⟨-, e2, e3⟩ := RR.rr_dispatch_started time_quantum s hi (RR.queueAt s.queue s.front)
    rw [if_pos ⟨rfl, hf⟩] at e2 e3
    have hclock : (RR.afterAdmission s).current_time
        = wrap ((RR.afterEviction s).current_time + SWAP_TIME) := by
      unfold RR.afterAdmission RR.admission
      rw [if_pos hfirst]
      rfl
    rw [hstep, e2, e3]
    exact ⟨rfl, hclock, rfl, fun h => wrap_of_inInt h⟩
  · unfold RR.step
    split
    · have hp : (RR.idle s).proc = s.proc := RR.enqueueArrivals_proc _
      rw [hp]; exact ⟨rfl, rfl⟩
    · rename_i hfront
      obtain ⟨-, hidx, -⟩ := hinv.rr_front hfront
      have hi : RR.queueAt s.queue s.front < s.proc.length := by rw [hinv.len]; exact hidx
      obtain ⟨-, e2, e3⟩ := RR.rr_dispatch_started time_quantum s hi j
      have hn : ¬ (j = RR.queueAt s.queue s.front
          ∧ (procAt s.proc (RR.queueAt s.queue s.front)).first_execution = 0) := by
        rintro ⟨h1, h2⟩
        rcases hj with h | h | h
        · exact hfront h
        · exact h h1
        · rw [h1] at h; exact h h2
      rw [e2, e3, if_neg hn, if_neg hn]
      exact ⟨rfl, rfl⟩

/-- C23 amended, at the demo workload with `total_memory = 6000` and `time_quantum = 3`: the
first iteration dispatches `P1` for the first time and sets `start_time = 2`,
`response_time = 2 - 0`; the ninth iteration dispatches `P1` again and leaves both. -/
theorem C23_rr_start_time_frame_witness :
    (procAt (RR.step 3 (RR.init demoProcesses 6000)).proc 0).start_time = 2
      ∧ (procAt (RR.step 3 (RR.init demoProcesses 6000)).proc 0).response_time = 2 - 0
      ∧ (procAt (RR.step 3 ((RR.step 3)^[8] (RR.init demoProcesses 6000))).proc 0).start_time
          = (procAt ((RR.step 3)^[8] (RR.init demoProcesses 6000)).proc 0).start_time
      ∧ (procAt (RR.step 3 ((RR.step 3)^[8] (RR.init demoProcesses 6000))).proc 0).response_time
          = (procAt ((RR.step 3)^[8] (RR.init demoProcesses 6000)).proc 0).response_time := by
  have h := C23_rr_start_time_frame demoProcesses 6000 3 (by decide) (by decide) (by decide)
  have h1 := (h _ RR.Reach.init).1 (by decide) (by decide)
  have hq0 : RR.queueAt (RR.init demoProcesses 6000).queue (RR.init demoProcesses 6000).front
      = 0 := by decide
  rw [hq0] at h1
  have hs : (procAt (RR.step 3 (RR.init demoProcesses 6000)).proc 0).start_time = 2 := by
    rw [h1.1]; decide
  have ha : (procAt (RR.init demoProcesses 6000).proc 0).arrival_time = 0 := by decide
  have hr := h1.2.2.2 (by rw [hs, ha]; decide)
  rw [hs, ha] at hr
  have h8 := (h _ (RR.rr_reach_steps 3 (RR.init demoProcesses 6000) 8
    (by set_option maxRecDepth 100000 in decide))).2 0
    (Or.inr (Or.inr (by set_option maxRecDepth 100000 in decide)))
  exact ⟨hs, hr, h8.1, h8.2⟩

/-- C26, as stated, fails.  `calculate_fcfs` on two processes, the first with burst time
`INT_MAX`: the first process starts at time 2 and the addition `start_time + burst_time`
overflows; its `completion_time` is `-2147483647`, not `start_time + burst_time`. -/
theorem C26_completion_overflow_counterexample :
    (∀ p ∈ longBurstExample, Fresh p ∧ IntFields p ∧ 0 ≤ p.arrival_time ∧ 0 < p.burst_time)
      ∧ (procAt (FCFS.calculate_fcfs longBurstExample 6000).proc 0).start_time = 2
      ∧ (procAt (FCFS.calculate_fcfs longBurstExample 6000).proc 0).burst_time = 2147483647
      ∧ (procAt (FCFS.calculate_fcfs longBurstExample 6000).proc 0).completion_time
          = -2147483647
      ∧ ¬ RanThrough (procAt (FCFS.calculate_fcfs longBurstExample 6000).proc 0)
      ∧ ¬ (∀ p ∈ (FCFS.calculate_fcfs longBurstExample 6000).proc, RanThrough p) := by
  refine ⟨by decide, by decide, by decide, by decide, by decide, by decide⟩

/-- C26, amended.  In a run of the FCFS, SJF and Priority simulations that has no `int`
overflow, on a workload as `initialize_processes` leaves it with `burst_time > 0`, every process
is dispatched exactly once and runs without interruption: in the returned table
`completion_time = start_time + burst_time`, and so `waiting_time = response_time`, for every
process.  In `calculate_fcfs` iteration `k` writes the run of process `k` to its record and
leaves the other records alone but for their swap flags; in `calculate_sjf` and
`calculate_priority` the sequence of dispatched indices (the array `execution_order` of `sjf.c`)
is a permutation of `0 .. n-1` when the loop returns, which it does when no burst time,
respectively priority, equals `INT_MAX`. -/
theorem C26_dispatched_once (proc : List Process) (total_memory : Int)
    (hfresh : ∀ p ∈ proc, Fresh p) (hburst : ∀ p ∈ proc, 0 < p.burst_time) :
    (FCFS.NoOverflow proc total_memory →
        (∀ p ∈ (FCFS.calculate_fcfs proc total_memory).proc, RanThrough p)
          ∧ ∀ k, k < proc.length →
              procAt (FCFS.stateAt proc total_memory (k + 1)).proc k
                  = FCFS.ranRecord (procAt (FCFS.stateAt proc total_memory k).proc k)
                      (FCFS.startOf (FCFS.stateAt proc total_memory k) k)
                ∧ ∀ j, j ≠ k → noSwap (procAt (FCFS.stateAt proc total_memory (k + 1)).proc j)
                    = noSwap (procAt (FCFS.stateAt proc total_memory k).proc j))
      ∧ (∀ oob, NP.NoOverflow (SJF.select oob) proc total_memory →
          (∀ fuel r, SJF.calculate_sjf oob proc total_memory fuel = some r →
            (∀ p ∈ r.proc, RanThrough p) ∧ r.execution_order.Perm (List.range proc.length))
          ∧ ((∀ p ∈ proc, p.burst_time < INT_MAX) →
              ∃ fuel r, SJF.calculate_sjf oob proc total_memory fuel = some r))
      ∧ (NP.NoOverflow PS.select proc total_memory →
          (∀ fuel r, PS.calculate_priority proc total_memory fuel = some r →
            (∀ p ∈ r.proc, RanThrough p) ∧ r.execution_order.Perm (List.range proc.length))
          ∧ ((∀ p ∈ proc, p.priority < INT_MAX) →
              ∃ fuel r, PS.calculate_priority proc total_memory fuel = some r)) := by
  obtain ⟨⟨x1, x2⟩, x3, x4, x5, x6⟩ :=
    Exact.exact_C26_dispatched_once proc total_memory hfresh hburst
  refine ⟨fun h => ⟨?_, fun k hk => ?_⟩, fun oob h => ⟨fun fuel r hr => ?_, fun hmax => ?_⟩,
    fun h => ⟨fun fuel r hr => ?_, fun hmax => ?_⟩⟩
  · rw [FCFS.calculate_fcfs_exact proc total_memory h]; exact x1
  · obtain ⟨e0, e1, -, -, e4, -⟩ := FCFS.fcfs_iteration_exact proc total_memory h k hk
    rw [e1, e0, e4]
    exact x2 k hk
  · rw [SJF.calculate_sjf_exact h] at hr; exact x3 oob fuel r hr
  · obtain ⟨fuel, r, hr⟩ := x5 hmax oob
    exact ⟨fuel, r, by rw [SJF.calculate_sjf_exact h]; exact hr⟩
  · rw [PS.calculate_priority_exact h] at hr; exact x4 fuel r hr
  · obtain ⟨fuel, r, hr⟩ := x6 hmax
    exact ⟨fuel, r, by rw [PS.calculate_priority_exact h]; exact hr⟩

/-- C26 amended, at the demo workload with `total_memory = 6000`, whose runs have no overflow:
the loops of `calculate_sjf` and `calculate_priority` return within twenty iterations; every
process of the three final tables ran through, and each index was dispatched once. -/
theorem C26_dispatched_once_witness :
    (∀ p ∈ (FCFS.calculate_fcfs demoProcesses 6000).proc, RanThrough p)
      ∧ (∃ r, SJF.calculate_sjf default demoProcesses 6000 20 = some r
          ∧ (∀ p ∈ r.proc, RanThrough p) ∧ r.execution_order.Perm (List.range 10))
      ∧ (∃ r, PS.calculate_priority demoProcesses 6000 20 = some r
          ∧ (∀ p ∈ r.proc, RanThrough p) ∧ r.execution_order.Perm (List.range 10)) := by
  have h := C26_dispatched_once demoProcesses 6000 (by decide) (by decide)
  obtain ⟨r1, hr1⟩ := Option.isSome_iff_exists.mp demo_sjf_isSome
  obtain ⟨r2, hr2⟩ := Option.isSome_iff_exists.mp demo_ps_isSome
  exact ⟨(h.1 demo_fcfs_noOverflow).1,
    ⟨r1, hr1, (h.2.1 default demo_sjf_noOverflow).1 20 r1 hr1⟩,
    ⟨r2, hr2, (h.2.2 demo_ps_noOverflow).1 20 r2 hr2⟩⟩

/-- C27, as stated, fails.  `calculate_fcfs` with `total_memory = 6000` on two processes of 5000
units each, the first with burst time `INT_MAX`: every `memory_required` is at most
`total_memory`, but the `completion_time` of the first process has wrapped to a negative value,
the eviction scan of the second dispatch passes it over and leaves `available_memory = 1000`,
less than the 5000 units needed; the WARNING branch is taken and the run ends with
`available_memory = -4000`. -/
theorem C27_memory_overflow_counterexample :
    (∀ p ∈ wrappedEvictionExample,
        Fresh p ∧ IntFields p ∧ 0 ≤ p.arrival_time ∧ 0 < p.burst_time
          ∧ p.memory_required ≤ 6000)
      ∧ (FCFS.afterEviction (FCFS.stateAt wrappedEvictionExample 6000 1) 1).available_memory
          = 1000
      ∧ (procAt (FCFS.afterEviction (FCFS.stateAt wrappedEvictionExample 6000 1) 1).proc
          1).memory_required = 5000
      ∧ (FCFS.afterEviction (FCFS.stateAt wrappedEvictionExample 6000 1) 1).available_memory
          < (procAt (FCFS.afterEviction (FCFS.stateAt wrappedEvictionExample 6000 1) 1).proc
              1).memory_required
      ∧ (FCFS.calculate_fcfs wrappedEvictionExample 6000).available_memory = -4000 := by
  refine ⟨by decide, by decide, by decide, by decide, by decide⟩

/-- C27, amended.  In a run of the FCFS, SJF and Priority simulations that has no `int`
overflow, on a workload as `initialize_processes` leaves it with `burst_time > 0` whose every
`memory_required` is at most `total_memory`: at every dispatch the state after the memory check
and its eviction scan has `available_memory` at least the dispatched process's
`memory_required` (so the test `available_memory < memory_required` that guards the WARNING
line is false), and the dispatch leaves `available_memory >= 0`.  At every iteration boundary
`available_memory >= 0`, given `total_memory >= 0`: before the first dispatch
`available_memory` is `total_memory` itself. -/
theorem C27_memory_suffices (proc : List Process) (total_memory : Int)
    (hfresh : ∀ p ∈ proc, Fresh p) (hburst : ∀ p ∈ proc, 0 < p.burst_time)
    (hfit : ∀ p ∈ proc, p.memory_required ≤ total_memory) :
    (FCFS.NoOverflow proc total_memory →
        (∀ k, k < proc.length →
          (FCFS.afterEviction (FCFS.stateAt proc total_memory k) k).available_memory
              ≥ (procAt (FCFS.afterEviction (FCFS.stateAt proc total_memory k) k).proc
                  k).memory_required
            ∧ 0 ≤ (FCFS.stateAt proc total_memory (k + 1)).available_memory)
          ∧ (0 ≤ total_memory →
              ∀ k, k ≤ proc.length → 0 ≤ (FCFS.stateAt proc total_memory k).available_memory))
      ∧ (∀ oob, NP.NoOverflow (SJF.select oob) proc total_memory →
          (∀ s, NP.Reach (SJF.select oob) (NP.init proc total_memory) s →
            s.completed < s.proc.length →
            SJF.select oob s.proc s.current_time ≠ -1 →
            NP.step (SJF.select oob) s
                = NP.dispatch s (SJF.select oob s.proc s.current_time).toNat
              ∧ (NP.makeRoom s (SJF.select oob s.proc s.current_time).toNat).available_memory
                  ≥ (procAt (NP.makeRoom s (SJF.select oob s.proc s.current_time).toNat).proc
                      (SJF.select oob s.proc s.current_time).toNat).memory_required
              ∧ 0 ≤ (NP.step (SJF.select oob) s).available_memory)
          ∧ (0 ≤ total_memory →
              ∀ s, NP.Reach (SJF.select oob) (NP.init proc total_memory) s →
                0 ≤ s.available_memory))
      ∧ (NP.NoOverflow PS.select proc total_memory →
          (∀ s, NP.Reach PS.select (NP.init proc total_memory) s →
            s.completed < s.proc.length →
            PS.select s.proc s.current_time ≠ -1 →
            NP.step PS.select s = NP.dispatch s (PS.select s.proc s.current_time).toNat
              ∧ (NP.makeRoom s (PS.select s.proc s.current_time).toNat).available_memory
                  ≥ (procAt (NP.makeRoom s (PS.select s.proc s.current_time).toNat).proc
                      (PS.select s.proc s.current_time).toNat).memory_required
              ∧ 0 ≤ (NP.step PS.select s).available_memory)
          ∧ (0 ≤ total_memory →
              ∀ s, NP.Reach PS.select (NP.init proc total_memory) s →
                0 ≤ s.available_memory)) := by
  obtain ⟨x1, x2, x3, x4⟩ :=
    Exact.exact_C27_memory_suffices proc total_memory hfresh hburst hfit
  refine ⟨fun h => ⟨fun k hk => ?_, fun h0 k hk => ?_⟩,
    fun oob h => ⟨fun s hs hrun hsel => ?_, fun h0 s hs => ?_⟩,
    fun h => ⟨fun s hs hrun hsel => ?_, fun h0 s hs => ?_⟩⟩
  · obtain ⟨e0, e1, e2, -⟩ := FCFS.fcfs_iteration_exact proc total_memory h k hk
    rw [e1, e0, e2]
    exact x1 k hk
  · rw [FCFS.stateAt_exact proc total_memory h k hk]; exact (x4 h0).1 k hk
  · obtain ⟨e0, e1, e2, -⟩ := NP.np_iteration_exact _ s (h s hs hrun) hsel
    rw [e0, e1, e2]
    exact x2 oob s (NP.np_reach_exact h hs) hsel
  · exact (x4 h0).2.1 oob s (NP.np_reach_exact h hs)
  · obtain ⟨e0, e1, e2, -⟩ := NP.np_iteration_exact _ s (h s hs hrun) hsel
    rw [e0, e1, e2]
    exact x3 s (NP.np_reach_exact h hs) hsel
  · exact (x4 h0).2.2 s (NP.np_reach_exact h hs)

/-- C27 amended, at the demo workload with `total_memory = 6000` (the largest `memory_required`
is 3200), whose runs have no overflow: the fourth iteration of `calculate_fcfs` enters the
eviction scan and leaves it with room for the process, and the eighth iteration of
`calculate_priority`, which also enters the scan, leaves a non-negative `available_memory`. -/
theorem C27_memory_suffices_witness :
    (procAt (FCFS.stateAt demoProcesses 6000 3).proc 3).memory_required
        > (FCFS.stateAt demoProcesses 6000 3).available_memory
      ∧ (FCFS.afterEviction (FCFS.stateAt demoProcesses 6000 3) 3).available_memory
          ≥ (procAt (FCFS.afterEviction (FCFS.stateAt demoProcesses 6000 3) 3).proc
              3).memory_required
      ∧ 0 ≤ (FCFS.stateAt demoProcesses 6000 4).available_memory
      ∧ 0 ≤ (NP.step PS.select
          ((NP.step PS.select)^[7] (NP.init demoProcesses 6000))).available_memory := by
  have h := C27_memory_suffices demoProcesses 6000 (by decide) (by decide) (by decide)
  have h4 := (h.1 demo_fcfs_noOverflow).1 3 (by decide)
  have hr : NP.Reach PS.select (NP.init demoProcesses 6000)
      ((NP.step PS.select)^[7] (NP.init demoProcesses 6000)) :=
    NP.np_reach_steps PS.select _ 7 (by set_option maxRecDepth 100000 in decide)
  have hc : ((NP.step PS.select)^[7] (NP.init demoProcesses 6000)).completed
      < ((NP.step PS.select)^[7] (NP.init demoProcesses 6000)).proc.length := by
    set_option maxRecDepth 100000 in decide
  have hs : PS.select ((NP.step PS.select)^[7] (NP.init demoProcesses 6000)).proc
      ((NP.step PS.select)^[7] (NP.init demoProcesses 6000)).current_time ≠ -1 := by
    set_option maxRecDepth 100000 in decide
  have hm : (procAt (FCFS.stateAt demoProcesses 6000 3).proc 3).memory_required
      > (FCFS.stateAt demoProcesses 6000 3).available_memory := by
    set_option maxRecDepth 100000 in decide
  exact ⟨hm, h4.1, h4.2, ((h.2.2 demo_ps_noOverflow).1 _ hr hc hs).2.2⟩

/-- C29. On a workload as `initialize_processes` leaves it (`total_swap_time = 0`) with
`burst_time > 0`, and `time_quantum > 0`, with or without `int` overflow: in the final table of
each of the four simulations every process has `total_swap_time = SWAP_TIME`, and the
accumulator `total_swap_time` of `print_performance_metrics` is `n * SWAP_TIME` (`SwapTimeOK`),
`n * SWAP_TIME` being an `int` value.  In all three eviction scans a swap-out adds `SWAP_TIME`
to the clock, by the `int` addition of the code, and changes no process's `total_swap_time`,
and neither does the whole memory check.  `calculate_fcfs` always returns; in a run without
overflow the loops of `calculate_sjf` and `calculate_priority` return when no burst time,
respectively priority, equals `INT_MAX`, and the loop of `calculate_rr` returns when
`n <= MAX_PROCESSES` and the sum of `ceil(burst_time / time_quantum)` is at most the size of
`queue[100]`. -/
theorem C29_total_swap_time (proc : List Process) (total_memory time_quantum : Int)
    (hfresh : ∀ p ∈ proc, Fresh p) (hburst : ∀ p ∈ proc, 0 < p.burst_time)
    (htq : 0 < time_quantum) :
    ((∀ p ∈ (FCFS.calculate_fcfs proc total_memory).proc, p.total_swap_time = SWAP_TIME)
        ∧ ((proc.length : Int) * SWAP_TIME ≤ INT_MAX →
            SwapTimeOK proc.length (FCFS.calculate_fcfs proc total_memory).proc))
      ∧ (∀ oob fuel r, SJF.calculate_sjf oob proc total_memory fuel = some r →
          (∀ p ∈ r.proc, p.total_swap_time = SWAP_TIME)
            ∧ ((proc.length : Int) * SWAP_TIME ≤ INT_MAX → SwapTimeOK proc.length r.proc))
      ∧ (∀ fuel r, PS.calculate_priority proc total_memory fuel = some r →
          (∀ p ∈ r.proc, p.total_swap_time = SWAP_TIME)
            ∧ ((proc.length : Int) * SWAP_TIME ≤ INT_MAX → SwapTimeOK proc.length r.proc))
      ∧ (∀ fuel r, RR.calculate_rr proc total_memory time_quantum fuel = some r →
          (∀ p ∈ r.proc, p.total_swap_time = SWAP_TIME)
            ∧ SwapTimeOK proc.length r.proc)
      ∧ (∀ (s : FCFS.State) i j m,
          (FCFS.swapOut s j).current_time = wrap (s.current_time + SWAP_TIME)
            ∧ (procAt (FCFS.swapOut s j).proc m).total_swap_time
                = (procAt s.proc m).total_swap_time
            ∧ (procAt (FCFS.makeRoom s i).proc m).total_swap_time
                = (procAt s.proc m).total_swap_time)
      ∧ (∀ (s : NP.State) i j m,
          (NP.swapOut s j).current_time = wrap (s.current_time + SWAP_TIME)
            ∧ (procAt (NP.swapOut s j).proc m).total_swap_time
                = (procAt s.proc m).total_swap_time
            ∧ (procAt (NP.makeRoom s i).proc m).total_swap_time
                = (procAt s.proc m).total_swap_time)
      ∧ (∀ (s : RR.State) i j m,
          (RR.swapOut s j).current_time = wrap (s.current_time + SWAP_TIME)
            ∧ (procAt (RR.swapOut s j).proc m).total_swap_time
                = (procAt s.proc m).total_swap_time
            ∧ (procAt (RR.makeRoom s i).proc m).total_swap_time
                = (procAt s.proc m).total_swap_time)
      ∧ ((∀ p ∈ proc, p.burst_time < INT_MAX) →
          ∀ oob, NP.NoOverflow (SJF.select oob) proc total_memory →
            ∃ fuel r, SJF.calculate_sjf oob proc total_memory fuel = some r)
      ∧ ((∀ p ∈ proc, p.priority < INT_MAX) → NP.NoOverflow PS.select proc total_memory →
          ∃ fuel r, PS.calculate_priority proc total_memory fuel = some r)
      ∧ (RR.NoOverflow time_quantum proc total_memory → proc.length ≤ MAX_PROCESSES →
          RR.totalSlices proc time_quantum ≤ (QUEUE_SIZE : Int) →
          ∃ fuel r, RR.calculate_rr proc total_memory time_quantum fuel = some r) := by
  have hc : ∀ p ∈ proc, p.is_completed = 0 := fun p hp => (hfresh p hp).2.2.1
  have hfcfs : (FCFS.calculate_fcfs proc total_memory).proc.length = proc.length
      ∧ ∀ p ∈ (FCFS.calculate_fcfs proc total_memory).proc, p.total_swap_time = SWAP_TIME := by
    obtain ⟨h1, h2⟩ := FCFS.stateAt_charged proc total_memory proc.length (le_refl _)
    refine ⟨h1, fun p hp => ?_⟩
    obtain ⟨j, hj, he⟩ := Exact.exists_procAt_of_mem hp
    rw [← he]
    exact h2 j (by rw [← h1]; exact hj)
  have hnp : ∀ (select : List Process → Int → Int), NP.SelectSound select →
      ∀ fuel r, NP.loop select fuel (NP.init proc total_memory) = some r →
        (∀ p ∈ r.proc, p.total_swap_time = SWAP_TIME)
          ∧ ((proc.length : Int) * SWAP_TIME ≤ INT_MAX → SwapTimeOK proc.length r.proc) := by
    intro select hsound fuel r hr
    obtain ⟨h1, h2⟩ := NP.np_final_charged hsound hc fuel r hr
    exact ⟨fun p hp => (h2 p hp).2,
      fun hn => swapTimeOK_of_charged _ _ h1 (fun p hp => (h2 p hp).2) hn⟩
  refine ⟨⟨hfcfs.2, fun hn => swapTimeOK_of_charged _ _ hfcfs.1 hfcfs.2 hn⟩,
    fun oob fuel r hr => hnp _ (Exact.SJF.sjf_select_sound oob) fuel r hr,
    fun fuel r hr => hnp _ Exact.PS.ps_select_sound fuel r hr,
    fun fuel r hr => ?_,
    fun s i j m => ⟨rfl, Exact.noSwap_total_swap_time (FCFS.swapOut_frame s j m).2.1,
      Exact.noSwap_total_swap_time (FCFS.makeRoom_frame s i m).2.1⟩,
    fun s i j m => ⟨rfl, Exact.noSwap_total_swap_time (NP.np_swapOut_frame s j m).2.2.1,
      Exact.noSwap_total_swap_time (NP.np_makeRoom_frame s i m).2.2.1⟩,
    fun s i j m => ⟨rfl, Exact.noSwap_total_swap_time (RR.rr_swapOut_frame s j m).2.2.1,
      Exact.noSwap_total_swap_time (RR.rr_makeRoom_frame s i m).2.2.1⟩,
    fun hmax oob h => ?_, fun hmax h => ?_, fun h hn hq => ?_⟩
  · obtain ⟨hd, -, -, -, hall⟩ :=
      RR.rr_final_discipline proc total_memory time_quantum htq hfresh hburst fuel r hr
    have hn : proc.length ≤ MAX_PROCESSES := by
      by_contra hgt
      unfold RR.calculate_rr at hr
      rw [if_neg hgt] at hr
      exact absurd hr (by simp)
    refine ⟨hall, swapTimeOK_of_charged _ _ hd.len hall ?_⟩
    have : (proc.length : Int) ≤ 10 := by
      have : proc.length ≤ 10 := hn
      exact_mod_cast this
    simp only [SWAP_TIME, INT_MAX]
    omega
  · obtain ⟨fuel, r, hr⟩ := Exact.SJF.sjf_terminates oob proc total_memory hfresh hburst hmax
    exact ⟨fuel, r, by rw [SJF.calculate_sjf_exact h]; exact hr⟩
  · obtain ⟨fuel, r, hr⟩ := Exact.PS.ps_terminates proc total_memory hfresh hburst hmax
    exact ⟨fuel, r, by rw [PS.calculate_priority_exact h]; exact hr⟩
  · obtain ⟨fuel, r, hr, -⟩ := RR.calculate_rr_returns h htq hfresh hburst hn hq
    exact ⟨fuel, r, hr⟩

/-- C29 at the demo workload with `total_memory = 6000` and `time_quantum = 3`: the FCFS run
makes four evictions (fourteen swap operations, ten of them swap-ins) and the reported Total Swap Time
is `10 * SWAP_TIME = 20`, as it is for the round-robin run, whose loop returns within thirty
iterations. -/
theorem C29_total_swap_time_witness :
    (FCFS.calculate_fcfs demoProcesses 6000).total_swap_operations = 14
      ∧ total_swap_time (FCFS.calculate_fcfs demoProcesses 6000).proc = 20
      ∧ ∃ r, RR.calculate_rr demoProcesses 6000 3 30 = some r ∧ total_swap_time r.proc = 20 := by
  have h := C29_total_swap_time demoProcesses 6000 3 (by decide) (by decide) (by decide)
  obtain ⟨r, hr⟩ := Option.isSome_iff_exists.mp demo_rr_isSome
  have h2 : (FCFS.calculate_fcfs demoProcesses 6000).total_swap_operations = 14 := by
    set_option maxRecDepth 100000 in decide
  exact ⟨h2, (h.1.2 (by decide)).2, r, hr, (h.2.2.2.1 30 r hr).2.2⟩

/-- C30, as stated, fails.  `calculate_fcfs` on three processes with burst times `10`,
`INT_MAX` and `5`: the clock wraps while the second process runs, and the third process is run
over `[4, 9)`, inside the interval `[2, 12)` of the first: the instant `4` lies in both
intervals, and neither process completes before the other starts. -/
theorem C30_overlap_overflow_counterexample :
    (∀ p ∈ wrappedClockExample, Fresh p ∧ IntFields p ∧ 0 ≤ p.arrival_time ∧ 0 < p.burst_time)
      ∧ (FCFS.calculate_fcfs wrappedClockExample 6000).proc.map (fun p => p.start_time)
          = [2, 14, 4]
      ∧ (FCFS.calculate_fcfs wrappedClockExample 6000).proc.map (fun p => p.completion_time)
          = [12, -2147483635, 9]
      ∧ ¬ SerialPair (procAt (FCFS.calculate_fcfs wrappedClockExample 6000).proc 0)
          (procAt (FCFS.calculate_fcfs wrappedClockExample 6000).proc 2)
      ∧ ((procAt (FCFS.calculate_fcfs wrappedClockExample 6000).proc 0).start_time ≤ 4
          ∧ 4 < (procAt (FCFS.calculate_fcfs wrappedClockExample 6000).proc 0).completion_time
          ∧ (procAt (FCFS.calculate_fcfs wrappedClockExample 6000).proc 2).start_time ≤ 4
          ∧ 4 < (procAt (FCFS.calculate_fcfs wrappedClockExample 6000).proc 2).completion_time)
      ∧ ¬ SerialRuns (FCFS.calculate_fcfs wrappedClockExample 6000).proc :=
  ⟨by decide, by decide, by decide, by decide, by decide,
    fun h => absurd (h 0 2 (by decide) (by decide) (by decide)).1 (by decide)⟩

/-- C30, amended.  In a run of the FCFS, SJF and Priority simulations that has no `int`
overflow, on a workload as `initialize_processes` leaves it with `burst_time > 0`: in the final
table any two distinct processes are such that one has
`completion_time + SWAP_TIME <= start_time` of the other, so that no instant lies in both
intervals `[start_time, completion_time)` (`SerialRuns`); in `calculate_sjf` and
`calculate_priority` the same holds at every iteration boundary among the completed processes,
and the loop returns when no burst time, respectively priority, equals `INT_MAX`. -/
theorem C30_one_cpu (proc : List Process) (total_memory : Int)
    (hfresh : ∀ p ∈ proc, Fresh p) (hburst : ∀ p ∈ proc, 0 < p.burst_time) :
    (FCFS.NoOverflow proc total_memory →
        SerialRuns (FCFS.calculate_fcfs proc total_memory).proc)
      ∧ (∀ oob, NP.NoOverflow (SJF.select oob) proc total_memory →
          (∀ s, NP.Reach (SJF.select oob) (NP.init proc total_memory) s → ∀ i j, i ≠ j →
              (procAt s.proc i).is_completed ≠ 0 → (procAt s.proc j).is_completed ≠ 0 →
              SerialPair (procAt s.proc i) (procAt s.proc j))
            ∧ (∀ fuel r, SJF.calculate_sjf oob proc total_memory fuel = some r →
                SerialRuns r.proc)
            ∧ ((∀ p ∈ proc, p.burst_time < INT_MAX) →
                ∃ fuel r, SJF.calculate_sjf oob proc total_memory fuel = some r))
      ∧ (NP.NoOverflow PS.select proc total_memory →
          (∀ s, NP.Reach PS.select (NP.init proc total_memory) s → ∀ i j, i ≠ j →
              (procAt s.proc i).is_completed ≠ 0 → (procAt s.proc j).is_completed ≠ 0 →
              SerialPair (procAt s.proc i) (procAt s.proc j))
            ∧ (∀ fuel r, PS.calculate_priority proc total_memory fuel = some r →
                SerialRuns r.proc)
            ∧ ((∀ p ∈ proc, p.priority < INT_MAX) →
                ∃ fuel r, PS.calculate_priority proc total_memory fuel = some r)) := by
  obtain ⟨x1, x2, x3, x4, x5⟩ := Exact.exact_C30_one_cpu proc total_memory hfresh hburst
  refine ⟨fun h => ?_, fun oob h => ⟨fun s hs => (x2 oob).1 s (NP.np_reach_exact h hs),
    fun fuel r hr => ?_, fun hmax => ?_⟩,
    fun h => ⟨fun s hs => x4.1 s (NP.np_reach_exact h hs), fun fuel r hr => ?_, fun hmax => ?_⟩⟩
  · rw [FCFS.calculate_fcfs_exact proc total_memory h]; exact x1
  · rw [SJF.calculate_sjf_exact h] at hr; exact (x2 oob).2 fuel r hr
  · obtain ⟨fuel, r, hr⟩ := x3 hmax oob
    exact ⟨fuel, r, by rw [SJF.calculate_sjf_exact h]; exact hr⟩
  · rw [PS.calculate_priority_exact h] at hr; exact x4.2 fuel r hr
  · obtain ⟨fuel, r, hr⟩ := x5 hmax
    exact ⟨fuel, r, by rw [PS.calculate_priority_exact h]; exact hr⟩

/-- C30 amended, at the demo workload with `total_memory = 6000`, whose runs have no overflow:
in the final FCFS table the first process runs over `[2, 7)` and the second starts at `9`; the
loop of `calculate_sjf` returns within twenty iterations with a serial table. -/
theorem C30_one_cpu_witness :
    (procAt (FCFS.calculate_fcfs demoProcesses 6000).proc 0).start_time = 2
      ∧ (procAt (FCFS.calculate_fcfs demoProcesses 6000).proc 0).completion_time = 7
      ∧ (procAt (FCFS.calculate_fcfs demoProcesses 6000).proc 1).start_time = 9
      ∧ SerialRuns (FCFS.calculate_fcfs demoProcesses 6000).proc
      ∧ ∃ r, SJF.calculate_sjf default demoProcesses 6000 20 = some r ∧ SerialRuns r.proc := by
  have h := C30_one_cpu demoProcesses 6000 (by decide) (by decide)
  obtain ⟨r, hr⟩ := Option.isSome_iff_exists.mp demo_sjf_isSome
  have h2 : (procAt (FCFS.calculate_fcfs demoProcesses 6000).proc 0).start_time = 2
      ∧ (procAt (FCFS.calculate_fcfs demoProcesses 6000).proc 0).completion_time = 7
      ∧ (procAt (FCFS.calculate_fcfs demoProcesses 6000).proc 1).start_time = 9 := by
    set_option maxRecDepth 100000 in decide
  exact ⟨h2.1, h2.2.1, h2.2.2, h.1 demo_fcfs_noOverflow, r, hr,
    (h.2.1 default demo_sjf_noOverflow).2.1 20 r hr⟩

/-- C31. In `calculate_rr`, on a workload as `initialize_processes` leaves it with
`burst_time > 0` and `time_quantum > 0`, with or without `int` overflow: when the loop returns,
each process `j` has been written to the queue `ceil(burst_time / time_quantum)` times and the
number of entries written (the final `rear`) is the sum of these numbers (`totalSlices`;
`ceilDiv` is the ceiling of the quotient).  Every iteration appends its writes to the queue,
for each process one entry per arrival insertion and one per preemption, and at every iteration
boundary `front <= rear` and `rear` is at most that sum: so when the sum is at most 100, every
queue position read or written during the run is below 100.  The loop returns when the run has
no overflow, `n <= MAX_PROCESSES` and the sum is at most the size of `queue[100]`; a run that
would write past `queue[100]` has no result, as that of one process with burst time 150 and
`time_quantum = 1`. -/
theorem C31_rr_queue_writes (proc : List Process) (total_memory time_quantum : Int)
    (hfresh : ∀ p ∈ proc, Fresh p) (hburst : ∀ p ∈ proc, 0 < p.burst_time)
    (htq : 0 < time_quantum) :
    (∀ fuel r, RR.calculate_rr proc total_memory time_quantum fuel = some r →
        (∀ j, j < proc.length →
            (r.queue.count j : Int) = ceilDiv (procAt proc j).burst_time time_quantum)
          ∧ (r.queue.length : Int) = RR.totalSlices proc time_quantum)
      ∧ (∀ p ∈ proc, ceilDiv p.burst_time time_quantum
          = ⌈(p.burst_time : ℚ) / (time_quantum : ℚ)⌉)
      ∧ (∀ s, RR.Reach time_quantum (RR.init proc total_memory) s →
          s.queue <+: (RR.step time_quantum s).queue
            ∧ (∀ j, (RR.step time_quantum s).queue.count j
                = s.queue.count j + RR.arrivalInsertions s (RR.step time_quantum s) j
                  + RR.preemptions time_quantum s j)
            ∧ s.front ≤ s.queue.length
            ∧ (s.queue.length : Int) ≤ RR.totalSlices proc time_quantum
            ∧ ((RR.step time_quantum s).queue.length : Int)
                ≤ RR.totalSlices proc time_quantum)
      ∧ (RR.totalSlices proc time_quantum ≤ 100 →
          ∀ s, RR.Reach time_quantum (RR.init proc total_memory) s →
            s.front ≤ s.queue.length ∧ s.queue.length ≤ 100
              ∧ (RR.step time_quantum s).queue.length ≤ 100)
      ∧ (RR.NoOverflow time_quantum proc total_memory → proc.length ≤ MAX_PROCESSES →
          RR.totalSlices proc time_quantum ≤ (QUEUE_SIZE : Int) →
          ∃ fuel r, RR.calculate_rr proc total_memory time_quantum fuel = some r)
      ∧ (RR.totalSlices queueOverrunExample 1 = 150
          ∧ ∀ fuel, RR.calculate_rr queueOverrunExample 6000 1 fuel = none) := by
  have hbound : ∀ s, RR.Reach time_quantum (RR.init proc total_memory) s →
      s.front ≤ s.queue.length
        ∧ (s.queue.length : Int) ≤ RR.totalSlices proc time_quantum
        ∧ ((RR.step time_quantum s).queue.length : Int)
            ≤ RR.totalSlices proc time_quantum := by
    intro s hs
    have hinv := RR.Discipline.disc_reach htq hfresh hburst hs
    have hw := fun j hj => RR.writes_reach htq hfresh hburst hs j hj
    exact ⟨hinv.front_le, hinv.rear_bound time_quantum htq hburst hw,
      (hinv.disc_step htq hburst).rear_bound time_quantum htq hburst
        (fun j hj => hinv.writes_step time_quantum htq hburst j hj (hw j hj))⟩
  refine ⟨fun fuel r h =>
      RR.final_rear proc total_memory time_quantum htq hfresh hburst fuel r h,
    fun p hp => Exact.ceilDiv_eq_ceil _ _ htq, fun s hs => ?_, fun hsum s hs => ?_,
    fun h hn hq => ?_, by decide, RR.queue_overrun_no_result⟩
  · have hinv := RR.Discipline.disc_reach htq hfresh hburst hs
    obtain ⟨b1, b2, b3⟩ := hbound s hs
    exact ⟨hinv.step_prefix time_quantum, fun j => (hinv.step_queue time_quantum j).1,
      b1, b2, b3⟩
  · obtain ⟨b1, b2, b3⟩ := hbound s hs
    refine ⟨b1, ?_, ?_⟩ <;> omega
  · obtain ⟨fuel, r, hr, -⟩ := RR.calculate_rr_returns h htq hfresh hburst hn hq
    exact ⟨fuel, r, hr⟩

/-- C31 at the demo workload with `time_quantum = 3` and `total_memory = 6000`: the sum of
`ceil(burst_time / 3)` is 16, the loop returns within thirty iterations with `rear = 16`, and
at every iteration boundary of the run `rear` is at most 100. -/
theorem C31_rr_queue_writes_witness :
    RR.totalSlices demoProcesses 3 = 16
      ∧ (∃ r, RR.calculate_rr demoProcesses 6000 3 30 = some r ∧ r.queue.length = 16)
      ∧ ∀ s, RR.Reach 3 (RR.init demoProcesses 6000) s →
          s.front ≤ s.queue.length ∧ s.queue.length ≤ 100
            ∧ (RR.step 3 s).queue.length ≤ 100 := by
  have h := C31_rr_queue_writes demoProcesses 6000 3 (by decide) (by decide) (by decide)
  have h0 : RR.totalSlices demoProcesses 3 = 16 := by decide
  obtain ⟨r, hr⟩ := Option.isSome_iff_exists.mp demo_rr_isSome
  have h2 := (h.1 30 r hr).2
  rw [h0] at h2
  have h3 : r.queue.length = 16 := by exact_mod_cast h2
  exact ⟨h0, ⟨r, hr, h3⟩, h.2.2.2.1 (by rw [h0]; decide)⟩

end Scheduling
